import Mathlib

/-!
Package `bgra`: a shallow embedding and its verification

The Go package stores pixels in B, G, R, A byte order (`bgra.go`) and composites
into such buffers (`draw.go`).  The embedding keeps Go's aliasing: all byte
slices are windows of one byte memory, so that a sub-image shares its pixels
with its parent and a buffer can be drawn onto itself.

Conventions of the embedding
* `int` values are integers (`Int`).  Where the code computes with coordinates that
  the caller chooses freely (`clip`, the overlap test of `drawBGRA`, the size in
  `New`) every result is reduced to the 64-bit range of `int` by `int64`; offsets
  into a slice are exact, an offset that is in range of its slice is far below
  2^63.
* `uint32` values are natural numbers, every operation that can leave the 32-bit
  range is followed by `u32` (reduction modulo `2^32`).
* `uint8` values are `Fin 256`; the conversion `uint8(v)` is `uint8 v = v % 256`.
* A run-time panic (index or slice bound out of range, `make` with a negative or
  too large length) and the exhaustion of the loop fuel are both the result `none`.
-/

namespace Go

/-- A Go `uint8`. -/
abbrev Byte := Fin 256

/-- The byte memory all slices point into. -/
abbrev Mem := Nat → Byte

/-- The Go conversion `uint8(v)` of an unsigned value. -/
def uint8 (v : Nat) : Byte := ⟨v % 256, Nat.mod_lt _ (by decide)⟩

/-- Reduction of an arithmetic result to the range of `int` on the 64-bit platforms:
two's complement wrap-around into `[-2^63, 2^63)`. -/
def int64 (v : Int) : Int :=
  (v + 9223372036854775808) % 18446744073709551616 - 9223372036854775808

/-- Reduction of an arithmetic result to the `uint32` range. -/
def u32 (v : Nat) : Nat := v % 2 ^ 32

/-- The `uint32` subtraction `a - b`. -/
def sub32 (a b : Nat) : Nat := (a + (2 ^ 32 - b % 2 ^ 32)) % 2 ^ 32

/-- A Go `[]uint8`: the window `[off, off+len)` of the memory, with capacity `cap`. -/
structure Slice where
  off : Nat
  len : Nat
  cap : Nat
deriving DecidableEq

/-- The nil slice. -/
def Slice.nil : Slice := ⟨0, 0, 0⟩

/-- The expression `s[i]` read; panics when `i` is out of range. -/
def Slice.index (s : Slice) (mem : Mem) (i : Int) : Option Byte :=
  if 0 ≤ i ∧ i < s.len then some (mem (s.off + i.toNat)) else none

/-- The assignment `s[i] = v`; panics when `i` is out of range. -/
def Slice.store (s : Slice) (mem : Mem) (i : Int) (v : Byte) : Option Mem :=
  if 0 ≤ i ∧ i < s.len then some (Function.update mem (s.off + i.toNat) v) else none

/-- The slice expression `s[i:]`; panics unless `0 ≤ i ≤ len(s)`. -/
def Slice.tail (s : Slice) (i : Int) : Option Slice :=
  if 0 ≤ i ∧ i ≤ s.len then some ⟨s.off + i.toNat, s.len - i.toNat, s.cap - i.toNat⟩ else none

/-- The slice expression `s[i:j]`; panics unless `0 ≤ i ≤ j ≤ cap(s)`. -/
def Slice.slice (s : Slice) (i j : Int) : Option Slice :=
  if 0 ≤ i ∧ i ≤ j ∧ j ≤ s.cap then some ⟨s.off + i.toNat, (j - i).toNat, s.cap - i.toNat⟩
  else none

/-- The built-in `copy(d, s)`: `min(len(d), len(s))` bytes, correct for overlapping slices
(every byte copied is the byte that was in `s` before the call). -/
def copy (mem : Mem) (d s : Slice) : Mem :=
  fun a => if d.off ≤ a ∧ a < d.off + min d.len s.len then mem (s.off + (a - d.off)) else mem a

/-- The memory together with the allocation frontier: everything at or above `brk` is free,
and `limit` is the number of bytes the allocator can still hand out. -/
structure Heap where
  mem : Mem
  brk : Nat
  limit : Nat

/-- The constant `maxAlloc` of the Go runtime on the 64-bit platforms, `1 << 48`: `make`
panics with `len out of range` above it. -/
def maxAlloc : Nat := 281474976710656

/-- The built-in `make([]uint8, n)`: a fresh zero-filled slice; it does not return when `n`
is negative, above `maxAlloc` or more than the allocator can hand out. -/
def make (h : Heap) (n : Int) : Option (Slice × Heap) :=
  if 0 ≤ n ∧ n ≤ min h.limit maxAlloc then
    some (⟨h.brk, n.toNat, n.toNat⟩,
      ⟨fun a => if h.brk ≤ a ∧ a < h.brk + n.toNat then 0 else h.mem a, h.brk + n.toNat,
        h.limit - n.toNat⟩)
  else none

/-- A Go `for cond { body }` loop over a state made of the memory and the loop variables.
The post statement of the `for` clause is the last step of `body`. -/
def loop {α : Type} (cond : Mem × α → Bool) (body : Mem × α → Option (Mem × α)) :
    Nat → Mem × α → Option (Mem × α)
  | 0, _ => none
  | fuel + 1, s => if cond s then (body s).bind (loop cond body fuel) else some s

end Go

open Go

/-! ## The standard library types the package uses: `image`, `image/color`, `image/draw` -/

namespace color

/-- The Go type `color.RGBA`: 8 bits per channel, alpha-premultiplied. -/
structure RGBA where
  R : Byte
  G : Byte
  B : Byte
  A : Byte
deriving DecidableEq

/-- The values of the interface `color.Color` by dynamic type: `color.RGBA`, `color.Alpha`,
and any other colour, given by the four values its `RGBA` method returns. -/
inductive Color where
  | rgba (c : color.RGBA)
  | alpha (a : Byte)
  | other (r g b a : Nat)
deriving DecidableEq

/-- The method `RGBA()` of a colour: `r |= r << 8` per channel for `color.RGBA`,
`a |= a << 8` for `color.Alpha`; the four results are `uint32` values. -/
def Color.RGBA : Color → Nat × Nat × Nat × Nat
  | .rgba c =>
    (u32 (c.R.val ||| u32 (c.R.val <<< 8)), u32 (c.G.val ||| u32 (c.G.val <<< 8)),
     u32 (c.B.val ||| u32 (c.B.val <<< 8)), u32 (c.A.val ||| u32 (c.A.val <<< 8)))
  | .alpha a =>
    let a := u32 (a.val ||| u32 (a.val <<< 8))
    (a, a, a, a)
  | .other r g b a => (u32 r, u32 g, u32 b, u32 a)

/-- The conversion `color.RGBAModel.Convert(c).(color.RGBA)`: a `color.RGBA` is returned as
it is, any other colour has each channel of `RGBA()` shifted right by 8. -/
def rgbaModel (c : Color) : color.RGBA :=
  match c with
  | .rgba c => c
  | c =>
    let (r, g, b, a) := c.RGBA
    ⟨uint8 (r >>> 8), uint8 (g >>> 8), uint8 (b >>> 8), uint8 (a >>> 8)⟩

end color

namespace image

/-- The Go type `image.Point`. -/
structure Point where
  X : Int
  Y : Int
deriving DecidableEq

/-- The Go type `image.Rectangle`. -/
structure Rectangle where
  Min : Point
  Max : Point
deriving DecidableEq

/-- The zero point `image.ZP`. -/
def ZP : Point := ⟨0, 0⟩

/-- The zero rectangle `image.ZR`. -/
def ZR : Rectangle := ⟨⟨0, 0⟩, ⟨0, 0⟩⟩

/-- The sum of two points, before the reduction of its coordinates to `int`. -/
def Point.Add (p q : Point) : Point := ⟨p.X + q.X, p.Y + q.Y⟩

/-- The difference of two points, before the reduction of its coordinates to `int`. -/
def Point.Sub (p q : Point) : Point := ⟨p.X - q.X, p.Y - q.Y⟩

/-- The reduction of the coordinates of a point to `int`: the method `Sub` of the code is
`(p.Sub q).wrap`. -/
def Point.wrap (p : Point) : Point := ⟨int64 p.X, int64 p.Y⟩

def Point.In (p : Point) (r : Rectangle) : Bool :=
  decide (r.Min.X ≤ p.X) && decide (p.X < r.Max.X) &&
    decide (r.Min.Y ≤ p.Y) && decide (p.Y < r.Max.Y)

def Rectangle.Dx (r : Rectangle) : Int := r.Max.X - r.Min.X

def Rectangle.Dy (r : Rectangle) : Int := r.Max.Y - r.Min.Y

def Rectangle.Empty (r : Rectangle) : Bool :=
  decide (r.Min.X ≥ r.Max.X) || decide (r.Min.Y ≥ r.Max.Y)

/-- The translate of a rectangle, before the reduction of its coordinates to `int`. -/
def Rectangle.Add (r : Rectangle) (p : Point) : Rectangle :=
  ⟨⟨r.Min.X + p.X, r.Min.Y + p.Y⟩, ⟨r.Max.X + p.X, r.Max.Y + p.Y⟩⟩

/-- The reduction of the coordinates of a rectangle to `int`: the method `Add` of the code
is `(r.Add p).wrap`. -/
def Rectangle.wrap (r : Rectangle) : Rectangle := ⟨r.Min.wrap, r.Max.wrap⟩

/-- The method `Intersect`: the largest rectangle inside both, `ZR` when that is empty. -/
def Rectangle.Intersect (r s : Rectangle) : Rectangle :=
  let r : Rectangle := if r.Min.X < s.Min.X then ⟨⟨s.Min.X, r.Min.Y⟩, r.Max⟩ else r
  let r : Rectangle := if r.Min.Y < s.Min.Y then ⟨⟨r.Min.X, s.Min.Y⟩, r.Max⟩ else r
  let r : Rectangle := if r.Max.X > s.Max.X then ⟨r.Min, ⟨s.Max.X, r.Max.Y⟩⟩ else r
  let r : Rectangle := if r.Max.Y > s.Max.Y then ⟨r.Min, ⟨r.Max.X, s.Max.Y⟩⟩ else r
  if r.Empty then ZR else r

def Rectangle.Overlaps (r s : Rectangle) : Bool :=
  !r.Empty && !s.Empty &&
    decide (r.Min.X < s.Max.X) && decide (s.Min.X < r.Max.X) &&
    decide (r.Min.Y < s.Max.Y) && decide (s.Min.Y < r.Max.Y)

/-- The Go type `image.Uniform`: an infinite image of one colour. -/
structure Uniform where
  C : color.Color
deriving DecidableEq

def Uniform.RGBA (c : Uniform) : Nat × Nat × Nat × Nat := c.C.RGBA

def Uniform.Bounds (_ : Uniform) : Rectangle :=
  ⟨⟨-1000000000, -1000000000⟩, ⟨1000000000, 1000000000⟩⟩

def Uniform.At (c : Uniform) (_ _ : Int) : color.Color := c.C

/-- The Go type `image.RGBA`: pixels in R, G, B, A order. -/
structure RGBA where
  Pix : Slice
  Stride : Int
  Rect : Rectangle
deriving DecidableEq

def RGBA.PixOffset (p : RGBA) (x y : Int) : Int :=
  (y - p.Rect.Min.Y) * p.Stride + (x - p.Rect.Min.X) * 4

def RGBA.At (mem : Mem) (p : RGBA) (x y : Int) : Option color.Color :=
  if !(Point.In ⟨x, y⟩ p.Rect) then some (.rgba ⟨0, 0, 0, 0⟩)
  else
    let i := p.PixOffset x y
    (p.Pix.index mem (i + 0)).bind fun r =>
    (p.Pix.index mem (i + 1)).bind fun g =>
    (p.Pix.index mem (i + 2)).bind fun b =>
    (p.Pix.index mem (i + 3)).bind fun a =>
    some (.rgba ⟨r, g, b, a⟩)

/-- The Go type `image.Alpha`: one alpha byte per pixel. -/
structure Alpha where
  Pix : Slice
  Stride : Int
  Rect : Rectangle
deriving DecidableEq

def Alpha.PixOffset (p : Alpha) (x y : Int) : Int :=
  (y - p.Rect.Min.Y) * p.Stride + (x - p.Rect.Min.X) * 1

def Alpha.At (mem : Mem) (p : Alpha) (x y : Int) : Option color.Color :=
  if !(Point.In ⟨x, y⟩ p.Rect) then some (.alpha 0)
  else
    let i := p.PixOffset x y
    (p.Pix.index mem i).bind fun a => some (.alpha a)

end image

namespace draw

/-- The Go type `draw.Op`. -/
inductive Op where
  | Over
  | Src
deriving DecidableEq

end draw

open image

namespace bgra

/-! ## bgra.go -/

/-- The Go type `BGRA`: pixels in B, G, R, A order. -/
structure BGRA where
  Pix : Slice
  Stride : Int
  Rect : Rectangle
deriving DecidableEq

def BGRA.Bounds (p : BGRA) : Rectangle := p.Rect

def BGRA.PixOffset (p : BGRA) (x y : Int) : Int :=
  (y - p.Rect.Min.Y) * p.Stride + (x - p.Rect.Min.X) * 4

def BGRA.At (mem : Mem) (p : BGRA) (x y : Int) : Option color.Color :=
  if !(Point.In ⟨x, y⟩ p.Rect) then some (.rgba ⟨0, 0, 0, 0⟩)
  else
    let i := p.PixOffset x y
    (p.Pix.index mem (i + 0)).bind fun b =>
    (p.Pix.index mem (i + 1)).bind fun g =>
    (p.Pix.index mem (i + 2)).bind fun r =>
    (p.Pix.index mem (i + 3)).bind fun a =>
    some (.rgba { B := b, G := g, R := r, A := a })

def BGRA.Set (mem : Mem) (p : BGRA) (x y : Int) (c : color.Color) : Option Mem :=
  if !(Point.In ⟨x, y⟩ p.Rect) then some mem
  else
    let i := p.PixOffset x y
    let c1 := color.rgbaModel c
    (p.Pix.store mem (i + 0) c1.B).bind fun mem =>
    (p.Pix.store mem (i + 1) c1.G).bind fun mem =>
    (p.Pix.store mem (i + 2) c1.R).bind fun mem =>
    p.Pix.store mem (i + 3) c1.A

def BGRA.SetBGRA (mem : Mem) (p : BGRA) (x y : Int) (c : color.RGBA) : Option Mem :=
  if !(Point.In ⟨x, y⟩ p.Rect) then some mem
  else
    let i := p.PixOffset x y
    (p.Pix.store mem (i + 0) c.B).bind fun mem =>
    (p.Pix.store mem (i + 1) c.G).bind fun mem =>
    (p.Pix.store mem (i + 2) c.R).bind fun mem =>
    p.Pix.store mem (i + 3) c.A

/-- The method `SubImage`: the result shares the pixels of `p`. -/
def BGRA.SubImage (p : BGRA) (r : Rectangle) : Option BGRA :=
  let r := r.Intersect p.Rect
  if r.Empty then some ⟨Slice.nil, 0, ZR⟩
  else
    let i := p.PixOffset r.Min.X r.Min.Y
    (p.Pix.tail i).bind fun pix => some ⟨pix, p.Stride, r⟩

/-- The inner loop of `Opaque`; `some false` is the `return false` of its body, `some true`
the normal end of the loop. -/
def BGRA.Opaque.row (mem : Mem) (p : BGRA) (i1 : Int) : Nat → Int → Option Bool
  | 0, _ => none
  | fuel + 1, i =>
    if i < i1 then
      (p.Pix.index mem i).bind fun b =>
      if b != 0xff then some false else BGRA.Opaque.row mem p i1 fuel (i + 4)
    else some true

/-- The outer loop of `Opaque` over `y`, with the loop variables `i0`, `i1`. -/
def BGRA.Opaque.rows (mem : Mem) (p : BGRA) (fuel : Nat) : Nat → Int → Int → Int → Option Bool
  | 0, _, _, _ => none
  | n + 1, y, i0, i1 =>
    if y < p.Rect.Max.Y then
      (BGRA.Opaque.row mem p i1 fuel i0).bind fun ok =>
      if ok then BGRA.Opaque.rows mem p fuel n (y + 1) (i0 + p.Stride) (i1 + p.Stride)
      else some false
    else some true

def BGRA.Opaque (fuel : Nat) (mem : Mem) (p : BGRA) : Option Bool :=
  if p.Rect.Empty then some true
  else BGRA.Opaque.rows mem p fuel fuel p.Rect.Min.Y 3 (p.Rect.Dx * 4)

/-- The function `New`; `w`, `h`, `4*w*h` and `4*w` are `int` values, each product reduced
as it is computed. -/
def New (h : Heap) (r : Rectangle) : Option (BGRA × Heap) :=
  let w := int64 r.Dx
  let hh := int64 r.Dy
  (make h (int64 (int64 (4 * w) * hh))).bind fun (buf, h) => some (⟨buf, int64 (4 * w), r⟩, h)

/-! ## draw.go -/

/-- The constant `m = 1<<16 - 1`. -/
def m : Nat := 65535

/-- The values of the interfaces `image.Image` and `draw.Image` by dynamic type; `Other` is
any image type the package does not recognise, given by its `Bounds` and `At`. -/
inductive Image where
  | Uniform (c : image.Uniform)
  | RGBA (p : image.RGBA)
  | Alpha (p : image.Alpha)
  | BGRA (p : BGRA)
  | Other (bounds : Rectangle) (colorAt : Int → Int → color.Color)

def Image.Bounds : Image → Rectangle
  | .Uniform c => c.Bounds
  | .RGBA p => p.Rect
  | .Alpha p => p.Rect
  | .BGRA p => p.Rect
  | .Other b _ => b

def Image.At (mem : Mem) : Image → Int → Int → Option color.Color
  | .Uniform c, x, y => some (c.At x y)
  | .RGBA p, x, y => p.At mem x y
  | .Alpha p, x, y => p.At mem x y
  | .BGRA p, x, y => p.At mem x y
  | .Other _ f, x, y => some (f x y)

/-- The `src` argument of a call: the very pointer passed as `dst`, or another image (which
may still share memory with the destination). Go compares the two interface values in
`drawBGRA`; the comparison is true exactly for `same`. -/
inductive Source where
  | same
  | image (i : Image)

def Source.get (dst : Image) : Source → Image
  | .same => dst
  | .image i => i

/-- The result of `DrawMask`: the memory after one of the loops of this package (or after the
early return), the hand-over to `draw.DrawMask` of the standard library, or a failed run. -/
inductive Outcome where
  | done (mem : Mem)
  | library
  | failed

def Outcome.run : Option Mem → Outcome
  | some mem => .done mem
  | none => .failed

/-- The function `clip`, which returns the new values of `*r`, `*sp` and `*mp`. `Intersect`
only compares; the methods `Sub` and `Add`, the differences `dx`, `dy` and the sums
`sp.X += dx`, ... are `int` arithmetic and wrap around. -/
def clip (dst : Image) (r : Rectangle) (src : Image) (sp : Point) (mask : Option Image)
    (mp : Point) : Rectangle × Point × Point :=
  let orig := r.Min
  let r := r.Intersect dst.Bounds
  let r := r.Intersect (src.Bounds.Add (orig.Sub sp).wrap).wrap
  let r := match mask with
    | some mask => r.Intersect (mask.Bounds.Add (orig.Sub mp).wrap).wrap
    | none => r
  let dx := int64 (r.Min.X - orig.X)
  let dy := int64 (r.Min.Y - orig.Y)
  if dx == 0 && dy == 0 then (r, sp, mp)
  else (r, ⟨int64 (sp.X + dx), int64 (sp.Y + dy)⟩, ⟨int64 (mp.X + dx), int64 (mp.Y + dy)⟩)

/-- The eight statements common to the pixel loops of `drawFillOver`, `drawRGBAOver` and
`drawCopyOver`: `dr := uint32(dpix[i+2])`, `dg`, `db`, `da` likewise, then
`dpix[i+2] = uint8((dr*a/m + sr) >> 8)` and the same for `i+1`, `i+0`, `i+3`. -/
def blendOver (dpix : Slice) (mem : Mem) (i : Int) (sr sg sb sa a : Nat) : Option Mem :=
  (dpix.index mem (i + 2)).bind fun dr =>
  (dpix.index mem (i + 1)).bind fun dg =>
  (dpix.index mem (i + 0)).bind fun db =>
  (dpix.index mem (i + 3)).bind fun da =>
  (dpix.store mem (i + 2) (uint8 (u32 (u32 (dr.val * a) / m + sr) >>> 8))).bind fun mem =>
  (dpix.store mem (i + 1) (uint8 (u32 (u32 (dg.val * a) / m + sg) >>> 8))).bind fun mem =>
  (dpix.store mem (i + 0) (uint8 (u32 (u32 (db.val * a) / m + sb) >>> 8))).bind fun mem =>
  dpix.store mem (i + 3) (uint8 (u32 (u32 (da.val * a) / m + sa) >>> 8))

/-- The statements common to the pixel loops of `drawGlyphOver` and `drawBGRA` (op Over):
the four reads of the destination, `a := (m - (sa * ma / m)) * 0x101`, then
`dst.Pix[i+2] = uint8((dr*a + sr*ma) / m >> 8)` and the same for `i+1`, `i+0`, `i+3`. -/
def blendMaskOver (pix : Slice) (mem : Mem) (i : Int) (sr sg sb sa ma : Nat) : Option Mem :=
  (pix.index mem (i + 2)).bind fun dr =>
  (pix.index mem (i + 1)).bind fun dg =>
  (pix.index mem (i + 0)).bind fun db =>
  (pix.index mem (i + 3)).bind fun da =>
  let a := u32 (sub32 m (u32 (sa * ma) / m) * 0x101)
  (pix.store mem (i + 2) (uint8 ((u32 (u32 (dr.val * a) + u32 (sr * ma)) / m) >>> 8))).bind
    fun mem =>
  (pix.store mem (i + 1) (uint8 ((u32 (u32 (dg.val * a) + u32 (sg * ma)) / m) >>> 8))).bind
    fun mem =>
  (pix.store mem (i + 0) (uint8 ((u32 (u32 (db.val * a) + u32 (sb * ma)) / m) >>> 8))).bind
    fun mem =>
  pix.store mem (i + 3) (uint8 ((u32 (u32 (da.val * a) + u32 (sa * ma)) / m) >>> 8))

/-- The inner loop of `drawFillOver`: `for i := i0; i < i1; i += 4`. -/
def drawFillOver.row (fuel : Nat) (dst : BGRA) (sr sg sb sa a : Nat) (mem : Mem) (i0 i1 : Int) :
    Option (Mem × Int) :=
  loop (fun ((_, i) : Mem × Int) => decide (i < i1))
    (fun (mem, i) => (blendOver dst.Pix mem i sr sg sb sa a).bind fun mem => some (mem, i + 4))
    fuel (mem, i0)

def drawFillOver (fuel : Nat) (mem : Mem) (dst : BGRA) (r : Rectangle) (src : Uniform) :
    Option Mem :=
  let (sr, sg, sb, sa) := src.RGBA
  let a := u32 (sub32 m sa * 0x101)
  let i0 := dst.PixOffset r.Min.X r.Min.Y
  let i1 := i0 + r.Dx * 4
  (loop (fun ((_, y, _, _) : Mem × Int × Int × Int) => y != r.Max.Y)
    (fun (mem, y, i0, i1) =>
      (drawFillOver.row fuel dst sr sg sb sa a mem i0 i1).bind fun (mem, _) =>
      some (mem, y + 1, i0 + dst.Stride, i1 + dst.Stride))
    fuel (mem, r.Min.Y, i0, i1)).map Prod.fst

/-- The body of the first loop of `drawFillSrc`. -/
def drawFillSrc.pixel (dst : BGRA) (sr sg sb sa : Nat) (mem : Mem) (i : Int) : Option Mem :=
  (dst.Pix.store mem (i + 2) (uint8 (sr >>> 8))).bind fun mem =>
  (dst.Pix.store mem (i + 1) (uint8 (sg >>> 8))).bind fun mem =>
  (dst.Pix.store mem (i + 0) (uint8 (sb >>> 8))).bind fun mem =>
  dst.Pix.store mem (i + 3) (uint8 (sa >>> 8))

/-- The first loop of `drawFillSrc`, which fills the first row: `for i := i0; i < i1; i += 4`. -/
def drawFillSrc.first (fuel : Nat) (dst : BGRA) (sr sg sb sa : Nat) (mem : Mem) (i0 i1 : Int) :
    Option (Mem × Int) :=
  loop (fun ((_, i) : Mem × Int) => decide (i < i1))
    (fun (mem, i) => (drawFillSrc.pixel dst sr sg sb sa mem i).bind fun mem => some (mem, i + 4))
    fuel (mem, i0)

def drawFillSrc (fuel : Nat) (mem : Mem) (dst : BGRA) (r : Rectangle) (src : Uniform) :
    Option Mem :=
  let (sr, sg, sb, sa) := src.RGBA
  let i0 := dst.PixOffset r.Min.X r.Min.Y
  let i1 := i0 + r.Dx * 4
  (drawFillSrc.first fuel dst sr sg sb sa mem i0 i1).bind fun (mem, _) =>
  (dst.Pix.slice i0 i1).bind fun firstRow =>
  (loop (fun ((_, y, _, _) : Mem × Int × Int × Int) => decide (y < r.Max.Y))
    (fun (mem, y, i0, i1) =>
      let i0 := i0 + dst.Stride
      let i1 := i1 + dst.Stride
      (dst.Pix.slice i0 i1).bind fun d =>
      some (copy mem d firstRow, y + 1, i0, i1))
    fuel (mem, r.Min.Y + 1, i0, i1)).map Prod.fst

/-- The body of the inner loop of `drawRGBAOver`. -/
def drawRGBAOver.pixel (dpix spix : Slice) (mem : Mem) (i : Int) : Option Mem :=
  (spix.index mem (i + 0)).bind fun sr =>
  (spix.index mem (i + 1)).bind fun sg =>
  (spix.index mem (i + 2)).bind fun sb =>
  (spix.index mem (i + 3)).bind fun sa =>
  let sr := u32 (sr.val * 0x101)
  let sg := u32 (sg.val * 0x101)
  let sb := u32 (sb.val * 0x101)
  let sa := u32 (sa.val * 0x101)
  let a := u32 (sub32 m sa * 0x101)
  blendOver dpix mem i sr sg sb sa a

/-- The inner loop of `drawRGBAOver`: `for i := i0; i != i1; i += idelta`. -/
def drawRGBAOver.row (fuel : Nat) (dpix spix : Slice) (mem : Mem) (i0 i1 idelta : Int) :
    Option (Mem × Int) :=
  loop (fun ((_, i) : Mem × Int) => i != i1)
    (fun (mem, i) => (drawRGBAOver.pixel dpix spix mem i).bind fun mem => some (mem, i + idelta))
    fuel (mem, i0)

def drawRGBAOver (fuel : Nat) (mem : Mem) (dst : BGRA) (r : Rectangle) (src : image.RGBA)
    (sp : Point) : Option Mem :=
  let dx := r.Dx
  let dy := r.Dy
  let d0 := dst.PixOffset r.Min.X r.Min.Y
  let s0 := src.PixOffset sp.X sp.Y
  let (d0, s0, ddelta, sdelta, i0, i1, idelta) :=
    if r.Min.Y < sp.Y ∨ r.Min.Y = sp.Y ∧ r.Min.X ≤ sp.X then
      (d0, s0, dst.Stride, src.Stride, (0 : Int), dx * 4, (4 : Int))
    else
      (d0 + (dy - 1) * dst.Stride, s0 + (dy - 1) * src.Stride, -dst.Stride, -src.Stride,
        (dx - 1) * 4, (-4 : Int), (-4 : Int))
  (loop (fun ((_, dy, _, _) : Mem × Int × Int × Int) => decide (dy > 0))
    (fun (mem, dy, d0, s0) =>
      (dst.Pix.tail d0).bind fun dpix =>
      (src.Pix.tail s0).bind fun spix =>
      (drawRGBAOver.row fuel dpix spix mem i0 i1 idelta).bind fun (mem, _) =>
      some (mem, dy - 1, d0 + ddelta, s0 + sdelta))
    fuel (mem, dy, d0, s0)).map Prod.fst

/-- The body of the inner loop of `drawRGBASrc` (and of `drawRGBADst`): four assignments
`dpix[i+k] = spix[si+k']`, each a read followed by a write. -/
def drawRGBASrc.pixel (dpix spix : Slice) (mem : Mem) (i si : Int) : Option Mem :=
  (spix.index mem (si + 2)).bind fun v =>
  (dpix.store mem (i + 0) v).bind fun mem =>
  (spix.index mem (si + 1)).bind fun v =>
  (dpix.store mem (i + 1) v).bind fun mem =>
  (spix.index mem (si + 0)).bind fun v =>
  (dpix.store mem (i + 2) v).bind fun mem =>
  (spix.index mem (si + 3)).bind fun v =>
  dpix.store mem (i + 3) v

/-- The inner loop of `drawRGBASrc` (and of `drawRGBADst`, which has the same one):
`for i, si := i0, si0; i < i1; i, si = i+4, si+4`. -/
def drawRGBASrc.row (fuel : Nat) (dpix spix : Slice) (mem : Mem) (i0 si0 i1 : Int) :
    Option (Mem × Int × Int) :=
  loop (fun ((_, i, _) : Mem × Int × Int) => decide (i < i1))
    (fun (mem, i, si) =>
      (drawRGBASrc.pixel dpix spix mem i si).bind fun mem => some (mem, i + 4, si + 4))
    fuel (mem, i0, si0)

def drawRGBASrc (fuel : Nat) (mem : Mem) (dst : BGRA) (r : Rectangle) (src : image.RGBA)
    (sp : Point) : Option Mem :=
  let i0 := (r.Min.X - dst.Rect.Min.X) * 4
  let i1 := (r.Max.X - dst.Rect.Min.X) * 4
  let si0 := (sp.X - src.Rect.Min.X) * 4
  let yMax := r.Max.Y - dst.Rect.Min.Y
  let y := r.Min.Y - dst.Rect.Min.Y
  let sy := sp.Y - src.Rect.Min.Y
  (loop (fun ((_, y, _) : Mem × Int × Int) => y != yMax)
    (fun (mem, y, sy) =>
      (dst.Pix.tail (y * dst.Stride)).bind fun dpix =>
      (src.Pix.tail (sy * src.Stride)).bind fun spix =>
      (drawRGBASrc.row fuel dpix spix mem i0 si0 i1).bind fun (mem, _, _) =>
      some (mem, y + 1, sy + 1))
    fuel (mem, y, sy)).map Prod.fst

/-- The body of the inner loop of `drawCopyOver`. -/
def drawCopyOver.pixel (dpix spix : Slice) (mem : Mem) (i : Int) : Option Mem :=
  (spix.index mem (i + 2)).bind fun sr =>
  (spix.index mem (i + 1)).bind fun sg =>
  (spix.index mem (i + 0)).bind fun sb =>
  (spix.index mem (i + 3)).bind fun sa =>
  let sr := u32 (sr.val * 0x101)
  let sg := u32 (sg.val * 0x101)
  let sb := u32 (sb.val * 0x101)
  let sa := u32 (sa.val * 0x101)
  let a := u32 (sub32 m sa * 0x101)
  blendOver dpix mem i sr sg sb sa a

/-- The inner loop of `drawCopyOver`: `for i := i0; i != i1; i += idelta`. -/
def drawCopyOver.row (fuel : Nat) (dpix spix : Slice) (mem : Mem) (i0 i1 idelta : Int) :
    Option (Mem × Int) :=
  loop (fun ((_, i) : Mem × Int) => i != i1)
    (fun (mem, i) => (drawCopyOver.pixel dpix spix mem i).bind fun mem => some (mem, i + idelta))
    fuel (mem, i0)

def drawCopyOver (fuel : Nat) (mem : Mem) (dst : BGRA) (r : Rectangle) (src : BGRA)
    (sp : Point) : Option Mem :=
  let dx := r.Dx
  let dy := r.Dy
  let d0 := dst.PixOffset r.Min.X r.Min.Y
  let s0 := src.PixOffset sp.X sp.Y
  let (d0, s0, ddelta, sdelta, i0, i1, idelta) :=
    if r.Min.Y < sp.Y ∨ r.Min.Y = sp.Y ∧ r.Min.X ≤ sp.X then
      (d0, s0, dst.Stride, src.Stride, (0 : Int), dx * 4, (4 : Int))
    else
      (d0 + (dy - 1) * dst.Stride, s0 + (dy - 1) * src.Stride, -dst.Stride, -src.Stride,
        (dx - 1) * 4, (-4 : Int), (-4 : Int))
  (loop (fun ((_, dy, _, _) : Mem × Int × Int × Int) => decide (dy > 0))
    (fun (mem, dy, d0, s0) =>
      (dst.Pix.tail d0).bind fun dpix =>
      (src.Pix.tail s0).bind fun spix =>
      (drawCopyOver.row fuel dpix spix mem i0 i1 idelta).bind fun (mem, _) =>
      some (mem, dy - 1, d0 + ddelta, s0 + sdelta))
    fuel (mem, dy, d0, s0)).map Prod.fst

def drawCopySrc (fuel : Nat) (mem : Mem) (dst : BGRA) (r : Rectangle) (src : BGRA)
    (sp : Point) : Option Mem :=
  let n := 4 * r.Dx
  let dy := r.Dy
  let d0 := dst.PixOffset r.Min.X r.Min.Y
  let s0 := src.PixOffset sp.X sp.Y
  let (d0, s0, ddelta, sdelta) :=
    if r.Min.Y ≤ sp.Y then (d0, s0, dst.Stride, src.Stride)
    else (d0 + (dy - 1) * dst.Stride, s0 + (dy - 1) * src.Stride, -dst.Stride, -src.Stride)
  (loop (fun ((_, dy, _, _) : Mem × Int × Int × Int) => decide (dy > 0))
    (fun (mem, dy, d0, s0) =>
      (dst.Pix.slice d0 (d0 + n)).bind fun d =>
      (src.Pix.slice s0 (s0 + n)).bind fun s =>
      some (copy mem d s, dy - 1, d0 + ddelta, s0 + sdelta))
    fuel (mem, dy, d0, s0)).map Prod.fst

/-- The body of the inner loop of `drawGlyphOver`; its `continue` leaves the memory as it is. -/
def drawGlyphOver.pixel (dst : BGRA) (mask : image.Alpha) (sr sg sb sa : Nat) (mem : Mem)
    (i mi : Int) : Option Mem :=
  (mask.Pix.index mem mi).bind fun ma =>
  let ma := ma.val
  if ma == 0 then some mem
  else
    let ma := u32 (ma ||| u32 (ma <<< 8))
    blendMaskOver dst.Pix mem i sr sg sb sa ma

/-- The inner loop of `drawGlyphOver`: `for i, mi := i0, mi0; i < i1; i, mi = i+4, mi+1`. -/
def drawGlyphOver.row (fuel : Nat) (dst : BGRA) (mask : image.Alpha) (sr sg sb sa : Nat)
    (mem : Mem) (i0 mi0 i1 : Int) : Option (Mem × Int × Int) :=
  loop (fun ((_, i, _) : Mem × Int × Int) => decide (i < i1))
    (fun (mem, i, mi) =>
      (drawGlyphOver.pixel dst mask sr sg sb sa mem i mi).bind fun mem =>
      some (mem, i + 4, mi + 1))
    fuel (mem, i0, mi0)

def drawGlyphOver (fuel : Nat) (mem : Mem) (dst : BGRA) (r : Rectangle) (src : Uniform)
    (mask : image.Alpha) (mp : Point) : Option Mem :=
  let i0 := dst.PixOffset r.Min.X r.Min.Y
  let i1 := i0 + r.Dx * 4
  let mi0 := mask.PixOffset mp.X mp.Y
  let (sr, sg, sb, sa) := src.RGBA
  (loop (fun ((_, y, _, _, _, _) : Mem × Int × Int × Int × Int × Int) => y != r.Max.Y)
    (fun (mem, y, my, i0, i1, mi0) =>
      (drawGlyphOver.row fuel dst mask sr sg sb sa mem i0 mi0 i1).bind fun (mem, _, _) =>
      some (mem, y + 1, my + 1, i0 + dst.Stride, i1 + dst.Stride, mi0 + mask.Stride))
    fuel (mem, r.Min.Y, mp.Y, i0, i1, mi0)).map Prod.fst

/-- The first statements of the body of the inner loop of `drawBGRA`:
`ma := uint32(m); if mask != nil { _, _, _, ma = mask.At(mx, my).RGBA() }`. -/
def drawBGRA.maskAlpha (mask : Option Image) (mem : Mem) (mx my : Int) : Option Nat :=
  match mask with
  | some mask => (mask.At mem mx my).bind fun c => some c.RGBA.2.2.2
  | none => some m

/-- The body of the inner loop of `drawBGRA`. -/
def drawBGRA.pixel (dst : BGRA) (src : Image) (mask : Option Image) (op : draw.Op)
    (mem : Mem) (sy my i sx mx : Int) : Option Mem :=
  (drawBGRA.maskAlpha mask mem mx my).bind fun ma =>
  (src.At mem sx sy).bind fun c =>
  let (sr, sg, sb, sa) := c.RGBA
  if op = draw.Op.Over then blendMaskOver dst.Pix mem i sr sg sb sa ma
  else
    (dst.Pix.store mem (i + 2) (uint8 ((u32 (sr * ma) / m) >>> 8))).bind fun mem =>
    (dst.Pix.store mem (i + 1) (uint8 ((u32 (sg * ma) / m) >>> 8))).bind fun mem =>
    (dst.Pix.store mem (i + 0) (uint8 ((u32 (sb * ma) / m) >>> 8))).bind fun mem =>
    dst.Pix.store mem (i + 3) (uint8 ((u32 (sa * ma) / m) >>> 8))

/-- The inner loop of `drawBGRA`:
`for i, sx, mx := i0, sx0, mx0; sx != sx1; i, sx, mx = i+di, sx+dx, mx+dx`. -/
def drawBGRA.row (fuel : Nat) (dst : BGRA) (src : Image) (mask : Option Image) (op : draw.Op)
    (mem : Mem) (sy my i0 sx0 mx0 sx1 di dx : Int) : Option (Mem × Int × Int × Int) :=
  loop (fun ((_, _, sx, _) : Mem × Int × Int × Int) => sx != sx1)
    (fun (mem, i, sx, mx) =>
      (drawBGRA.pixel dst src mask op mem sy my i sx mx).bind fun mem =>
      some (mem, i + di, sx + dx, mx + dx))
    fuel (mem, i0, sx0, mx0)

def drawBGRA (fuel : Nat) (mem : Mem) (dst : BGRA) (r : Rectangle) (src : Source) (sp : Point)
    (mask : Option Image) (mp : Point) (op : draw.Op) : Option Mem :=
  let (x0, x1, dx, y0, y1, dy) :=
    if (match src with | .same => true | .image _ => false) &&
        r.Overlaps (r.Add (sp.Sub r.Min).wrap).wrap &&
        (decide (sp.Y < r.Min.Y) || decide (sp.Y = r.Min.Y) && decide (sp.X < r.Min.X)) then
      (r.Max.X - 1, r.Min.X - 1, (-1 : Int), r.Max.Y - 1, r.Min.Y - 1, (-1 : Int))
    else (r.Min.X, r.Max.X, (1 : Int), r.Min.Y, r.Max.Y, (1 : Int))
  let sy := sp.Y + y0 - r.Min.Y
  let my := mp.Y + y0 - r.Min.Y
  let sx0 := sp.X + x0 - r.Min.X
  let mx0 := mp.X + x0 - r.Min.X
  let sx1 := sx0 + (x1 - x0)
  let i0 := dst.PixOffset x0 y0
  let di := dx * 4
  (loop (fun ((_, y, _, _, _) : Mem × Int × Int × Int × Int) => y != y1)
    (fun (mem, y, sy, my, i0) =>
      (drawBGRA.row fuel dst (src.get (.BGRA dst)) mask op mem sy my i0 sx0 mx0 sx1 di dx).bind
        fun (mem, _, _, _) =>
      some (mem, y + dy, sy + dy, my + dy, i0 + dy * dst.Stride))
    fuel (mem, y0, sy, my, i0)).map Prod.fst

/-- The body of the inner loop of `drawRGBADstOver`. -/
def drawRGBADstOver.pixel (dpix spix : Slice) (mem : Mem) (i : Int) : Option Mem :=
  (spix.index mem (i + 2)).bind fun sr =>
  (spix.index mem (i + 1)).bind fun sg =>
  (spix.index mem (i + 0)).bind fun sb =>
  (spix.index mem (i + 3)).bind fun sa =>
  let sr := u32 (sr.val * 0x101)
  let sg := u32 (sg.val * 0x101)
  let sb := u32 (sb.val * 0x101)
  let sa := u32 (sa.val * 0x101)
  (dpix.index mem (i + 0)).bind fun dr =>
  (dpix.index mem (i + 1)).bind fun dg =>
  (dpix.index mem (i + 2)).bind fun db =>
  (dpix.index mem (i + 3)).bind fun da =>
  let a := u32 (sub32 m sa * 0x101)
  (dpix.store mem (i + 0) (uint8 (u32 (u32 (dr.val * a) / m + sr) >>> 8))).bind fun mem =>
  (dpix.store mem (i + 1) (uint8 (u32 (u32 (dg.val * a) / m + sg) >>> 8))).bind fun mem =>
  (dpix.store mem (i + 2) (uint8 (u32 (u32 (db.val * a) / m + sb) >>> 8))).bind fun mem =>
  dpix.store mem (i + 3) (uint8 (u32 (u32 (da.val * a) / m + sa) >>> 8))

/-- The inner loop of `drawRGBADstOver`: `for i := i0; i != i1; i += idelta`. -/
def drawRGBADstOver.row (fuel : Nat) (dpix spix : Slice) (mem : Mem) (i0 i1 idelta : Int) :
    Option (Mem × Int) :=
  loop (fun ((_, i) : Mem × Int) => i != i1)
    (fun (mem, i) =>
      (drawRGBADstOver.pixel dpix spix mem i).bind fun mem => some (mem, i + idelta))
    fuel (mem, i0)

def drawRGBADstOver (fuel : Nat) (mem : Mem) (dst : image.RGBA) (r : Rectangle) (src : BGRA)
    (sp : Point) : Option Mem :=
  let dx := r.Dx
  let dy := r.Dy
  let d0 := dst.PixOffset r.Min.X r.Min.Y
  let s0 := src.PixOffset sp.X sp.Y
  let (d0, s0, ddelta, sdelta, i0, i1, idelta) :=
    if r.Min.Y < sp.Y ∨ r.Min.Y = sp.Y ∧ r.Min.X ≤ sp.X then
      (d0, s0, dst.Stride, src.Stride, (0 : Int), dx * 4, (4 : Int))
    else
      (d0 + (dy - 1) * dst.Stride, s0 + (dy - 1) * src.Stride, -dst.Stride, -src.Stride,
        (dx - 1) * 4, (-4 : Int), (-4 : Int))
  (loop (fun ((_, dy, _, _) : Mem × Int × Int × Int) => decide (dy > 0))
    (fun (mem, dy, d0, s0) =>
      (dst.Pix.tail d0).bind fun dpix =>
      (src.Pix.tail s0).bind fun spix =>
      (drawRGBADstOver.row fuel dpix spix mem i0 i1 idelta).bind fun (mem, _) =>
      some (mem, dy - 1, d0 + ddelta, s0 + sdelta))
    fuel (mem, dy, d0, s0)).map Prod.fst

def drawRGBADst (fuel : Nat) (mem : Mem) (dst : image.RGBA) (r : Rectangle) (src : BGRA)
    (sp : Point) : Option Mem :=
  let i0 := (r.Min.X - dst.Rect.Min.X) * 4
  let i1 := (r.Max.X - dst.Rect.Min.X) * 4
  let si0 := (sp.X - src.Rect.Min.X) * 4
  let yMax := r.Max.Y - dst.Rect.Min.Y
  let y := r.Min.Y - dst.Rect.Min.Y
  let sy := sp.Y - src.Rect.Min.Y
  (loop (fun ((_, y, _) : Mem × Int × Int) => y != yMax)
    (fun (mem, y, sy) =>
      (dst.Pix.tail (y * dst.Stride)).bind fun dpix =>
      (src.Pix.tail (sy * src.Stride)).bind fun spix =>
      (drawRGBASrc.row fuel dpix spix mem i0 si0 i1).bind fun (mem, _, _) =>
      some (mem, y + 1, sy + 1))
    fuel (mem, y, sy)).map Prod.fst

def DrawMask (fuel : Nat) (mem : Mem) (dst : Image) (r : Rectangle) (src : Source) (sp : Point)
    (mask : Option Image) (mp : Point) (op : draw.Op) : Outcome :=
  let (r, sp, mp) := clip dst r (src.get dst) sp mask mp
  if r.Empty then .done mem
  else
    match dst with
    | .BGRA dst0 =>
      if op = draw.Op.Over then
        match mask, src.get dst with
        | none, .Uniform src0 => .run (drawFillOver fuel mem dst0 r src0)
        | none, .RGBA src0 => .run (drawRGBAOver fuel mem dst0 r src0 sp)
        | none, .BGRA src0 => .run (drawCopyOver fuel mem dst0 r src0 sp)
        | some (.Alpha mask0), .Uniform src0 => .run (drawGlyphOver fuel mem dst0 r src0 mask0 mp)
        | _, _ => .run (drawBGRA fuel mem dst0 r src sp mask mp op)
      else
        match mask, src.get dst with
        | none, .Uniform src0 => .run (drawFillSrc fuel mem dst0 r src0)
        | none, .RGBA src0 => .run (drawRGBASrc fuel mem dst0 r src0 sp)
        | none, .BGRA src0 => .run (drawCopySrc fuel mem dst0 r src0 sp)
        | _, _ => .run (drawBGRA fuel mem dst0 r src sp mask mp op)
    | .RGBA dst0 =>
      -- `src0, ok := dst.(*BGRA)`: the assertion is made on `dst`
      match dst with
      | .BGRA src0 =>
        if op = draw.Op.Over then
          match mask with
          | none => .run (drawRGBADstOver fuel mem dst0 r src0 sp)
          | some _ => .library
        else
          match mask with
          | none => .run (drawRGBADst fuel mem dst0 r src0 sp)
          | some _ => .library
      | _ => .library
    | _ => .library

def Draw (fuel : Nat) (mem : Mem) (dst : Image) (r : Rectangle) (src : Source) (sp : Point)
    (op : draw.Op) : Outcome :=
  DrawMask fuel mem dst r src sp none ZP op

end bgra

/-! ## Specification devices -/

namespace Go

/-- The operations `op k`, `op (k+1)`, ..., `n` of them, run one after the other. -/
def seqFrom (op : Nat → Mem → Option Mem) : Nat → Nat → Mem → Option Mem
  | 0, _, mem => some mem
  | n + 1, k, mem => (op k mem).bind (seqFrom op n (k + 1))

end Go

namespace bgra

/-- The point `(x, y)` lies in the rectangle `r` (the Go method `Point.In`, as a proposition). -/
def Inside (r : Rectangle) (x y : Int) : Prop :=
  r.Min.X ≤ x ∧ x < r.Max.X ∧ r.Min.Y ≤ y ∧ y < r.Max.Y

instance (r : Rectangle) (x y : Int) : Decidable (Inside r x y) := by
  unfold Inside; infer_instance

/-- The rectangle `r` is not empty and lies inside `bounds`: what `clip` and the `Empty` test
of `DrawMask` establish for the destination before a drawing loop runs. -/
def Clipped (r bounds : Rectangle) : Prop :=
  r.Min.X < r.Max.X ∧ r.Min.Y < r.Max.Y ∧ bounds.Min.X ≤ r.Min.X ∧ r.Max.X ≤ bounds.Max.X ∧
    bounds.Min.Y ≤ r.Min.Y ∧ r.Max.Y ≤ bounds.Max.Y

instance (r bounds : Rectangle) : Decidable (Clipped r bounds) := by
  unfold Clipped; infer_instance

/-- The memory address of byte `c` (0 = B, 1 = G, 2 = R, 3 = A) of the pixel `(x, y)`. -/
def BGRA.addr (p : BGRA) (x y : Int) (c : Nat) : Nat := p.Pix.off + (p.PixOffset x y + c).toNat

/-- A well-formed buffer: the slice is within its capacity, a row of the rectangle fits in the
stride, and every pixel of the rectangle has its four bytes inside the slice. -/
structure BGRA.WF (p : BGRA) : Prop where
  cap : p.Pix.len ≤ p.Pix.cap
  stride : 4 * p.Rect.Dx ≤ p.Stride
  inb : ∀ x y, Inside p.Rect x y → 0 ≤ p.PixOffset x y ∧ p.PixOffset x y + 3 < p.Pix.len

/-- The `image.RGBA` buffer seen as a buffer of the same geometry. -/
def ofRGBA (p : image.RGBA) : BGRA := ⟨p.Pix, p.Stride, p.Rect⟩

/-- The slice `s[n:]` for `n` within the length. -/
def Slice.drop (s : Slice) (n : Nat) : Slice := ⟨s.off + n, s.len - n, s.cap - n⟩

/-- Two slices that share no byte: buffers held in separate arenas. -/
def Apart (s t : Slice) : Prop := s.off + s.len ≤ t.off ∨ t.off + t.len ≤ s.off

instance (s t : Slice) : Decidable (Apart s t) := by
  unfold Apart; infer_instance

/-- The memory `mem'` is `mem` with byte `c` of every pixel `(x, y)` of `r` in the buffer
`dst` replaced by `g x y c`, and nothing else changed. -/
def Painted (dst : BGRA) (r : Rectangle) (g : Int → Int → Nat → Byte) (mem mem' : Mem) : Prop :=
  (∀ x y c, Inside r x y → c < 4 → mem' (dst.addr x y c) = g x y c) ∧
  (∀ a, (∀ x y c, Inside r x y → c < 4 → a ≠ dst.addr x y c) → mem' a = mem a)

/-- The sequence `X 0, ..., X (n-1)` enumerates the integers of `[lo, hi)` without repetition. -/
structure Enum (lo hi : Int) (n : Nat) (X : Nat → Int) : Prop where
  mem : ∀ k, k < n → lo ≤ X k ∧ X k < hi
  inj : ∀ k k', k < n → k' < n → X k = X k' → k = k'
  surj : ∀ x, lo ≤ x → x < hi → ∃ k, k < n ∧ X k = x

/-- The invariant of the buffers as the specification words it: every coordinate inside
`Rect` maps, by `PixOffset`, to four bytes inside the slice `Pix`. -/
def BGRA.InBounds (p : BGRA) : Prop :=
  ∀ x y, Inside p.Rect x y → 0 ≤ p.PixOffset x y ∧ p.PixOffset x y + 3 < p.Pix.len

/-- The pixel `(x, y)` of a buffer is premultiplied in the memory: each of its bytes B, G, R
is at most its byte A. -/
def BGRA.PremulAt (mem : Mem) (p : BGRA) (x y : Int) : Prop :=
  ∀ c, c < 3 → mem (p.addr x y c) ≤ mem (p.addr x y 3)

/-- The bytes `Set` writes for a colour, by channel offset: B, G, R, A. -/
def setByte (c : color.RGBA) (k : Nat) : Byte :=
  if k = 0 then c.B else if k = 1 then c.G else if k = 2 then c.R else c.A

/-- A coordinate of magnitude at most 2^61: sums and differences of three such values stay
in the range of `int`. -/
def InRange (v : Int) : Prop := -2305843009213693952 ≤ v ∧ v ≤ 2305843009213693952

instance (v : Int) : Decidable (InRange v) := by
  unfold InRange; infer_instance

/-- Both coordinates of a point have magnitude at most 2^61. -/
def PointInRange (p : Point) : Prop := InRange p.X ∧ InRange p.Y

instance (p : Point) : Decidable (PointInRange p) := by
  unfold PointInRange; infer_instance

/-- All four coordinates of a rectangle have magnitude at most 2^61. -/
def RectInRange (r : Rectangle) : Prop := PointInRange r.Min ∧ PointInRange r.Max

instance (r : Rectangle) : Decidable (RectInRange r) := by
  unfold RectInRange; infer_instance

/-- The length `New` passes to `make`: `4*w*h` as the code computes it, in `int`. -/
def newSize (r : Rectangle) : Int := int64 (int64 (4 * int64 r.Dx) * int64 r.Dy)

/-- The rectangle `clip` leaves when there is no mask: `r` cut to the bounds of the
destination and to the bounds of the source moved by `r.Min - sp`. -/
def clipRect (r dstBounds srcBounds : Rectangle) (sp : Point) : Rectangle :=
  (r.Intersect dstBounds).Intersect (srcBounds.Add (r.Min.Sub sp))

/-- The test of `drawRGBAOver` and `drawCopyOver` for the left-to-right, top-down order. -/
def forward (r : Rectangle) (sp : Point) : Prop :=
  r.Min.Y < sp.Y ∨ r.Min.Y = sp.Y ∧ r.Min.X ≤ sp.X

instance (r : Rectangle) (sp : Point) : Decidable (forward r sp) := by
  unfold forward; infer_instance

/-- The destination column of step `k` of a row in `drawRGBAOver` and `drawCopyOver`. -/
def colAt (r : Rectangle) (sp : Point) (k : Nat) : Int :=
  if forward r sp then r.Min.X + k else r.Max.X - 1 - k

/-- The destination row of step `k` of the outer loop in `drawRGBAOver` and `drawCopyOver`. -/
def rowAt (r : Rectangle) (sp : Point) (k : Nat) : Int :=
  if forward r sp then r.Min.Y + k else r.Max.Y - 1 - k

/-- The destination row of step `k` of the loop of `drawCopySrc`: top-down when
`r.Min.Y <= sp.Y`, bottom-up otherwise. -/
def rowAtCopy (r : Rectangle) (sp : Point) (k : Nat) : Int :=
  if r.Min.Y ≤ sp.Y then r.Min.Y + k else r.Max.Y - 1 - k

/-- The slice `p.Pix[i : i+n]` for the offset `i` of the pixel `(x, y)`. -/
def rowSlice (p : BGRA) (x y : Int) (n : Nat) : Slice :=
  ⟨p.Pix.off + (p.PixOffset x y).toNat, n, p.Pix.cap - (p.PixOffset x y).toNat⟩

/-- The source channel that byte `c` of a B, G, R, A pixel takes from `(sr, sg, sb, sa)`. -/
def chan (c : Nat) (s : Nat × Nat × Nat × Nat) : Nat :=
  if c = 0 then s.2.2.1 else if c = 1 then s.2.1 else if c = 2 then s.1 else s.2.2.2

/-- The byte `uint8((d*a/m + s) >> 8)` of the unmasked Over loops. -/
def overByte (d : Byte) (a s : Nat) : Byte := uint8 (u32 (u32 (d.val * a) / m + s) >>> 8)

/-- The byte `uint8((d*a + s*ma) / m >> 8)` with `a = (m - (sa * ma / m)) * 0x101` of the
masked Over loops. -/
def maskOverByte (d : Byte) (sa ma s : Nat) : Byte :=
  uint8 ((u32 (u32 (d.val * u32 (sub32 m (u32 (sa * ma) / m) * 0x101)) + u32 (s * ma)) / m) >>> 8)

/-- The byte `uint8(s * ma / m >> 8)` of the fallback with op Src. -/
def srcByte (ma s : Nat) : Byte := uint8 ((u32 (s * ma) / m) >>> 8)

/-- The byte the fallback `drawBGRA` writes for byte `c` of a pixel that holds `d`, from the
source colour `s = (sr, sg, sb, sa)` and the mask alpha `ma`. -/
def fallbackByte (op : draw.Op) (d : Byte) (s : Nat × Nat × Nat × Nat) (ma c : Nat) : Byte :=
  if op = draw.Op.Over then maskOverByte d s.2.2.2 ma (chan c s) else srcByte ma (chan c s)

/-- The memory address of the alpha byte of the pixel `(x, y)` of a mask. -/
def alphaAddr (p : image.Alpha) (x y : Int) : Nat := p.Pix.off + (p.PixOffset x y).toNat

/-- A well-formed mask: every pixel of the rectangle has its byte inside the slice. -/
def AlphaWF (p : image.Alpha) : Prop :=
  ∀ x y, Inside p.Rect x y → 0 ≤ p.PixOffset x y ∧ p.PixOffset x y < p.Pix.len

/-- The byte `drawGlyphOver` leaves in a destination byte `d` under the mask byte `ma`:
untouched for a zero mask, else the masked Over byte with the mask alpha `ma | ma<<8`. -/
def glyphByte (d ma : Byte) (sa s : Nat) : Byte :=
  if ma.val = 0 then d else maskOverByte d sa (u32 (ma.val ||| u32 (ma.val <<< 8))) s

/-- A premultiplied colour: no colour channel above alpha, alpha within 16 bits. -/
def Premul (s : Nat × Nat × Nat × Nat) : Prop :=
  s.1 ≤ s.2.2.2 ∧ s.2.1 ≤ s.2.2.2 ∧ s.2.2.1 ≤ s.2.2.2 ∧ s.2.2.2 ≤ 65535

instance (s : Nat × Nat × Nat × Nat) : Decidable (Premul s) := by
  unfold Premul; infer_instance

/-- The 16-bit colour `(sr, sg, sb, sa)` the loops read at pixel `(x, y)` of a `BGRA` source:
each byte times `0x101`. -/
def BGRA.color16 (mem : Mem) (p : BGRA) (x y : Int) : Nat × Nat × Nat × Nat :=
  (u32 ((mem (p.addr x y 2)).val * 0x101), u32 ((mem (p.addr x y 1)).val * 0x101),
   u32 ((mem (p.addr x y 0)).val * 0x101), u32 ((mem (p.addr x y 3)).val * 0x101))

end bgra

namespace image

/-- The 16-bit colour `(sr, sg, sb, sa)` the loops read at pixel `(x, y)` of an `image.RGBA`
source: each byte times `0x101`. -/
def RGBA.color16 (mem : Mem) (p : image.RGBA) (x y : Int) : Nat × Nat × Nat × Nat :=
  (u32 ((mem ((bgra.ofRGBA p).addr x y 0)).val * 0x101),
   u32 ((mem ((bgra.ofRGBA p).addr x y 1)).val * 0x101),
   u32 ((mem ((bgra.ofRGBA p).addr x y 2)).val * 0x101),
   u32 ((mem ((bgra.ofRGBA p).addr x y 3)).val * 0x101))

end image

/-! ## Concrete inputs of the examples -/

namespace bgra

/-- A 1x1 buffer at the start of the memory. -/
def exDst1 : BGRA := ⟨⟨0, 4, 4⟩, 4, ⟨⟨0, 0⟩, ⟨1, 1⟩⟩⟩

/-- The rectangle of `exDst1`. -/
def exRect1 : Rectangle := ⟨⟨0, 0⟩, ⟨1, 1⟩⟩

/-- A memory whose bytes are all 0. -/
def exMemZero : Mem := fun _ => 0

/-- A memory whose bytes are all 1. -/
def exMemOnes : Mem := fun _ => 1

/-- The colour `color.RGBA{R: 255, G: 0, B: 0, A: 0}`: red above its alpha. -/
def exRedNoAlpha : Uniform := ⟨.rgba ⟨255, 0, 0, 0⟩⟩

/-- A memory of pixels `(7, 7, 7, 255)` in either byte order: every fourth byte is 255. -/
def exMemGrey : Mem := fun a => if a % 4 = 3 then 255 else 7

/-- A 2x2 destination in the bytes 0..15. -/
def exDst2 : BGRA := ⟨⟨0, 16, 16⟩, 8, ⟨⟨0, 0⟩, ⟨2, 2⟩⟩⟩

/-- The rectangle of `exDst2`. -/
def exRect2 : Rectangle := ⟨⟨0, 0⟩, ⟨2, 2⟩⟩

/-- A 2x2 `image.RGBA` source in the bytes 16..31. -/
def exSrcRGBA : image.RGBA := ⟨⟨16, 16, 16⟩, 8, ⟨⟨0, 0⟩, ⟨2, 2⟩⟩⟩

/-- A 2x2 `BGRA` source in the bytes 32..47. -/
def exSrcBGRA : BGRA := ⟨⟨32, 16, 16⟩, 8, ⟨⟨0, 0⟩, ⟨2, 2⟩⟩⟩

/-- A 2x2 `image.Alpha` mask in the bytes 48..51. -/
def exMask : image.Alpha := ⟨⟨48, 4, 4⟩, 2, ⟨⟨0, 0⟩, ⟨2, 2⟩⟩⟩

/-- The fully transparent colour `color.RGBA{0, 0, 0, 0}`. -/
def exTransparent : Uniform := ⟨.rgba ⟨0, 0, 0, 0⟩⟩

/-- A memory in which the bytes 0..15 (the destination `exDst2`) hold a gradient, the bytes
48..51 (the mask `exMask`) hold 0, 85, 170, 255, and everything else, the two buffer sources
among it, is 0. -/
def exMemClear : Mem := fun a =>
  if a < 16 then uint8 (16 * a + 5) else if 48 ≤ a ∧ a < 52 then uint8 (85 * (a - 48)) else 0

/-- A memory in which byte `a` holds `a` (mod 256). -/
def exMemRamp : Mem := fun a => uint8 a

/-- A 3x3 buffer in the bytes 0..35. -/
def exBuf3 : BGRA := ⟨⟨0, 36, 36⟩, 12, ⟨⟨0, 0⟩, ⟨3, 3⟩⟩⟩

/-- The lower right 2x2 block of `exBuf3`. -/
def exBlock : Rectangle := ⟨⟨1, 1⟩, ⟨3, 3⟩⟩

/-- A temporary 2x2 buffer with the bounds of `exBlock`, in the bytes 64..79. -/
def exTmp : BGRA := ⟨⟨64, 16, 16⟩, 8, ⟨⟨1, 1⟩, ⟨3, 3⟩⟩⟩

/-- A 4x4 buffer at the bytes 0..63, without stride padding. -/
def exBuf4 : BGRA := ⟨⟨0, 64, 64⟩, 16, ⟨⟨0, 0⟩, ⟨4, 4⟩⟩⟩

/-- A memory of opaque black pixels: the alpha bytes are 255, the other bytes 0. -/
def exMemBlack : Mem := fun a => if a % 4 = 3 then 255 else 0

/-- The opaque red `color.RGBA{R: 255, G: 0, B: 0, A: 255}`. -/
def exRed : Uniform := ⟨.rgba ⟨255, 0, 0, 255⟩⟩

/-- The pixels of a buffer that lie in its bounds with both coordinates in 0..3, read with
`At` row by row. -/
def readGrid4 (mem : Mem) (p : BGRA) : List (Option color.Color) :=
  (List.range 16).map fun k => p.At mem (k % 4 : Nat) (k / 4 : Nat)

/-- The rectangle literal `image.Rectangle{Min: (0,0), Max: (-1,1)}`: its width
is -1 and its height 1. -/
def exBackward : Rectangle := ⟨⟨0, 0⟩, ⟨-1, 1⟩⟩

/-- A heap whose memory holds the byte `a mod 256` at the address `a`, whose next free
address is 100 and which can hand out a million bytes. -/
def exHeap : Heap := ⟨exMemRamp, 100, 1000000⟩

/-- A heap like `exHeap` whose allocator has no limit of its own below 2^64 bytes. -/
def exBigHeap : Heap := ⟨exMemRamp, 100, 18446744073709551616⟩

/-- The rectangle (0,0)-(2^31,2^31): its size `4*w*h` is 2^64, which is 0 in `int`. -/
def exHuge31 : Rectangle := ⟨⟨0, 0⟩, ⟨2147483648, 2147483648⟩⟩

/-- The rectangle (0,0)-(2^30,2^30): its size `4*w*h` is 2^62. -/
def exHuge30 : Rectangle := ⟨⟨0, 0⟩, ⟨1073741824, 1073741824⟩⟩

/-- A 3x3 buffer at the bytes 0..35 whose bounds start at the least `int`, -2^63. -/
def exEdgeBuf : BGRA :=
  ⟨⟨0, 36, 36⟩, 12, ⟨⟨-9223372036854775808, 0⟩, ⟨-9223372036854775805, 3⟩⟩⟩

/-- The 2x2 block at the corner of `exEdgeBuf`. -/
def exEdgeRect : Rectangle := ⟨⟨-9223372036854775808, 0⟩, ⟨-9223372036854775806, 2⟩⟩

/-- The point one pixel right of and below the corner of `exEdgeBuf`. -/
def exEdgePoint : Point := ⟨-9223372036854775807, 1⟩

/-- A 2x1 buffer at the bytes 0..7 whose bounds lie seven pixels below the greatest `int`. -/
def exTopBuf : BGRA :=
  ⟨⟨0, 8, 8⟩, 8, ⟨⟨9223372036854775800, 0⟩, ⟨9223372036854775802, 1⟩⟩⟩

/-- The rectangle from the least `int` to 1 in x, one pixel high. -/
def exWideRect : Rectangle := ⟨⟨-9223372036854775808, 0⟩, ⟨1, 1⟩⟩

/-- The point at the greatest `int` in x. -/
def exTopPoint : Point := ⟨9223372036854775807, 0⟩

/-- An `image.RGBA` on the four bytes of `exDst1`. -/
def exAliasRGBA : image.RGBA := ⟨⟨0, 4, 4⟩, 4, ⟨⟨0, 0⟩, ⟨1, 1⟩⟩⟩

/-- A memory of opaque pixels, for a buffer at the address 0: the alpha bytes are 255, the
three colour bytes of the pixel at the bytes `4k..4k+3` are `k`. -/
def exMemIndex : Mem := fun a => if a % 4 = 3 then 255 else uint8 (a / 4)

/-- A source point two thousand million pixels to the right. -/
def exFar : Point := ⟨2000000000, 0⟩

/-- The opaque colour `color.RGBA{R: 10, G: 20, B: 30, A: 255}`. -/
def exOpaque : Uniform := ⟨.rgba ⟨10, 20, 30, 255⟩⟩

end bgra

/-! ## Loops as sequences of memory operations -/

namespace Go

theorem loop_seq_aux {α : Type} (cond : Mem × α → Bool) (body : Mem × α → Option (Mem × α))
    (v : Nat → α) (op : Nat → Mem → Option Mem) (n : Nat)
    (hc : ∀ k mem, k < n → cond (mem, v k) = true)
    (hb : ∀ k mem, k < n →
      body (mem, v k) = (op k mem).bind fun mem => some (mem, v (k + 1)))
    (he : ∀ mem, cond (mem, v n) = false) :
    ∀ j k, k + j = n → ∀ fuel, j < fuel → ∀ mem,
      loop cond body fuel (mem, v k) = (seqFrom op j k mem).bind fun mem => some (mem, v n) := by
  intro j
  induction j with
  | zero =>
    intro k hk fuel hf mem
    obtain ⟨f, rfl⟩ : ∃ f, fuel = f + 1 := ⟨fuel - 1, by omega⟩
    have hkn : k = n := by omega
    subst hkn
    simp [loop, seqFrom, he]
  | succ j ih =>
    intro k hk fuel hf mem
    obtain ⟨f, rfl⟩ : ∃ f, fuel = f + 1 := ⟨fuel - 1, by omega⟩
    have hkn : k < n := by omega
    simp only [loop, seqFrom, hc k mem hkn, hb k mem hkn, if_true]
    cases h : op k mem with
    | none => simp
    | some mem1 =>
      simp only [Option.some_bind, Option.bind_eq_bind]
      exact ih (k + 1) (by omega) f (by omega) mem1

/-- A loop whose variables take the values `v 0`, `v 1`, ..., and whose body at `v k` is the
memory operation `op k`, runs `op 0`, ..., `op (n-1)` when its condition first fails at
`v n` and the fuel exceeds `n`. -/
theorem loop_seq {α : Type} (cond : Mem × α → Bool) (body : Mem × α → Option (Mem × α))
    (v : Nat → α) (op : Nat → Mem → Option Mem) (n : Nat)
    (hc : ∀ k mem, k < n → cond (mem, v k) = true)
    (hb : ∀ k mem, k < n →
      body (mem, v k) = (op k mem).bind fun mem => some (mem, v (k + 1)))
    (he : ∀ mem, cond (mem, v n) = false)
    (fuel : Nat) (hf : n < fuel) (mem : Mem) :
    loop cond body fuel (mem, v 0) = (seqFrom op n 0 mem).bind fun mem => some (mem, v n) :=
  loop_seq_aux cond body v op n hc hb he n 0 (by omega) fuel hf mem

theorem seqFrom_congr (op op' : Nat → Mem → Option Mem) :
    ∀ n k, (∀ i mem, k ≤ i → i < k + n → op i mem = op' i mem) →
      ∀ mem, seqFrom op n k mem = seqFrom op' n k mem := by
  intro n
  induction n with
  | zero => intro k _ mem; rfl
  | succ n ih =>
    intro k h mem
    simp only [seqFrom]
    rw [h k mem (le_refl _) (by omega)]
    cases op' k mem with
    | none => rfl
    | some mem1 =>
      simp only [Option.some_bind]
      exact ih (k + 1) (fun i mem hi hi' => h i mem (by omega) (by omega)) mem1

theorem seqFrom_cells_aux {ι : Type} (op : Nat → Mem → Option Mem) (A : Nat → ι → Nat)
    (V : ι → Prop) (G : Nat → ι → Byte) (mem0 : Mem) (n : Nat)
    (hdisj : ∀ k k' e e', k' < k → k < n → V e → V e' → A k e ≠ A k' e')
    (hop : ∀ k mem, k < n →
      (∀ a, (∀ k' e, k' < k → V e → a ≠ A k' e) → mem a = mem0 a) →
      ∃ mem', op k mem = some mem' ∧ (∀ e, V e → mem' (A k e) = G k e) ∧
        (∀ a, (∀ e, V e → a ≠ A k e) → mem' a = mem a)) :
    ∀ j k mem, k + j = n →
      (∀ a, (∀ k' e, k' < k → V e → a ≠ A k' e) → mem a = mem0 a) →
      (∀ k' e, k' < k → V e → mem (A k' e) = G k' e) →
      ∃ mem', seqFrom op j k mem = some mem' ∧
        (∀ k e, k < n → V e → mem' (A k e) = G k e) ∧
        (∀ a, (∀ k e, k < n → V e → a ≠ A k e) → mem' a = mem0 a) := by
  intro j
  induction j with
  | zero =>
    intro k mem hk hfr hval
    have hkn : k = n := by omega
    subst hkn
    exact ⟨mem, rfl, hval, hfr⟩
  | succ j ih =>
    intro k mem hk hfr hval
    have hkn : k < n := by omega
    obtain ⟨mem1, h1, hv1, hf1⟩ := hop k mem hkn hfr
    have hfr1 : ∀ a, (∀ k' e, k' < k + 1 → V e → a ≠ A k' e) → mem1 a = mem0 a := by
      intro a ha
      rw [hf1 a (fun e he => ha k e (by omega) he)]
      exact hfr a (fun k' e hk' he => ha k' e (by omega) he)
    have hval1 : ∀ k' e, k' < k + 1 → V e → mem1 (A k' e) = G k' e := by
      intro k' e hk' he
      by_cases hkk : k' = k
      · subst hkk; exact hv1 e he
      · have hlt : k' < k := by omega
        rw [hf1 (A k' e) (fun e' he' h => hdisj k k' e' e hlt hkn he' he h.symm)]
        exact hval k' e hlt he
    obtain ⟨mem2, h2, hv2, hf2⟩ := ih (k + 1) mem1 (by omega) hfr1 hval1
    refine ⟨mem2, ?_, hv2, hf2⟩
    simp only [seqFrom, h1, Option.some_bind, h2]

/-- Operations that each rewrite one cell of the memory, the cells being disjoint, and that
read nothing an earlier operation has written, rewrite all cells independently. -/
theorem seqFrom_cells {ι : Type} (op : Nat → Mem → Option Mem) (A : Nat → ι → Nat)
    (V : ι → Prop) (G : Nat → ι → Byte) (mem0 : Mem) (n : Nat)
    (hdisj : ∀ k k' e e', k' < k → k < n → V e → V e' → A k e ≠ A k' e')
    (hop : ∀ k mem, k < n →
      (∀ a, (∀ k' e, k' < k → V e → a ≠ A k' e) → mem a = mem0 a) →
      ∃ mem', op k mem = some mem' ∧ (∀ e, V e → mem' (A k e) = G k e) ∧
        (∀ a, (∀ e, V e → a ≠ A k e) → mem' a = mem a)) :
    ∃ mem', seqFrom op n 0 mem0 = some mem' ∧
      (∀ k e, k < n → V e → mem' (A k e) = G k e) ∧
      (∀ a, (∀ k e, k < n → V e → a ≠ A k e) → mem' a = mem0 a) :=
  seqFrom_cells_aux op A V G mem0 n hdisj hop n 0 mem0 (by omega) (fun _ _ => rfl)
    (fun k' _ hk' => absurd hk' (Nat.not_lt_zero k'))

/-- The two-level form of `seqFrom_cells`: rows of pixels of four bytes each. -/
theorem seqFrom_grid (pix : Nat → Nat → Mem → Option Mem) (A : Nat → Nat → Nat → Nat)
    (G : Nat → Nat → Nat → Byte) (mem0 : Mem) (nj nx : Nat)
    (hinj : ∀ j x c j' x' c', j < nj → x < nx → c < 4 → j' < nj → x' < nx → c' < 4 →
      A j x c = A j' x' c' → j = j' ∧ x = x')
    (hpix : ∀ j x mem, j < nj → x < nx →
      (∀ a, (∀ j' x' c', (j' < j ∨ (j' = j ∧ x' < x)) → j' < nj → x' < nx → c' < 4 →
        a ≠ A j' x' c') → mem a = mem0 a) →
      ∃ mem', pix j x mem = some mem' ∧ (∀ c, c < 4 → mem' (A j x c) = G j x c) ∧
        (∀ a, (∀ c, c < 4 → a ≠ A j x c) → mem' a = mem a)) :
    ∃ mem', seqFrom (fun j mem => seqFrom (pix j) nx 0 mem) nj 0 mem0 = some mem' ∧
      (∀ j x c, j < nj → x < nx → c < 4 → mem' (A j x c) = G j x c) ∧
      (∀ a, (∀ j x c, j < nj → x < nx → c < 4 → a ≠ A j x c) → mem' a = mem0 a) := by
  have key := seqFrom_cells (fun j mem => seqFrom (pix j) nx 0 mem)
    (fun j (e : Nat × Nat) => A j e.1 e.2) (fun e => e.1 < nx ∧ e.2 < 4)
    (fun j e => G j e.1 e.2) mem0 nj
    (by
      intro k k' e e' hk hkn he he' h
      have := (hinj k e.1 e.2 k' e'.1 e'.2 hkn he.1 he.2 (by omega) he'.1 he'.2 h).1
      omega)
    (by
      intro j mem hj hfr
      obtain ⟨mem', h1, h2, h3⟩ := seqFrom_cells (pix j) (fun x c => A j x c) (fun c => c < 4)
        (fun x c => G j x c) mem nx
        (by
          intro k k' e e' hk hkn he he' h
          have := (hinj j k e j k' e' hj hkn he hj (by omega) he' h).2
          omega)
        (by
          intro x mem1 hx hfr1
          apply hpix j x mem1 hj hx
          intro a ha
          rw [hfr1 a (fun k' e hk' he => ha j k' e (Or.inr ⟨rfl, hk'⟩) hj (by omega) he)]
          exact hfr a (fun k' e hk' he => ha k' e.1 e.2 (Or.inl hk') (by omega) he.1 he.2))
      exact ⟨mem', h1, fun e he => h2 e.1 e.2 he.1 he.2,
        fun a ha => h3 a (fun k e hk he => ha (k, e) ⟨hk, he⟩)⟩)
  obtain ⟨mem', h1, h2, h3⟩ := key
  exact ⟨mem', h1, fun j x c hj hx hc => h2 j (x, c) hj ⟨hx, hc⟩,
    fun a ha => h3 a (fun k e hk he => ha k e.1 e.2 hk he.1 he.2)⟩

end Go

namespace bgra

/-! ## Slices, options -/

theorem Slice.index_inb (s : Slice) (mem : Mem) (i : Int) (h0 : 0 ≤ i) (h1 : i < s.len) :
    s.index mem i = some (mem (s.off + i.toNat)) := by
  simp [Slice.index, h0, h1]

theorem Slice.store_inb (s : Slice) (mem : Mem) (i : Int) (v : Byte) (h0 : 0 ≤ i)
    (h1 : i < s.len) : s.store mem i v = some (Function.update mem (s.off + i.toNat) v) := by
  simp [Slice.store, h0, h1]

theorem Slice.tail_inb (s : Slice) (i : Int) (h0 : 0 ≤ i) (h1 : i ≤ s.len) :
    s.tail i = some ⟨s.off + i.toNat, s.len - i.toNat, s.cap - i.toNat⟩ := by
  simp [Slice.tail, h0, h1]

theorem Slice.tail_drop (s : Slice) (i : Int) (h0 : 0 ≤ i) (h1 : i ≤ s.len) :
    s.tail i = some (Slice.drop s i.toNat) := by
  simp [Slice.tail, Slice.drop, h0, h1]

theorem Slice.slice_inb (s : Slice) (i j : Int) (h0 : 0 ≤ i) (h1 : i ≤ j) (h2 : j ≤ s.cap) :
    s.slice i j = some ⟨s.off + i.toNat, (j - i).toNat, s.cap - i.toNat⟩ := by
  simp [Slice.slice, h0, h1, h2]

theorem bind_some_bind {α β γ : Type} (o : Option α) (f : α → β) (g : β → Option γ) :
    (o.bind fun a => some (f a)).bind g = o.bind fun a => g (f a) := by
  cases o <;> rfl

theorem map_fst_bind_some {α : Type} (o : Option Mem) (c : α) :
    (o.bind fun mem => some (mem, c)).map Prod.fst = o := by
  cases o <;> rfl

/-! ## Geometry of a well-formed buffer -/

theorem mul_stride_lt (a b S : Int) (h : a < b) (hS : 0 ≤ S) : a * S + S ≤ b * S := by
  nlinarith

theorem In_iff (x y : Int) (r : Rectangle) : Point.In ⟨x, y⟩ r = true ↔ Inside r x y := by
  simp [Point.In, Inside, and_assoc]

theorem Inside.of_clipped {r b : Rectangle} (h : Clipped r b) {x y : Int} (hi : Inside r x y) :
    Inside b x y := by
  obtain ⟨h1, h2, h3, h4, h5, h6⟩ := h
  obtain ⟨i1, i2, i3, i4⟩ := hi
  exact ⟨by omega, by omega, by omega, by omega⟩

theorem BGRA.PixOffset_lt (p : BGRA) (hp : p.WF) (x y x' y' : Int) (c c' : Nat)
    (h : Inside p.Rect x y) (h' : Inside p.Rect x' y') (hc : c < 4) (hy : y < y') :
    p.PixOffset x y + c < p.PixOffset x' y' + c' := by
  have hs := hp.stride
  obtain ⟨h1, h2, h3, h4⟩ := h
  obtain ⟨h1', h2', h3', h4'⟩ := h'
  unfold Rectangle.Dx at hs
  have := mul_stride_lt (y - p.Rect.Min.Y) (y' - p.Rect.Min.Y) p.Stride (by omega) (by omega)
  unfold BGRA.PixOffset
  omega

theorem BGRA.addr_inj (p : BGRA) (hp : p.WF) (x y x' y' : Int) (c c' : Nat)
    (h : Inside p.Rect x y) (h' : Inside p.Rect x' y') (hc : c < 4) (hc' : c' < 4)
    (e : p.addr x y c = p.addr x' y' c') : x = x' ∧ y = y' ∧ c = c' := by
  have i1 := hp.inb x y h
  have i2 := hp.inb x' y' h'
  unfold BGRA.addr at e
  have e' : p.PixOffset x y + c = p.PixOffset x' y' + c' := by omega
  rcases lt_trichotomy y y' with hy | hy | hy
  · have := p.PixOffset_lt hp x y x' y' c c' h h' hc hy
    omega
  · subst hy
    unfold BGRA.PixOffset at e'
    omega
  · have := p.PixOffset_lt hp x' y' x y c' c h' h hc' hy
    omega

theorem Clipped.sizes {r b : Rectangle} (h : Clipped r b) :
    ∃ nx ny : Nat, r.Dx = nx ∧ r.Dy = ny ∧ nx = r.Dx.toNat ∧ ny = r.Dy.toNat := by
  obtain ⟨h1, h2, _⟩ := h
  refine ⟨r.Dx.toNat, r.Dy.toNat, ?_, ?_, rfl, rfl⟩
  · unfold Rectangle.Dx; omega
  · unfold Rectangle.Dy; omega

theorem BGRA.addr_window (p : BGRA) (hp : p.WF) (x y : Int) (c : Nat)
    (h : Inside p.Rect x y) (hc : c < 4) :
    p.Pix.off ≤ p.addr x y c ∧ p.addr x y c < p.Pix.off + p.Pix.len := by
  have i1 := hp.inb x y h
  unfold BGRA.addr
  omega

theorem Enum.up (lo hi : Int) (n : Nat) (h : hi - lo = n) : Enum lo hi n (fun k => lo + k) :=
  ⟨fun k hk => by constructor <;> omega, fun k k' _ _ e => by omega,
    fun x h1 h2 => ⟨(x - lo).toNat, by omega, by omega⟩⟩

theorem Enum.down (lo hi : Int) (n : Nat) (h : hi - lo = n) :
    Enum lo hi n (fun k => hi - 1 - k) :=
  ⟨fun k hk => by constructor <;> omega, fun k k' _ _ e => by omega,
    fun x h1 h2 => ⟨(hi - 1 - x).toNat, by omega, by omega⟩⟩

/-- Pixel operations over the grid of a clipped rectangle, in any enumeration order of the
columns and rows, paint the rectangle when each of them rewrites its pixel from data that no
earlier operation has written. -/
theorem grid_painted (dst : BGRA) (hw : dst.WF) (r : Rectangle) (hr : Clipped r dst.Rect)
    (X Y : Nat → Int) (nx ny : Nat) (hX : Enum r.Min.X r.Max.X nx X)
    (hY : Enum r.Min.Y r.Max.Y ny Y)
    (pix : Nat → Nat → Mem → Option Mem) (g : Int → Int → Nat → Byte) (mem : Mem)
    (hpix : ∀ j x mem1, j < ny → x < nx →
      (∀ a, (∀ j' x' c', (j' < j ∨ (j' = j ∧ x' < x)) → j' < ny → x' < nx → c' < 4 →
        a ≠ dst.addr (X x') (Y j') c') → mem1 a = mem a) →
      ∃ mem', pix j x mem1 = some mem' ∧
        (∀ c, c < 4 → mem' (dst.addr (X x) (Y j) c) = g (X x) (Y j) c) ∧
        (∀ a, (∀ c, c < 4 → a ≠ dst.addr (X x) (Y j) c) → mem' a = mem1 a)) :
    ∃ mem', seqFrom (fun j mem => seqFrom (pix j) nx 0 mem) ny 0 mem = some mem' ∧
      Painted dst r g mem mem' := by
  have hin : ∀ j x, j < ny → x < nx → Inside dst.Rect (X x) (Y j) := by
    intro j x hj hx
    have a := hX.mem x hx
    have b := hY.mem j hj
    exact Inside.of_clipped hr ⟨a.1, a.2, b.1, b.2⟩
  obtain ⟨mem', h1, h2, h3⟩ := seqFrom_grid pix (fun j x c => dst.addr (X x) (Y j) c)
    (fun j x c => g (X x) (Y j) c) mem ny nx
    (by
      intro j x c j' x' c' hj hx hc hj' hx' hc' e
      obtain ⟨e1, e2, _⟩ := dst.addr_inj hw _ _ _ _ c c' (hin j x hj hx) (hin j' x' hj' hx') hc hc' e
      exact ⟨hY.inj j j' hj hj' e2, hX.inj x x' hx hx' e1⟩)
    hpix
  refine ⟨mem', h1, ?_, ?_⟩
  · intro x y c hi hc
    obtain ⟨kx, hkx, rfl⟩ := hX.surj x hi.1 hi.2.1
    obtain ⟨ky, hky, rfl⟩ := hY.surj y hi.2.2.1 hi.2.2.2
    exact h2 ky kx c hky hkx hc
  · intro a ha
    apply h3
    intro j x c hj hx hc
    have a1 := hX.mem x hx
    have b1 := hY.mem j hj
    exact ha (X x) (Y j) c ⟨a1.1, a1.2, b1.1, b1.2⟩ hc

/-- The form of `grid_painted` for operations that read, of all the bytes of the rectangle,
only their own pixel. -/
theorem grid_painted_indep (dst : BGRA) (hw : dst.WF) (r : Rectangle) (hr : Clipped r dst.Rect)
    (X Y : Nat → Int) (nx ny : Nat) (hX : Enum r.Min.X r.Max.X nx X)
    (hY : Enum r.Min.Y r.Max.Y ny Y)
    (pix : Nat → Nat → Mem → Option Mem) (g : Int → Int → Nat → Byte) (mem : Mem)
    (hpix : ∀ j x mem1, j < ny → x < nx →
      (∀ c, c < 4 → mem1 (dst.addr (X x) (Y j) c) = mem (dst.addr (X x) (Y j) c)) →
      (∀ a, (∀ x y c, Inside r x y → c < 4 → a ≠ dst.addr x y c) → mem1 a = mem a) →
      ∃ mem', pix j x mem1 = some mem' ∧
        (∀ c, c < 4 → mem' (dst.addr (X x) (Y j) c) = g (X x) (Y j) c) ∧
        (∀ a, (∀ c, c < 4 → a ≠ dst.addr (X x) (Y j) c) → mem' a = mem1 a)) :
    ∃ mem', seqFrom (fun j mem => seqFrom (pix j) nx 0 mem) ny 0 mem = some mem' ∧
      Painted dst r g mem mem' := by
  have hin : ∀ j x, j < ny → x < nx → Inside dst.Rect (X x) (Y j) := by
    intro j x hj hx
    have a := hX.mem x hx
    have b := hY.mem j hj
    exact Inside.of_clipped hr ⟨a.1, a.2, b.1, b.2⟩
  apply grid_painted dst hw r hr X Y nx ny hX hY pix g mem
  intro j x mem1 hj hx hfr
  apply hpix j x mem1 hj hx
  · intro c hc
    apply hfr
    intro j' x' c' hlt hj' hx' hc' e
    obtain ⟨e1, e2, _⟩ := dst.addr_inj hw _ _ _ _ c c' (hin j x hj hx) (hin j' x' hj' hx') hc hc' e
    have := hY.inj j j' hj hj' e2
    have := hX.inj x x' hx hx' e1
    omega
  · intro a ha
    apply hfr
    intro j' x' c' _ hj' hx' hc'
    have a1 := hX.mem x' hx'
    have b1 := hY.mem j' hj'
    exact ha (X x') (Y j') c' ⟨a1.1, a1.2, b1.1, b1.2⟩ hc'

theorem Painted.unique {dst : BGRA} {r : Rectangle} {g g' : Int → Int → Nat → Byte}
    {mem m1 m2 : Mem} (h1 : Painted dst r g mem m1) (h2 : Painted dst r g' mem m2)
    (hg : ∀ x y c, Inside r x y → c < 4 → g x y c = g' x y c) : m1 = m2 := by
  funext a
  by_cases h : ∃ x y c, Inside r x y ∧ c < 4 ∧ a = dst.addr x y c
  · obtain ⟨x, y, c, hi, hc, rfl⟩ := h
    rw [h1.1 x y c hi hc, h2.1 x y c hi hc, hg x y c hi hc]
  · have h' : ∀ x y c, Inside r x y → c < 4 → a ≠ dst.addr x y c :=
      fun x y c hi hc e => h ⟨x, y, c, hi, hc, e⟩
    rw [h1.2 a h', h2.2 a h']

theorem Painted.same {dst : BGRA} {r : Rectangle} {g : Int → Int → Nat → Byte}
    {mem m1 : Mem} (h1 : Painted dst r g mem m1)
    (hg : ∀ x y c, Inside r x y → c < 4 → g x y c = mem (dst.addr x y c)) : m1 = mem := by
  funext a
  by_cases h : ∃ x y c, Inside r x y ∧ c < 4 ∧ a = dst.addr x y c
  · obtain ⟨x, y, c, hi, hc, rfl⟩ := h
    rw [h1.1 x y c hi hc, hg x y c hi hc]
  · exact h1.2 a (fun x y c hi hc e => h ⟨x, y, c, hi, hc, e⟩)

end bgra

namespace bgra

/-! ## Arithmetic in `int` -/

/-- A value in the range of `int` is not changed by the reduction. -/
theorem int64_eq (v : Int) (h1 : -9223372036854775808 ≤ v) (h2 : v < 9223372036854775808) :
    int64 v = v := by
  unfold int64
  omega

theorem int64_zero : int64 0 = 0 := by decide

/-- The reduction always lands in the range of `int`. -/
theorem int64_range (v : Int) :
    -9223372036854775808 ≤ int64 v ∧ int64 v < 9223372036854775808 := by
  unfold int64
  omega

/-- For coordinates of magnitude at most 2^61 the methods `Sub` and `Add`, as `clip` calls
them, do not wrap around. -/
theorem wrap_translate (b : Rectangle) (o s : Point) (hb : RectInRange b)
    (ho : PointInRange o) (hs : PointInRange s) :
    (b.Add (o.Sub s).wrap).wrap = b.Add (o.Sub s) := by
  obtain ⟨⟨⟨b1, b2⟩, ⟨b3, b4⟩⟩, ⟨⟨b5, b6⟩, ⟨b7, b8⟩⟩⟩ := hb
  obtain ⟨⟨o1, o2⟩, ⟨o3, o4⟩⟩ := ho
  obtain ⟨⟨s1, s2⟩, ⟨s3, s4⟩⟩ := hs
  have ex : int64 (o.X - s.X) = o.X - s.X := int64_eq _ (by omega) (by omega)
  have ey : int64 (o.Y - s.Y) = o.Y - s.Y := int64_eq _ (by omega) (by omega)
  simp only [Rectangle.wrap, Point.wrap, Rectangle.Add, Point.Sub, ex, ey]
  rw [int64_eq _ (by omega) (by omega), int64_eq _ (by omega) (by omega),
    int64_eq _ (by omega) (by omega), int64_eq _ (by omega) (by omega)]

/-- The bounds of a solid colour are within the range. -/
theorem Uniform_inRange (u : Uniform) : RectInRange u.Bounds := by
  unfold Uniform.Bounds
  decide

/-- A non-empty rectangle inside a rectangle within the range is within the range. -/
theorem Clipped.inRange {r b : Rectangle} (h : Clipped r b) (hb : RectInRange b) :
    RectInRange r := by
  obtain ⟨a1, a2, a3, a4, a5, a6⟩ := h
  obtain ⟨⟨⟨b1, b2⟩, ⟨b3, b4⟩⟩, ⟨⟨b5, b6⟩, ⟨b7, b8⟩⟩⟩ := hb
  exact ⟨⟨⟨by omega, by omega⟩, ⟨by omega, by omega⟩⟩,
    ⟨⟨by omega, by omega⟩, ⟨by omega, by omega⟩⟩⟩

end bgra

namespace bgra

/-! ## Pixel operations -/

theorem blendOver_spec (s : Slice) (mem : Mem) (i : Int) (sr sg sb sa a : Nat) (h0 : 0 ≤ i)
    (h1 : i + 3 < s.len) :
    ∃ mem', blendOver s mem i sr sg sb sa a = some mem' ∧
      (∀ c : Nat, c < 4 → mem' (s.off + (i + c).toNat) =
        overByte (mem (s.off + (i + c).toNat)) a (chan c (sr, sg, sb, sa))) ∧
      (∀ b, (∀ c : Nat, c < 4 → b ≠ s.off + (i + c).toNat) → mem' b = mem b) := by
  unfold blendOver
  rw [Slice.index_inb _ _ _ (by omega) (by omega), Slice.index_inb _ _ _ (by omega) (by omega),
    Slice.index_inb _ _ _ (by omega) (by omega), Slice.index_inb _ _ _ (by omega) (by omega)]
  simp only [Option.some_bind]
  rw [Slice.store_inb _ _ _ _ (by omega) (by omega)]
  simp only [Option.some_bind]
  rw [Slice.store_inb _ _ _ _ (by omega) (by omega)]
  simp only [Option.some_bind]
  rw [Slice.store_inb _ _ _ _ (by omega) (by omega)]
  simp only [Option.some_bind]
  rw [Slice.store_inb _ _ _ _ (by omega) (by omega)]
  refine ⟨_, rfl, ?_, ?_⟩
  · intro c hc
    have e0 : (i + 0).toNat = i.toNat := by simp
    have e1 : (i + 1).toNat = i.toNat + 1 := by omega
    have e2 : (i + 2).toNat = i.toNat + 2 := by omega
    have e3 : (i + 3).toNat = i.toNat + 3 := by omega
    interval_cases c <;> simp [Function.update_apply, overByte, chan, e0, e1, e2, e3]
  · intro b hb
    have b0 := hb 0 (by omega)
    have b1 := hb 1 (by omega)
    have b2 := hb 2 (by omega)
    have b3 := hb 3 (by omega)
    simp only [Function.update_apply]
    simp only [Nat.cast_ofNat, Nat.cast_zero, Nat.cast_one] at b0 b1 b2 b3
    rw [if_neg b3, if_neg b0, if_neg b1, if_neg b2]

/-! ## drawFillOver -/

theorem drawFillOver_row_seq (fuel : Nat) (dst : BGRA) (sr sg sb sa a : Nat) (mem : Mem)
    (i0 : Int) (n : Nat) (hf : n < fuel) :
    drawFillOver.row fuel dst sr sg sb sa a mem i0 (i0 + n * 4) =
      (seqFrom (fun x mem => blendOver dst.Pix mem (i0 + x * 4) sr sg sb sa a) n 0 mem).bind
        fun mem => some (mem, i0 + n * 4) := by
  unfold drawFillOver.row
  have := loop_seq (fun ((_, i) : Mem × Int) => decide (i < i0 + n * 4))
    (fun (mem, i) => (blendOver dst.Pix mem i sr sg sb sa a).bind fun mem => some (mem, i + 4))
    (fun k => i0 + k * 4) (fun x mem => blendOver dst.Pix mem (i0 + x * 4) sr sg sb sa a) n
    (by intro k mem hk; simp; omega)
    (by
      intro k mem hk
      simp only [Nat.cast_add, Nat.cast_one]
      have : i0 + (k + 1 : Int) * 4 = i0 + k * 4 + 4 := by ring
      rw [this])
    (by intro mem; simp)
    fuel hf mem
  simpa using this

theorem drawFillOver_seq (fuel : Nat) (mem : Mem) (dst : BGRA) (r : Rectangle) (src : Uniform)
    (nx ny : Nat) (hdx : r.Dx = nx) (hdy : r.Dy = ny) (hfx : nx < fuel) (hfy : ny < fuel) :
    drawFillOver fuel mem dst r src =
      seqFrom (fun j mem => seqFrom (fun x mem =>
        blendOver dst.Pix mem (dst.PixOffset (r.Min.X + x) (r.Min.Y + j))
          src.RGBA.1 src.RGBA.2.1 src.RGBA.2.2.1 src.RGBA.2.2.2
          (u32 (sub32 m src.RGBA.2.2.2 * 0x101))) nx 0 mem) ny 0 mem := by
  unfold drawFillOver
  rcases hs : src.RGBA with ⟨sr, sg, sb, sa⟩
  simp only
  have := loop_seq (fun ((_, y, _, _) : Mem × Int × Int × Int) => y != r.Max.Y)
    (fun (mem, y, i0, i1) =>
      (drawFillOver.row fuel dst sr sg sb sa (u32 (sub32 m sa * 0x101)) mem i0 i1).bind
        fun (mem, _) => some (mem, y + 1, i0 + dst.Stride, i1 + dst.Stride))
    (fun j => (r.Min.Y + j, dst.PixOffset r.Min.X (r.Min.Y + j),
      dst.PixOffset r.Min.X (r.Min.Y + j) + nx * 4))
    (fun j mem => seqFrom (fun x mem =>
        blendOver dst.Pix mem (dst.PixOffset (r.Min.X + x) (r.Min.Y + j))
          sr sg sb sa (u32 (sub32 m sa * 0x101))) nx 0 mem) ny
    (by intro k mem hk; simp; unfold Rectangle.Dy at hdy; omega)
    (by
      intro k mem hk
      simp only
      rw [drawFillOver_row_seq _ _ _ _ _ _ _ _ _ _ hfx, bind_some_bind]
      have e1 : ∀ x : Nat, dst.PixOffset r.Min.X (r.Min.Y + k) + x * 4 =
          dst.PixOffset (r.Min.X + x) (r.Min.Y + k) := by
        intro x; unfold BGRA.PixOffset; ring
      simp only [e1]
      congr 1
      funext mem1
      simp only [Option.some.injEq, Prod.mk.injEq, true_and]
      refine ⟨?_, ?_, ?_⟩
      · push_cast; ring
      · unfold BGRA.PixOffset; push_cast; ring
      · unfold BGRA.PixOffset; push_cast; ring)
    (by intro mem; simp; unfold Rectangle.Dy at hdy; omega)
    fuel hfy mem
  simp only [Nat.cast_zero, add_zero, hdx] at this ⊢
  rw [this, map_fst_bind_some]

/-- What `drawFillOver` leaves in memory. -/
theorem drawFillOver_painted (fuel : Nat) (mem : Mem) (dst : BGRA) (r : Rectangle)
    (src : Uniform) (hw : dst.WF) (hr : Clipped r dst.Rect)
    (hfx : r.Dx.toNat < fuel) (hfy : r.Dy.toNat < fuel) :
    ∃ mem', drawFillOver fuel mem dst r src = some mem' ∧
      Painted dst r (fun x y c => overByte (mem (dst.addr x y c))
        (u32 (sub32 m src.RGBA.2.2.2 * 0x101)) (chan c src.RGBA)) mem mem' := by
  obtain ⟨nx, ny, hdx, hdy, ex, ey⟩ := hr.sizes
  rw [drawFillOver_seq fuel mem dst r src nx ny hdx hdy (by omega) (by omega)]
  apply grid_painted_indep dst hw r hr (fun k => r.Min.X + k) (fun k => r.Min.Y + k) nx ny
    (Enum.up _ _ _ hdx) (Enum.up _ _ _ hdy)
  intro j x mem1 hj hx hown _
  have hin : Inside dst.Rect (r.Min.X + x) (r.Min.Y + j) := by
    apply Inside.of_clipped hr
    unfold Rectangle.Dx at hdx
    unfold Rectangle.Dy at hdy
    exact ⟨by omega, by omega, by omega, by omega⟩
  have hb := hw.inb _ _ hin
  obtain ⟨mem', h1, h2, h3⟩ := blendOver_spec dst.Pix mem1 _ src.RGBA.1 src.RGBA.2.1
    src.RGBA.2.2.1 src.RGBA.2.2.2 (u32 (sub32 m src.RGBA.2.2.2 * 0x101)) hb.1 hb.2
  refine ⟨mem', h1, ?_, h3⟩
  intro c hc
  have := h2 c hc
  unfold BGRA.addr
  rw [this]
  have := hown c hc
  unfold BGRA.addr at this
  rw [this]

end bgra

namespace bgra

/-! ## drawBGRA, the fallback -/

theorem blendMaskOver_spec (s : Slice) (mem : Mem) (i : Int) (sr sg sb sa ma : Nat)
    (h0 : 0 ≤ i) (h1 : i + 3 < s.len) :
    ∃ mem', blendMaskOver s mem i sr sg sb sa ma = some mem' ∧
      (∀ c : Nat, c < 4 → mem' (s.off + (i + c).toNat) =
        maskOverByte (mem (s.off + (i + c).toNat)) sa ma (chan c (sr, sg, sb, sa))) ∧
      (∀ b, (∀ c : Nat, c < 4 → b ≠ s.off + (i + c).toNat) → mem' b = mem b) := by
  unfold blendMaskOver
  rw [Slice.index_inb _ _ _ (by omega) (by omega), Slice.index_inb _ _ _ (by omega) (by omega),
    Slice.index_inb _ _ _ (by omega) (by omega), Slice.index_inb _ _ _ (by omega) (by omega)]
  simp only [Option.some_bind]
  rw [Slice.store_inb _ _ _ _ (by omega) (by omega)]
  simp only [Option.some_bind]
  rw [Slice.store_inb _ _ _ _ (by omega) (by omega)]
  simp only [Option.some_bind]
  rw [Slice.store_inb _ _ _ _ (by omega) (by omega)]
  simp only [Option.some_bind]
  rw [Slice.store_inb _ _ _ _ (by omega) (by omega)]
  refine ⟨_, rfl, ?_, ?_⟩
  · intro c hc
    have e0 : (i + 0).toNat = i.toNat := by simp
    have e1 : (i + 1).toNat = i.toNat + 1 := by omega
    have e2 : (i + 2).toNat = i.toNat + 2 := by omega
    have e3 : (i + 3).toNat = i.toNat + 3 := by omega
    interval_cases c <;> simp [Function.update_apply, maskOverByte, chan, e0, e1, e2, e3]
  · intro b hb
    have b0 := hb 0 (by omega)
    have b1 := hb 1 (by omega)
    have b2 := hb 2 (by omega)
    have b3 := hb 3 (by omega)
    simp only [Function.update_apply]
    simp only [Nat.cast_ofNat, Nat.cast_zero, Nat.cast_one] at b0 b1 b2 b3
    rw [if_neg b3, if_neg b0, if_neg b1, if_neg b2]

/-- Four stores in the order `i+2`, `i+1`, `i+0`, `i+3`, as every loop but that of
`drawRGBASrc` has them. -/
theorem store4_spec (s : Slice) (mem : Mem) (i : Int) (v : Nat → Byte)
    (h0 : 0 ≤ i) (h1 : i + 3 < s.len) :
    ∃ mem', ((s.store mem (i + 2) (v 2)).bind fun mem =>
        (s.store mem (i + 1) (v 1)).bind fun mem =>
        (s.store mem (i + 0) (v 0)).bind fun mem => s.store mem (i + 3) (v 3)) = some mem' ∧
      (∀ c : Nat, c < 4 → mem' (s.off + (i + c).toNat) = v c) ∧
      (∀ b, (∀ c : Nat, c < 4 → b ≠ s.off + (i + c).toNat) → mem' b = mem b) := by
  rw [Slice.store_inb _ _ _ _ (by omega) (by omega)]
  simp only [Option.some_bind]
  rw [Slice.store_inb _ _ _ _ (by omega) (by omega)]
  simp only [Option.some_bind]
  rw [Slice.store_inb _ _ _ _ (by omega) (by omega)]
  simp only [Option.some_bind]
  rw [Slice.store_inb _ _ _ _ (by omega) (by omega)]
  refine ⟨_, rfl, ?_, ?_⟩
  · intro c hc
    have e0 : (i + 0).toNat = i.toNat := by simp
    have e1 : (i + 1).toNat = i.toNat + 1 := by omega
    have e2 : (i + 2).toNat = i.toNat + 2 := by omega
    have e3 : (i + 3).toNat = i.toNat + 3 := by omega
    interval_cases c <;> simp [Function.update_apply, e0, e1, e2, e3]
  · intro b hb
    have b0 := hb 0 (by omega)
    have b1 := hb 1 (by omega)
    have b2 := hb 2 (by omega)
    have b3 := hb 3 (by omega)
    simp only [Function.update_apply]
    simp only [Nat.cast_ofNat, Nat.cast_zero, Nat.cast_one] at b0 b1 b2 b3
    rw [if_neg b3, if_neg b0, if_neg b1, if_neg b2]

theorem drawBGRA_pixel_spec (dst : BGRA) (src : Image) (mask : Option Image) (op : draw.Op)
    (mem : Mem) (sy my i sx mx : Int) (ma : Nat) (cs : color.Color)
    (h0 : 0 ≤ i) (h1 : i + 3 < dst.Pix.len)
    (hm : drawBGRA.maskAlpha mask mem mx my = some ma) (hs : src.At mem sx sy = some cs) :
    ∃ mem', drawBGRA.pixel dst src mask op mem sy my i sx mx = some mem' ∧
      (∀ c : Nat, c < 4 → mem' (dst.Pix.off + (i + c).toNat) =
        fallbackByte op (mem (dst.Pix.off + (i + c).toNat)) cs.RGBA ma c) ∧
      (∀ b, (∀ c : Nat, c < 4 → b ≠ dst.Pix.off + (i + c).toNat) → mem' b = mem b) := by
  unfold drawBGRA.pixel
  rw [hm, hs]
  simp only [Option.some_bind]
  rcases hc : cs.RGBA with ⟨sr, sg, sb, sa⟩
  simp only
  by_cases hop : op = draw.Op.Over
  · simp only [hop, if_true, fallbackByte]
    exact blendMaskOver_spec dst.Pix mem i sr sg sb sa ma h0 h1
  · simp only [hop, if_false, fallbackByte]
    obtain ⟨mem', e, hv, hf⟩ := store4_spec dst.Pix mem i
      (fun c => srcByte ma (chan c (sr, sg, sb, sa))) h0 h1
    refine ⟨mem', ?_, hv, hf⟩
    rw [← e]
    simp [srcByte, chan]

theorem drawBGRA_row_seq (fuel : Nat) (dst : BGRA) (src : Image) (mask : Option Image)
    (op : draw.Op) (mem : Mem) (sy my i0 sx0 mx0 di : Int) (n : Nat) (hf : n < fuel) :
    drawBGRA.row fuel dst src mask op mem sy my i0 sx0 mx0 (sx0 + n) di 1 =
      (seqFrom (fun x mem => drawBGRA.pixel dst src mask op mem sy my (i0 + x * di) (sx0 + x)
        (mx0 + x)) n 0 mem).bind fun mem => some (mem, i0 + n * di, sx0 + n, mx0 + n) := by
  unfold drawBGRA.row
  have := loop_seq (fun ((_, _, sx, _) : Mem × Int × Int × Int) => sx != sx0 + n)
    (fun (mem, i, sx, mx) =>
      (drawBGRA.pixel dst src mask op mem sy my i sx mx).bind fun mem =>
      some (mem, i + di, sx + 1, mx + 1))
    (fun k => (i0 + k * di, sx0 + k, mx0 + k))
    (fun x mem => drawBGRA.pixel dst src mask op mem sy my (i0 + x * di) (sx0 + x) (mx0 + x)) n
    (by intro k mem hk; simp; omega)
    (by
      intro k mem hk
      simp only [Nat.cast_add, Nat.cast_one]
      congr 1
      funext mem1
      simp only [Option.some.injEq, Prod.mk.injEq, true_and]
      refine ⟨?_, ?_, ?_⟩ <;> ring)
    (by intro mem; simp)
    fuel hf mem
  simpa using this

theorem drawBGRA_seq (fuel : Nat) (mem : Mem) (dst : BGRA) (r : Rectangle) (img : Image)
    (sp : Point) (mask : Option Image) (mp : Point) (op : draw.Op)
    (nx ny : Nat) (hdx : r.Dx = nx) (hdy : r.Dy = ny) (hfx : nx < fuel) (hfy : ny < fuel) :
    drawBGRA fuel mem dst r (.image img) sp mask mp op =
      seqFrom (fun j mem => seqFrom (fun x mem =>
        drawBGRA.pixel dst img mask op mem (sp.Y + j) (mp.Y + j)
          (dst.PixOffset (r.Min.X + x) (r.Min.Y + j)) (sp.X + x) (mp.X + x)) nx 0 mem)
        ny 0 mem := by
  unfold drawBGRA
  simp only [Bool.false_and, Bool.false_eq_true, if_false, Source.get]
  have hsx1 : sp.X + r.Min.X - r.Min.X + (r.Max.X - r.Min.X) = sp.X + nx := by
    unfold Rectangle.Dx at hdx; omega
  have := loop_seq (fun ((_, y, _, _, _) : Mem × Int × Int × Int × Int) => y != r.Max.Y)
    (fun (mem, y, sy, my, i0) =>
      (drawBGRA.row fuel dst img mask op mem sy my i0 (sp.X + r.Min.X - r.Min.X)
        (mp.X + r.Min.X - r.Min.X) (sp.X + r.Min.X - r.Min.X + (r.Max.X - r.Min.X))
        (1 * 4) 1).bind
        fun (mem, _, _, _) => some (mem, y + 1, sy + 1, my + 1, i0 + 1 * dst.Stride))
    (fun j => (r.Min.Y + j, sp.Y + j, mp.Y + j, dst.PixOffset r.Min.X (r.Min.Y + j)))
    (fun j mem => seqFrom (fun x mem =>
        drawBGRA.pixel dst img mask op mem (sp.Y + j) (mp.Y + j)
          (dst.PixOffset (r.Min.X + x) (r.Min.Y + j)) (sp.X + x) (mp.X + x)) nx 0 mem) ny
    (by intro k mem hk; simp; unfold Rectangle.Dy at hdy; omega)
    (by
      intro k mem hk
      simp only
      have e0 : sp.X + r.Min.X - r.Min.X = sp.X := by ring
      have e0' : mp.X + r.Min.X - r.Min.X = mp.X := by ring
      rw [hsx1, e0, e0', drawBGRA_row_seq _ _ _ _ _ _ _ _ _ _ _ _ _ hfx, bind_some_bind]
      have e1 : ∀ x : Nat, dst.PixOffset r.Min.X (r.Min.Y + k) + x * (1 * 4) =
          dst.PixOffset (r.Min.X + x) (r.Min.Y + k) := by
        intro x; unfold BGRA.PixOffset; ring
      simp only [e1]
      congr 1
      funext mem1
      simp only [Option.some.injEq, Prod.mk.injEq, true_and]
      refine ⟨?_, ?_, ?_, ?_⟩
      · push_cast; ring
      · push_cast; ring
      · push_cast; ring
      · unfold BGRA.PixOffset; push_cast; ring)
    (by intro mem; simp; unfold Rectangle.Dy at hdy; omega)
    fuel hfy mem
  have e2 : sp.Y + r.Min.Y - r.Min.Y = sp.Y := by ring
  have e3 : mp.Y + r.Min.Y - r.Min.Y = mp.Y := by ring
  simp only [Nat.cast_zero, add_zero, e2, e3] at this ⊢
  rw [this, map_fst_bind_some]

/-- What the fallback leaves in memory when neither the source nor the mask is read from
bytes the call writes: `S x y` is the colour `src.At` returns for the pixel `(x, y)` of the
rectangle and `M x y` the mask alpha. -/
theorem drawBGRA_painted (fuel : Nat) (mem : Mem) (dst : BGRA) (r : Rectangle) (img : Image)
    (sp : Point) (mask : Option Image) (mp : Point) (op : draw.Op)
    (hw : dst.WF) (hr : Clipped r dst.Rect)
    (hfx : r.Dx.toNat < fuel) (hfy : r.Dy.toNat < fuel)
    (S : Int → Int → color.Color) (M : Int → Int → Nat)
    (hsrc : ∀ x y mem1, Inside r x y →
      (∀ c, c < 4 → mem1 (dst.addr x y c) = mem (dst.addr x y c)) →
      (∀ a, (∀ x y c, Inside r x y → c < 4 → a ≠ dst.addr x y c) → mem1 a = mem a) →
      img.At mem1 (sp.X + (x - r.Min.X)) (sp.Y + (y - r.Min.Y)) = some (S x y))
    (hmask : ∀ x y mem1, Inside r x y →
      (∀ c, c < 4 → mem1 (dst.addr x y c) = mem (dst.addr x y c)) →
      (∀ a, (∀ x y c, Inside r x y → c < 4 → a ≠ dst.addr x y c) → mem1 a = mem a) →
      drawBGRA.maskAlpha mask mem1 (mp.X + (x - r.Min.X)) (mp.Y + (y - r.Min.Y)) =
        some (M x y)) :
    ∃ mem', drawBGRA fuel mem dst r (.image img) sp mask mp op = some mem' ∧
      Painted dst r (fun x y c =>
        fallbackByte op (mem (dst.addr x y c)) (S x y).RGBA (M x y) c) mem mem' := by
  obtain ⟨nx, ny, hdx, hdy, ex, ey⟩ := hr.sizes
  rw [drawBGRA_seq fuel mem dst r img sp mask mp op nx ny hdx hdy (by omega) (by omega)]
  apply grid_painted_indep dst hw r hr (fun k => r.Min.X + k) (fun k => r.Min.Y + k) nx ny
    (Enum.up _ _ _ hdx) (Enum.up _ _ _ hdy)
  intro j x mem1 hj hx hown hout
  have hir : Inside r (r.Min.X + x) (r.Min.Y + j) := by
    unfold Rectangle.Dx at hdx
    unfold Rectangle.Dy at hdy
    exact ⟨by omega, by omega, by omega, by omega⟩
  have hb := hw.inb _ _ (Inside.of_clipped hr hir)
  have hs := hsrc _ _ mem1 hir hown hout
  have hm := hmask _ _ mem1 hir hown hout
  have ex1 : sp.X + (r.Min.X + (x : Int) - r.Min.X) = sp.X + x := by ring
  have ey1 : sp.Y + (r.Min.Y + (j : Int) - r.Min.Y) = sp.Y + j := by ring
  have ex2 : mp.X + (r.Min.X + (x : Int) - r.Min.X) = mp.X + x := by ring
  have ey2 : mp.Y + (r.Min.Y + (j : Int) - r.Min.Y) = mp.Y + j := by ring
  rw [ex1, ey1] at hs
  rw [ex2, ey2] at hm
  obtain ⟨mem', h1, h2, h3⟩ := drawBGRA_pixel_spec dst img mask op mem1 (sp.Y + j) (mp.Y + j)
    _ (sp.X + x) (mp.X + x) _ _ hb.1 hb.2 hm hs
  refine ⟨mem', h1, ?_, h3⟩
  intro c hc
  have := h2 c hc
  unfold BGRA.addr
  rw [this]
  have := hown c hc
  unfold BGRA.addr at this
  rw [this]

end bgra

namespace bgra

/-! ## drawRGBAOver and drawCopyOver -/

/-- The row loop `for i := i0; i != i1; i += idelta` of `drawRGBAOver` and `drawCopyOver`. -/
theorem rowNe_seq (fuel : Nat) (P : Mem → Int → Option Mem) (mem : Mem) (i0 idelta : Int)
    (hd : idelta = 4 ∨ idelta = -4) (n : Nat) (hf : n < fuel) :
    loop (fun ((_, i) : Mem × Int) => i != i0 + n * idelta)
      (fun (mem, i) => (P mem i).bind fun mem => some (mem, i + idelta)) fuel (mem, i0) =
      (seqFrom (fun x mem => P mem (i0 + x * idelta)) n 0 mem).bind
        fun mem => some (mem, i0 + n * idelta) := by
  have := loop_seq (fun ((_, i) : Mem × Int) => i != i0 + n * idelta)
    (fun (mem, i) => (P mem i).bind fun mem => some (mem, i + idelta))
    (fun k => i0 + k * idelta) (fun x mem => P mem (i0 + x * idelta)) n
    (by intro k mem hk; rcases hd with rfl | rfl <;> simp <;> omega)
    (by
      intro k mem hk
      simp only [Nat.cast_add, Nat.cast_one]
      have : i0 + (k + 1 : Int) * idelta = i0 + k * idelta + idelta := by ring
      rw [this])
    (by intro mem; simp)
    fuel hf mem
  simpa using this

/-- The outer loop `for ; dy > 0; dy--` of `drawRGBAOver` and `drawCopyOver`. -/
theorem rowsDown_seq {β : Type} (fuel : Nat) (dp sp : Slice)
    (row : Slice → Slice → Mem → Option (Mem × β)) (ny : Nat) (d0 s0 dd sd : Int)
    (hf : ny < fuel) (mem : Mem) :
    (loop (fun ((_, dy, _, _) : Mem × Int × Int × Int) => decide (dy > 0))
      (fun (mem, dy, d0, s0) =>
        (dp.tail d0).bind fun dpix =>
        (sp.tail s0).bind fun spix =>
        (row dpix spix mem).bind fun (mem, _) => some (mem, dy - 1, d0 + dd, s0 + sd))
      fuel (mem, (ny : Int), d0, s0)).map Prod.fst =
    seqFrom (fun j mem =>
      (dp.tail (d0 + j * dd)).bind fun dpix =>
      (sp.tail (s0 + j * sd)).bind fun spix => (row dpix spix mem).map Prod.fst) ny 0 mem := by
  have := loop_seq (fun ((_, dy, _, _) : Mem × Int × Int × Int) => decide (dy > 0))
    (fun (mem, dy, d0, s0) =>
      (dp.tail d0).bind fun dpix =>
      (sp.tail s0).bind fun spix =>
      (row dpix spix mem).bind fun (mem, _) => some (mem, dy - 1, d0 + dd, s0 + sd))
    (fun j => ((ny : Int) - j, d0 + j * dd, s0 + j * sd))
    (fun j mem =>
      (dp.tail (d0 + j * dd)).bind fun dpix =>
      (sp.tail (s0 + j * sd)).bind fun spix => (row dpix spix mem).map Prod.fst) ny
    (by intro k mem hk; simp; omega)
    (by
      intro k mem hk
      simp only
      cases dp.tail (d0 + k * dd) with
      | none => rfl
      | some dpix =>
        cases sp.tail (s0 + k * sd) with
        | none => rfl
        | some spix =>
          simp only [Option.some_bind]
          cases row dpix spix mem with
          | none => rfl
          | some res =>
            simp only [Option.some_bind, Option.map_some', Option.some.injEq, Prod.mk.injEq,
              true_and]
            refine ⟨?_, ?_, ?_⟩ <;> (push_cast; ring))
    (by intro mem; simp)
    fuel hf mem
  simp only [Nat.cast_zero, sub_zero, zero_mul, add_zero] at this
  rw [this, map_fst_bind_some]

end bgra

namespace bgra

theorem Inside.src {r b : Rectangle} {sp : Point} (h : Clipped (r.Add (sp.Sub r.Min)) b)
    {x y : Int} (hi : Inside r x y) :
    Inside b (sp.X + (x - r.Min.X)) (sp.Y + (y - r.Min.Y)) := by
  obtain ⟨h1, h2, h3, h4, h5, h6⟩ := h
  obtain ⟨i1, i2, i3, i4⟩ := hi
  simp only [Rectangle.Add, Point.Sub] at h1 h2 h3 h4 h5 h6
  exact ⟨by omega, by omega, by omega, by omega⟩

theorem Inside.left {r : Rectangle} {x y : Int} (hi : Inside r x y) : Inside r r.Min.X y := by
  obtain ⟨i1, i2, i3, i4⟩ := hi
  exact ⟨by omega, by omega, by omega, by omega⟩

theorem BGRA.PixOffset_row (p : BGRA) (x0 x y : Int) :
    p.PixOffset x y = p.PixOffset x0 y + (x - x0) * 4 := by
  unfold BGRA.PixOffset; ring

/-- The body of the inner loop of `drawCopyOver` at the pixel `(x, y)` of the rectangle: it
blends the source pixel it reads into the destination pixel, both taken from the memory as
it is when the body runs. -/
theorem drawCopyOver_pixel_at (dst src : BGRA) (hw : dst.WF) (hsw : src.WF) (r : Rectangle)
    (sp : Point) (hr : Clipped r dst.Rect) (hsr : Clipped (r.Add (sp.Sub r.Min)) src.Rect)
    (x y : Int) (hi : Inside r x y) (mem1 : Mem) :
    ∃ mem', drawCopyOver.pixel (Slice.drop dst.Pix (dst.PixOffset r.Min.X y).toNat)
        (Slice.drop src.Pix (src.PixOffset sp.X (sp.Y + (y - r.Min.Y))).toNat) mem1
        ((x - r.Min.X) * 4) = some mem' ∧
      (∀ c, c < 4 → mem' (dst.addr x y c) = overByte (mem1 (dst.addr x y c))
        (u32 (sub32 m (src.color16 mem1 (sp.X + (x - r.Min.X)) (sp.Y + (y - r.Min.Y))).2.2.2
          * 0x101))
        (chan c (src.color16 mem1 (sp.X + (x - r.Min.X)) (sp.Y + (y - r.Min.Y))))) ∧
      (∀ a, (∀ c, c < 4 → a ≠ dst.addr x y c) → mem' a = mem1 a) := by
  have hd1 := hw.inb _ _ (Inside.of_clipped hr hi)
  have hd0 := hw.inb _ _ (Inside.of_clipped hr hi.left)
  have hD := dst.PixOffset_row r.Min.X x y
  have hs1 := hsw.inb _ _ (Inside.src hsr hi)
  have hs0 := hsw.inb _ _ (Inside.src hsr hi.left)
  have hS := src.PixOffset_row sp.X (sp.X + (x - r.Min.X)) (sp.Y + (y - r.Min.Y))
  have e00 : r.Min.X - r.Min.X = 0 := by ring
  rw [e00, add_zero] at hs0
  have e01 : sp.X + (x - r.Min.X) - sp.X = x - r.Min.X := by ring
  rw [e01] at hS
  have hx : 0 ≤ (x - r.Min.X) * 4 := by have := hi.1; omega
  have ea : ∀ c : Nat, (Slice.drop dst.Pix (dst.PixOffset r.Min.X y).toNat).off +
      ((x - r.Min.X) * 4 + c).toNat = dst.addr x y c := by
    intro c; unfold BGRA.addr Slice.drop; simp only; omega
  have es : ∀ c : Nat, c < 4 →
      (Slice.drop src.Pix (src.PixOffset sp.X (sp.Y + (y - r.Min.Y))).toNat).off +
      ((x - r.Min.X) * 4 + c).toNat =
        src.addr (sp.X + (x - r.Min.X)) (sp.Y + (y - r.Min.Y)) c := by
    intro c _; unfold BGRA.addr Slice.drop; simp only; omega
  have es0 := es 0 (by omega)
  have es1 := es 1 (by omega)
  have es2 := es 2 (by omega)
  have es3 := es 3 (by omega)
  simp only [Nat.cast_ofNat, Nat.cast_zero, Nat.cast_one] at es0 es1 es2 es3
  have hlen : ((Slice.drop src.Pix (src.PixOffset sp.X (sp.Y + (y - r.Min.Y))).toNat).len : Int)
      = src.Pix.len - src.PixOffset sp.X (sp.Y + (y - r.Min.Y)) := by
    unfold Slice.drop; simp only; omega
  have hlen' : ((Slice.drop dst.Pix (dst.PixOffset r.Min.X y).toNat).len : Int)
      = dst.Pix.len - dst.PixOffset r.Min.X y := by
    unfold Slice.drop; simp only; omega
  unfold drawCopyOver.pixel
  rw [Slice.index_inb _ _ _ (by omega) (by omega), Slice.index_inb _ _ _ (by omega) (by omega),
    Slice.index_inb _ _ _ (by omega) (by omega), Slice.index_inb _ _ _ (by omega) (by omega)]
  simp only [Option.some_bind, es0, es1, es2, es3]
  obtain ⟨mem', h1, h2, h3⟩ := blendOver_spec
    (Slice.drop dst.Pix (dst.PixOffset r.Min.X y).toNat) mem1 ((x - r.Min.X) * 4)
    (u32 ((mem1 (src.addr (sp.X + (x - r.Min.X)) (sp.Y + (y - r.Min.Y)) 2)).val * 0x101))
    (u32 ((mem1 (src.addr (sp.X + (x - r.Min.X)) (sp.Y + (y - r.Min.Y)) 1)).val * 0x101))
    (u32 ((mem1 (src.addr (sp.X + (x - r.Min.X)) (sp.Y + (y - r.Min.Y)) 0)).val * 0x101))
    (u32 ((mem1 (src.addr (sp.X + (x - r.Min.X)) (sp.Y + (y - r.Min.Y)) 3)).val * 0x101))
    (u32 (sub32 m (u32 ((mem1 (src.addr (sp.X + (x - r.Min.X)) (sp.Y + (y - r.Min.Y)) 3)).val
      * 0x101)) * 0x101)) hx (by omega)
  refine ⟨mem', h1, ?_, ?_⟩
  · intro c hc
    have := h2 c hc
    rw [ea c] at this
    rw [this]
    rfl
  · intro a ha
    apply h3
    intro c hc
    rw [ea c]
    exact ha c hc

end bgra

namespace bgra

/-- The two nested loops of `drawRGBAOver` and `drawCopyOver` as a sequence of pixel
operations, still with the slice expressions of every row. -/
theorem overRows_seq (fuel : Nat) (dp sp : Slice) (P : Slice → Slice → Mem → Int → Option Mem)
    (nx ny : Nat) (dy0 d0 s0 dd sd i0 i1 idelta : Int) (hd : idelta = 4 ∨ idelta = -4)
    (hi1 : i1 = i0 + nx * idelta) (hdy : dy0 = ny)
    (hfx : nx < fuel) (hfy : ny < fuel) (mem : Mem) :
    (loop (fun ((_, dy, _, _) : Mem × Int × Int × Int) => decide (dy > 0))
      (fun (mem, dy, d0, s0) =>
        (dp.tail d0).bind fun dpix =>
        (sp.tail s0).bind fun spix =>
        (loop (fun ((_, i) : Mem × Int) => i != i1)
          (fun (mem, i) => (P dpix spix mem i).bind fun mem => some (mem, i + idelta))
          fuel (mem, i0)).bind fun (mem, _) => some (mem, dy - 1, d0 + dd, s0 + sd))
      fuel (mem, dy0, d0, s0)).map Prod.fst =
    seqFrom (fun j mem =>
      (dp.tail (d0 + j * dd)).bind fun dpix =>
      (sp.tail (s0 + j * sd)).bind fun spix =>
      seqFrom (fun x mem => P dpix spix mem (i0 + x * idelta)) nx 0 mem) ny 0 mem := by
  subst hi1 hdy
  rw [rowsDown_seq fuel dp sp (fun dpix spix mem =>
    loop (fun ((_, i) : Mem × Int) => i != i0 + nx * idelta)
      (fun (mem, i) => (P dpix spix mem i).bind fun mem => some (mem, i + idelta))
      fuel (mem, i0)) ny d0 s0 dd sd hfy mem]
  apply seqFrom_congr
  intro j mem1 _ _
  simp only
  cases dp.tail (d0 + j * dd) with
  | none => rfl
  | some dpix =>
    cases sp.tail (s0 + j * sd) with
    | none => rfl
    | some spix =>
      simp only [Option.some_bind]
      rw [rowNe_seq fuel (P dpix spix) mem1 i0 idelta hd nx hfx, map_fst_bind_some]

/-- The destination column of the `k`-th step of a row of `drawRGBAOver` and `drawCopyOver`. -/
theorem colAt_enum (r : Rectangle) (sp : Point) (nx : Nat) (hdx : r.Dx = nx) :
    Enum r.Min.X r.Max.X nx (colAt r sp) := by
  unfold Rectangle.Dx at hdx
  unfold colAt
  by_cases h : forward r sp
  · simp only [h, if_true]; exact Enum.up _ _ _ hdx
  · simp only [h, if_false]; exact Enum.down _ _ _ hdx

theorem rowAt_enum (r : Rectangle) (sp : Point) (ny : Nat) (hdy : r.Dy = ny) :
    Enum r.Min.Y r.Max.Y ny (rowAt r sp) := by
  unfold Rectangle.Dy at hdy
  unfold rowAt
  by_cases h : forward r sp
  · simp only [h, if_true]; exact Enum.up _ _ _ hdy
  · simp only [h, if_false]; exact Enum.down _ _ _ hdy

theorem drawCopyOver_grid (fuel : Nat) (mem : Mem) (dst src : BGRA) (r : Rectangle)
    (sp : Point) (hw : dst.WF) (hsw : src.WF) (hr : Clipped r dst.Rect)
    (hsr : Clipped (r.Add (sp.Sub r.Min)) src.Rect)
    (nx ny : Nat) (hdx : r.Dx = nx) (hdy : r.Dy = ny) (hfx : nx < fuel) (hfy : ny < fuel) :
    drawCopyOver fuel mem dst r src sp =
      seqFrom (fun j mem => seqFrom (fun x mem =>
        drawCopyOver.pixel (Slice.drop dst.Pix (dst.PixOffset r.Min.X (rowAt r sp j)).toNat)
          (Slice.drop src.Pix (src.PixOffset sp.X (sp.Y + (rowAt r sp j - r.Min.Y))).toNat)
          mem ((colAt r sp x - r.Min.X) * 4)) nx 0 mem) ny 0 mem := by
  have hY := rowAt_enum r sp ny hdy
  have tails : ∀ j, j < ny →
      dst.Pix.tail (dst.PixOffset r.Min.X (rowAt r sp j)) =
        some (Slice.drop dst.Pix (dst.PixOffset r.Min.X (rowAt r sp j)).toNat) ∧
      src.Pix.tail (src.PixOffset sp.X (sp.Y + (rowAt r sp j - r.Min.Y))) =
        some (Slice.drop src.Pix
          (src.PixOffset sp.X (sp.Y + (rowAt r sp j - r.Min.Y))).toNat) := by
    intro j hj
    have hy := hY.mem j hj
    have hi : Inside r r.Min.X (rowAt r sp j) := ⟨le_refl _, hr.1, hy.1, hy.2⟩
    have h1 := hw.inb _ _ (Inside.of_clipped hr hi)
    have h2 := hsw.inb _ _ (Inside.src hsr hi)
    have e00 : r.Min.X - r.Min.X = 0 := by ring
    rw [e00, add_zero] at h2
    exact ⟨Slice.tail_drop _ _ h1.1 (by omega), Slice.tail_drop _ _ h2.1 (by omega)⟩
  unfold Rectangle.Dx at hdx
  unfold Rectangle.Dy at hdy
  unfold drawCopyOver drawCopyOver.row
  by_cases hF : forward r sp
  · have hF' := hF
    unfold forward at hF'
    simp only [hF', if_true]
    rw [overRows_seq fuel dst.Pix src.Pix drawCopyOver.pixel nx ny r.Dy _ _ dst.Stride
      src.Stride 0 (r.Dx * 4) 4 (Or.inl rfl) (by unfold Rectangle.Dx; omega)
      (by unfold Rectangle.Dy; omega) hfx hfy mem]
    apply seqFrom_congr
    intro j mem1 _ hj
    have e1 : dst.PixOffset r.Min.X r.Min.Y + j * dst.Stride =
        dst.PixOffset r.Min.X (rowAt r sp j) := by
      unfold rowAt BGRA.PixOffset; simp only [hF, if_true]; ring
    have e2 : src.PixOffset sp.X sp.Y + j * src.Stride =
        src.PixOffset sp.X (sp.Y + (rowAt r sp j - r.Min.Y)) := by
      unfold rowAt BGRA.PixOffset; simp only [hF, if_true]; ring
    rw [e1, e2, (tails j (by omega)).1, (tails j (by omega)).2]
    simp only [Option.some_bind]
    apply seqFrom_congr
    intro x mem2 _ _
    have e3 : (0 : Int) + x * 4 = (colAt r sp x - r.Min.X) * 4 := by
      unfold colAt; simp only [hF, if_true]; ring
    rw [e3]
  · have hF' := hF
    unfold forward at hF'
    simp only [hF', if_false]
    rw [overRows_seq fuel dst.Pix src.Pix drawCopyOver.pixel nx ny r.Dy _ _ (-dst.Stride)
      (-src.Stride) ((r.Dx - 1) * 4) (-4) (-4) (Or.inr rfl) (by unfold Rectangle.Dx; omega)
      (by unfold Rectangle.Dy; omega) hfx hfy mem]
    apply seqFrom_congr
    intro j mem1 _ hj
    have e1 : dst.PixOffset r.Min.X r.Min.Y + (r.Dy - 1) * dst.Stride + j * -dst.Stride =
        dst.PixOffset r.Min.X (rowAt r sp j) := by
      unfold rowAt BGRA.PixOffset Rectangle.Dy; simp only [hF, if_false]; ring
    have e2 : src.PixOffset sp.X sp.Y + (r.Dy - 1) * src.Stride + j * -src.Stride =
        src.PixOffset sp.X (sp.Y + (rowAt r sp j - r.Min.Y)) := by
      unfold rowAt BGRA.PixOffset Rectangle.Dy; simp only [hF, if_false]; ring
    rw [e1, e2, (tails j (by omega)).1, (tails j (by omega)).2]
    simp only [Option.some_bind]
    apply seqFrom_congr
    intro x mem2 _ _
    have e3 : (r.Dx - 1) * 4 + x * (-4 : Int) = (colAt r sp x - r.Min.X) * 4 := by
      unfold colAt Rectangle.Dx; simp only [hF, if_false]; ring
    rw [e3]

end bgra

namespace bgra

theorem BGRA.color16_congr (p : BGRA) (mem1 mem : Mem) (x y : Int)
    (h : ∀ c, c < 4 → mem1 (p.addr x y c) = mem (p.addr x y c)) :
    p.color16 mem1 x y = p.color16 mem x y := by
  unfold BGRA.color16
  rw [h 0 (by omega), h 1 (by omega), h 2 (by omega), h 3 (by omega)]

/-- A byte of a buffer held apart from `dst` is none of the bytes of `dst`. -/
theorem Apart.ne {dst src : BGRA} (hw : dst.WF) (hsw : src.WF) (hap : Apart dst.Pix src.Pix)
    {x y x' y' : Int} {c c' : Nat} (h : Inside dst.Rect x y) (h' : Inside src.Rect x' y')
    (hc : c < 4) (hc' : c' < 4) : src.addr x' y' c' ≠ dst.addr x y c := by
  have a := dst.addr_window hw x y c h hc
  have b := src.addr_window hsw x' y' c' h' hc'
  unfold Apart at hap
  omega

/-- What `drawCopyOver` leaves in memory when the source is held apart from the
destination. -/
theorem drawCopyOver_painted (fuel : Nat) (mem : Mem) (dst src : BGRA) (r : Rectangle)
    (sp : Point) (hw : dst.WF) (hsw : src.WF) (hr : Clipped r dst.Rect)
    (hsr : Clipped (r.Add (sp.Sub r.Min)) src.Rect) (hap : Apart dst.Pix src.Pix)
    (hfx : r.Dx.toNat < fuel) (hfy : r.Dy.toNat < fuel) :
    ∃ mem', drawCopyOver fuel mem dst r src sp = some mem' ∧
      Painted dst r (fun x y c => overByte (mem (dst.addr x y c))
        (u32 (sub32 m (src.color16 mem (sp.X + (x - r.Min.X)) (sp.Y + (y - r.Min.Y))).2.2.2
          * 0x101))
        (chan c (src.color16 mem (sp.X + (x - r.Min.X)) (sp.Y + (y - r.Min.Y))))) mem mem' := by
  obtain ⟨nx, ny, hdx, hdy, ex, ey⟩ := hr.sizes
  rw [drawCopyOver_grid fuel mem dst src r sp hw hsw hr hsr nx ny hdx hdy (by omega) (by omega)]
  have hX := colAt_enum r sp nx hdx
  have hY := rowAt_enum r sp ny hdy
  apply grid_painted_indep dst hw r hr (colAt r sp) (rowAt r sp) nx ny hX hY
  intro j x mem1 hj hx hown hout
  have hi : Inside r (colAt r sp x) (rowAt r sp j) :=
    ⟨(hX.mem x hx).1, (hX.mem x hx).2, (hY.mem j hj).1, (hY.mem j hj).2⟩
  obtain ⟨mem', h1, h2, h3⟩ := drawCopyOver_pixel_at dst src hw hsw r sp hr hsr _ _ hi mem1
  refine ⟨mem', h1, ?_, h3⟩
  intro c hc
  rw [h2 c hc, hown c hc]
  rw [src.color16_congr mem1 mem _ _ (fun c' hc' => hout _ (fun x' y' c'' hi' hc'' =>
    Apart.ne hw hsw hap (Inside.of_clipped hr hi') (Inside.src hsr hi) hc'' hc'))]

end bgra

namespace bgra

theorem ofRGBA_Pix (p : image.RGBA) : (ofRGBA p).Pix = p.Pix := rfl

theorem ofRGBA_Rect (p : image.RGBA) : (ofRGBA p).Rect = p.Rect := rfl

theorem ofRGBA_PixOffset (p : image.RGBA) (x y : Int) :
    p.PixOffset x y = (ofRGBA p).PixOffset x y := rfl

theorem rgbaColor16_congr (p : image.RGBA) (mem1 mem : Mem) (x y : Int)
    (h : ∀ c, c < 4 → mem1 ((ofRGBA p).addr x y c) = mem ((ofRGBA p).addr x y c)) :
    p.color16 mem1 x y = p.color16 mem x y := by
  unfold image.RGBA.color16
  rw [h 0 (by omega), h 1 (by omega), h 2 (by omega), h 3 (by omega)]

/-- The body of the inner loop of `drawRGBAOver` at the pixel `(x, y)` of the rectangle. -/
theorem drawRGBAOver_pixel_at (dst : BGRA) (src : image.RGBA) (hw : dst.WF)
    (hsw : (ofRGBA src).WF) (r : Rectangle)
    (sp : Point) (hr : Clipped r dst.Rect) (hsr : Clipped (r.Add (sp.Sub r.Min)) src.Rect)
    (x y : Int) (hi : Inside r x y) (mem1 : Mem) :
    ∃ mem', drawRGBAOver.pixel (Slice.drop dst.Pix (dst.PixOffset r.Min.X y).toNat)
        (Slice.drop src.Pix ((ofRGBA src).PixOffset sp.X (sp.Y + (y - r.Min.Y))).toNat) mem1
        ((x - r.Min.X) * 4) = some mem' ∧
      (∀ c, c < 4 → mem' (dst.addr x y c) = overByte (mem1 (dst.addr x y c))
        (u32 (sub32 m (src.color16 mem1 (sp.X + (x - r.Min.X)) (sp.Y + (y - r.Min.Y))).2.2.2
          * 0x101))
        (chan c (src.color16 mem1 (sp.X + (x - r.Min.X)) (sp.Y + (y - r.Min.Y))))) ∧
      (∀ a, (∀ c, c < 4 → a ≠ dst.addr x y c) → mem' a = mem1 a) := by
  have hd1 := hw.inb _ _ (Inside.of_clipped hr hi)
  have hd0 := hw.inb _ _ (Inside.of_clipped hr hi.left)
  have hD := dst.PixOffset_row r.Min.X x y
  have hs1 := hsw.inb _ _ (Inside.src hsr hi)
  have hs0 := hsw.inb _ _ (Inside.src hsr hi.left)
  have hS := (ofRGBA src).PixOffset_row sp.X (sp.X + (x - r.Min.X)) (sp.Y + (y - r.Min.Y))
  have e00 : r.Min.X - r.Min.X = 0 := by ring
  rw [e00, add_zero] at hs0
  have e01 : sp.X + (x - r.Min.X) - sp.X = x - r.Min.X := by ring
  rw [e01] at hS
  rw [ofRGBA_Pix] at hs0 hs1
  have hx : 0 ≤ (x - r.Min.X) * 4 := by have := hi.1; omega
  have ea : ∀ c : Nat, (Slice.drop dst.Pix (dst.PixOffset r.Min.X y).toNat).off +
      ((x - r.Min.X) * 4 + c).toNat = dst.addr x y c := by
    intro c; unfold BGRA.addr Slice.drop; simp only; omega
  have es : ∀ c : Nat, c < 4 →
      (Slice.drop src.Pix ((ofRGBA src).PixOffset sp.X (sp.Y + (y - r.Min.Y))).toNat).off +
      ((x - r.Min.X) * 4 + c).toNat =
        (ofRGBA src).addr (sp.X + (x - r.Min.X)) (sp.Y + (y - r.Min.Y)) c := by
    intro c _; unfold BGRA.addr Slice.drop; simp only [ofRGBA_Pix]; omega
  have es0 := es 0 (by omega)
  have es1 := es 1 (by omega)
  have es2 := es 2 (by omega)
  have es3 := es 3 (by omega)
  simp only [Nat.cast_ofNat, Nat.cast_zero, Nat.cast_one] at es0 es1 es2 es3
  have hlen : ((Slice.drop src.Pix
      ((ofRGBA src).PixOffset sp.X (sp.Y + (y - r.Min.Y))).toNat).len : Int)
      = src.Pix.len - (ofRGBA src).PixOffset sp.X (sp.Y + (y - r.Min.Y)) := by
    unfold Slice.drop; simp only; omega
  have hlen' : ((Slice.drop dst.Pix (dst.PixOffset r.Min.X y).toNat).len : Int)
      = dst.Pix.len - dst.PixOffset r.Min.X y := by
    unfold Slice.drop; simp only; omega
  unfold drawRGBAOver.pixel
  rw [Slice.index_inb _ _ _ (by omega) (by omega), Slice.index_inb _ _ _ (by omega) (by omega),
    Slice.index_inb _ _ _ (by omega) (by omega), Slice.index_inb _ _ _ (by omega) (by omega)]
  simp only [Option.some_bind, es0, es1, es2, es3]
  obtain ⟨mem', h1, h2, h3⟩ := blendOver_spec
    (Slice.drop dst.Pix (dst.PixOffset r.Min.X y).toNat) mem1 ((x - r.Min.X) * 4)
    (u32 ((mem1 ((ofRGBA src).addr (sp.X + (x - r.Min.X)) (sp.Y + (y - r.Min.Y)) 0)).val
      * 0x101))
    (u32 ((mem1 ((ofRGBA src).addr (sp.X + (x - r.Min.X)) (sp.Y + (y - r.Min.Y)) 1)).val
      * 0x101))
    (u32 ((mem1 ((ofRGBA src).addr (sp.X + (x - r.Min.X)) (sp.Y + (y - r.Min.Y)) 2)).val
      * 0x101))
    (u32 ((mem1 ((ofRGBA src).addr (sp.X + (x - r.Min.X)) (sp.Y + (y - r.Min.Y)) 3)).val
      * 0x101))
    (u32 (sub32 m (u32 ((mem1 ((ofRGBA src).addr (sp.X + (x - r.Min.X))
      (sp.Y + (y - r.Min.Y)) 3)).val * 0x101)) * 0x101)) hx (by omega)
  refine ⟨mem', h1, ?_, ?_⟩
  · intro c hc
    have := h2 c hc
    rw [ea c] at this
    rw [this]
    rfl
  · intro a ha
    apply h3
    intro c hc
    rw [ea c]
    exact ha c hc

theorem drawRGBAOver_grid (fuel : Nat) (mem : Mem) (dst : BGRA) (src : image.RGBA)
    (r : Rectangle) (sp : Point) (hw : dst.WF) (hsw : (ofRGBA src).WF)
    (hr : Clipped r dst.Rect) (hsr : Clipped (r.Add (sp.Sub r.Min)) src.Rect)
    (nx ny : Nat) (hdx : r.Dx = nx) (hdy : r.Dy = ny) (hfx : nx < fuel) (hfy : ny < fuel) :
    drawRGBAOver fuel mem dst r src sp =
      seqFrom (fun j mem => seqFrom (fun x mem =>
        drawRGBAOver.pixel (Slice.drop dst.Pix (dst.PixOffset r.Min.X (rowAt r sp j)).toNat)
          (Slice.drop src.Pix
            ((ofRGBA src).PixOffset sp.X (sp.Y + (rowAt r sp j - r.Min.Y))).toNat)
          mem ((colAt r sp x - r.Min.X) * 4)) nx 0 mem) ny 0 mem := by
  have hY := rowAt_enum r sp ny hdy
  have tails : ∀ j, j < ny →
      dst.Pix.tail (dst.PixOffset r.Min.X (rowAt r sp j)) =
        some (Slice.drop dst.Pix (dst.PixOffset r.Min.X (rowAt r sp j)).toNat) ∧
      src.Pix.tail ((ofRGBA src).PixOffset sp.X (sp.Y + (rowAt r sp j - r.Min.Y))) =
        some (Slice.drop src.Pix
          ((ofRGBA src).PixOffset sp.X (sp.Y + (rowAt r sp j - r.Min.Y))).toNat) := by
    intro j hj
    have hy := hY.mem j hj
    have hi : Inside r r.Min.X (rowAt r sp j) := ⟨le_refl _, hr.1, hy.1, hy.2⟩
    have h1 := hw.inb _ _ (Inside.of_clipped hr hi)
    have h2 := hsw.inb _ _ (Inside.src hsr hi)
    have e00 : r.Min.X - r.Min.X = 0 := by ring
    rw [e00, add_zero, ofRGBA_Pix] at h2
    exact ⟨Slice.tail_drop _ _ h1.1 (by omega), Slice.tail_drop _ _ h2.1 (by omega)⟩
  unfold Rectangle.Dx at hdx
  unfold Rectangle.Dy at hdy
  unfold drawRGBAOver drawRGBAOver.row
  by_cases hF : forward r sp
  · have hF' := hF
    unfold forward at hF'
    simp only [hF', if_true]
    rw [overRows_seq fuel dst.Pix src.Pix drawRGBAOver.pixel nx ny r.Dy _ _ dst.Stride
      src.Stride 0 (r.Dx * 4) 4 (Or.inl rfl) (by unfold Rectangle.Dx; omega)
      (by unfold Rectangle.Dy; omega) hfx hfy mem]
    apply seqFrom_congr
    intro j mem1 _ hj
    have e1 : dst.PixOffset r.Min.X r.Min.Y + j * dst.Stride =
        dst.PixOffset r.Min.X (rowAt r sp j) := by
      unfold rowAt BGRA.PixOffset; simp only [hF, if_true]; ring
    have e2 : src.PixOffset sp.X sp.Y + j * src.Stride =
        (ofRGBA src).PixOffset sp.X (sp.Y + (rowAt r sp j - r.Min.Y)) := by
      unfold rowAt BGRA.PixOffset image.RGBA.PixOffset ofRGBA
      simp only [hF, if_true]; ring
    rw [e1, e2, (tails j (by omega)).1, (tails j (by omega)).2]
    simp only [Option.some_bind]
    apply seqFrom_congr
    intro x mem2 _ _
    have e3 : (0 : Int) + x * 4 = (colAt r sp x - r.Min.X) * 4 := by
      unfold colAt; simp only [hF, if_true]; ring
    rw [e3]
  · have hF' := hF
    unfold forward at hF'
    simp only [hF', if_false]
    rw [overRows_seq fuel dst.Pix src.Pix drawRGBAOver.pixel nx ny r.Dy _ _ (-dst.Stride)
      (-src.Stride) ((r.Dx - 1) * 4) (-4) (-4) (Or.inr rfl) (by unfold Rectangle.Dx; omega)
      (by unfold Rectangle.Dy; omega) hfx hfy mem]
    apply seqFrom_congr
    intro j mem1 _ hj
    have e1 : dst.PixOffset r.Min.X r.Min.Y + (r.Dy - 1) * dst.Stride + j * -dst.Stride =
        dst.PixOffset r.Min.X (rowAt r sp j) := by
      unfold rowAt BGRA.PixOffset Rectangle.Dy; simp only [hF, if_false]; ring
    have e2 : src.PixOffset sp.X sp.Y + (r.Dy - 1) * src.Stride + j * -src.Stride =
        (ofRGBA src).PixOffset sp.X (sp.Y + (rowAt r sp j - r.Min.Y)) := by
      unfold rowAt BGRA.PixOffset image.RGBA.PixOffset ofRGBA Rectangle.Dy
      simp only [hF, if_false]; ring
    rw [e1, e2, (tails j (by omega)).1, (tails j (by omega)).2]
    simp only [Option.some_bind]
    apply seqFrom_congr
    intro x mem2 _ _
    have e3 : (r.Dx - 1) * 4 + x * (-4 : Int) = (colAt r sp x - r.Min.X) * 4 := by
      unfold colAt Rectangle.Dx; simp only [hF, if_false]; ring
    rw [e3]

/-- What `drawRGBAOver` leaves in memory when the source is held apart from the
destination. -/
theorem drawRGBAOver_painted (fuel : Nat) (mem : Mem) (dst : BGRA) (src : image.RGBA)
    (r : Rectangle) (sp : Point) (hw : dst.WF) (hsw : (ofRGBA src).WF)
    (hr : Clipped r dst.Rect)
    (hsr : Clipped (r.Add (sp.Sub r.Min)) src.Rect) (hap : Apart dst.Pix src.Pix)
    (hfx : r.Dx.toNat < fuel) (hfy : r.Dy.toNat < fuel) :
    ∃ mem', drawRGBAOver fuel mem dst r src sp = some mem' ∧
      Painted dst r (fun x y c => overByte (mem (dst.addr x y c))
        (u32 (sub32 m (src.color16 mem (sp.X + (x - r.Min.X)) (sp.Y + (y - r.Min.Y))).2.2.2
          * 0x101))
        (chan c (src.color16 mem (sp.X + (x - r.Min.X)) (sp.Y + (y - r.Min.Y))))) mem mem' := by
  obtain ⟨nx, ny, hdx, hdy, ex, ey⟩ := hr.sizes
  rw [drawRGBAOver_grid fuel mem dst src r sp hw hsw hr hsr nx ny hdx hdy (by omega) (by omega)]
  have hX := colAt_enum r sp nx hdx
  have hY := rowAt_enum r sp ny hdy
  apply grid_painted_indep dst hw r hr (colAt r sp) (rowAt r sp) nx ny hX hY
  intro j x mem1 hj hx hown hout
  have hi : Inside r (colAt r sp x) (rowAt r sp j) :=
    ⟨(hX.mem x hx).1, (hX.mem x hx).2, (hY.mem j hj).1, (hY.mem j hj).2⟩
  obtain ⟨mem', h1, h2, h3⟩ := drawRGBAOver_pixel_at dst src hw hsw r sp hr hsr _ _ hi mem1
  refine ⟨mem', h1, ?_, h3⟩
  intro c hc
  rw [h2 c hc, hown c hc]
  rw [rgbaColor16_congr src mem1 mem _ _ (fun c' hc' => hout _ (fun x' y' c'' hi' hc'' =>
    @Apart.ne dst (ofRGBA src) hw hsw hap _ _ _ _ _ _ (Inside.of_clipped hr hi')
      (Inside.src hsr hi) hc'' hc'))]

end bgra

namespace bgra

/-! ## Blend arithmetic -/

theorem byte_or_shift (b : Byte) : u32 (b.val ||| u32 (b.val <<< 8)) = u32 (b.val * 0x101) := by
  have hb := b.isLt
  have h1 : b.val <<< 8 = 2 ^ 8 * b.val := by rw [Nat.shiftLeft_eq, Nat.mul_comm]
  have h2 : u32 (b.val <<< 8) = 2 ^ 8 * b.val := by
    rw [h1]; unfold u32; omega
  rw [h2, Nat.lor_comm, ← Nat.mul_add_lt_is_or (by omega : b.val < 2 ^ 8)]
  congr 1
  omega

theorem Color.RGBA_rgba (c : color.RGBA) :
    (color.Color.rgba c).RGBA =
      (u32 (c.R.val * 0x101), u32 (c.G.val * 0x101), u32 (c.B.val * 0x101),
        u32 (c.A.val * 0x101)) := by
  simp only [color.Color.RGBA, byte_or_shift]

theorem u32_lt (v : Nat) : u32 v < 4294967296 := by
  unfold u32
  omega

/-- The channels `RGBA()` returns are `uint32` values. -/
theorem Color.RGBA_lt (col : color.Color) (c : Nat) : chan c col.RGBA < 4294967296 := by
  cases col <;> simp only [color.Color.RGBA, chan] <;> split_ifs <;> exact u32_lt _

theorem chan_le (c : Nat) (s : Nat × Nat × Nat × Nat) (h : Premul s) : chan c s ≤ s.2.2.2 := by
  obtain ⟨h1, h2, h3, _⟩ := h
  unfold chan
  split_ifs <;> omega

/-- For a premultiplied source the unmasked Over byte of the fast paths is the byte of the
fallback with the mask alpha `m`: no intermediate value leaves the `uint32` range. -/
theorem overByte_eq_mask (d : Byte) (s sa : Nat) (hs : s ≤ sa) (hsa : sa ≤ 65535) :
    overByte d (u32 (sub32 m sa * 0x101)) s = maskOverByte d sa m s := by
  have hd := d.isLt
  have e1 : sub32 m sa = 65535 - sa := by unfold sub32 m; omega
  have e2 : u32 (sa * m) / m = sa := by unfold u32 m; omega
  have e3 : u32 ((65535 - sa) * 0x101) = (65535 - sa) * 257 := by unfold u32; omega
  unfold overByte maskOverByte
  rw [e2, e1, e3]
  have hp : d.val * ((65535 - sa) * 257) ≤ 255 * ((65535 - sa) * 257) :=
    Nat.mul_le_mul_right _ (by omega)
  generalize d.val * ((65535 - sa) * 257) = p at hp
  have hp1 : u32 p = p := by unfold u32; omega
  have hs1 : u32 (s * m) = s * 65535 := by unfold u32 m; omega
  have hsum : u32 (p + s * 65535) = p + s * 65535 := by unfold u32; omega
  have hdiv : (p + s * 65535) / m = p / m + s := by
    unfold m; exact Nat.add_mul_div_right p s (by omega)
  have hq : p / m ≤ 65535 := by unfold m; omega
  have hl : u32 (p / m + s) = p / m + s := by
    unfold u32; exact Nat.mod_eq_of_lt (by omega)
  rw [hp1, hs1, hsum, hdiv, hl]

theorem shr8_mul257 (d : Byte) : (d.val * 257) >>> 8 = d.val := by
  have hd := d.isLt
  simp only [Nat.shiftRight_eq_div_pow, Nat.reducePow]
  omega

theorem uint8_val (d : Byte) : uint8 d.val = d := by
  have hd := d.isLt
  apply Fin.ext
  simp only [uint8]
  omega

/-- A fully transparent source leaves a byte as it is, in the unmasked loops. -/
theorem overByte_zero (d : Byte) : overByte d (u32 (sub32 m 0 * 0x101)) 0 = d := by
  have hd := d.isLt
  have e1 : u32 (sub32 m 0 * 0x101) = 16842495 := by unfold sub32 m u32; omega
  unfold overByte
  rw [e1]
  have h1 : u32 (d.val * 16842495) = d.val * 16842495 := by unfold u32; omega
  have h2 : d.val * 16842495 / m = d.val * 257 := by unfold m; omega
  have h3 : u32 (d.val * 257 + 0) = d.val * 257 := by unfold u32; omega
  rw [h1, h2, h3, shr8_mul257, uint8_val]

/-- A fully transparent source leaves a byte as it is, in the masked loops, whatever the
mask alpha. -/
theorem maskOverByte_zero (d : Byte) (ma : Nat) : maskOverByte d 0 ma 0 = d := by
  have hd := d.isLt
  unfold maskOverByte
  simp only [Nat.zero_mul]
  have e1 : u32 (sub32 m (u32 0 / m) * 0x101) = 16842495 := by unfold sub32 m u32; omega
  rw [e1]
  have h0 : u32 0 = 0 := rfl
  have h1 : u32 (d.val * 16842495) = d.val * 16842495 := by unfold u32; omega
  have h3 : u32 (d.val * 16842495 + 0) = d.val * 16842495 := by unfold u32; omega
  have h2 : d.val * 16842495 / m = d.val * 257 := by unfold m; omega
  rw [h0, h1, h3, h2, shr8_mul257, uint8_val]

/-- With source alpha `0xffff` the unmasked Over byte is the narrowed source channel. -/
theorem overByte_opaque (d : Byte) (s : Nat) (hs : s < 4294967296) :
    overByte d (u32 (sub32 m 65535 * 0x101)) s = uint8 (s >>> 8) := by
  have e1 : u32 (sub32 m 65535 * 0x101) = 0 := by unfold sub32 m u32; omega
  unfold overByte
  rw [e1]
  have h1 : u32 (u32 (d.val * 0) / m + s) = s := by unfold u32 m; omega
  rw [h1]

/-- Without a mask the Src byte of the fallback is the narrowed source channel. -/
theorem srcByte_m (s : Nat) (hs : s ≤ 65535) : srcByte m s = uint8 (s >>> 8) := by
  unfold srcByte
  have h1 : u32 (s * m) / m = s := by unfold u32 m; omega
  rw [h1]

theorem uint8_expand (b : Byte) : uint8 (u32 (b.val * 0x101) >>> 8) = b := by
  have hb := b.isLt
  have h1 : u32 (b.val * 0x101) = b.val * 257 := by unfold u32; omega
  rw [h1, shr8_mul257, uint8_val]

theorem u32_expand_le (b : Byte) : u32 (b.val * 0x101) ≤ 65535 := by
  have hb := b.isLt
  unfold u32
  rw [Nat.mod_eq_of_lt (by omega)]
  omega

end bgra

namespace bgra

/-! ## The fallback on the recognised sources -/

theorem BGRA.At_inb (mem : Mem) (p : BGRA) (x y : Int) (h : Inside p.Rect x y)
    (hb : 0 ≤ p.PixOffset x y ∧ p.PixOffset x y + 3 < p.Pix.len) :
    p.At mem x y = some (.rgba ⟨mem (p.addr x y 2), mem (p.addr x y 1),
      mem (p.addr x y 0), mem (p.addr x y 3)⟩) := by
  unfold BGRA.At
  rw [(In_iff x y p.Rect).2 h]
  simp only [Bool.not_true, Bool.false_eq_true, if_false]
  rw [Slice.index_inb _ _ _ (by omega) (by omega), Slice.index_inb _ _ _ (by omega) (by omega),
    Slice.index_inb _ _ _ (by omega) (by omega), Slice.index_inb _ _ _ (by omega) (by omega)]
  rfl

theorem BGRA.At_outside (mem : Mem) (p : BGRA) (x y : Int) (h : ¬ Inside p.Rect x y) :
    p.At mem x y = some (.rgba ⟨0, 0, 0, 0⟩) := by
  unfold BGRA.At
  have : Point.In ⟨x, y⟩ p.Rect = false := by
    rw [← Bool.not_eq_true]; exact fun e => h ((In_iff x y p.Rect).1 e)
  rw [this]
  rfl

theorem rgbaAt_inb (mem : Mem) (p : image.RGBA) (x y : Int) (h : Inside p.Rect x y)
    (hb : 0 ≤ (ofRGBA p).PixOffset x y ∧ (ofRGBA p).PixOffset x y + 3 < p.Pix.len) :
    p.At mem x y = some (.rgba ⟨mem ((ofRGBA p).addr x y 0),
      mem ((ofRGBA p).addr x y 1), mem ((ofRGBA p).addr x y 2),
      mem ((ofRGBA p).addr x y 3)⟩) := by
  unfold image.RGBA.At
  rw [(In_iff x y p.Rect).2 h]
  simp only [Bool.not_true, Bool.false_eq_true, if_false, ofRGBA_PixOffset]
  rw [Slice.index_inb _ _ _ (by omega) (by omega), Slice.index_inb _ _ _ (by omega) (by omega),
    Slice.index_inb _ _ _ (by omega) (by omega), Slice.index_inb _ _ _ (by omega) (by omega)]
  rfl

theorem BGRA.At_color16 (mem : Mem) (p : BGRA) (x y : Int) :
    (color.Color.rgba ⟨mem (p.addr x y 2), mem (p.addr x y 1),
      mem (p.addr x y 0), mem (p.addr x y 3)⟩).RGBA = p.color16 mem x y := by
  rw [Color.RGBA_rgba]; rfl

theorem rgbaAt_color16 (mem : Mem) (p : image.RGBA) (x y : Int) :
    (color.Color.rgba ⟨mem ((ofRGBA p).addr x y 0), mem ((ofRGBA p).addr x y 1),
      mem ((ofRGBA p).addr x y 2), mem ((ofRGBA p).addr x y 3)⟩).RGBA =
      p.color16 mem x y := by
  rw [Color.RGBA_rgba]; rfl

/-- The fallback with a solid colour and no mask. -/
theorem drawBGRA_uniform_painted (fuel : Nat) (mem : Mem) (dst : BGRA) (r : Rectangle)
    (src : Uniform) (sp mp : Point) (op : draw.Op) (hw : dst.WF) (hr : Clipped r dst.Rect)
    (hfx : r.Dx.toNat < fuel) (hfy : r.Dy.toNat < fuel) :
    ∃ mem', drawBGRA fuel mem dst r (.image (.Uniform src)) sp none mp op = some mem' ∧
      Painted dst r (fun x y c => fallbackByte op (mem (dst.addr x y c)) src.RGBA m c)
        mem mem' :=
  drawBGRA_painted fuel mem dst r (.Uniform src) sp none mp op hw hr hfx hfy
    (fun _ _ => src.C) (fun _ _ => m) (fun _ _ _ _ _ _ => rfl) (fun _ _ _ _ _ _ => rfl)

/-- The fallback with a `BGRA` source held apart from the destination, and no mask. -/
theorem drawBGRA_bgra_painted (fuel : Nat) (mem : Mem) (dst src : BGRA) (r : Rectangle)
    (sp mp : Point) (op : draw.Op) (hw : dst.WF) (hsw : src.WF) (hr : Clipped r dst.Rect)
    (hsr : Clipped (r.Add (sp.Sub r.Min)) src.Rect) (hap : Apart dst.Pix src.Pix)
    (hfx : r.Dx.toNat < fuel) (hfy : r.Dy.toNat < fuel) :
    ∃ mem', drawBGRA fuel mem dst r (.image (.BGRA src)) sp none mp op = some mem' ∧
      Painted dst r (fun x y c => fallbackByte op (mem (dst.addr x y c))
        (src.color16 mem (sp.X + (x - r.Min.X)) (sp.Y + (y - r.Min.Y))) m c) mem mem' := by
  have := drawBGRA_painted fuel mem dst r (.BGRA src) sp none mp op hw hr hfx hfy
    (fun x y => .rgba ⟨
      mem (src.addr (sp.X + (x - r.Min.X)) (sp.Y + (y - r.Min.Y)) 2),
      mem (src.addr (sp.X + (x - r.Min.X)) (sp.Y + (y - r.Min.Y)) 1),
      mem (src.addr (sp.X + (x - r.Min.X)) (sp.Y + (y - r.Min.Y)) 0),
      mem (src.addr (sp.X + (x - r.Min.X)) (sp.Y + (y - r.Min.Y)) 3)⟩)
    (fun _ _ => m)
    (by
      intro x y mem1 hi _ hout
      have hs := Inside.src hsr hi
      have e : ∀ c, c < 4 → mem1 (src.addr (sp.X + (x - r.Min.X)) (sp.Y + (y - r.Min.Y)) c) =
          mem (src.addr (sp.X + (x - r.Min.X)) (sp.Y + (y - r.Min.Y)) c) :=
        fun c hc => hout _ (fun x' y' c' hi' hc' =>
          Apart.ne hw hsw hap (Inside.of_clipped hr hi') hs hc' hc)
      show src.At mem1 _ _ = _
      rw [BGRA.At_inb mem1 src _ _ hs (hsw.inb _ _ hs), e 2 (by omega), e 1 (by omega),
        e 0 (by omega), e 3 (by omega)])
    (fun _ _ _ _ _ _ => rfl)
  simp only [BGRA.At_color16] at this
  exact this

/-- The fallback with an `image.RGBA` source held apart from the destination, and no mask. -/
theorem drawBGRA_rgba_painted (fuel : Nat) (mem : Mem) (dst : BGRA) (src : image.RGBA)
    (r : Rectangle) (sp mp : Point) (op : draw.Op) (hw : dst.WF) (hsw : (ofRGBA src).WF)
    (hr : Clipped r dst.Rect)
    (hsr : Clipped (r.Add (sp.Sub r.Min)) src.Rect) (hap : Apart dst.Pix src.Pix)
    (hfx : r.Dx.toNat < fuel) (hfy : r.Dy.toNat < fuel) :
    ∃ mem', drawBGRA fuel mem dst r (.image (.RGBA src)) sp none mp op = some mem' ∧
      Painted dst r (fun x y c => fallbackByte op (mem (dst.addr x y c))
        (src.color16 mem (sp.X + (x - r.Min.X)) (sp.Y + (y - r.Min.Y))) m c) mem mem' := by
  have := drawBGRA_painted fuel mem dst r (.RGBA src) sp none mp op hw hr hfx hfy
    (fun x y => .rgba ⟨
      mem ((ofRGBA src).addr (sp.X + (x - r.Min.X)) (sp.Y + (y - r.Min.Y)) 0),
      mem ((ofRGBA src).addr (sp.X + (x - r.Min.X)) (sp.Y + (y - r.Min.Y)) 1),
      mem ((ofRGBA src).addr (sp.X + (x - r.Min.X)) (sp.Y + (y - r.Min.Y)) 2),
      mem ((ofRGBA src).addr (sp.X + (x - r.Min.X)) (sp.Y + (y - r.Min.Y)) 3)⟩)
    (fun _ _ => m)
    (by
      intro x y mem1 hi _ hout
      have hs := Inside.src hsr hi
      have e : ∀ c, c < 4 →
          mem1 ((ofRGBA src).addr (sp.X + (x - r.Min.X)) (sp.Y + (y - r.Min.Y)) c) =
          mem ((ofRGBA src).addr (sp.X + (x - r.Min.X)) (sp.Y + (y - r.Min.Y)) c) :=
        fun c hc => hout _ (fun x' y' c' hi' hc' =>
          @Apart.ne dst (ofRGBA src) hw hsw hap _ _ _ _ _ _ (Inside.of_clipped hr hi') hs hc' hc)
      show src.At mem1 _ _ = _
      rw [rgbaAt_inb mem1 src _ _ hs (hsw.inb _ _ hs), e 0 (by omega), e 1 (by omega),
        e 2 (by omega), e 3 (by omega)])
    (fun _ _ _ _ _ _ => rfl)
  simp only [rgbaAt_color16] at this
  exact this

end bgra

namespace bgra

/-! ## drawGlyphOver -/

theorem drawGlyphOver_pixel_spec (dst : BGRA) (mask : image.Alpha) (sr sg sb sa : Nat)
    (mem : Mem) (i mi : Int) (h0 : 0 ≤ i) (h1 : i + 3 < dst.Pix.len)
    (hm0 : 0 ≤ mi) (hm1 : mi < mask.Pix.len) :
    ∃ mem', drawGlyphOver.pixel dst mask sr sg sb sa mem i mi = some mem' ∧
      (∀ c : Nat, c < 4 → mem' (dst.Pix.off + (i + c).toNat) =
        glyphByte (mem (dst.Pix.off + (i + c).toNat)) (mem (mask.Pix.off + mi.toNat)) sa
          (chan c (sr, sg, sb, sa))) ∧
      (∀ b, (∀ c : Nat, c < 4 → b ≠ dst.Pix.off + (i + c).toNat) → mem' b = mem b) := by
  unfold drawGlyphOver.pixel
  rw [Slice.index_inb _ _ _ hm0 hm1]
  simp only [Option.some_bind]
  by_cases hz : (mem (mask.Pix.off + mi.toNat)).val = 0
  · simp only [hz, beq_self_eq_true, if_true]
    refine ⟨mem, rfl, ?_, fun _ _ => rfl⟩
    intro c _
    simp only [glyphByte, hz, if_true]
  · have hz' : ((mem (mask.Pix.off + mi.toNat)).val == 0) = false := by
      simpa using hz
    simp only [hz', Bool.false_eq_true, if_false]
    obtain ⟨mem', e, hv, hf⟩ := blendMaskOver_spec dst.Pix mem i sr sg sb sa
      (u32 ((mem (mask.Pix.off + mi.toNat)).val |||
        u32 ((mem (mask.Pix.off + mi.toNat)).val <<< 8))) h0 h1
    refine ⟨mem', e, ?_, hf⟩
    intro c hc
    rw [hv c hc]
    simp only [glyphByte, hz, if_false]

theorem drawGlyphOver_row_seq (fuel : Nat) (dst : BGRA) (mask : image.Alpha)
    (sr sg sb sa : Nat) (mem : Mem) (i0 mi0 : Int) (n : Nat) (hf : n < fuel) :
    drawGlyphOver.row fuel dst mask sr sg sb sa mem i0 mi0 (i0 + n * 4) =
      (seqFrom (fun x mem => drawGlyphOver.pixel dst mask sr sg sb sa mem (i0 + x * 4)
        (mi0 + x)) n 0 mem).bind fun mem => some (mem, i0 + n * 4, mi0 + n) := by
  unfold drawGlyphOver.row
  have := loop_seq (fun ((_, i, _) : Mem × Int × Int) => decide (i < i0 + n * 4))
    (fun (mem, i, mi) =>
      (drawGlyphOver.pixel dst mask sr sg sb sa mem i mi).bind fun mem =>
      some (mem, i + 4, mi + 1))
    (fun k => (i0 + k * 4, mi0 + k))
    (fun x mem => drawGlyphOver.pixel dst mask sr sg sb sa mem (i0 + x * 4) (mi0 + x)) n
    (by intro k mem hk; simp; omega)
    (by
      intro k mem hk
      simp only [Nat.cast_add, Nat.cast_one]
      congr 1
      funext mem1
      simp only [Option.some.injEq, Prod.mk.injEq, true_and]
      refine ⟨?_, ?_⟩ <;> ring)
    (by intro mem; simp)
    fuel hf mem
  simpa using this

theorem drawGlyphOver_seq (fuel : Nat) (mem : Mem) (dst : BGRA) (r : Rectangle) (src : Uniform)
    (mask : image.Alpha) (mp : Point)
    (nx ny : Nat) (hdx : r.Dx = nx) (hdy : r.Dy = ny) (hfx : nx < fuel) (hfy : ny < fuel) :
    drawGlyphOver fuel mem dst r src mask mp =
      seqFrom (fun j mem => seqFrom (fun x mem =>
        drawGlyphOver.pixel dst mask src.RGBA.1 src.RGBA.2.1 src.RGBA.2.2.1 src.RGBA.2.2.2 mem
          (dst.PixOffset (r.Min.X + x) (r.Min.Y + j))
          (mask.PixOffset (mp.X + x) (mp.Y + j))) nx 0 mem) ny 0 mem := by
  unfold drawGlyphOver
  rcases hs : src.RGBA with ⟨sr, sg, sb, sa⟩
  simp only
  have := loop_seq
    (fun ((_, y, _, _, _, _) : Mem × Int × Int × Int × Int × Int) => y != r.Max.Y)
    (fun (mem, y, my, i0, i1, mi0) =>
      (drawGlyphOver.row fuel dst mask sr sg sb sa mem i0 mi0 i1).bind fun (mem, _, _) =>
      some (mem, y + 1, my + 1, i0 + dst.Stride, i1 + dst.Stride, mi0 + mask.Stride))
    (fun j => (r.Min.Y + j, mp.Y + j, dst.PixOffset r.Min.X (r.Min.Y + j),
      dst.PixOffset r.Min.X (r.Min.Y + j) + nx * 4, mask.PixOffset mp.X (mp.Y + j)))
    (fun j mem => seqFrom (fun x mem =>
        drawGlyphOver.pixel dst mask sr sg sb sa mem
          (dst.PixOffset (r.Min.X + x) (r.Min.Y + j))
          (mask.PixOffset (mp.X + x) (mp.Y + j))) nx 0 mem) ny
    (by intro k mem hk; simp; unfold Rectangle.Dy at hdy; omega)
    (by
      intro k mem hk
      simp only
      rw [drawGlyphOver_row_seq _ _ _ _ _ _ _ _ _ _ _ hfx, bind_some_bind]
      have e1 : ∀ x : Nat, dst.PixOffset r.Min.X (r.Min.Y + k) + x * 4 =
          dst.PixOffset (r.Min.X + x) (r.Min.Y + k) := by
        intro x; unfold BGRA.PixOffset; ring
      have e2 : ∀ x : Nat, mask.PixOffset mp.X (mp.Y + k) + x =
          mask.PixOffset (mp.X + x) (mp.Y + k) := by
        intro x; unfold image.Alpha.PixOffset; ring
      simp only [e1, e2]
      congr 1
      funext mem1
      simp only [Option.some.injEq, Prod.mk.injEq, true_and]
      refine ⟨?_, ?_, ?_, ?_, ?_⟩
      · push_cast; ring
      · push_cast; ring
      · unfold BGRA.PixOffset; push_cast; ring
      · unfold BGRA.PixOffset; push_cast; ring
      · unfold image.Alpha.PixOffset; push_cast; ring)
    (by intro mem; simp; unfold Rectangle.Dy at hdy; omega)
    fuel hfy mem
  simp only [Nat.cast_zero, add_zero, hdx] at this ⊢
  rw [this, map_fst_bind_some]

/-- What `drawGlyphOver` leaves in memory when the mask is held apart from the destination. -/
theorem drawGlyphOver_painted (fuel : Nat) (mem : Mem) (dst : BGRA) (r : Rectangle)
    (src : Uniform) (mask : image.Alpha) (mp : Point) (hw : dst.WF) (hr : Clipped r dst.Rect)
    (hmw : AlphaWF mask) (hmr : Clipped (r.Add (mp.Sub r.Min)) mask.Rect)
    (hap : Apart dst.Pix mask.Pix)
    (hfx : r.Dx.toNat < fuel) (hfy : r.Dy.toNat < fuel) :
    ∃ mem', drawGlyphOver fuel mem dst r src mask mp = some mem' ∧
      Painted dst r (fun x y c => glyphByte (mem (dst.addr x y c))
        (mem (alphaAddr mask (mp.X + (x - r.Min.X)) (mp.Y + (y - r.Min.Y))))
        src.RGBA.2.2.2 (chan c src.RGBA)) mem mem' := by
  obtain ⟨nx, ny, hdx, hdy, ex, ey⟩ := hr.sizes
  rw [drawGlyphOver_seq fuel mem dst r src mask mp nx ny hdx hdy (by omega) (by omega)]
  apply grid_painted_indep dst hw r hr (fun k => r.Min.X + k) (fun k => r.Min.Y + k) nx ny
    (Enum.up _ _ _ hdx) (Enum.up _ _ _ hdy)
  intro j x mem1 hj hx hown hout
  have hir : Inside r (r.Min.X + x) (r.Min.Y + j) := by
    unfold Rectangle.Dx at hdx
    unfold Rectangle.Dy at hdy
    exact ⟨by omega, by omega, by omega, by omega⟩
  have hb := hw.inb _ _ (Inside.of_clipped hr hir)
  have hmi := Inside.src hmr hir
  have hmb := hmw _ _ hmi
  have ex1 : mp.X + (r.Min.X + (x : Int) - r.Min.X) = mp.X + x := by ring
  have ey1 : mp.Y + (r.Min.Y + (j : Int) - r.Min.Y) = mp.Y + j := by ring
  rw [ex1, ey1] at hmb hmi
  obtain ⟨mem', h1, h2, h3⟩ := drawGlyphOver_pixel_spec dst mask src.RGBA.1 src.RGBA.2.1
    src.RGBA.2.2.1 src.RGBA.2.2.2 mem1 _ _ hb.1 hb.2 hmb.1 hmb.2
  refine ⟨mem', h1, ?_, h3⟩
  intro c hc
  have := h2 c hc
  unfold BGRA.addr
  rw [this]
  have := hown c hc
  unfold BGRA.addr at this
  rw [this, ex1, ey1]
  have hma : mem1 (mask.Pix.off + (mask.PixOffset (mp.X + x) (mp.Y + j)).toNat) =
      mem (alphaAddr mask (mp.X + x) (mp.Y + j)) := by
    apply hout
    intro x' y' c' hi' hc'
    have a := dst.addr_window hw x' y' c' (Inside.of_clipped hr hi') hc'
    unfold Apart at hap
    omega
  rw [hma]

end bgra

namespace bgra

theorem alphaAt_inb (mem : Mem) (p : image.Alpha) (x y : Int) (h : Inside p.Rect x y)
    (hb : 0 ≤ p.PixOffset x y ∧ p.PixOffset x y < p.Pix.len) :
    p.At mem x y = some (.alpha (mem (alphaAddr p x y))) := by
  unfold image.Alpha.At
  rw [(In_iff x y p.Rect).2 h]
  simp only [Bool.not_true, Bool.false_eq_true, if_false]
  rw [Slice.index_inb _ _ _ hb.1 hb.2]
  rfl

/-- The fallback with a solid colour and an `image.Alpha` mask held apart from the
destination. -/
theorem drawBGRA_glyph_painted (fuel : Nat) (mem : Mem) (dst : BGRA) (r : Rectangle)
    (src : Uniform) (sp : Point) (mask : image.Alpha) (mp : Point) (op : draw.Op)
    (hw : dst.WF) (hr : Clipped r dst.Rect)
    (hmw : AlphaWF mask) (hmr : Clipped (r.Add (mp.Sub r.Min)) mask.Rect)
    (hap : Apart dst.Pix mask.Pix)
    (hfx : r.Dx.toNat < fuel) (hfy : r.Dy.toNat < fuel) :
    ∃ mem', drawBGRA fuel mem dst r (.image (.Uniform src)) sp (some (.Alpha mask)) mp op
        = some mem' ∧
      Painted dst r (fun x y c => fallbackByte op (mem (dst.addr x y c)) src.RGBA
        (u32 ((mem (alphaAddr mask (mp.X + (x - r.Min.X)) (mp.Y + (y - r.Min.Y)))).val |||
          u32 ((mem (alphaAddr mask (mp.X + (x - r.Min.X)) (mp.Y + (y - r.Min.Y)))).val
            <<< 8))) c) mem mem' :=
  drawBGRA_painted fuel mem dst r (.Uniform src) sp (some (.Alpha mask)) mp op hw hr hfx hfy
    (fun _ _ => src.C)
    (fun x y =>
      u32 ((mem (alphaAddr mask (mp.X + (x - r.Min.X)) (mp.Y + (y - r.Min.Y)))).val |||
        u32 ((mem (alphaAddr mask (mp.X + (x - r.Min.X)) (mp.Y + (y - r.Min.Y)))).val <<< 8)))
    (fun _ _ _ _ _ _ => rfl)
    (by
      intro x y mem1 hi _ hout
      have hmi := Inside.src hmr hi
      have hmb := hmw _ _ hmi
      have hma : mem1 (alphaAddr mask (mp.X + (x - r.Min.X)) (mp.Y + (y - r.Min.Y))) =
          mem (alphaAddr mask (mp.X + (x - r.Min.X)) (mp.Y + (y - r.Min.Y))) := by
        apply hout
        intro x' y' c' hi' hc'
        have a := dst.addr_window hw x' y' c' (Inside.of_clipped hr hi') hc'
        unfold Apart at hap
        unfold alphaAddr
        omega
      show ((image.Alpha.At mem1 mask _ _).bind fun c => some c.RGBA.2.2.2) = _
      rw [alphaAt_inb mem1 mask _ _ hmi hmb, hma]
      rfl)

theorem premul_zero (s : Nat × Nat × Nat × Nat) (h : Premul s) (h0 : s.2.2.2 = 0) :
    s = (0, 0, 0, 0) := by
  obtain ⟨a, b, c, d⟩ := s
  unfold Premul at h
  dsimp only at h h0
  obtain ⟨h1, h2, h3, _⟩ := h
  simp only [Prod.mk.injEq]
  omega

theorem chan_zero (c : Nat) : chan c (0, 0, 0, 0) = 0 := by
  unfold chan; split_ifs <;> rfl

theorem fallbackByte_zero (d : Byte) (ma c : Nat) :
    fallbackByte draw.Op.Over d (0, 0, 0, 0) ma c = d := by
  simp only [fallbackByte, if_true, chan_zero]
  exact maskOverByte_zero d ma

theorem glyphByte_zero (d ma : Byte) : glyphByte d ma 0 0 = d := by
  unfold glyphByte
  split_ifs
  · rfl
  · exact maskOverByte_zero d _

end bgra

namespace bgra

/-! ## drawCopySrc -/

/-- The loop `for ; dy > 0; dy--` of `drawCopySrc`. -/
theorem copyRows_seq (fuel : Nat) (dp sp : Slice) (n : Int) (ny : Nat)
    (dy0 d0 s0 dd sd : Int) (hdy : dy0 = ny) (hf : ny < fuel) (mem : Mem) :
    (loop (fun ((_, dy, _, _) : Mem × Int × Int × Int) => decide (dy > 0))
      (fun (mem, dy, d0, s0) =>
        (dp.slice d0 (d0 + n)).bind fun d =>
        (sp.slice s0 (s0 + n)).bind fun s =>
        some (copy mem d s, dy - 1, d0 + dd, s0 + sd))
      fuel (mem, dy0, d0, s0)).map Prod.fst =
    seqFrom (fun j mem =>
      (dp.slice (d0 + j * dd) (d0 + j * dd + n)).bind fun d =>
      (sp.slice (s0 + j * sd) (s0 + j * sd + n)).bind fun s => some (copy mem d s)) ny 0 mem := by
  subst hdy
  have := loop_seq (fun ((_, dy, _, _) : Mem × Int × Int × Int) => decide (dy > 0))
    (fun (mem, dy, d0, s0) =>
      (dp.slice d0 (d0 + n)).bind fun d =>
      (sp.slice s0 (s0 + n)).bind fun s =>
      some (copy mem d s, dy - 1, d0 + dd, s0 + sd))
    (fun j => ((ny : Int) - j, d0 + j * dd, s0 + j * sd))
    (fun j mem =>
      (dp.slice (d0 + j * dd) (d0 + j * dd + n)).bind fun d =>
      (sp.slice (s0 + j * sd) (s0 + j * sd + n)).bind fun s => some (copy mem d s)) ny
    (by intro k mem hk; simp; omega)
    (by
      intro k mem hk
      simp only
      cases dp.slice (d0 + k * dd) (d0 + k * dd + n) with
      | none => rfl
      | some d =>
        cases sp.slice (s0 + k * sd) (s0 + k * sd + n) with
        | none => rfl
        | some s =>
          simp only [Option.some_bind, Option.some.injEq, Prod.mk.injEq, true_and]
          refine ⟨?_, ?_, ?_⟩ <;> (push_cast; ring))
    (by intro mem; simp)
    fuel hf mem
  simp only [Nat.cast_zero, sub_zero, zero_mul, add_zero] at this
  rw [this, map_fst_bind_some]

theorem rowAtCopy_enum (r : Rectangle) (sp : Point) (ny : Nat) (hdy : r.Dy = ny) :
    Enum r.Min.Y r.Max.Y ny (rowAtCopy r sp) := by
  unfold Rectangle.Dy at hdy
  unfold rowAtCopy
  by_cases h : r.Min.Y ≤ sp.Y
  · simp only [h, if_true]; exact Enum.up _ _ _ hdy
  · simp only [h, if_false]; exact Enum.down _ _ _ hdy

/-- A whole row of a clipped rectangle lies inside the slice of a well-formed buffer. -/
theorem BGRA.row_inb (p : BGRA) (hp : p.WF) (r : Rectangle) (hr : Clipped r p.Rect)
    (nx : Nat) (hdx : r.Dx = nx) (y : Int) (hy : r.Min.Y ≤ y ∧ y < r.Max.Y) :
    0 ≤ p.PixOffset r.Min.X y ∧ p.PixOffset r.Min.X y + 4 * nx ≤ p.Pix.len := by
  unfold Rectangle.Dx at hdx
  have h0 := hp.inb r.Min.X y (Inside.of_clipped hr ⟨le_refl _, hr.1, hy.1, hy.2⟩)
  have h1 := hp.inb (r.Max.X - 1) y
    (Inside.of_clipped hr ⟨by have := hr.1; omega, by omega, hy.1, hy.2⟩)
  have e := p.PixOffset_row r.Min.X (r.Max.X - 1) y
  omega

theorem drawCopySrc_rows (fuel : Nat) (mem : Mem) (dst src : BGRA) (r : Rectangle)
    (sp : Point) (hw : dst.WF) (hsw : src.WF) (hr : Clipped r dst.Rect)
    (hsr : Clipped (r.Add (sp.Sub r.Min)) src.Rect)
    (nx ny : Nat) (hdx : r.Dx = nx) (hdy : r.Dy = ny) (hfy : ny < fuel) :
    drawCopySrc fuel mem dst r src sp =
      seqFrom (fun j mem => some (copy mem
        (rowSlice dst r.Min.X (rowAtCopy r sp j) (4 * nx))
        (rowSlice src sp.X (sp.Y + (rowAtCopy r sp j - r.Min.Y)) (4 * nx)))) ny 0 mem := by
  have hY := rowAtCopy_enum r sp ny hdy
  have slices : ∀ j, j < ny →
      dst.Pix.slice (dst.PixOffset r.Min.X (rowAtCopy r sp j))
        (dst.PixOffset r.Min.X (rowAtCopy r sp j) + 4 * r.Dx) =
        some (rowSlice dst r.Min.X (rowAtCopy r sp j) (4 * nx)) ∧
      src.Pix.slice (src.PixOffset sp.X (sp.Y + (rowAtCopy r sp j - r.Min.Y)))
        (src.PixOffset sp.X (sp.Y + (rowAtCopy r sp j - r.Min.Y)) + 4 * r.Dx) =
        some (rowSlice src sp.X (sp.Y + (rowAtCopy r sp j - r.Min.Y)) (4 * nx)) := by
    intro j hj
    have hy := hY.mem j hj
    have h1 := dst.row_inb hw r hr nx hdx _ hy
    have hsx : (r.Add (sp.Sub r.Min)).Dx = nx := by
      rw [← hdx]; simp only [Rectangle.Dx, Rectangle.Add, Point.Sub]; ring
    have h2 := src.row_inb hsw _ hsr nx hsx (sp.Y + (rowAtCopy r sp j - r.Min.Y))
      (by simp only [Rectangle.Add, Point.Sub]; omega)
    have e0 : (r.Add (sp.Sub r.Min)).Min.X = sp.X := by
      simp only [Rectangle.Add, Point.Sub]; ring
    rw [e0] at h2
    have c1 := hw.cap
    have c2 := hsw.cap
    constructor
    · rw [Slice.slice_inb _ _ _ h1.1 (by omega) (by omega)]
      unfold rowSlice
      congr 2
      omega
    · rw [Slice.slice_inb _ _ _ h2.1 (by omega) (by omega)]
      unfold rowSlice
      congr 2
      omega
  unfold drawCopySrc
  by_cases hF : r.Min.Y ≤ sp.Y
  · simp only [hF, if_true]
    rw [copyRows_seq fuel dst.Pix src.Pix (4 * r.Dx) ny r.Dy _ _ dst.Stride src.Stride hdy hfy]
    apply seqFrom_congr
    intro j mem1 _ hj
    have e1 : dst.PixOffset r.Min.X r.Min.Y + j * dst.Stride =
        dst.PixOffset r.Min.X (rowAtCopy r sp j) := by
      unfold rowAtCopy BGRA.PixOffset; simp only [hF, if_true]; ring
    have e2 : src.PixOffset sp.X sp.Y + j * src.Stride =
        src.PixOffset sp.X (sp.Y + (rowAtCopy r sp j - r.Min.Y)) := by
      unfold rowAtCopy BGRA.PixOffset; simp only [hF, if_true]; ring
    rw [e1, e2, (slices j (by omega)).1, (slices j (by omega)).2]
    rfl
  · simp only [hF, if_false]
    rw [copyRows_seq fuel dst.Pix src.Pix (4 * r.Dx) ny r.Dy _ _ (-dst.Stride) (-src.Stride)
      hdy hfy]
    apply seqFrom_congr
    intro j mem1 _ hj
    have e1 : dst.PixOffset r.Min.X r.Min.Y + (r.Dy - 1) * dst.Stride + j * -dst.Stride =
        dst.PixOffset r.Min.X (rowAtCopy r sp j) := by
      unfold rowAtCopy BGRA.PixOffset Rectangle.Dy; simp only [hF, if_false]; ring
    have e2 : src.PixOffset sp.X sp.Y + (r.Dy - 1) * src.Stride + j * -src.Stride =
        src.PixOffset sp.X (sp.Y + (rowAtCopy r sp j - r.Min.Y)) := by
      unfold rowAtCopy BGRA.PixOffset Rectangle.Dy; simp only [hF, if_false]; ring
    rw [e1, e2, (slices j (by omega)).1, (slices j (by omega)).2]
    rfl

end bgra

namespace bgra

/-- What `drawCopySrc` leaves in memory: every pixel of the rectangle holds the bytes its
source pixel had before the call, provided no row copy reads a byte that an earlier row copy
wrote. -/
theorem drawCopySrc_painted (fuel : Nat) (mem : Mem) (dst src : BGRA) (r : Rectangle)
    (sp : Point) (hw : dst.WF) (hsw : src.WF) (hr : Clipped r dst.Rect)
    (hsr : Clipped (r.Add (sp.Sub r.Min)) src.Rect) (hfy : r.Dy.toNat < fuel)
    (hni : ∀ k k', k' < k → k < r.Dy.toNat → ∀ x x' c c', r.Min.X ≤ x → x < r.Max.X →
      r.Min.X ≤ x' → x' < r.Max.X → c < 4 → c' < 4 →
      src.addr (sp.X + (x - r.Min.X)) (sp.Y + (rowAtCopy r sp k - r.Min.Y)) c ≠
        dst.addr x' (rowAtCopy r sp k') c') :
    ∃ mem', drawCopySrc fuel mem dst r src sp = some mem' ∧
      Painted dst r (fun x y c =>
        mem (src.addr (sp.X + (x - r.Min.X)) (sp.Y + (y - r.Min.Y)) c)) mem mem' := by
  obtain ⟨nx, ny, hdx, hdy, ex, ey⟩ := hr.sizes
  rw [drawCopySrc_rows fuel mem dst src r sp hw hsw hr hsr nx ny hdx hdy (by omega)]
  have hY := rowAtCopy_enum r sp ny hdy
  have hdx' := hdx
  unfold Rectangle.Dx at hdx'
  have hin : ∀ k x, k < ny → x < nx → Inside r (r.Min.X + x) (rowAtCopy r sp k) := by
    intro k x hk hx
    have := hY.mem k hk
    exact ⟨by omega, by omega, this.1, this.2⟩
  obtain ⟨mem', h1, h2, h3⟩ := seqFrom_cells
    (fun j mem => some (copy mem
      (rowSlice dst r.Min.X (rowAtCopy r sp j) (4 * nx))
      (rowSlice src sp.X (sp.Y + (rowAtCopy r sp j - r.Min.Y)) (4 * nx))))
    (fun k (e : Nat × Nat) => dst.addr (r.Min.X + e.1) (rowAtCopy r sp k) e.2)
    (fun e => e.1 < nx ∧ e.2 < 4)
    (fun k e => mem (src.addr (sp.X + e.1) (sp.Y + (rowAtCopy r sp k - r.Min.Y)) e.2))
    mem ny
    (by
      intro k k' e e' hk hkn he he' h
      obtain ⟨_, e2, _⟩ := dst.addr_inj hw _ _ _ _ _ _
        (Inside.of_clipped hr (hin k e.1 hkn he.1))
        (Inside.of_clipped hr (hin k' e'.1 (by omega) he'.1)) he.2 he'.2 h
      have := hY.inj k k' hkn (by omega) e2
      omega)
    (by
      intro k mem1 hk hfr
      refine ⟨_, rfl, ?_, ?_⟩
      · intro e he
        have hi := hin k e.1 hk he.1
        have hd1 := hw.inb _ _ (Inside.of_clipped hr hi)
        have hd0 := hw.inb _ _ (Inside.of_clipped hr hi.left)
        have hD := dst.PixOffset_row r.Min.X (r.Min.X + e.1) (rowAtCopy r sp k)
        have hs1 := hsw.inb _ _ (Inside.src hsr hi)
        have hs0 := hsw.inb _ _ (Inside.src hsr hi.left)
        have hS := src.PixOffset_row sp.X (sp.X + (r.Min.X + e.1 - r.Min.X))
          (sp.Y + (rowAtCopy r sp k - r.Min.Y))
        have e00 : r.Min.X - r.Min.X = 0 := by ring
        rw [e00, add_zero] at hs0
        have e01 : r.Min.X + (e.1 : Int) - r.Min.X = e.1 := by ring
        rw [e01] at hS hs1
        have e02 : sp.X + (e.1 : Int) - sp.X = e.1 := by ring
        rw [e02] at hS
        have he1 := he.1
        have he2 := he.2
        have key : copy mem1 (rowSlice dst r.Min.X (rowAtCopy r sp k) (4 * nx))
            (rowSlice src sp.X (sp.Y + (rowAtCopy r sp k - r.Min.Y)) (4 * nx))
            (dst.addr (r.Min.X + e.1) (rowAtCopy r sp k) e.2) =
            mem1 (src.addr (sp.X + e.1) (sp.Y + (rowAtCopy r sp k - r.Min.Y)) e.2) := by
          unfold copy rowSlice BGRA.addr
          simp only [min_self]
          rw [if_pos (by omega)]
          congr 1
          omega
        show copy mem1 _ _ _ = _
        rw [key]
        apply hfr
        intro k' e' hk' he'
        have := hni k k' hk' (by omega) (r.Min.X + e.1) (r.Min.X + e'.1) e.2 e'.2
          (by omega) (by omega) (by omega) (by omega) he.2 he'.2
        rw [e01] at this
        exact this
      · intro a ha
        show copy mem1 _ _ a = mem1 a
        unfold copy rowSlice
        simp only [min_self]
        by_cases hc : dst.Pix.off + (dst.PixOffset r.Min.X (rowAtCopy r sp k)).toNat ≤ a ∧
            a < dst.Pix.off + (dst.PixOffset r.Min.X (rowAtCopy r sp k)).toNat + 4 * nx
        · exfalso
          have hx : (a - (dst.Pix.off +
              (dst.PixOffset r.Min.X (rowAtCopy r sp k)).toNat)) / 4 < nx := by omega
          have hi := hin k _ hk hx
          have hd1 := hw.inb _ _ (Inside.of_clipped hr hi)
          have hd0 := hw.inb _ _ (Inside.of_clipped hr hi.left)
          have hD := dst.PixOffset_row r.Min.X (r.Min.X + ((a - (dst.Pix.off +
              (dst.PixOffset r.Min.X (rowAtCopy r sp k)).toNat)) / 4 : Nat))
              (rowAtCopy r sp k)
          apply ha ((a - (dst.Pix.off +
              (dst.PixOffset r.Min.X (rowAtCopy r sp k)).toNat)) / 4,
            (a - (dst.Pix.off + (dst.PixOffset r.Min.X (rowAtCopy r sp k)).toNat)) % 4)
            ⟨hx, Nat.mod_lt _ (by omega)⟩
          unfold BGRA.addr
          simp only
          omega
        · rw [if_neg hc])
  refine ⟨mem', h1, ?_, ?_⟩
  · intro x y c hi hc
    obtain ⟨k, hk, rfl⟩ := hY.surj y hi.2.2.1 hi.2.2.2
    have hx := hi.1
    have hx' := hi.2.1
    have := h2 k ((x - r.Min.X).toNat, c) hk ⟨by omega, hc⟩
    have e1 : r.Min.X + (((x - r.Min.X).toNat : Nat) : Int) = x := by omega
    have e2 : sp.X + (((x - r.Min.X).toNat : Nat) : Int) = sp.X + (x - r.Min.X) := by omega
    simp only [e1, e2] at this
    exact this
  · intro a ha
    apply h3
    intro k e hk he
    exact ha _ _ _ (hin k e.1 hk he.1) he.2

/-- `drawCopySrc` between buffers held apart. -/
theorem drawCopySrc_apart (fuel : Nat) (mem : Mem) (dst src : BGRA) (r : Rectangle)
    (sp : Point) (hw : dst.WF) (hsw : src.WF) (hr : Clipped r dst.Rect)
    (hsr : Clipped (r.Add (sp.Sub r.Min)) src.Rect) (hap : Apart dst.Pix src.Pix)
    (hfy : r.Dy.toNat < fuel) :
    ∃ mem', drawCopySrc fuel mem dst r src sp = some mem' ∧
      Painted dst r (fun x y c =>
        mem (src.addr (sp.X + (x - r.Min.X)) (sp.Y + (y - r.Min.Y)) c)) mem mem' := by
  obtain ⟨nx, ny, hdx, hdy, ex, ey⟩ := hr.sizes
  have hY := rowAtCopy_enum r sp ny hdy
  apply drawCopySrc_painted fuel mem dst src r sp hw hsw hr hsr hfy
  intro k k' hk' hk x x' c c' h1 h2 h3 h4 hc hc'
  have a := hY.mem k (by omega)
  have b := hY.mem k' (by omega)
  exact Apart.ne hw hsw hap (Inside.of_clipped hr ⟨h3, h4, b.1, b.2⟩)
    (Inside.src hsr ⟨h1, h2, a.1, a.2⟩) hc' hc

/-- `drawCopySrc` of a buffer onto itself: the order of the rows makes every row copy read
bytes no earlier row copy wrote. -/
theorem drawCopySrc_self (fuel : Nat) (mem : Mem) (b : BGRA) (r : Rectangle)
    (sp : Point) (hw : b.WF) (hr : Clipped r b.Rect)
    (hsr : Clipped (r.Add (sp.Sub r.Min)) b.Rect) (hfy : r.Dy.toNat < fuel) :
    ∃ mem', drawCopySrc fuel mem b r b sp = some mem' ∧
      Painted b r (fun x y c =>
        mem (b.addr (sp.X + (x - r.Min.X)) (sp.Y + (y - r.Min.Y)) c)) mem mem' := by
  obtain ⟨nx, ny, hdx, hdy, ex, ey⟩ := hr.sizes
  have hY := rowAtCopy_enum r sp ny hdy
  apply drawCopySrc_painted fuel mem b b r sp hw hw hr hsr hfy
  intro k k' hk' hk x x' c c' h1 h2 h3 h4 hc hc' e
  have ha := hY.mem k (by omega)
  have hb := hY.mem k' (by omega)
  obtain ⟨_, e2, _⟩ := b.addr_inj hw _ _ _ _ _ _ (Inside.src hsr ⟨h1, h2, ha.1, ha.2⟩)
    (Inside.of_clipped hr ⟨h3, h4, hb.1, hb.2⟩) hc hc' e
  unfold rowAtCopy at e2
  unfold Rectangle.Dy at hdy
  by_cases hF : r.Min.Y ≤ sp.Y
  · simp only [hF, if_true] at e2; omega
  · simp only [hF, if_false] at e2; omega

end bgra

namespace bgra

/-! ## Facts about the concrete inputs -/

theorem exDst2_wf : exDst2.WF := by
  refine ⟨by decide, by decide, ?_⟩
  intro x y h
  obtain ⟨h1, h2, h3, h4⟩ := h
  simp only [exDst2] at h1 h2 h3 h4
  simp only [BGRA.PixOffset, exDst2]
  omega

theorem exSrcBGRA_wf : exSrcBGRA.WF := by
  refine ⟨by decide, by decide, ?_⟩
  intro x y h
  obtain ⟨h1, h2, h3, h4⟩ := h
  simp only [exSrcBGRA] at h1 h2 h3 h4
  simp only [BGRA.PixOffset, exSrcBGRA]
  omega

theorem exSrcRGBA_wf : (ofRGBA exSrcRGBA).WF := by
  refine ⟨by decide, by decide, ?_⟩
  intro x y h
  obtain ⟨h1, h2, h3, h4⟩ := h
  simp only [exSrcRGBA, ofRGBA] at h1 h2 h3 h4
  simp only [BGRA.PixOffset, exSrcRGBA, ofRGBA]
  omega

theorem exRect2_clipped : Clipped exRect2 exDst2.Rect := by decide

theorem exRect2_src_clipped (b : Rectangle) (hb : b = exRect2) :
    Clipped (exRect2.Add (ZP.Sub exRect2.Min)) b := by
  subst hb
  decide

theorem exMemGrey_bgra (x y : Int) (h : Inside exSrcBGRA.Rect x y) :
    Premul (exSrcBGRA.color16 exMemGrey x y) := by
  obtain ⟨h1, h2, h3, h4⟩ := h
  simp only [exSrcBGRA] at h1 h2 h3 h4
  have e : ∀ c : Nat, c < 4 →
      exMemGrey (exSrcBGRA.addr x y c) = if c = 3 then 255 else 7 := by
    intro c hc
    simp only [exMemGrey, BGRA.addr, BGRA.PixOffset, exSrcBGRA]
    congr 1
    apply propext
    constructor <;> intro h <;> omega
  simp only [BGRA.color16, e 0 (by omega), e 1 (by omega), e 2 (by omega), e 3 (by omega)]
  decide

theorem exMemGrey_rgba (x y : Int) (h : Inside exSrcRGBA.Rect x y) :
    Premul (exSrcRGBA.color16 exMemGrey x y) := by
  obtain ⟨h1, h2, h3, h4⟩ := h
  simp only [exSrcRGBA] at h1 h2 h3 h4
  have e : ∀ c : Nat, c < 4 →
      exMemGrey ((ofRGBA exSrcRGBA).addr x y c) = if c = 3 then 255 else 7 := by
    intro c hc
    simp only [exMemGrey, BGRA.addr, BGRA.PixOffset, exSrcRGBA, ofRGBA]
    congr 1
    apply propext
    constructor <;> intro h <;> omega
  simp only [image.RGBA.color16, e 0 (by omega), e 1 (by omega), e 2 (by omega),
    e 3 (by omega)]
  decide

end bgra

namespace bgra

theorem exMask_wf : AlphaWF exMask := by
  intro x y h
  obtain ⟨h1, h2, h3, h4⟩ := h
  simp only [exMask] at h1 h2 h3 h4
  simp only [image.Alpha.PixOffset, exMask]
  omega

theorem exRect2_mask_clipped : Clipped (exRect2.Add (ZP.Sub exRect2.Min)) exMask.Rect := by
  decide

theorem exMemClear_rgba (x y : Int) (h : Inside exSrcRGBA.Rect x y) :
    Premul (exSrcRGBA.color16 exMemClear x y) ∧ (exSrcRGBA.color16 exMemClear x y).2.2.2 = 0 := by
  obtain ⟨h1, h2, h3, h4⟩ := h
  simp only [exSrcRGBA] at h1 h2 h3 h4
  have e : ∀ c : Nat, c < 4 → exMemClear ((ofRGBA exSrcRGBA).addr x y c) = 0 := by
    intro c hc
    simp only [exMemClear, BGRA.addr, BGRA.PixOffset, exSrcRGBA, ofRGBA]
    rw [if_neg (by omega), if_neg (by omega)]
  simp only [image.RGBA.color16, e 0 (by omega), e 1 (by omega), e 2 (by omega),
    e 3 (by omega)]
  decide

theorem exMemClear_bgra (x y : Int) (h : Inside exSrcBGRA.Rect x y) :
    Premul (exSrcBGRA.color16 exMemClear x y) ∧ (exSrcBGRA.color16 exMemClear x y).2.2.2 = 0 := by
  obtain ⟨h1, h2, h3, h4⟩ := h
  simp only [exSrcBGRA] at h1 h2 h3 h4
  have e : ∀ c : Nat, c < 4 → exMemClear (exSrcBGRA.addr x y c) = 0 := by
    intro c hc
    simp only [exMemClear, BGRA.addr, BGRA.PixOffset, exSrcBGRA]
    rw [if_neg (by omega), if_neg (by omega)]
  simp only [BGRA.color16, e 0 (by omega), e 1 (by omega), e 2 (by omega), e 3 (by omega)]
  decide

end bgra

namespace bgra

theorem exBuf3_wf : exBuf3.WF := by
  refine ⟨by decide, by decide, ?_⟩
  intro x y h
  obtain ⟨h1, h2, h3, h4⟩ := h
  simp only [exBuf3] at h1 h2 h3 h4
  simp only [BGRA.PixOffset, exBuf3]
  omega

theorem exTmp_wf : exTmp.WF := by
  refine ⟨by decide, by decide, ?_⟩
  intro x y h
  obtain ⟨h1, h2, h3, h4⟩ := h
  simp only [exTmp] at h1 h2 h3 h4
  simp only [BGRA.PixOffset, exTmp]
  omega

theorem exBuf4_wf : exBuf4.WF := by
  refine ⟨by decide, by decide, ?_⟩
  intro x y h
  obtain ⟨h1, h2, h3, h4⟩ := h
  simp only [exBuf4] at h1 h2 h3 h4
  simp only [BGRA.PixOffset, exBuf4]
  omega

theorem exMemGrey_dst (x y : Int) (h : Inside exDst2.Rect x y) :
    exDst2.PremulAt exMemGrey x y := by
  obtain ⟨h1, h2, h3, h4⟩ := h
  simp only [exDst2] at h1 h2 h3 h4
  have e : ∀ c : Nat, c < 4 →
      exMemGrey (exDst2.addr x y c) = if c = 3 then 255 else 7 := by
    intro c hc
    simp only [exMemGrey, BGRA.addr, BGRA.PixOffset, exDst2]
    congr 1
    apply propext
    constructor <;> intro h <;> omega
  intro c hc
  rw [e c (by omega), e 3 (by omega), if_neg (by omega)]
  decide

theorem exEdgeBuf_wf : exEdgeBuf.WF := by
  refine ⟨by decide, by decide, ?_⟩
  intro x y h
  obtain ⟨h1, h2, h3, h4⟩ := h
  simp only [exEdgeBuf] at h1 h2 h3 h4
  simp only [BGRA.PixOffset, exEdgeBuf]
  omega

theorem exTopBuf_wf : exTopBuf.WF := by
  refine ⟨by decide, by decide, ?_⟩
  intro x y h
  obtain ⟨h1, h2, h3, h4⟩ := h
  simp only [exTopBuf] at h1 h2 h3 h4
  simp only [BGRA.PixOffset, exTopBuf]
  omega

theorem exMemIndex_premul (x y : Int) (h : Inside exBuf3.Rect x y) :
    Premul (exBuf3.color16 exMemIndex x y) := by
  obtain ⟨h1, h2, h3, h4⟩ := h
  simp only [exBuf3] at h1 h2 h3 h4
  have hx : x = 0 ∨ x = 1 ∨ x = 2 := by omega
  have hy : y = 0 ∨ y = 1 ∨ y = 2 := by omega
  rcases hx with rfl | rfl | rfl <;> rcases hy with rfl | rfl | rfl <;> decide

end bgra

namespace bgra

/-! ## Rectangles, clip and the dispatch of DrawMask -/

theorem Empty_iff (r : Rectangle) :
    r.Empty = true ↔ (r.Max.X ≤ r.Min.X ∨ r.Max.Y ≤ r.Min.Y) := by
  simp [Rectangle.Empty]

theorem Clipped.not_empty {r b : Rectangle} (h : Clipped r b) : r.Empty = false := by
  rw [← Bool.not_eq_true, Empty_iff]
  have := h.1
  have := h.2.1
  omega

theorem Intersect_of_clipped (r s : Rectangle) (h : Clipped r s) : r.Intersect s = r := by
  obtain ⟨h1, h2, h3, h4, h5, h6⟩ := h
  unfold Rectangle.Intersect
  simp only [if_neg (not_lt.2 h3), if_neg (not_lt.2 h5), gt_iff_lt, if_neg (not_lt.2 h4),
    if_neg (not_lt.2 h6)]
  have : r.Empty = false := by
    rw [← Bool.not_eq_true, Empty_iff]; omega
  simp only [this, Bool.false_eq_true, if_false]

/-- A point is in the intersection exactly when it is in both rectangles. -/
theorem Inside_Intersect (r s : Rectangle) (x y : Int) :
    Inside (r.Intersect s) x y ↔ Inside r x y ∧ Inside s x y := by
  obtain ⟨⟨a, b⟩, ⟨c, d⟩⟩ := r
  obtain ⟨⟨a', b'⟩, ⟨c', d'⟩⟩ := s
  unfold Rectangle.Intersect
  simp only [gt_iff_lt]
  split_ifs <;> simp_all [Inside, ZR, Rectangle.Empty] <;> omega

/-- A non-empty intersection lies, non-empty, in both rectangles. -/
theorem Clipped_Intersect (r s : Rectangle) (h : (r.Intersect s).Empty = false) :
    Clipped (r.Intersect s) r ∧ Clipped (r.Intersect s) s := by
  obtain ⟨⟨a, b⟩, ⟨c, d⟩⟩ := r
  obtain ⟨⟨a', b'⟩, ⟨c', d'⟩⟩ := s
  revert h
  unfold Rectangle.Intersect
  simp only [gt_iff_lt]
  split_ifs <;> simp_all [Clipped, ZR, Rectangle.Empty] <;> omega

theorem Clipped.trans {a b c : Rectangle} (h1 : Clipped a b) (h2 : Clipped b c) :
    Clipped a c := by
  obtain ⟨a1, a2, a3, a4, a5, a6⟩ := h1
  obtain ⟨b1, b2, b3, b4, b5, b6⟩ := h2
  exact ⟨a1, a2, by omega, by omega, by omega, by omega⟩

theorem Clipped.shift {r b : Rectangle} {sp : Point}
    (h : Clipped (r.Add (sp.Sub r.Min)) b) : Clipped r (b.Add (r.Min.Sub sp)) := by
  obtain ⟨h1, h2, h3, h4, h5, h6⟩ := h
  simp only [Rectangle.Add, Point.Sub] at h1 h2 h3 h4 h5 h6
  simp only [Clipped, Rectangle.Add, Point.Sub]
  exact ⟨by omega, by omega, by omega, by omega, by omega, by omega⟩

/-- When the rectangle already lies inside the destination and its translate inside the
source, all within the range, `clip` without a mask changes nothing. -/
theorem clip_id (dst src : Image) (r : Rectangle) (sp mp : Point)
    (h1 : Clipped r dst.Bounds) (h2 : Clipped (r.Add (sp.Sub r.Min)) src.Bounds)
    (hb : RectInRange src.Bounds) (ho : PointInRange r.Min) (hs : PointInRange sp) :
    clip dst r src sp none mp = (r, sp, mp) := by
  unfold clip
  simp only [wrap_translate _ _ _ hb ho hs, Intersect_of_clipped r _ h1,
    Intersect_of_clipped r _ h2.shift, sub_self, int64_zero, beq_self_eq_true, Bool.and_self,
    if_true]

/-- The corner of the source region of a rectangle, when both lie in a rectangle within the
range, is within the range. -/
theorem source_inRange {r b : Rectangle} {sp : Point} (h1 : Clipped r b)
    (h2 : Clipped (r.Add (sp.Sub r.Min)) b) (hb : RectInRange b) :
    PointInRange r.Min ∧ PointInRange sp := by
  obtain ⟨a1, a2, a3, a4, a5, a6⟩ := h1
  obtain ⟨c1, c2, c3, c4, c5, c6⟩ := h2
  simp only [Rectangle.Add, Point.Sub] at c1 c2 c3 c4 c5 c6
  obtain ⟨⟨⟨b1, b2⟩, ⟨b3, b4⟩⟩, ⟨⟨b5, b6⟩, ⟨b7, b8⟩⟩⟩ := hb
  exact ⟨⟨⟨by omega, by omega⟩, ⟨by omega, by omega⟩⟩,
    ⟨⟨by omega, by omega⟩, ⟨by omega, by omega⟩⟩⟩

theorem DrawMask_copySrc (fuel : Nat) (mem : Mem) (b s : BGRA) (r : Rectangle)
    (sp mp : Point) (h1 : Clipped r b.Rect) (h2 : Clipped (r.Add (sp.Sub r.Min)) s.Rect)
    (hb : RectInRange s.Rect) (ho : PointInRange r.Min) (hs : PointInRange sp) :
    DrawMask fuel mem (.BGRA b) r (.image (.BGRA s)) sp none mp .Src =
      .run (drawCopySrc fuel mem b r s sp) := by
  unfold DrawMask
  simp only [Source.get]
  rw [clip_id (.BGRA b) (.BGRA s) r sp mp h1 h2 hb ho hs]
  simp only [h1.not_empty, Bool.false_eq_true, if_false]
  rfl

theorem DrawMask_copySrc_same (fuel : Nat) (mem : Mem) (b : BGRA) (r : Rectangle)
    (sp mp : Point) (h1 : Clipped r b.Rect) (h2 : Clipped (r.Add (sp.Sub r.Min)) b.Rect)
    (hb : RectInRange b.Rect) :
    DrawMask fuel mem (.BGRA b) r .same sp none mp .Src =
      .run (drawCopySrc fuel mem b r b sp) := by
  unfold DrawMask
  simp only [Source.get]
  rw [clip_id (.BGRA b) (.BGRA b) r sp mp h1 h2 hb (source_inRange h1 h2 hb).1
    (source_inRange h1 h2 hb).2]
  simp only [h1.not_empty, Bool.false_eq_true, if_false]
  rfl

end bgra

namespace bgra

/-! ## drawFillSrc -/

theorem drawFillSrc_first_seq (fuel : Nat) (dst : BGRA) (sr sg sb sa : Nat) (mem : Mem)
    (i0 : Int) (n : Nat) (hf : n < fuel) :
    drawFillSrc.first fuel dst sr sg sb sa mem i0 (i0 + n * 4) =
      (seqFrom (fun x mem => drawFillSrc.pixel dst sr sg sb sa mem (i0 + x * 4)) n 0 mem).bind
        fun mem => some (mem, i0 + n * 4) := by
  unfold drawFillSrc.first
  have := loop_seq (fun ((_, i) : Mem × Int) => decide (i < i0 + n * 4))
    (fun (mem, i) => (drawFillSrc.pixel dst sr sg sb sa mem i).bind fun mem => some (mem, i + 4))
    (fun k => i0 + k * 4) (fun x mem => drawFillSrc.pixel dst sr sg sb sa mem (i0 + x * 4)) n
    (by intro k mem hk; simp; omega)
    (by
      intro k mem hk
      simp only [Nat.cast_add, Nat.cast_one]
      have : i0 + (k + 1 : Int) * 4 = i0 + k * 4 + 4 := by ring
      rw [this])
    (by intro mem; simp)
    fuel hf mem
  simpa using this

/-- The second loop of `drawFillSrc`, which copies the first row into the rows below. -/
theorem drawFillSrc_rows_seq (fuel : Nat) (dst : BGRA) (r : Rectangle) (firstRow : Slice)
    (mem : Mem) (nx n : Nat) (hn : r.Min.Y + 1 + n = r.Max.Y) (hf : n < fuel) :
    (loop (fun ((_, y, _, _) : Mem × Int × Int × Int) => decide (y < r.Max.Y))
      (fun (mem, y, i0, i1) =>
        let i0 := i0 + dst.Stride
        let i1 := i1 + dst.Stride
        (dst.Pix.slice i0 i1).bind fun d =>
        some (copy mem d firstRow, y + 1, i0, i1))
      fuel (mem, r.Min.Y + 1, dst.PixOffset r.Min.X r.Min.Y,
        dst.PixOffset r.Min.X r.Min.Y + nx * 4)).map Prod.fst =
    seqFrom (fun k mem =>
      (dst.Pix.slice (dst.PixOffset r.Min.X (r.Min.Y + (k + 1)))
        (dst.PixOffset r.Min.X (r.Min.Y + (k + 1)) + nx * 4)).bind fun d =>
      some (copy mem d firstRow)) n 0 mem := by
  have := loop_seq (fun ((_, y, _, _) : Mem × Int × Int × Int) => decide (y < r.Max.Y))
    (fun (mem, y, i0, i1) =>
      let i0 := i0 + dst.Stride
      let i1 := i1 + dst.Stride
      (dst.Pix.slice i0 i1).bind fun d =>
      some (copy mem d firstRow, y + 1, i0, i1))
    (fun k => (r.Min.Y + 1 + k, dst.PixOffset r.Min.X (r.Min.Y + k),
      dst.PixOffset r.Min.X (r.Min.Y + k) + nx * 4))
    (fun k mem =>
      (dst.Pix.slice (dst.PixOffset r.Min.X (r.Min.Y + (k + 1)))
        (dst.PixOffset r.Min.X (r.Min.Y + (k + 1)) + nx * 4)).bind fun d =>
      some (copy mem d firstRow)) n
    (by intro k mem hk; simp; omega)
    (by
      intro k mem hk
      have e1 : dst.PixOffset r.Min.X (r.Min.Y + k) + dst.Stride =
          dst.PixOffset r.Min.X (r.Min.Y + (k + 1)) := by
        unfold BGRA.PixOffset; ring
      have e2 : dst.PixOffset r.Min.X (r.Min.Y + k) + nx * 4 + dst.Stride =
          dst.PixOffset r.Min.X (r.Min.Y + (k + 1)) + nx * 4 := by
        unfold BGRA.PixOffset; ring
      simp only [e1, e2]
      cases dst.Pix.slice (dst.PixOffset r.Min.X (r.Min.Y + (k + 1)))
          (dst.PixOffset r.Min.X (r.Min.Y + (k + 1)) + nx * 4) with
      | none => rfl
      | some d =>
        simp only [Option.some_bind, Option.some.injEq, Prod.mk.injEq, true_and]
        refine ⟨?_, ?_, ?_⟩ <;> (push_cast; ring))
    (by intro mem; simp; omega)
    fuel hf mem
  simp only [Nat.cast_zero, add_zero] at this
  rw [this, map_fst_bind_some]

/-- What `drawFillSrc` leaves in memory. -/
theorem drawFillSrc_painted (fuel : Nat) (mem : Mem) (dst : BGRA) (r : Rectangle)
    (src : Uniform) (hw : dst.WF) (hr : Clipped r dst.Rect)
    (hfx : r.Dx.toNat < fuel) (hfy : r.Dy.toNat < fuel) :
    ∃ mem', drawFillSrc fuel mem dst r src = some mem' ∧
      Painted dst r (fun _ _ c => uint8 (chan c src.RGBA >>> 8)) mem mem' := by
  obtain ⟨nx, ny, hdx, hdy, ex, ey⟩ := hr.sizes
  have hdx' := hdx
  have hdy' := hdy
  unfold Rectangle.Dx at hdx'
  unfold Rectangle.Dy at hdy'
  have hnx : 0 < nx := by have := hr.1; omega
  have hny : 0 < ny := by have := hr.2.1; omega
  have hin : ∀ k x, k < ny → x < nx → Inside r (r.Min.X + x) (r.Min.Y + k) := by
    intro k x hk hx
    exact ⟨by omega, by omega, by omega, by omega⟩
  -- the first row
  obtain ⟨mem1, f1, f2, f3⟩ := seqFrom_cells
    (fun x mem => drawFillSrc.pixel dst src.RGBA.1 src.RGBA.2.1 src.RGBA.2.2.1
      src.RGBA.2.2.2 mem (dst.PixOffset r.Min.X r.Min.Y + x * 4))
    (fun x (c : Nat) => dst.addr (r.Min.X + x) r.Min.Y c) (fun c => c < 4)
    (fun _ c => uint8 (chan c src.RGBA >>> 8)) mem nx
    (by
      intro k k' e e' hk hkn he he' h
      have i1 := hin 0 k hny hkn
      have i2 := hin 0 k' hny (by omega)
      simp only [Nat.cast_zero, add_zero] at i1 i2
      obtain ⟨e1, _, _⟩ := dst.addr_inj hw _ _ _ _ _ _ (Inside.of_clipped hr i1)
        (Inside.of_clipped hr i2) he he' h
      omega)
    (by
      intro x mem1 hx _
      have i1 := hin 0 x hny hx
      simp only [Nat.cast_zero, add_zero] at i1
      have hb := hw.inb _ _ (Inside.of_clipped hr i1)
      have hD := dst.PixOffset_row r.Min.X (r.Min.X + x) r.Min.Y
      have e01 : r.Min.X + (x : Int) - r.Min.X = x := by ring
      rw [e01] at hD
      beta_reduce
      rw [← hD]
      obtain ⟨mem', e, hv, hf⟩ := store4_spec dst.Pix mem1 (dst.PixOffset (r.Min.X + x) r.Min.Y)
        (fun c => uint8 (chan c src.RGBA >>> 8)) hb.1 hb.2
      refine ⟨mem', ?_, hv, hf⟩
      rw [← e]
      rfl)
  -- the rows below
  have hrow : ∀ k, k < ny → 0 ≤ dst.PixOffset r.Min.X (r.Min.Y + k) ∧
      dst.PixOffset r.Min.X (r.Min.Y + k) + 4 * nx ≤ dst.Pix.len :=
    fun k hk => dst.row_inb hw r hr nx hdx _ (by omega)
  have hcap := hw.cap
  obtain ⟨mem2, g1, g2, g3⟩ := seqFrom_cells
    (fun k mem =>
      (dst.Pix.slice (dst.PixOffset r.Min.X (r.Min.Y + (k + 1)))
        (dst.PixOffset r.Min.X (r.Min.Y + (k + 1)) + nx * 4)).bind fun d =>
      some (copy mem d (rowSlice dst r.Min.X r.Min.Y (4 * nx))))
    (fun k (e : Nat × Nat) => dst.addr (r.Min.X + e.1) (r.Min.Y + (k + 1)) e.2)
    (fun e => e.1 < nx ∧ e.2 < 4)
    (fun _ e => uint8 (chan e.2 src.RGBA >>> 8)) mem1 (ny - 1)
    (by
      intro k k' e e' hk hkn he he' h
      have i1 := hin (k + 1) e.1 (by omega) he.1
      have i2 := hin (k' + 1) e'.1 (by omega) he'.1
      obtain ⟨_, e2, _⟩ := dst.addr_inj hw _ _ _ _ _ _ (Inside.of_clipped hr i1)
        (Inside.of_clipped hr i2) he.2 he'.2 (by simpa using h)
      omega)
    (by
      intro k mem3 hk hfr
      have hk1 := hrow (k + 1) (by omega)
      have h0 := hrow 0 hny
      simp only [Nat.cast_zero, add_zero] at h0
      have ek : ((k + 1 : Nat) : Int) = (k : Int) + 1 := by push_cast; ring
      rw [ek] at hk1
      beta_reduce
      rw [Slice.slice_inb _ _ _ hk1.1 (by omega) (by omega)]
      refine ⟨_, rfl, ?_, ?_⟩
      · intro e he
        have hi := hin (k + 1) e.1 (by omega) he.1
        rw [ek] at hi
        have hD := dst.PixOffset_row r.Min.X (r.Min.X + e.1) (r.Min.Y + (k + 1))
        have hi0 := hin 0 e.1 hny he.1
        simp only [Nat.cast_zero, add_zero] at hi0
        have hD0 := dst.PixOffset_row r.Min.X (r.Min.X + e.1) r.Min.Y
        have hd1 := hw.inb _ _ (Inside.of_clipped hr hi)
        have hd0 := hw.inb _ _ (Inside.of_clipped hr hi0)
        have e01 : r.Min.X + (e.1 : Int) - r.Min.X = e.1 := by ring
        rw [e01] at hD hD0
        have he1 := he.1
        have he2 := he.2
        have key : copy mem3 ⟨dst.Pix.off + (dst.PixOffset r.Min.X (r.Min.Y + (k + 1))).toNat,
              (dst.PixOffset r.Min.X (r.Min.Y + (k + 1)) + nx * 4 -
                dst.PixOffset r.Min.X (r.Min.Y + (k + 1))).toNat,
              dst.Pix.cap - (dst.PixOffset r.Min.X (r.Min.Y + (k + 1))).toNat⟩
            (rowSlice dst r.Min.X r.Min.Y (4 * nx))
            (dst.addr (r.Min.X + e.1) (r.Min.Y + (k + 1)) e.2) =
            mem3 (dst.addr (r.Min.X + e.1) r.Min.Y e.2) := by
          unfold copy rowSlice BGRA.addr
          simp only
          rw [if_pos (by omega)]
          congr 1
          omega
        show copy mem3 _ _ _ = _
        rw [key, hfr, f2 e.1 e.2 he.1 he.2]
        intro k' e' hk' he' h
        have i2 := hin (k' + 1) e'.1 (by omega) he'.1
        obtain ⟨_, e2, _⟩ := dst.addr_inj hw _ _ _ _ _ _ (Inside.of_clipped hr hi0)
          (Inside.of_clipped hr i2) he.2 he'.2 (by simpa using h)
        omega
      · intro a ha
        show copy mem3 _ _ a = mem3 a
        unfold copy rowSlice
        simp only
        by_cases hc : dst.Pix.off + (dst.PixOffset r.Min.X (r.Min.Y + (k + 1))).toNat ≤ a ∧
            a < dst.Pix.off + (dst.PixOffset r.Min.X (r.Min.Y + (k + 1))).toNat +
              min (dst.PixOffset r.Min.X (r.Min.Y + (k + 1)) + nx * 4 -
                dst.PixOffset r.Min.X (r.Min.Y + (k + 1))).toNat (4 * nx)
        · exfalso
          have hx : (a - (dst.Pix.off +
              (dst.PixOffset r.Min.X (r.Min.Y + (k + 1))).toNat)) / 4 < nx := by omega
          have hi := hin (k + 1) _ (by omega) hx
          rw [ek] at hi
          have hd1 := hw.inb _ _ (Inside.of_clipped hr hi)
          have hD := dst.PixOffset_row r.Min.X (r.Min.X + ((a - (dst.Pix.off +
              (dst.PixOffset r.Min.X (r.Min.Y + (k + 1))).toNat)) / 4 : Nat))
              (r.Min.Y + (k + 1))
          apply ha ((a - (dst.Pix.off +
              (dst.PixOffset r.Min.X (r.Min.Y + (k + 1))).toNat)) / 4,
            (a - (dst.Pix.off + (dst.PixOffset r.Min.X (r.Min.Y + (k + 1))).toNat)) % 4)
            ⟨hx, Nat.mod_lt _ (by omega)⟩
          unfold BGRA.addr
          simp only [ek]
          omega
        · rw [if_neg hc])
  -- the function itself
  have h0 := hrow 0 hny
  simp only [Nat.cast_zero, add_zero] at h0
  have hcode : drawFillSrc fuel mem dst r src = some mem2 := by
    unfold drawFillSrc
    rcases hs : src.RGBA with ⟨sr, sg, sb, sa⟩
    simp only [hs] at f1 g1
    simp only [hdx]
    rw [drawFillSrc_first_seq _ _ _ _ _ _ _ _ _ (by omega), f1]
    simp only [Option.some_bind]
    rw [Slice.slice_inb _ _ _ h0.1 (by omega) (by omega)]
    simp only [Option.some_bind]
    have e3 : (⟨dst.Pix.off + (dst.PixOffset r.Min.X r.Min.Y).toNat,
        (dst.PixOffset r.Min.X r.Min.Y + (nx : Int) * 4 - dst.PixOffset r.Min.X r.Min.Y).toNat,
        dst.Pix.cap - (dst.PixOffset r.Min.X r.Min.Y).toNat⟩ : Slice) =
        rowSlice dst r.Min.X r.Min.Y (4 * nx) := by
      unfold rowSlice
      congr 1
      omega
    rw [e3, drawFillSrc_rows_seq fuel dst r _ mem1 nx (ny - 1) (by omega) (by omega)]
    exact g1
  refine ⟨mem2, hcode, ?_, ?_⟩
  · intro x y c hi hc
    obtain ⟨hx1, hx2, hy1, hy2⟩ := hi
    by_cases hy : y = r.Min.Y
    · subst hy
      have e1 : r.Min.X + (((x - r.Min.X).toNat : Nat) : Int) = x := by omega
      have v := f2 (x - r.Min.X).toNat c (by omega) hc
      rw [e1] at v
      rw [g3, v]
      intro k e hk he h
      have i1 := hin (k + 1) e.1 (by omega) he.1
      obtain ⟨_, e2, _⟩ := dst.addr_inj hw _ _ _ _ _ _
        (Inside.of_clipped hr ⟨hx1, hx2, hy1, hy2⟩)
        (Inside.of_clipped hr i1) hc he.2 (by simpa using h)
      omega
    · have v := g2 ((y - r.Min.Y).toNat - 1) ((x - r.Min.X).toNat, c) (by omega)
        ⟨by omega, hc⟩
      have e1 : r.Min.X + (((x - r.Min.X).toNat : Nat) : Int) = x := by omega
      have e2 : r.Min.Y + (((((y - r.Min.Y).toNat - 1 : Nat) : Int)) + 1) = y := by omega
      simp only [e1, e2] at v
      exact v
  · intro a ha
    rw [g3, f3]
    · intro k e hk he
      have i1 := hin 0 k hny hk
      simp only [Nat.cast_zero, add_zero] at i1
      exact ha _ _ _ i1 he
    · intro k e hk he
      have i1 := hin (k + 1) e.1 (by omega) he.1
      have := ha _ _ _ i1 he.2
      simpa using this

end bgra

namespace bgra

/-! ## Draw with a solid colour -/

theorem clip_fst (dst src : Image) (r : Rectangle) (sp mp : Point)
    (hb : RectInRange src.Bounds) (ho : PointInRange r.Min) (hs : PointInRange sp) :
    (clip dst r src sp none mp).1 = clipRect r dst.Bounds src.Bounds sp := by
  unfold clip clipRect
  simp only [wrap_translate _ _ _ hb ho hs]
  split_ifs <;> rfl

theorem Inside_clipRect (r d s : Rectangle) (sp : Point) (x y : Int) :
    Inside (clipRect r d s sp) x y ↔
      Inside r x y ∧ Inside d x y ∧ Inside (s.Add (r.Min.Sub sp)) x y := by
  unfold clipRect
  rw [Inside_Intersect, Inside_Intersect, and_assoc]

theorem Clipped_clipRect (r d s : Rectangle) (sp : Point)
    (h : (clipRect r d s sp).Empty = false) : Clipped (clipRect r d s sp) d := by
  unfold clipRect at h ⊢
  have h1 := (Clipped_Intersect _ _ h).1
  have h2 : (r.Intersect d).Empty = false := by
    rw [← Bool.not_eq_true, Empty_iff]
    obtain ⟨a1, a2, a3, a4, a5, a6⟩ := h1
    omega
  exact h1.trans (Clipped_Intersect _ _ h2).2

theorem Clipped.fuel {r b : Rectangle} (h : Clipped r b) (fuel : Nat)
    (hfx : b.Dx.toNat < fuel) (hfy : b.Dy.toNat < fuel) :
    r.Dx.toNat < fuel ∧ r.Dy.toNat < fuel := by
  obtain ⟨a1, a2, a3, a4, a5, a6⟩ := h
  unfold Rectangle.Dx Rectangle.Dy at *
  omega

theorem DrawMask_fillSrc (fuel : Nat) (mem : Mem) (d : BGRA) (r : Rectangle) (u : Uniform)
    (sp mp : Point) (ho : PointInRange r.Min) (hs : PointInRange sp) :
    DrawMask fuel mem (.BGRA d) r (.image (.Uniform u)) sp none mp .Src =
      if (clipRect r d.Rect u.Bounds sp).Empty then .done mem
      else .run (drawFillSrc fuel mem d (clipRect r d.Rect u.Bounds sp) u) := by
  have h := clip_fst (.BGRA d) (.Uniform u) r sp mp (Uniform_inRange u) ho hs
  unfold DrawMask
  simp only [Source.get]
  rcases hc : clip (.BGRA d) r (.Uniform u) sp none mp with ⟨r', sp', mp'⟩
  rw [hc] at h
  simp only at h
  subst h
  simp only [Image.Bounds]
  split_ifs <;> first | rfl | (exfalso; assumption)

theorem DrawMask_fillOver (fuel : Nat) (mem : Mem) (d : BGRA) (r : Rectangle) (u : Uniform)
    (sp mp : Point) (ho : PointInRange r.Min) (hs : PointInRange sp) :
    DrawMask fuel mem (.BGRA d) r (.image (.Uniform u)) sp none mp .Over =
      if (clipRect r d.Rect u.Bounds sp).Empty then .done mem
      else .run (drawFillOver fuel mem d (clipRect r d.Rect u.Bounds sp) u) := by
  have h := clip_fst (.BGRA d) (.Uniform u) r sp mp (Uniform_inRange u) ho hs
  unfold DrawMask
  simp only [Source.get]
  rcases hc : clip (.BGRA d) r (.Uniform u) sp none mp with ⟨r', sp', mp'⟩
  rw [hc] at h
  simp only at h
  subst h
  simp only [Image.Bounds]
  split_ifs <;> rfl

theorem narrow_rgbaModel (col : color.Color) :
    (⟨uint8 (col.RGBA.1 >>> 8), uint8 (col.RGBA.2.1 >>> 8), uint8 (col.RGBA.2.2.1 >>> 8),
      uint8 (col.RGBA.2.2.2 >>> 8)⟩ : color.RGBA) = color.rgbaModel col := by
  cases col with
  | rgba c =>
    rw [Color.RGBA_rgba]
    simp only [uint8_expand, color.rgbaModel]
  | alpha a => rfl
  | other r g b a => rfl

/-- After a call that paints the rectangle with the narrowed channels of a colour, `At`
returns the colour, converted to `color.RGBA`, on every pixel of the rectangle. -/
theorem Painted.At_narrow {dst : BGRA} {r : Rectangle} {mem mem' : Mem} (col : color.Color)
    (hw : dst.WF) (hr : Clipped r dst.Rect)
    (h : Painted dst r (fun _ _ c => uint8 (chan c col.RGBA >>> 8)) mem mem')
    (x y : Int) (hi : Inside r x y) : dst.At mem' x y = some (.rgba (color.rgbaModel col)) := by
  have hd := Inside.of_clipped hr hi
  rw [BGRA.At_inb mem' dst x y hd (hw.inb x y hd), h.1 x y 0 hi (by omega),
    h.1 x y 1 hi (by omega), h.1 x y 2 hi (by omega), h.1 x y 3 hi (by omega),
    ← narrow_rgbaModel]
  rfl

theorem Inside.rect_not_empty {r : Rectangle} {x y : Int} (h : Inside r x y) : r.Empty = false := by
  rw [← Bool.not_eq_true, Empty_iff]
  obtain ⟨a1, a2, a3, a4⟩ := h
  omega

/-- Nothing is painted in an empty rectangle. -/
theorem Painted.empty (dst : BGRA) (r : Rectangle) (g : Int → Int → Nat → Byte) (mem : Mem)
    (h : r.Empty = true) : Painted dst r g mem mem := by
  refine ⟨fun x y c hi _ => ?_, fun _ _ => rfl⟩
  rw [hi.rect_not_empty] at h
  exact absurd h (by decide)

/-- The call `Draw(dst, r, &image.Uniform{c}, sp, draw.Src)` on a BGRA destination returns,
and has painted the clipped rectangle with the narrowed channels of the colour. -/
theorem Draw_fillSrc_painted (fuel : Nat) (mem : Mem) (dst : BGRA) (r : Rectangle)
    (u : Uniform) (sp : Point) (hw : dst.WF)
    (hfx : dst.Rect.Dx.toNat < fuel) (hfy : dst.Rect.Dy.toNat < fuel)
    (ho : PointInRange r.Min) (hs : PointInRange sp) :
    ∃ mem', Draw fuel mem (.BGRA dst) r (.image (.Uniform u)) sp .Src = .done mem' ∧
      Painted dst (clipRect r dst.Rect u.Bounds sp)
        (fun _ _ c => uint8 (chan c u.RGBA >>> 8)) mem mem' := by
  unfold Draw
  rw [DrawMask_fillSrc fuel mem dst r u sp ZP ho hs]
  by_cases he : (clipRect r dst.Rect u.Bounds sp).Empty = true
  · rw [if_pos he]
    exact ⟨mem, rfl, Painted.empty _ _ _ _ he⟩
  · rw [if_neg he]
    have hc := Clipped_clipRect r dst.Rect u.Bounds sp (by simpa using he)
    obtain ⟨f1, f2⟩ := hc.fuel fuel hfx hfy
    obtain ⟨mem', e, hp⟩ := drawFillSrc_painted fuel mem dst _ u hw hc f1 f2
    exact ⟨mem', by rw [e]; rfl, hp⟩

/-- The call `Draw(dst, r, &image.Uniform{c}, sp, draw.Over)` on a BGRA destination returns,
and has blended the colour into the clipped rectangle. -/
theorem Draw_fillOver_painted (fuel : Nat) (mem : Mem) (dst : BGRA) (r : Rectangle)
    (u : Uniform) (sp : Point) (hw : dst.WF)
    (hfx : dst.Rect.Dx.toNat < fuel) (hfy : dst.Rect.Dy.toNat < fuel)
    (ho : PointInRange r.Min) (hs : PointInRange sp) :
    ∃ mem', Draw fuel mem (.BGRA dst) r (.image (.Uniform u)) sp .Over = .done mem' ∧
      Painted dst (clipRect r dst.Rect u.Bounds sp)
        (fun x y c => overByte (mem (dst.addr x y c))
          (u32 (sub32 m u.RGBA.2.2.2 * 0x101)) (chan c u.RGBA)) mem mem' := by
  unfold Draw
  rw [DrawMask_fillOver fuel mem dst r u sp ZP ho hs]
  by_cases he : (clipRect r dst.Rect u.Bounds sp).Empty = true
  · rw [if_pos he]
    exact ⟨mem, rfl, Painted.empty _ _ _ _ he⟩
  · rw [if_neg he]
    have hc := Clipped_clipRect r dst.Rect u.Bounds sp (by simpa using he)
    obtain ⟨f1, f2⟩ := hc.fuel fuel hfx hfy
    obtain ⟨mem', e, hp⟩ := drawFillOver_painted fuel mem dst _ u hw hc f1 f2
    exact ⟨mem', by rw [e]; rfl, hp⟩

end bgra

namespace bgra

/-! ## New, Set and At -/

/-- The four stores of `Set` and `SetBGRA`, in the order `i+0`, `i+1`, `i+2`, `i+3`. -/
theorem store4_up (s : Slice) (mem : Mem) (i : Int) (v : Nat → Byte)
    (h0 : 0 ≤ i) (h1 : i + 3 < s.len) :
    ∃ mem', ((s.store mem (i + 0) (v 0)).bind fun mem =>
        (s.store mem (i + 1) (v 1)).bind fun mem =>
        (s.store mem (i + 2) (v 2)).bind fun mem => s.store mem (i + 3) (v 3)) = some mem' ∧
      (∀ c : Nat, c < 4 → mem' (s.off + (i + c).toNat) = v c) ∧
      (∀ b, (∀ c : Nat, c < 4 → b ≠ s.off + (i + c).toNat) → mem' b = mem b) := by
  rw [Slice.store_inb _ _ _ _ (by omega) (by omega)]
  simp only [Option.some_bind]
  rw [Slice.store_inb _ _ _ _ (by omega) (by omega)]
  simp only [Option.some_bind]
  rw [Slice.store_inb _ _ _ _ (by omega) (by omega)]
  simp only [Option.some_bind]
  rw [Slice.store_inb _ _ _ _ (by omega) (by omega)]
  refine ⟨_, rfl, ?_, ?_⟩
  · intro c hc
    have e0 : (i + 0).toNat = i.toNat := by simp
    have e1 : (i + 1).toNat = i.toNat + 1 := by omega
    have e2 : (i + 2).toNat = i.toNat + 2 := by omega
    have e3 : (i + 3).toNat = i.toNat + 3 := by omega
    interval_cases c <;> simp [Function.update_apply, e0, e1, e2, e3]
  · intro b hb
    have b0 := hb 0 (by omega)
    have b1 := hb 1 (by omega)
    have b2 := hb 2 (by omega)
    have b3 := hb 3 (by omega)
    simp only [Function.update_apply]
    simp only [Nat.cast_ofNat, Nat.cast_zero, Nat.cast_one] at b0 b1 b2 b3
    rw [if_neg b3, if_neg b2, if_neg b1, if_neg b0]

/-- Inside the bounds and the slice, `SetBGRA` returns, has written the four channels of the
colour in the order B, G, R, A at the offset of the pixel, and nothing else. -/
theorem BGRA.SetBGRA_inb (mem : Mem) (p : BGRA) (x y : Int) (c : color.RGBA)
    (h : Inside p.Rect x y)
    (hb : 0 ≤ p.PixOffset x y ∧ p.PixOffset x y + 3 < p.Pix.len) :
    ∃ mem', p.SetBGRA mem x y c = some mem' ∧
      (∀ k, k < 4 → mem' (p.addr x y k) = setByte c k) ∧
      (∀ b, (∀ k, k < 4 → b ≠ p.addr x y k) → mem' b = mem b) := by
  unfold BGRA.SetBGRA
  rw [(In_iff x y p.Rect).2 h]
  simp only [Bool.not_true, Bool.false_eq_true, if_false]
  exact store4_up p.Pix mem (p.PixOffset x y) (setByte c) hb.1 hb.2

/-- Inside the bounds and the slice, `Set` returns, has written the four channels of the
converted colour in the order B, G, R, A at the offset of the pixel, and nothing else. -/
theorem BGRA.Set_inb (mem : Mem) (p : BGRA) (x y : Int) (c : color.Color)
    (h : Inside p.Rect x y)
    (hb : 0 ≤ p.PixOffset x y ∧ p.PixOffset x y + 3 < p.Pix.len) :
    ∃ mem', p.Set mem x y c = some mem' ∧
      (∀ k, k < 4 → mem' (p.addr x y k) = setByte (color.rgbaModel c) k) ∧
      (∀ b, (∀ k, k < 4 → b ≠ p.addr x y k) → mem' b = mem b) := by
  unfold BGRA.Set
  rw [(In_iff x y p.Rect).2 h]
  simp only [Bool.not_true, Bool.false_eq_true, if_false]
  exact store4_up p.Pix mem (p.PixOffset x y) (setByte (color.rgbaModel c)) hb.1 hb.2

/-- Outside the bounds `Set` returns and changes nothing. -/
theorem BGRA.Set_outside (mem : Mem) (p : BGRA) (x y : Int) (c : color.Color)
    (h : ¬ Inside p.Rect x y) : p.Set mem x y c = some mem := by
  unfold BGRA.Set
  have : Point.In ⟨x, y⟩ p.Rect = false := by
    rw [← Bool.not_eq_true]; exact fun e => h ((In_iff x y p.Rect).1 e)
  rw [this]
  rfl

/-- For a rectangle of positive width and height whose size `4*w*h` is at most `maxAlloc`,
none of the products of `New` wraps around. -/
theorem newSize_exact (r : Rectangle) (hw : 0 < r.Dx) (hh : 0 < r.Dy)
    (hsz : 4 * r.Dx * r.Dy ≤ 281474976710656) :
    int64 r.Dx = r.Dx ∧ int64 r.Dy = r.Dy ∧ int64 (4 * r.Dx) = 4 * r.Dx ∧
      int64 (4 * r.Dx * r.Dy) = 4 * r.Dx * r.Dy := by
  have h1 : 4 * r.Dx ≤ 4 * r.Dx * r.Dy := by nlinarith
  have h2 : r.Dy ≤ 4 * r.Dx * r.Dy := by nlinarith
  exact ⟨int64_eq _ (by omega) (by omega), int64_eq _ (by omega) (by omega),
    int64_eq _ (by omega) (by omega), int64_eq _ (by omega) (by omega)⟩

/-- The three fields of the buffer `New` returns for a rectangle that is not empty and whose
size the allocator can hand out, and its well-formedness. -/
theorem New_spec (h : Heap) (r : Rectangle) (hx : r.Min.X < r.Max.X) (hy : r.Min.Y < r.Max.Y)
    (hsz : 4 * r.Dx * r.Dy ≤ (min h.limit maxAlloc : Nat)) :
    ∃ p h', New h r = some (p, h') ∧ p.Rect = r ∧ p.Stride = 4 * r.Dx ∧
      p.Pix = ⟨h.brk, (4 * r.Dx * r.Dy).toNat, (4 * r.Dx * r.Dy).toNat⟩ ∧ p.WF ∧
      h'.brk = h.brk + (4 * r.Dx * r.Dy).toNat ∧
      (∀ a, h'.mem a = if h.brk ≤ a ∧ a < h.brk + (4 * r.Dx * r.Dy).toNat then 0
        else h.mem a) := by
  have hw : 0 < r.Dx := by unfold Rectangle.Dx; omega
  have hh : 0 < r.Dy := by unfold Rectangle.Dy; omega
  have hn : 0 ≤ 4 * r.Dx * r.Dy := by positivity
  have hm : ((min h.limit maxAlloc : Nat) : Int) ≤ 281474976710656 := by
    unfold maxAlloc; omega
  obtain ⟨e1, e2, e3, e4⟩ := newSize_exact r hw hh (by omega)
  unfold New make
  simp only [e1, e2, e3, e4, if_pos (And.intro hn hsz), Option.some_bind]
  refine ⟨_, _, rfl, rfl, rfl, rfl, ⟨le_refl _, le_refl _, ?_⟩, rfl, fun a => rfl⟩
  intro x y hi
  obtain ⟨i1, i2, i3, i4⟩ := hi
  simp only at i1 i2 i3 i4
  simp only [BGRA.PixOffset]
  have a1 : 0 ≤ (y - r.Min.Y) * (4 * r.Dx) := by
    apply mul_nonneg <;> omega
  have a2 : (y - r.Min.Y) * (4 * r.Dx) ≤ (r.Dy - 1) * (4 * r.Dx) := by
    apply mul_le_mul_of_nonneg_right
    · unfold Rectangle.Dy; omega
    · omega
  have a3 : (r.Dy - 1) * (4 * r.Dx) = 4 * r.Dx * r.Dy - 4 * r.Dx := by ring
  have a4 : x - r.Min.X < r.Dx := by unfold Rectangle.Dx; omega
  have a5 : ((4 * r.Dx * r.Dy).toNat : Int) = 4 * r.Dx * r.Dy := Int.toNat_of_nonneg hn
  constructor
  · omega
  · rw [a5]; omega

end bgra

namespace bgra

/-! ## drawRGBASrc -/

/-- The four assignments `dpix[i+k] = spix[si+k']` of `drawRGBASrc`, when no byte written is
one of the bytes read. -/
theorem swap4_spec (dpix spix : Slice) (mem : Mem) (i si : Int)
    (h0 : 0 ≤ i) (h1 : i + 3 < dpix.len) (s0 : 0 ≤ si) (s1 : si + 3 < spix.len)
    (hne : ∀ c c' : Nat, c < 4 → c' < 4 →
      spix.off + (si + c').toNat ≠ dpix.off + (i + c).toNat) :
    ∃ mem', drawRGBASrc.pixel dpix spix mem i si = some mem' ∧
      mem' (dpix.off + (i + (0 : Nat)).toNat) = mem (spix.off + (si + (2 : Nat)).toNat) ∧
      mem' (dpix.off + (i + (1 : Nat)).toNat) = mem (spix.off + (si + (1 : Nat)).toNat) ∧
      mem' (dpix.off + (i + (2 : Nat)).toNat) = mem (spix.off + (si + (0 : Nat)).toNat) ∧
      mem' (dpix.off + (i + (3 : Nat)).toNat) = mem (spix.off + (si + (3 : Nat)).toNat) ∧
      (∀ b, (∀ c : Nat, c < 4 → b ≠ dpix.off + (i + c).toNat) → mem' b = mem b) := by
  have e0 : (i + 0).toNat = i.toNat := by simp
  have e1 : (i + 1).toNat = i.toNat + 1 := by omega
  have e2 : (i + 2).toNat = i.toNat + 2 := by omega
  have e3 : (i + 3).toNat = i.toNat + 3 := by omega
  have f0 : (si + 0).toNat = si.toNat := by simp
  have f1 : (si + 1).toNat = si.toNat + 1 := by omega
  have f2 : (si + 2).toNat = si.toNat + 2 := by omega
  have f3 : (si + 3).toNat = si.toNat + 3 := by omega
  have n := fun c c' (hc : c < 4) (hc' : c' < 4) => hne c c' hc hc'
  have n00 := n 0 0 (by omega) (by omega)
  have n01 := n 0 1 (by omega) (by omega)
  have n02 := n 0 2 (by omega) (by omega)
  have n03 := n 0 3 (by omega) (by omega)
  have n10 := n 1 0 (by omega) (by omega)
  have n11 := n 1 1 (by omega) (by omega)
  have n12 := n 1 2 (by omega) (by omega)
  have n13 := n 1 3 (by omega) (by omega)
  have n20 := n 2 0 (by omega) (by omega)
  have n21 := n 2 1 (by omega) (by omega)
  have n22 := n 2 2 (by omega) (by omega)
  have n23 := n 2 3 (by omega) (by omega)
  have n30 := n 3 0 (by omega) (by omega)
  have n31 := n 3 1 (by omega) (by omega)
  have n32 := n 3 2 (by omega) (by omega)
  have n33 := n 3 3 (by omega) (by omega)
  simp only [Nat.cast_ofNat, Nat.cast_zero, Nat.cast_one, e0, e1, e2, e3, f0, f1, f2, f3]
    at n00 n01 n02 n03 n10 n11 n12 n13 n20 n21 n22 n23 n30 n31 n32 n33
  unfold drawRGBASrc.pixel
  rw [Slice.index_inb _ _ _ (by omega) (by omega)]
  simp only [Option.some_bind]
  rw [Slice.store_inb _ _ _ _ (by omega) (by omega)]
  simp only [Option.some_bind]
  rw [Slice.index_inb _ _ _ (by omega) (by omega)]
  simp only [Option.some_bind]
  rw [Slice.store_inb _ _ _ _ (by omega) (by omega)]
  simp only [Option.some_bind]
  rw [Slice.index_inb _ _ _ (by omega) (by omega)]
  simp only [Option.some_bind]
  rw [Slice.store_inb _ _ _ _ (by omega) (by omega)]
  simp only [Option.some_bind]
  rw [Slice.index_inb _ _ _ (by omega) (by omega)]
  simp only [Option.some_bind]
  rw [Slice.store_inb _ _ _ _ (by omega) (by omega)]
  simp only [Nat.cast_ofNat, Nat.cast_zero, Nat.cast_one, e0, e1, e2, e3, f0, f1, f2, f3]
  refine ⟨_, rfl, ?_, ?_, ?_, ?_, ?_⟩
  · simp [Function.update_apply, e0, e1, e2, e3, f0, f1, f2, f3]
  · simp [Function.update_apply, n01, n11, e0, e1, e2, e3, f0, f1, f2, f3]
  · simp [Function.update_apply, n00, n10, n20, e0, e1, e2, e3, f0, f1, f2, f3]
  · simp [Function.update_apply, n03, n13, n23, n33, e0, e1, e2, e3, f0, f1, f2, f3]
  · intro b hb
    have b0 := hb 0 (by omega)
    have b1 := hb 1 (by omega)
    have b2 := hb 2 (by omega)
    have b3 := hb 3 (by omega)
    simp only [Nat.cast_ofNat, Nat.cast_zero, Nat.cast_one, e0, e1, e2, e3] at b0 b1 b2 b3
    simp only [Function.update_apply]
    rw [if_neg b3, if_neg b2, if_neg b1, if_neg b0]

theorem drawRGBASrc_row_seq (fuel : Nat) (dpix spix : Slice) (mem : Mem) (i0 si0 : Int)
    (n : Nat) (hf : n < fuel) :
    drawRGBASrc.row fuel dpix spix mem i0 si0 (i0 + n * 4) =
      (seqFrom (fun x mem => drawRGBASrc.pixel dpix spix mem (i0 + x * 4) (si0 + x * 4))
        n 0 mem).bind fun mem => some (mem, i0 + n * 4, si0 + n * 4) := by
  unfold drawRGBASrc.row
  have := loop_seq (fun ((_, i, _) : Mem × Int × Int) => decide (i < i0 + n * 4))
    (fun (mem, i, si) =>
      (drawRGBASrc.pixel dpix spix mem i si).bind fun mem => some (mem, i + 4, si + 4))
    (fun k => (i0 + k * 4, si0 + k * 4))
    (fun x mem => drawRGBASrc.pixel dpix spix mem (i0 + x * 4) (si0 + x * 4)) n
    (by intro k mem hk; simp; omega)
    (by
      intro k mem hk
      simp only [Nat.cast_add, Nat.cast_one]
      have a : i0 + (k + 1 : Int) * 4 = i0 + k * 4 + 4 := by ring
      have b : si0 + (k + 1 : Int) * 4 = si0 + k * 4 + 4 := by ring
      rw [a, b])
    (by intro mem; simp)
    fuel hf mem
  simpa using this

/-- The first pixel of the row `y` of a buffer lies in the buffer when `y` is a row of a
rectangle clipped to the buffer. -/
theorem Inside.rowStart {r b : Rectangle} (h : Clipped r b) {x y : Int} (hi : Inside r x y) :
    Inside b b.Min.X y := by
  obtain ⟨h1, h2, h3, h4, h5, h6⟩ := h
  obtain ⟨i1, i2, i3, i4⟩ := hi
  exact ⟨by omega, by omega, by omega, by omega⟩

theorem Inside.first {b : Rectangle} {x y : Int} (hi : Inside b x y) : Inside b b.Min.X y := by
  obtain ⟨i1, i2, i3, i4⟩ := hi
  exact ⟨by omega, by omega, by omega, by omega⟩

theorem drawRGBASrc_grid (fuel : Nat) (mem : Mem) (dst : BGRA) (src : image.RGBA)
    (r : Rectangle) (sp : Point) (hw : dst.WF) (hsw : (ofRGBA src).WF)
    (hr : Clipped r dst.Rect) (hsr : Clipped (r.Add (sp.Sub r.Min)) src.Rect)
    (nx ny : Nat) (hdx : r.Dx = nx) (hdy : r.Dy = ny) (hfx : nx < fuel) (hfy : ny < fuel) :
    drawRGBASrc fuel mem dst r src sp =
      seqFrom (fun j mem => seqFrom (fun x mem =>
        drawRGBASrc.pixel
          (Slice.drop dst.Pix (dst.PixOffset dst.Rect.Min.X (r.Min.Y + j)).toNat)
          (Slice.drop src.Pix ((ofRGBA src).PixOffset src.Rect.Min.X (sp.Y + j)).toNat)
          mem ((r.Min.X + x - dst.Rect.Min.X) * 4) ((sp.X + x - src.Rect.Min.X) * 4))
        nx 0 mem) ny 0 mem := by
  unfold Rectangle.Dx at hdx
  unfold Rectangle.Dy at hdy
  have tails : ∀ j : Nat, j < ny →
      dst.Pix.tail (dst.PixOffset dst.Rect.Min.X (r.Min.Y + j)) =
        some (Slice.drop dst.Pix (dst.PixOffset dst.Rect.Min.X (r.Min.Y + j)).toNat) ∧
      src.Pix.tail ((ofRGBA src).PixOffset src.Rect.Min.X (sp.Y + j)) =
        some (Slice.drop src.Pix
          ((ofRGBA src).PixOffset src.Rect.Min.X (sp.Y + j)).toNat) := by
    intro j hj
    have hi : Inside r r.Min.X (r.Min.Y + j) := ⟨le_refl _, hr.1, by omega, by omega⟩
    have h1 := hw.inb _ _ (Inside.rowStart hr hi)
    have h2 := hsw.inb _ _ (Inside.src hsr hi).first
    have e00 : sp.Y + (r.Min.Y + j - r.Min.Y) = sp.Y + j := by ring
    rw [e00, ofRGBA_Pix] at h2
    exact ⟨Slice.tail_drop _ _ h1.1 (by omega), Slice.tail_drop _ _ h2.1 (by omega)⟩
  unfold drawRGBASrc
  simp only
  have := loop_seq
    (fun ((_, y, _) : Mem × Int × Int) => y != r.Max.Y - dst.Rect.Min.Y)
    (fun (mem, y, sy) =>
      (dst.Pix.tail (y * dst.Stride)).bind fun dpix =>
      (src.Pix.tail (sy * src.Stride)).bind fun spix =>
      (drawRGBASrc.row fuel dpix spix mem ((r.Min.X - dst.Rect.Min.X) * 4)
        ((sp.X - src.Rect.Min.X) * 4) ((r.Max.X - dst.Rect.Min.X) * 4)).bind
        fun (mem, _, _) => some (mem, y + 1, sy + 1))
    (fun j => (r.Min.Y - dst.Rect.Min.Y + j, sp.Y - src.Rect.Min.Y + j))
    (fun j mem => seqFrom (fun x mem =>
        drawRGBASrc.pixel
          (Slice.drop dst.Pix (dst.PixOffset dst.Rect.Min.X (r.Min.Y + j)).toNat)
          (Slice.drop src.Pix ((ofRGBA src).PixOffset src.Rect.Min.X (sp.Y + j)).toNat)
          mem ((r.Min.X + x - dst.Rect.Min.X) * 4) ((sp.X + x - src.Rect.Min.X) * 4))
        nx 0 mem) ny
    (by intro k mem hk; simp; omega)
    (by
      intro k mem hk
      simp only
      have e1 : (r.Min.Y - dst.Rect.Min.Y + k) * dst.Stride =
          dst.PixOffset dst.Rect.Min.X (r.Min.Y + k) := by
        unfold BGRA.PixOffset; ring
      have e2 : (sp.Y - src.Rect.Min.Y + k) * src.Stride =
          (ofRGBA src).PixOffset src.Rect.Min.X (sp.Y + k) := by
        unfold BGRA.PixOffset ofRGBA; simp only; ring
      rw [e1, e2, (tails k hk).1, (tails k hk).2]
      simp only [Option.some_bind]
      have e3 : (r.Max.X - dst.Rect.Min.X) * 4 = (r.Min.X - dst.Rect.Min.X) * 4 + nx * 4 := by
        omega
      rw [e3, drawRGBASrc_row_seq _ _ _ _ _ _ _ hfx, bind_some_bind]
      have e4 : ∀ x : Nat, (r.Min.X - dst.Rect.Min.X) * 4 + x * 4 =
          (r.Min.X + x - dst.Rect.Min.X) * 4 := by
        intro x; ring
      have e5 : ∀ x : Nat, (sp.X - src.Rect.Min.X) * 4 + x * 4 =
          (sp.X + x - src.Rect.Min.X) * 4 := by
        intro x; ring
      simp only [e4, e5]
      congr 1
      funext mem1
      simp only [Option.some.injEq, Prod.mk.injEq, true_and]
      refine ⟨?_, ?_⟩
      · push_cast; ring
      · push_cast; ring)
    (by intro mem; simp; omega)
    fuel hfy mem
  simp only [Nat.cast_zero, add_zero] at this ⊢
  rw [this, map_fst_bind_some]

/-- What `drawRGBASrc` leaves in memory when the source is held apart from the destination:
the bytes of the source pixels in the order B, G, R, A, which are the 16-bit channels of the
source shifted right by 8. -/
theorem drawRGBASrc_painted (fuel : Nat) (mem : Mem) (dst : BGRA) (src : image.RGBA)
    (r : Rectangle) (sp : Point) (hw : dst.WF) (hsw : (ofRGBA src).WF)
    (hr : Clipped r dst.Rect)
    (hsr : Clipped (r.Add (sp.Sub r.Min)) src.Rect) (hap : Apart dst.Pix src.Pix)
    (hfx : r.Dx.toNat < fuel) (hfy : r.Dy.toNat < fuel) :
    ∃ mem', drawRGBASrc fuel mem dst r src sp = some mem' ∧
      Painted dst r (fun x y c => uint8
        (chan c (src.color16 mem (sp.X + (x - r.Min.X)) (sp.Y + (y - r.Min.Y))) >>> 8))
        mem mem' := by
  obtain ⟨nx, ny, hdx, hdy, ex, ey⟩ := hr.sizes
  rw [drawRGBASrc_grid fuel mem dst src r sp hw hsw hr hsr nx ny hdx hdy (by omega) (by omega)]
  unfold Rectangle.Dx at hdx
  unfold Rectangle.Dy at hdy
  apply grid_painted_indep dst hw r hr (fun k => r.Min.X + k) (fun k => r.Min.Y + k) nx ny
    (Enum.up _ _ _ hdx) (Enum.up _ _ _ hdy)
  intro j x mem1 hj hx _ hout
  have hi : Inside r (r.Min.X + x) (r.Min.Y + j) := ⟨by omega, by omega, by omega, by omega⟩
  have hid := Inside.of_clipped hr hi
  have his := Inside.src hsr hi
  have ex1 : sp.X + (r.Min.X + x - r.Min.X) = sp.X + x := by ring
  have ey1 : sp.Y + (r.Min.Y + j - r.Min.Y) = sp.Y + j := by ring
  rw [ex1, ey1] at his
  have hd1 := hw.inb _ _ hid
  have hd0 := hw.inb _ _ (Inside.rowStart hr hi)
  have hD := dst.PixOffset_row dst.Rect.Min.X (r.Min.X + x) (r.Min.Y + j)
  have hs1 := hsw.inb _ _ his
  have hs0 := hsw.inb _ _ his.first
  have hS := (ofRGBA src).PixOffset_row src.Rect.Min.X (sp.X + x) (sp.Y + j)
  rw [ofRGBA_Pix] at hs0 hs1
  have hx0 : 0 ≤ (r.Min.X + x - dst.Rect.Min.X) * 4 := by have := hid.1; omega
  have hsx0 : 0 ≤ (sp.X + x - src.Rect.Min.X) * 4 := by have := his.1; omega
  have ea : ∀ c : Nat,
      (Slice.drop dst.Pix (dst.PixOffset dst.Rect.Min.X (r.Min.Y + j)).toNat).off +
      ((r.Min.X + x - dst.Rect.Min.X) * 4 + c).toNat =
        dst.addr (r.Min.X + x) (r.Min.Y + j) c := by
    intro c; unfold BGRA.addr Slice.drop; simp only; omega
  have es : ∀ c : Nat,
      (Slice.drop src.Pix ((ofRGBA src).PixOffset src.Rect.Min.X (sp.Y + j)).toNat).off +
      ((sp.X + x - src.Rect.Min.X) * 4 + c).toNat =
        (ofRGBA src).addr (sp.X + x) (sp.Y + j) c := by
    intro c; unfold BGRA.addr Slice.drop; simp only [ofRGBA_Pix]; omega
  have hlen : ((Slice.drop src.Pix
      ((ofRGBA src).PixOffset src.Rect.Min.X (sp.Y + j)).toNat).len : Int)
      = src.Pix.len - (ofRGBA src).PixOffset src.Rect.Min.X (sp.Y + j) := by
    unfold Slice.drop; simp only; omega
  have hlen' : ((Slice.drop dst.Pix (dst.PixOffset dst.Rect.Min.X (r.Min.Y + j)).toNat).len
      : Int) = dst.Pix.len - dst.PixOffset dst.Rect.Min.X (r.Min.Y + j) := by
    unfold Slice.drop; simp only; omega
  have hfar : ∀ c : Nat, c < 4 →
      mem1 ((ofRGBA src).addr (sp.X + x) (sp.Y + j) c) =
        mem ((ofRGBA src).addr (sp.X + x) (sp.Y + j) c) := fun c hc =>
    hout _ (fun x' y' c' hi' hc' =>
      @Apart.ne dst (ofRGBA src) hw hsw hap _ _ _ _ _ _ (Inside.of_clipped hr hi') his hc' hc)
  obtain ⟨mem', h1, g0, g1, g2, g3, h3⟩ := swap4_spec
    (Slice.drop dst.Pix (dst.PixOffset dst.Rect.Min.X (r.Min.Y + j)).toNat)
    (Slice.drop src.Pix ((ofRGBA src).PixOffset src.Rect.Min.X (sp.Y + j)).toNat) mem1
    ((r.Min.X + x - dst.Rect.Min.X) * 4) ((sp.X + x - src.Rect.Min.X) * 4)
    hx0 (by omega) hsx0 (by omega)
    (by
      intro c c' hc hc'
      rw [ea c, es c']
      exact @Apart.ne dst (ofRGBA src) hw hsw hap _ _ _ _ _ _ hid his hc hc')
  rw [ea, es] at g0 g1 g2 g3
  refine ⟨mem', h1, ?_, ?_⟩
  · intro c hc
    simp only [ex1, ey1]
    unfold image.RGBA.color16 chan
    interval_cases c
    · simp only [if_true, Nat.cast_zero] at g0 ⊢
      rw [uint8_expand, ← hfar 2 (by omega)]; exact g0
    · simp only [if_true, one_ne_zero, if_false, Nat.cast_one] at g1 ⊢
      rw [uint8_expand, ← hfar 1 (by omega)]; exact g1
    · simp only [if_true, OfNat.ofNat_ne_zero, OfNat.ofNat_ne_one, if_false, Nat.cast_ofNat]
        at g2 ⊢
      rw [uint8_expand, ← hfar 0 (by omega)]; exact g2
    · simp only [Nat.reduceEqDiff, OfNat.ofNat_ne_zero, OfNat.ofNat_ne_one, if_false,
        Nat.cast_ofNat] at g3 ⊢
      rw [uint8_expand, ← hfar 3 (by omega)]; exact g3
  · intro a ha
    apply h3
    intro c hc
    rw [ea c]
    exact ha c hc

end bgra

namespace bgra

/-! ## Opaque -/

/-- The inner loop of `Opaque` from the `j`-th pixel of a row that starts at the offset `b`:
it returns, and returns true exactly when the alpha bytes of the remaining pixels of the row
are all 255. -/
theorem Opaque_row_spec (mem : Mem) (p : BGRA) (b : Int) (nx : Nat)
    (hb : ∀ j : Nat, j < nx → 0 ≤ b + 3 + 4 * j ∧ b + 3 + 4 * j < p.Pix.len) :
    ∀ (n fuel j : Nat), j + n = nx → n < fuel →
      ∃ ok, BGRA.Opaque.row mem p (b + 4 * nx) fuel (b + 3 + 4 * j) = some ok ∧
        (ok = true ↔ ∀ j' : Nat, j ≤ j' → j' < nx →
          mem (p.Pix.off + (b + 3 + 4 * j').toNat) = 255) := by
  intro n
  induction n with
  | zero =>
    intro fuel j hj hf
    obtain ⟨f, rfl⟩ : ∃ f, fuel = f + 1 := ⟨fuel - 1, by omega⟩
    refine ⟨true, ?_, ?_⟩
    · unfold BGRA.Opaque.row
      rw [if_neg (by omega)]
    · simp only [true_iff]
      intro j' h1 h2
      omega
  | succ n ih =>
    intro fuel j hj hf
    obtain ⟨f, rfl⟩ : ∃ f, fuel = f + 1 := ⟨fuel - 1, by omega⟩
    have hbj := hb j (by omega)
    unfold BGRA.Opaque.row
    rw [if_pos (by omega), Slice.index_inb _ _ _ hbj.1 hbj.2]
    simp only [Option.some_bind]
    by_cases hv : mem (p.Pix.off + (b + 3 + 4 * j).toNat) = 255
    · have e : (b + 3 + 4 * (j : Int) + 4) = b + 3 + 4 * ((j + 1 : Nat) : Int) := by
        push_cast; ring
      obtain ⟨ok, h1, h2⟩ := ih f (j + 1) (by omega) (by omega)
      refine ⟨ok, ?_, ?_⟩
      · rw [hv, e]
        simpa using h1
      · rw [h2]
        constructor
        · intro h j' a1 a2
          rcases Nat.eq_or_lt_of_le a1 with rfl | a3
          · exact hv
          · exact h j' (by omega) a2
        · intro h j' a1 a2
          exact h j' (by omega) a2
    · refine ⟨false, ?_, ?_⟩
      · have : (mem (p.Pix.off + (b + 3 + 4 * j).toNat) != 255) = true := by
          simpa using hv
        rw [this]
        rfl
      · simp only [Bool.false_eq_true, false_iff]
        intro h
        exact hv (h j (le_refl _) (by omega))

/-- The outer loop of `Opaque` from the `k`-th row: it returns, and returns true exactly
when the alpha bytes of the remaining rows are all 255. -/
theorem Opaque_rows_spec (mem : Mem) (p : BGRA) (fuel nx ny : Nat) (hdx : p.Rect.Dx = nx)
    (hdy : p.Rect.Dy = ny) (hfx : nx < fuel)
    (hb : ∀ k j : Nat, k < ny → j < nx →
      0 ≤ k * p.Stride + 3 + 4 * j ∧ k * p.Stride + 3 + 4 * j < p.Pix.len) :
    ∀ (n cnt k : Nat), k + n = ny → n < cnt →
      ∃ ok, BGRA.Opaque.rows mem p fuel cnt (p.Rect.Min.Y + k) (3 + k * p.Stride)
          (p.Rect.Dx * 4 + k * p.Stride) = some ok ∧
        (ok = true ↔ ∀ k' j' : Nat, k ≤ k' → k' < ny → j' < nx →
          mem (p.Pix.off + (k' * p.Stride + 3 + 4 * j').toNat) = 255) := by
  unfold Rectangle.Dy at hdy
  intro n
  induction n with
  | zero =>
    intro cnt k hk hf
    obtain ⟨f, rfl⟩ : ∃ f, cnt = f + 1 := ⟨cnt - 1, by omega⟩
    refine ⟨true, ?_, ?_⟩
    · unfold BGRA.Opaque.rows
      rw [if_neg (by omega)]
    · simp only [true_iff]
      intro k' j' h1 h2
      omega
  | succ n ih =>
    intro cnt k hk hf
    obtain ⟨f, rfl⟩ : ∃ f, cnt = f + 1 := ⟨cnt - 1, by omega⟩
    unfold BGRA.Opaque.rows
    rw [if_pos (by omega)]
    have e0 : (3 : Int) + k * p.Stride = k * p.Stride + 3 + 4 * ((0 : Nat) : Int) := by
      push_cast; ring
    have e1 : p.Rect.Dx * 4 + k * p.Stride = k * p.Stride + 4 * (nx : Int) := by
      rw [hdx]; ring
    obtain ⟨okr, r1, r2⟩ := Opaque_row_spec mem p (k * p.Stride) nx
      (fun j hj => hb k j (by omega) hj) nx fuel 0 (by omega) hfx
    rw [e0, e1, r1]
    simp only [Option.some_bind]
    cases okr with
    | false =>
      refine ⟨false, by simp, ?_⟩
      simp only [Bool.false_eq_true, false_iff] at r2 ⊢
      intro h
      exact r2 (fun j' _ a2 => h k j' (le_refl _) (by omega) a2)
    | true =>
      simp only [if_true]
      have e2 : p.Rect.Min.Y + (k : Int) + 1 = p.Rect.Min.Y + ((k + 1 : Nat) : Int) := by
        push_cast; ring
      have e3 : (k : Int) * p.Stride + 3 + 4 * ((0 : Nat) : Int) + p.Stride =
          3 + ((k + 1 : Nat) : Int) * p.Stride := by
        push_cast; ring
      have e4 : (k : Int) * p.Stride + 4 * (nx : Int) + p.Stride =
          p.Rect.Dx * 4 + ((k + 1 : Nat) : Int) * p.Stride := by
        rw [hdx]; push_cast; ring
      obtain ⟨ok, h1, h2⟩ := ih f (k + 1) (by omega) (by omega)
      refine ⟨ok, ?_, ?_⟩
      · rw [e2, e3, e4]
        exact h1
      · rw [h2]
        have r3 := r2.1 rfl
        constructor
        · intro h k' j' a1 a2 a3
          rcases Nat.eq_or_lt_of_le a1 with rfl | a4
          · exact r3 j' (Nat.zero_le _) a3
          · exact h k' j' (by omega) a2 a3
        · intro h k' j' a1 a2 a3
          exact h k' j' (by omega) a2 a3

/-- Whether `Opaque` returns true, in terms of the pixels of the bounds. -/
theorem Opaque_spec (fuel : Nat) (mem : Mem) (p : BGRA) (hw : p.WF)
    (hfx : p.Rect.Dx.toNat < fuel) (hfy : p.Rect.Dy.toNat < fuel) :
    ∃ ok, p.Opaque fuel mem = some ok ∧
      (ok = true ↔ ∀ x y, Inside p.Rect x y → mem (p.addr x y 3) = 255) := by
  unfold BGRA.Opaque
  by_cases he : p.Rect.Empty = true
  · rw [if_pos he]
    refine ⟨true, rfl, ?_⟩
    simp only [true_iff]
    intro x y hi
    rw [hi.rect_not_empty] at he
    exact absurd he (by decide)
  · rw [if_neg he]
    have hne : ¬ (p.Rect.Max.X ≤ p.Rect.Min.X ∨ p.Rect.Max.Y ≤ p.Rect.Min.Y) :=
      fun h => he ((Empty_iff _).2 h)
    have hc : Clipped p.Rect p.Rect :=
      ⟨by omega, by omega, le_refl _, le_refl _, le_refl _, le_refl _⟩
    obtain ⟨nx, ny, hdx, hdy, ex, ey⟩ := hc.sizes
    have hdx' := hdx
    have hdy' := hdy
    unfold Rectangle.Dx at hdx'
    unfold Rectangle.Dy at hdy'
    have hoff : ∀ k j : Nat, (k : Int) * p.Stride + 3 + 4 * j =
        p.PixOffset (p.Rect.Min.X + j) (p.Rect.Min.Y + k) + 3 := by
      intro k j; unfold BGRA.PixOffset; ring
    have hin : ∀ k j : Nat, k < ny → j < nx →
        Inside p.Rect (p.Rect.Min.X + j) (p.Rect.Min.Y + k) :=
      fun k j hk hj => ⟨by omega, by omega, by omega, by omega⟩
    obtain ⟨ok, h1, h2⟩ := Opaque_rows_spec mem p fuel nx ny hdx hdy (by omega)
      (by
        intro k j hk hj
        have := hw.inb _ _ (hin k j hk hj)
        rw [hoff]
        omega)
      ny fuel 0 (by omega) (by omega)
    simp only [Nat.cast_zero, add_zero, zero_mul] at h1
    refine ⟨ok, h1, ?_⟩
    rw [h2]
    constructor
    · intro h x y hi
      obtain ⟨i1, i2, i3, i4⟩ := hi
      have := h (y - p.Rect.Min.Y).toNat (x - p.Rect.Min.X).toNat (Nat.zero_le _) (by omega)
        (by omega)
      rw [hoff] at this
      have ex' : p.Rect.Min.X + ((x - p.Rect.Min.X).toNat : Int) = x := by omega
      have ey' : p.Rect.Min.Y + ((y - p.Rect.Min.Y).toNat : Int) = y := by omega
      rw [ex', ey'] at this
      exact this
    · intro h k j _ hk hj
      have := h _ _ (hin k j hk hj)
      rw [hoff]
      exact this

end bgra

namespace bgra

/-! ## SubImage -/

/-- The sub-image of a well-formed buffer through a rectangle that meets its bounds: its
fields, and the address of its pixels. -/
theorem SubImage_spec (p : BGRA) (r : Rectangle) (hw : p.WF)
    (hne : (r.Intersect p.Rect).Empty = false) :
    ∃ s, p.SubImage r = some s ∧ s.Rect = r.Intersect p.Rect ∧ s.Stride = p.Stride ∧
      s.Pix = Slice.drop p.Pix (p.PixOffset s.Rect.Min.X s.Rect.Min.Y).toNat ∧
      0 ≤ p.PixOffset s.Rect.Min.X s.Rect.Min.Y ∧
      (∀ x y, s.PixOffset x y + p.PixOffset s.Rect.Min.X s.Rect.Min.Y = p.PixOffset x y) ∧
      (∀ x y, Inside s.Rect x y →
        (0 ≤ s.PixOffset x y ∧ s.PixOffset x y + 3 < s.Pix.len) ∧
        ∀ c, s.addr x y c = p.addr x y c) := by
  have hc := (Clipped_Intersect r p.Rect hne).2
  have hmin : Inside p.Rect (r.Intersect p.Rect).Min.X (r.Intersect p.Rect).Min.Y := by
    obtain ⟨a1, a2, a3, a4, a5, a6⟩ := hc
    exact ⟨by omega, by omega, by omega, by omega⟩
  have hb := hw.inb _ _ hmin
  have hoff : ∀ x y, (y - (r.Intersect p.Rect).Min.Y) * p.Stride +
      (x - (r.Intersect p.Rect).Min.X) * 4 +
      p.PixOffset (r.Intersect p.Rect).Min.X (r.Intersect p.Rect).Min.Y = p.PixOffset x y := by
    intro x y; unfold BGRA.PixOffset; ring
  refine ⟨⟨Slice.drop p.Pix (p.PixOffset (r.Intersect p.Rect).Min.X
    (r.Intersect p.Rect).Min.Y).toNat, p.Stride, r.Intersect p.Rect⟩, ?_, rfl, rfl, rfl,
    hb.1, ?_, ?_⟩
  · unfold BGRA.SubImage
    simp only [hne, Bool.false_eq_true, if_false]
    rw [Slice.tail_drop _ _ hb.1 (by omega)]
    rfl
  · intro x y
    exact hoff x y
  · intro x y hi
    simp only at hi
    have hp := hw.inb _ _ (Inside.of_clipped hc hi)
    have hs := hw.stride
    have hdx : 0 < p.Rect.Dx := by
      obtain ⟨a1, a2, a3, a4⟩ := hmin
      unfold Rectangle.Dx; omega
    have h0 : 0 ≤ (y - (r.Intersect p.Rect).Min.Y) * p.Stride := by
      apply mul_nonneg
      · have := hi.2.2.1; omega
      · omega
    have h1 : 0 ≤ (x - (r.Intersect p.Rect).Min.X) * 4 := by have := hi.1; omega
    have e := hoff x y
    simp only [BGRA.PixOffset, BGRA.addr, Slice.drop] at hb hp e ⊢
    refine ⟨⟨by omega, by omega⟩, fun c => by omega⟩

end bgra

namespace bgra

/-! ## The blends in exact arithmetic -/

/-- The byte of the unmasked Over blend in exact arithmetic: for a 16-bit source channel and
a 16-bit source alpha nothing leaves the `uint32` range. -/
theorem overByte_exact (d : Byte) (s sa : Nat) (hs : s ≤ 65535) (hsa : sa ≤ 65535) :
    (65535 - sa) * 257 < 4294967296 ∧
    d.val * ((65535 - sa) * 257) < 4294967296 ∧
    d.val * ((65535 - sa) * 257) / 65535 + s < 4294967296 ∧
    overByte d (u32 (sub32 m sa * 0x101)) s =
      uint8 ((d.val * ((65535 - sa) * 257) / 65535 + s) >>> 8) := by
  have hd := d.isLt
  have e1 : sub32 m sa = 65535 - sa := by unfold sub32 m; omega
  have e3 : u32 ((65535 - sa) * 0x101) = (65535 - sa) * 257 := by unfold u32; omega
  have hp : d.val * ((65535 - sa) * 257) ≤ 255 * ((65535 - sa) * 257) :=
    Nat.mul_le_mul_right _ (by omega)
  unfold overByte
  rw [e1, e3]
  generalize d.val * ((65535 - sa) * 257) = p at hp
  have hp1 : u32 p = p := by unfold u32; omega
  have hl : u32 (p / m + s) = p / m + s := by
    unfold u32 m; exact Nat.mod_eq_of_lt (by omega)
  rw [hp1, hl]
  refine ⟨by omega, by omega, by omega, ?_⟩
  rfl

/-- The sum of the masked Over blend stays below `65535 * 65536` for a source channel that
is at most the source alpha. -/
theorem mask_sum_lt (d : Byte) (s sa ma : Nat) (hs : s ≤ sa) (hsa : sa ≤ 65535)
    (hma : ma ≤ 65535) :
    sa * ma ≤ 4294836225 ∧ sa * ma / 65535 ≤ sa ∧
    d.val * ((65535 - sa * ma / 65535) * 257) ≤ 4294836225 ∧
    d.val * ((65535 - sa * ma / 65535) * 257) + s * ma < 4294901760 := by
  have hd := d.isLt
  have h1 : s * ma ≤ sa * ma := Nat.mul_le_mul_right _ hs
  have h2 : sa * ma ≤ sa * 65535 := Nat.mul_le_mul_left _ hma
  have hp : d.val * ((65535 - sa * ma / 65535) * 257) ≤
      255 * ((65535 - sa * ma / 65535) * 257) := Nat.mul_le_mul_right _ (by omega)
  generalize d.val * ((65535 - sa * ma / 65535) * 257) = p at hp
  generalize s * ma = q at h1
  generalize sa * ma = t at h1 h2 hp
  refine ⟨by omega, by omega, by omega, by omega⟩

/-- The byte of the masked Over blend in exact arithmetic, for a source channel that is at
most the source alpha. -/
theorem maskOverByte_exact (d : Byte) (s sa ma : Nat) (hs : s ≤ sa) (hsa : sa ≤ 65535)
    (hma : ma ≤ 65535) :
    maskOverByte d sa ma s =
      uint8 (((d.val * ((65535 - sa * ma / 65535) * 257) + s * ma) / 65535) >>> 8) := by
  obtain ⟨b1, b2, b3, b4⟩ := mask_sum_lt d s sa ma hs hsa hma
  have h1 : s * ma ≤ sa * ma := Nat.mul_le_mul_right _ hs
  have e0 : u32 (sa * ma) = sa * ma := by unfold u32; exact Nat.mod_eq_of_lt (by omega)
  have e1 : sub32 m (sa * ma / m) = 65535 - sa * ma / 65535 := by
    unfold sub32 m; omega
  have e3 : u32 ((65535 - sa * ma / 65535) * 0x101) = (65535 - sa * ma / 65535) * 257 := by
    unfold u32; omega
  have e4 : u32 (d.val * ((65535 - sa * ma / 65535) * 257)) =
      d.val * ((65535 - sa * ma / 65535) * 257) := by
    unfold u32; exact Nat.mod_eq_of_lt (by omega)
  have e5 : u32 (s * ma) = s * ma := by unfold u32; exact Nat.mod_eq_of_lt (by omega)
  have e6 : u32 (d.val * ((65535 - sa * ma / 65535) * 257) + s * ma) =
      d.val * ((65535 - sa * ma / 65535) * 257) + s * ma := by
    unfold u32; exact Nat.mod_eq_of_lt (by omega)
  unfold maskOverByte
  rw [e0, e1, e3, e4, e5, e6]
  rfl

/-- Under a source channel that is at most the source alpha, both blends give a value that
fits a byte. -/
theorem blend_le_255 (d : Byte) (s sa ma : Nat) (hs : s ≤ sa) (hsa : sa ≤ 65535)
    (hma : ma ≤ 65535) :
    ((d.val * ((65535 - sa * ma / 65535) * 257) + s * ma) / 65535) >>> 8 ≤ 255 ∧
    (d.val * ((65535 - sa) * 257) / 65535 + s) >>> 8 ≤ 255 := by
  obtain ⟨b1, b2, b3, b4⟩ := mask_sum_lt d s sa ma hs hsa hma
  have hd := d.isLt
  have hp : d.val * ((65535 - sa) * 257) ≤ 255 * ((65535 - sa) * 257) :=
    Nat.mul_le_mul_right _ (by omega)
  simp only [Nat.shiftRight_eq_div_pow, Nat.reducePow]
  generalize d.val * ((65535 - sa * ma / 65535) * 257) + s * ma = t at b4
  generalize d.val * ((65535 - sa) * 257) = p at hp
  constructor <;> omega

end bgra

namespace bgra

/-! ## drawCopyOver of a buffer onto itself -/

/-- In the order `drawCopyOver` walks the rectangle, the source pixel of a step is none of
the destination pixels of the steps before it. -/
theorem copyOver_order (r : Rectangle) (sp : Point) (j x j' x' : Nat)
    (hlt : j' < j ∨ (j' = j ∧ x' < x))
    (e1 : sp.X + (colAt r sp x - r.Min.X) = colAt r sp x')
    (e2 : sp.Y + (rowAt r sp j - r.Min.Y) = rowAt r sp j') : False := by
  unfold colAt at e1
  unfold rowAt at e2
  by_cases hF : forward r sp
  · simp only [hF, if_true] at e1 e2
    unfold forward at hF
    omega
  · simp only [hF, if_false] at e1 e2
    unfold forward at hF
    omega

/-- `drawCopyOver` of a buffer onto itself blends every pixel of the rectangle with the
value its source pixel had before the call. -/
theorem drawCopyOver_self (fuel : Nat) (mem : Mem) (b : BGRA) (r : Rectangle) (sp : Point)
    (hw : b.WF) (hr : Clipped r b.Rect) (hsr : Clipped (r.Add (sp.Sub r.Min)) b.Rect)
    (hfx : r.Dx.toNat < fuel) (hfy : r.Dy.toNat < fuel) :
    ∃ mem', drawCopyOver fuel mem b r b sp = some mem' ∧
      Painted b r (fun x y c => overByte (mem (b.addr x y c))
        (u32 (sub32 m (b.color16 mem (sp.X + (x - r.Min.X)) (sp.Y + (y - r.Min.Y))).2.2.2
          * 0x101))
        (chan c (b.color16 mem (sp.X + (x - r.Min.X)) (sp.Y + (y - r.Min.Y))))) mem mem' := by
  obtain ⟨nx, ny, hdx, hdy, ex, ey⟩ := hr.sizes
  rw [drawCopyOver_grid fuel mem b b r sp hw hw hr hsr nx ny hdx hdy (by omega) (by omega)]
  have hX := colAt_enum r sp nx hdx
  have hY := rowAt_enum r sp ny hdy
  have hin : ∀ j x, j < ny → x < nx → Inside r (colAt r sp x) (rowAt r sp j) :=
    fun j x hj hx => ⟨(hX.mem x hx).1, (hX.mem x hx).2, (hY.mem j hj).1, (hY.mem j hj).2⟩
  apply grid_painted b hw r hr (colAt r sp) (rowAt r sp) nx ny hX hY
  intro j x mem1 hj hx hfr
  have hi := hin j x hj hx
  obtain ⟨mem', h1, h2, h3⟩ := drawCopyOver_pixel_at b b hw hw r sp hr hsr _ _ hi mem1
  refine ⟨mem', h1, ?_, h3⟩
  intro c hc
  have hown : mem1 (b.addr (colAt r sp x) (rowAt r sp j) c) =
      mem (b.addr (colAt r sp x) (rowAt r sp j) c) := by
    apply hfr
    intro j' x' c' hlt hj' hx' hc' e
    obtain ⟨e1, e2, _⟩ := b.addr_inj hw _ _ _ _ c c' (Inside.of_clipped hr hi)
      (Inside.of_clipped hr (hin j' x' hj' hx')) hc hc' e
    have := hY.inj j j' hj hj' e2
    have := hX.inj x x' hx hx' e1
    omega
  have hsrc : ∀ c', c' < 4 →
      mem1 (b.addr (sp.X + (colAt r sp x - r.Min.X)) (sp.Y + (rowAt r sp j - r.Min.Y)) c') =
      mem (b.addr (sp.X + (colAt r sp x - r.Min.X)) (sp.Y + (rowAt r sp j - r.Min.Y)) c') := by
    intro c' hc'
    apply hfr
    intro j' x' c'' hlt hj' hx' hc'' e
    obtain ⟨e1, e2, _⟩ := b.addr_inj hw _ _ _ _ c' c'' (Inside.src hsr hi)
      (Inside.of_clipped hr (hin j' x' hj' hx')) hc' hc'' e
    exact copyOver_order r sp j x j' x' hlt e1 e2
  rw [h2 c hc, hown, BGRA.color16_congr b mem1 mem _ _ hsrc]

end bgra

namespace bgra

/-! ## drawGlyphOver and the fallback, step by step -/

/-- With the mask alpha 0 the masked Over blend gives the destination byte back, whatever
the source is. -/
theorem maskOverByte_mask_zero (d : Byte) (sa s : Nat) : maskOverByte d sa 0 s = d := by
  have hd := d.isLt
  unfold maskOverByte
  simp only [Nat.mul_zero]
  have e1 : u32 (sub32 m (u32 0 / m) * 0x101) = 16842495 := by unfold sub32 m u32; omega
  rw [e1]
  have h0 : u32 0 = 0 := rfl
  have h1 : u32 (d.val * 16842495) = d.val * 16842495 := by unfold u32; omega
  have h3 : u32 (d.val * 16842495 + 0) = d.val * 16842495 := by unfold u32; omega
  have h2 : d.val * 16842495 / m = d.val * 257 := by unfold m; omega
  rw [h0, h1, h3, h2, shr8_mul257, uint8_val]

/-- The masked Over blend with the mask alpha 0 leaves the memory as it is. -/
theorem blendMaskOver_mask_zero (s : Slice) (mem : Mem) (i : Int) (sr sg sb sa : Nat)
    (h0 : 0 ≤ i) (h1 : i + 3 < s.len) : blendMaskOver s mem i sr sg sb sa 0 = some mem := by
  obtain ⟨mem', e, hb, hf⟩ := blendMaskOver_spec s mem i sr sg sb sa 0 h0 h1
  rw [e]
  congr 1
  funext b
  by_cases h : ∃ c : Nat, c < 4 ∧ b = s.off + (i + c).toNat
  · obtain ⟨c, hc, rfl⟩ := h
    rw [hb c hc, maskOverByte_mask_zero]
  · exact hf b (fun c hc e => h ⟨c, hc, e⟩)

/-- The body of the inner loop of the fallback, for a solid colour under an `image.Alpha`
mask and op Over, is the body of the inner loop of `drawGlyphOver`, on every memory. -/
theorem drawBGRA_pixel_glyph (dst : BGRA) (src : Uniform) (mask : image.Alpha) (mem : Mem)
    (sy my i sx mx : Int) (h0 : 0 ≤ i) (h1 : i + 3 < dst.Pix.len)
    (hi : Inside mask.Rect mx my)
    (hb : 0 ≤ mask.PixOffset mx my ∧ mask.PixOffset mx my < mask.Pix.len) :
    drawBGRA.pixel dst (.Uniform src) (some (.Alpha mask)) .Over mem sy my i sx mx =
      drawGlyphOver.pixel dst mask src.RGBA.1 src.RGBA.2.1 src.RGBA.2.2.1 src.RGBA.2.2.2 mem i
        (mask.PixOffset mx my) := by
  unfold drawBGRA.pixel drawBGRA.maskAlpha drawGlyphOver.pixel
  simp only [Image.At]
  rw [alphaAt_inb mem mask mx my hi hb, Slice.index_inb _ _ _ hb.1 hb.2]
  simp only [Option.some_bind, Uniform.At, if_true]
  have ea : (color.Color.alpha (mem (alphaAddr mask mx my))).RGBA.2.2.2 =
      u32 ((mem (alphaAddr mask mx my)).val ||| u32 ((mem (alphaAddr mask mx my)).val <<< 8)) :=
    rfl
  rw [ea]
  have eaddr : mask.Pix.off + (mask.PixOffset mx my).toNat = alphaAddr mask mx my := rfl
  rw [eaddr]
  have es : src.C.RGBA = src.RGBA := rfl
  rw [es]
  by_cases hz : (mem (alphaAddr mask mx my)).val = 0
  · simp only [hz, beq_self_eq_true, if_true]
    have : u32 (0 ||| u32 (0 <<< 8)) = 0 := by decide
    rw [this]
    exact blendMaskOver_mask_zero dst.Pix mem i _ _ _ _ h0 h1
  · have hz' : ((mem (alphaAddr mask mx my)).val == 0) = false := by
      simpa using hz
    simp only [hz', Bool.false_eq_true, if_false]

/-- On every memory, well-formed destination and mask and a clipped rectangle,
`drawGlyphOver` and the fallback run the same steps. -/
theorem drawGlyphOver_eq_drawBGRA (fuel : Nat) (mem : Mem) (dst : BGRA) (r : Rectangle)
    (src : Uniform) (sp : Point) (mask : image.Alpha) (mp : Point)
    (hw : dst.WF) (hr : Clipped r dst.Rect)
    (hmw : AlphaWF mask) (hmr : Clipped (r.Add (mp.Sub r.Min)) mask.Rect)
    (hfx : r.Dx.toNat < fuel) (hfy : r.Dy.toNat < fuel) :
    drawGlyphOver fuel mem dst r src mask mp =
      drawBGRA fuel mem dst r (.image (.Uniform src)) sp (some (.Alpha mask)) mp .Over := by
  obtain ⟨nx, ny, hdx, hdy, ex, ey⟩ := hr.sizes
  rw [drawGlyphOver_seq fuel mem dst r src mask mp nx ny hdx hdy (by omega) (by omega),
    drawBGRA_seq fuel mem dst r (.Uniform src) sp (some (.Alpha mask)) mp .Over nx ny hdx hdy
      (by omega) (by omega)]
  unfold Rectangle.Dx at hdx
  unfold Rectangle.Dy at hdy
  apply seqFrom_congr
  intro j mem1 _ hj
  apply seqFrom_congr
  intro x mem2 _ hx
  have hir : Inside r (r.Min.X + x) (r.Min.Y + j) := ⟨by omega, by omega, by omega, by omega⟩
  have hd := hw.inb _ _ (Inside.of_clipped hr hir)
  have hmi := Inside.src hmr hir
  have ex1 : mp.X + (r.Min.X + x - r.Min.X) = mp.X + x := by ring
  have ey1 : mp.Y + (r.Min.Y + j - r.Min.Y) = mp.Y + j := by ring
  rw [ex1, ey1] at hmi
  exact (drawBGRA_pixel_glyph dst src mask mem2 _ _ _ _ _ hd.1 hd.2 hmi (hmw _ _ hmi)).symm

/-- A sequence of steps that each return, on every memory, returns. -/
theorem seqFrom_returns (op : Nat → Mem → Option Mem) :
    ∀ n k, (∀ i mem, k ≤ i → i < k + n → ∃ mem', op i mem = some mem') →
      ∀ mem, ∃ mem', seqFrom op n k mem = some mem' := by
  intro n
  induction n with
  | zero => intro k _ mem; exact ⟨mem, rfl⟩
  | succ n ih =>
    intro k h mem
    obtain ⟨m1, e1⟩ := h k mem (le_refl _) (by omega)
    obtain ⟨m2, e2⟩ := ih (k + 1) (fun i mem hi1 hi2 => h i mem (by omega) (by omega)) m1
    exact ⟨m2, by simp only [seqFrom, e1, Option.some_bind, e2]⟩

/-- On a well-formed destination and mask and a clipped rectangle `drawGlyphOver` returns,
whether or not the mask shares memory with the destination. -/
theorem drawGlyphOver_returns (fuel : Nat) (mem : Mem) (dst : BGRA) (r : Rectangle)
    (src : Uniform) (mask : image.Alpha) (mp : Point)
    (hw : dst.WF) (hr : Clipped r dst.Rect)
    (hmw : AlphaWF mask) (hmr : Clipped (r.Add (mp.Sub r.Min)) mask.Rect)
    (hfx : r.Dx.toNat < fuel) (hfy : r.Dy.toNat < fuel) :
    ∃ mem', drawGlyphOver fuel mem dst r src mask mp = some mem' := by
  obtain ⟨nx, ny, hdx, hdy, ex, ey⟩ := hr.sizes
  rw [drawGlyphOver_seq fuel mem dst r src mask mp nx ny hdx hdy (by omega) (by omega)]
  unfold Rectangle.Dx at hdx
  unfold Rectangle.Dy at hdy
  apply seqFrom_returns
  intro j mem1 _ hj
  apply seqFrom_returns
  intro x mem2 _ hx
  have hir : Inside r (r.Min.X + x) (r.Min.Y + j) := ⟨by omega, by omega, by omega, by omega⟩
  have hd := hw.inb _ _ (Inside.of_clipped hr hir)
  have hmi := Inside.src hmr hir
  have ex1 : mp.X + (r.Min.X + x - r.Min.X) = mp.X + x := by ring
  have ey1 : mp.Y + (r.Min.Y + j - r.Min.Y) = mp.Y + j := by ring
  rw [ex1, ey1] at hmi
  have hmb := hmw _ _ hmi
  obtain ⟨mem', e, _⟩ := drawGlyphOver_pixel_spec dst mask src.RGBA.1 src.RGBA.2.1
    src.RGBA.2.2.1 src.RGBA.2.2.2 mem2 _ _ hd.1 hd.2 hmb.1 hmb.2
  exact ⟨mem', e⟩

end bgra

namespace bgra

/-! ## What clip returns -/

theorem ite_empty (X : Rectangle) (h : (if X.Empty = true then ZR else X).Empty = true) :
    (if X.Empty = true then ZR else X) = ZR := by
  split_ifs with hX
  · rfl
  · rw [if_neg hX] at h
    exact absurd h hX

/-- An intersection is the zero rectangle or a non-empty rectangle inside the first one. -/
theorem Intersect_cases (a b : Rectangle) :
    a.Intersect b = ZR ∨ Clipped (a.Intersect b) a := by
  by_cases he : (a.Intersect b).Empty = true
  · left
    unfold Rectangle.Intersect at he ⊢
    simp only at he ⊢
    exact ite_empty _ he
  · right
    exact (Clipped_Intersect a b (by simpa using he)).1

theorem Intersect_inRange (a b : Rectangle) (ha : RectInRange a) :
    RectInRange (a.Intersect b) := by
  rcases Intersect_cases a b with h | h
  · rw [h]; decide
  · exact h.inRange ha

/-- The last steps of `clip`, for a clipped rectangle and points within the range: no
difference and no sum wraps around. -/
theorem clip_shift (R r : Rectangle) (sp mp : Point) (hR : RectInRange R)
    (hr : RectInRange r) (hs : PointInRange sp) (hm : PointInRange mp) :
    (if (int64 (R.Min.X - r.Min.X) == 0 && int64 (R.Min.Y - r.Min.Y) == 0) = true then
        (R, sp, mp)
      else (R, (⟨int64 (sp.X + int64 (R.Min.X - r.Min.X)),
          int64 (sp.Y + int64 (R.Min.Y - r.Min.Y))⟩ : Point),
        (⟨int64 (mp.X + int64 (R.Min.X - r.Min.X)),
          int64 (mp.Y + int64 (R.Min.Y - r.Min.Y))⟩ : Point))) =
      (R, ⟨sp.X + (R.Min.X - r.Min.X), sp.Y + (R.Min.Y - r.Min.Y)⟩,
        ⟨mp.X + (R.Min.X - r.Min.X), mp.Y + (R.Min.Y - r.Min.Y)⟩) := by
  obtain ⟨⟨⟨a1, a2⟩, ⟨a3, a4⟩⟩, _⟩ := hR
  obtain ⟨⟨⟨b1, b2⟩, ⟨b3, b4⟩⟩, _⟩ := hr
  obtain ⟨⟨s1, s2⟩, ⟨s3, s4⟩⟩ := hs
  obtain ⟨⟨m1, m2⟩, ⟨m3, m4⟩⟩ := hm
  have ex : int64 (R.Min.X - r.Min.X) = R.Min.X - r.Min.X := int64_eq _ (by omega) (by omega)
  have ey : int64 (R.Min.Y - r.Min.Y) = R.Min.Y - r.Min.Y := int64_eq _ (by omega) (by omega)
  rw [ex, ey, int64_eq (sp.X + _) (by omega) (by omega),
    int64_eq (sp.Y + _) (by omega) (by omega), int64_eq (mp.X + _) (by omega) (by omega),
    int64_eq (mp.Y + _) (by omega) (by omega)]
  split_ifs with h
  · simp only [Bool.and_eq_true, beq_iff_eq] at h
    obtain ⟨h1, h2⟩ := h
    obtain ⟨sx, sy⟩ := sp
    obtain ⟨mx, my⟩ := mp
    simp only [h1, h2, add_zero]
  · rfl

/-- The rectangle `clip` returns, for coordinates within the range: `r` cut to the bounds of
the destination, to the bounds of the source moved by `r.Min - sp` and, under a mask, to the
bounds of the mask moved by `r.Min - mp`; and the two points it returns, moved as far as the
corner of the rectangle. -/
theorem clip_spec (dst src : Image) (mask : Option Image) (r : Rectangle) (sp mp : Point)
    (hr : RectInRange r) (hs : PointInRange sp) (hm : PointInRange mp)
    (hb : RectInRange src.Bounds) (hk : ∀ mk, mask = some mk → RectInRange mk.Bounds) :
    ∃ R : Rectangle,
      R = (match mask with
        | some mk => ((r.Intersect dst.Bounds).Intersect
            (src.Bounds.Add (r.Min.Sub sp))).Intersect (mk.Bounds.Add (r.Min.Sub mp))
        | none => (r.Intersect dst.Bounds).Intersect (src.Bounds.Add (r.Min.Sub sp))) ∧
      clip dst r src sp mask mp =
        (R, ⟨sp.X + (R.Min.X - r.Min.X), sp.Y + (R.Min.Y - r.Min.Y)⟩,
          ⟨mp.X + (R.Min.X - r.Min.X), mp.Y + (R.Min.Y - r.Min.Y)⟩) := by
  refine ⟨_, rfl, ?_⟩
  have h0 := Intersect_inRange r dst.Bounds hr
  have h1 := Intersect_inRange (r.Intersect dst.Bounds) (src.Bounds.Add (r.Min.Sub sp)) h0
  cases mask with
  | none =>
    unfold clip
    simp only [wrap_translate _ _ _ hb hr.1 hs]
    exact clip_shift _ r sp mp h1 hr hs hm
  | some mk =>
    have h2 := Intersect_inRange _ (mk.Bounds.Add (r.Min.Sub mp)) h1
    unfold clip
    simp only [wrap_translate _ _ _ hb hr.1 hs, wrap_translate _ _ _ (hk mk rfl) hr.1 hm]
    exact clip_shift _ r sp mp h2 hr hs hm

theorem Inside_Add (b : Rectangle) (p : Point) (x y : Int) :
    Inside (b.Add p) x y ↔ Inside b (x - p.X) (y - p.Y) := by
  unfold Inside Rectangle.Add
  simp only
  constructor <;> intro h <;> omega

theorem Clipped.of_not_empty {r b : Rectangle} (h : Clipped r b) : b.Empty = false := by
  rw [← Bool.not_eq_true, Empty_iff]
  obtain ⟨a1, a2, a3, a4, a5, a6⟩ := h
  omega

/-- The rectangle `clip` returns lies in `r`, in the bounds of the destination, in the
bounds of the source moved by `r.Min - sp` and, under a mask, in the bounds of the mask
moved by `r.Min - mp`; when it is not empty it is a rectangle inside the bounds of the
destination. -/
theorem clip_inside (dst src : Image) (mask : Option Image) (r : Rectangle) (sp mp : Point)
    (hr : RectInRange r) (hs : PointInRange sp) (hm : PointInRange mp)
    (hb : RectInRange src.Bounds) (hk : ∀ mk, mask = some mk → RectInRange mk.Bounds) :
    (∀ x y, Inside (clip dst r src sp mask mp).1 x y →
      Inside r x y ∧ Inside dst.Bounds x y ∧ Inside (src.Bounds.Add (r.Min.Sub sp)) x y ∧
      ∀ mk, mask = some mk → Inside (mk.Bounds.Add (r.Min.Sub mp)) x y) ∧
    ((clip dst r src sp mask mp).1.Empty = false →
      Clipped (clip dst r src sp mask mp).1 dst.Bounds) := by
  obtain ⟨R, hR, hc⟩ := clip_spec dst src mask r sp mp hr hs hm hb hk
  rw [hc]
  simp only
  cases mask with
  | none =>
    simp only at hR
    subst hR
    refine ⟨fun x y h => ?_, fun h => Clipped_clipRect r dst.Bounds src.Bounds sp h⟩
    obtain ⟨h1, h2, h3⟩ := (Inside_clipRect _ _ _ _ _ _).1 h
    exact ⟨h1, h2, h3, fun mk hm => by cases hm⟩
  | some mk0 =>
    simp only at hR
    subst hR
    refine ⟨fun x y h => ?_, fun h => ?_⟩
    · obtain ⟨h0, h4⟩ := (Inside_Intersect _ _ _ _).1 h
      obtain ⟨h1, h2, h3⟩ := (Inside_clipRect r dst.Bounds src.Bounds sp x y).1 h0
      refine ⟨h1, h2, h3, fun mk hm => ?_⟩
      cases hm
      exact h4
    · have c1 := (Clipped_Intersect _ _ h).1
      exact c1.trans (Clipped_clipRect r dst.Bounds src.Bounds sp c1.of_not_empty)

/-- When the clipped rectangle is empty `DrawMask` returns the memory as it is. -/
theorem DrawMask_empty (fuel : Nat) (mem : Mem) (dst : Image) (r : Rectangle) (s : Source)
    (sp : Point) (mask : Option Image) (mp : Point) (op : draw.Op)
    (h : (clip dst r (s.get dst) sp mask mp).1.Empty = true) :
    DrawMask fuel mem dst r s sp mask mp op = .done mem := by
  unfold DrawMask
  rcases hc : clip dst r (s.get dst) sp mask mp with ⟨r', sp', mp'⟩
  rw [hc] at h
  simp only at h
  simp only [h, if_true]

end bgra

namespace bgra

/-! ## The in-bounds invariant -/

theorem WF.inBounds {p : BGRA} (h : p.WF) : p.InBounds := h.inb

/-- A buffer with at least two rows whose pixels are in bounds has a stride that is not
negative. -/
theorem InBounds.stride_nonneg {p : BGRA} (h : p.InBounds) (hx : p.Rect.Min.X < p.Rect.Max.X)
    (hy : p.Rect.Min.Y + 1 < p.Rect.Max.Y) : 0 ≤ p.Stride := by
  have := (h p.Rect.Min.X (p.Rect.Min.Y + 1) ⟨le_refl _, hx, by omega, hy⟩).1
  unfold BGRA.PixOffset at this
  have e : (p.Rect.Min.Y + 1 - p.Rect.Min.Y) * p.Stride + (p.Rect.Min.X - p.Rect.Min.X) * 4 =
      p.Stride := by ring
  rw [e] at this
  exact this

/-- `New` of a rectangle of non-negative width and height, whose size the allocator can hand
out, returns a buffer whose pixels are in bounds. -/
theorem New_inBounds (h : Heap) (r : Rectangle) (hx : 0 ≤ r.Dx) (hy : 0 ≤ r.Dy)
    (hsz : 4 * r.Dx * r.Dy ≤ (min h.limit maxAlloc : Nat)) :
    ∃ p h', New h r = some (p, h') ∧ p.Rect = r ∧ p.InBounds := by
  by_cases he : r.Min.X < r.Max.X ∧ r.Min.Y < r.Max.Y
  · obtain ⟨p, h', e, hr, _, _, hw, _⟩ := New_spec h r he.1 he.2 hsz
    exact ⟨p, h', e, hr, hw.inb⟩
  · have hz : int64 (int64 (4 * int64 r.Dx) * int64 r.Dy) = 0 := by
      unfold Rectangle.Dx Rectangle.Dy at *
      by_cases h0 : r.Max.X - r.Min.X = 0
      · rw [h0]
        simp only [int64_zero, mul_zero, zero_mul]
      · have h1 : r.Max.Y - r.Min.Y = 0 := by omega
        rw [h1]
        simp only [int64_zero, mul_zero]
    unfold New make
    simp only [hz, le_refl, Nat.cast_nonneg, and_self, if_true, Option.some_bind]
    refine ⟨_, _, rfl, rfl, ?_⟩
    intro x y hi
    obtain ⟨i1, i2, i3, i4⟩ := hi
    simp only at i1 i2 i3 i4
    exact absurd ⟨by omega, by omega⟩ he

/-- `SubImage` of a buffer whose pixels are in bounds returns a buffer whose pixels are in
bounds: the empty buffer when the rectangle misses the bounds, and otherwise a buffer with
the intersection as bounds and the same stride. -/
theorem SubImage_inBounds (p : BGRA) (r : Rectangle) (h : p.InBounds) :
    ∃ s, p.SubImage r = some s ∧ s.InBounds ∧
      ((r.Intersect p.Rect).Empty = true → s = ⟨Slice.nil, 0, ZR⟩) ∧
      ((r.Intersect p.Rect).Empty = false →
        s.Rect = r.Intersect p.Rect ∧ s.Stride = p.Stride) := by
  by_cases he : (r.Intersect p.Rect).Empty = true
  · refine ⟨⟨Slice.nil, 0, ZR⟩, ?_, ?_, fun _ => rfl, fun hn => ?_⟩
    · unfold BGRA.SubImage
      simp only [he, if_true]
    · intro x y hi
      obtain ⟨i1, i2, i3, i4⟩ := hi
      simp only [ZR] at i1 i2 i3 i4
      omega
    · rw [he] at hn
      exact absurd hn (by decide)
  · have hne : (r.Intersect p.Rect).Empty = false := by simpa using he
    have hc := (Clipped_Intersect r p.Rect hne).2
    have hmin : Inside p.Rect (r.Intersect p.Rect).Min.X (r.Intersect p.Rect).Min.Y := by
      obtain ⟨a1, a2, a3, a4, a5, a6⟩ := hc
      exact ⟨by omega, by omega, by omega, by omega⟩
    have hb := h _ _ hmin
    have hoff : ∀ x y, (y - (r.Intersect p.Rect).Min.Y) * p.Stride +
        (x - (r.Intersect p.Rect).Min.X) * 4 +
        p.PixOffset (r.Intersect p.Rect).Min.X (r.Intersect p.Rect).Min.Y =
          p.PixOffset x y := by
      intro x y; unfold BGRA.PixOffset; ring
    refine ⟨⟨Slice.drop p.Pix (p.PixOffset (r.Intersect p.Rect).Min.X
      (r.Intersect p.Rect).Min.Y).toNat, p.Stride, r.Intersect p.Rect⟩, ?_, ?_,
      fun h1 => absurd h1 he, fun _ => ⟨rfl, rfl⟩⟩
    · unfold BGRA.SubImage
      simp only [hne, Bool.false_eq_true, if_false]
      rw [Slice.tail_drop _ _ hb.1 (by omega)]
      rfl
    · intro x y hi
      simp only at hi
      have hp := h _ _ (Inside.of_clipped hc hi)
      have h0 : 0 ≤ (y - (r.Intersect p.Rect).Min.Y) * p.Stride := by
        by_cases hy : y = (r.Intersect p.Rect).Min.Y
        · rw [hy, sub_self, zero_mul]
        · apply mul_nonneg
          · have := hi.2.2.1; omega
          · obtain ⟨a1, a2, a3, a4, a5, a6⟩ := hc
            obtain ⟨i1, i2, i3, i4⟩ := hi
            exact InBounds.stride_nonneg h (by omega) (by omega)
      have h1 : 0 ≤ (x - (r.Intersect p.Rect).Min.X) * 4 := by have := hi.1; omega
      have e := hoff x y
      simp only [BGRA.PixOffset, Slice.drop] at hb hp e ⊢
      exact ⟨by omega, by omega⟩

/-- On a buffer whose pixels are in bounds `At` and `Set` return for every coordinate. -/
theorem InBounds.at_set_return {p : BGRA} (h : p.InBounds) (mem : Mem) (x y : Int)
    (c : color.Color) : (p.At mem x y).isSome = true ∧ (p.Set mem x y c).isSome = true := by
  by_cases hi : Inside p.Rect x y
  · obtain ⟨mem', e, _⟩ := BGRA.Set_inb mem p x y c hi (h x y hi)
    rw [BGRA.At_inb mem p x y hi (h x y hi), e]
    exact ⟨rfl, rfl⟩
  · rw [BGRA.At_outside mem p x y hi, BGRA.Set_outside mem p x y c hi]
    exact ⟨rfl, rfl⟩

end bgra

namespace bgra

/-! ## The blends are monotone -/

/-- The unmasked Over blend is monotone in the destination byte and in the source channel,
for channels that are at most the source alpha. -/
theorem overByte_mono (d1 d2 : Byte) (s1 s2 sa : Nat) (hd : d1 ≤ d2) (hs : s1 ≤ s2)
    (h2 : s2 ≤ sa) (hsa : sa ≤ 65535) :
    overByte d1 (u32 (sub32 m sa * 0x101)) s1 ≤ overByte d2 (u32 (sub32 m sa * 0x101)) s2 := by
  have a1 := (overByte_exact d1 s1 sa (by omega) hsa).2.2.2
  have a2 := (overByte_exact d2 s2 sa (by omega) hsa).2.2.2
  have b1 := (blend_le_255 d1 s1 sa 0 (by omega) hsa (by omega)).2
  have b2 := (blend_le_255 d2 s2 sa 0 h2 hsa (by omega)).2
  rw [a1, a2, Fin.le_def]
  simp only [uint8]
  rw [Nat.mod_eq_of_lt (by omega), Nat.mod_eq_of_lt (by omega)]
  simp only [Nat.shiftRight_eq_div_pow]
  apply Nat.div_le_div_right
  exact Nat.add_le_add (Nat.div_le_div_right (Nat.mul_le_mul_right _ (Fin.le_def.1 hd))) hs

/-- The masked Over blend is monotone in the destination byte and in the source channel,
for channels that are at most the source alpha. -/
theorem maskOverByte_mono (d1 d2 : Byte) (s1 s2 sa ma : Nat) (hd : d1 ≤ d2) (hs : s1 ≤ s2)
    (h2 : s2 ≤ sa) (hsa : sa ≤ 65535) (hma : ma ≤ 65535) :
    maskOverByte d1 sa ma s1 ≤ maskOverByte d2 sa ma s2 := by
  have b1 := (blend_le_255 d1 s1 sa ma (by omega) hsa hma).1
  have b2 := (blend_le_255 d2 s2 sa ma h2 hsa hma).1
  rw [maskOverByte_exact d1 s1 sa ma (by omega) hsa hma,
    maskOverByte_exact d2 s2 sa ma h2 hsa hma, Fin.le_def]
  simp only [uint8]
  rw [Nat.mod_eq_of_lt (by omega), Nat.mod_eq_of_lt (by omega)]
  simp only [Nat.shiftRight_eq_div_pow]
  apply Nat.div_le_div_right
  apply Nat.div_le_div_right
  exact Nat.add_le_add (Nat.mul_le_mul_right _ (Fin.le_def.1 hd)) (Nat.mul_le_mul_right _ hs)

/-- The byte `drawGlyphOver` leaves is monotone in the destination byte and in the source
channel, for channels that are at most the source alpha. -/
theorem glyphByte_mono (d1 d2 ma : Byte) (s1 s2 sa : Nat) (hd : d1 ≤ d2) (hs : s1 ≤ s2)
    (h2 : s2 ≤ sa) (hsa : sa ≤ 65535) :
    glyphByte d1 ma sa s1 ≤ glyphByte d2 ma sa s2 := by
  unfold glyphByte
  split_ifs
  · exact hd
  · apply maskOverByte_mono d1 d2 s1 s2 sa _ hd hs h2 hsa
    rw [byte_or_shift]
    exact u32_expand_le ma

/-- A colour byte is at most the alpha byte when its 16-bit channel is at most the 16-bit
alpha. -/
theorem expand_le_iff (b a : Byte) : u32 (b.val * 0x101) ≤ u32 (a.val * 0x101) ↔ b ≤ a := by
  have hb := b.isLt
  have ha := a.isLt
  have e1 : u32 (b.val * 0x101) = b.val * 257 := by unfold u32; omega
  have e2 : u32 (a.val * 0x101) = a.val * 257 := by unfold u32; omega
  rw [e1, e2, Fin.le_def]
  omega

theorem chan_alpha (s4 : Nat × Nat × Nat × Nat) : chan 3 s4 = s4.2.2.2 := rfl

/-- A premultiplied pixel of a `BGRA` buffer gives a premultiplied 16-bit colour. -/
theorem premulAt_color16 {mem : Mem} {p : BGRA} {x y : Int} (h : p.PremulAt mem x y) :
    Premul (p.color16 mem x y) := by
  unfold BGRA.color16 Premul
  exact ⟨(expand_le_iff _ _).2 (h 2 (by omega)), (expand_le_iff _ _).2 (h 1 (by omega)),
    (expand_le_iff _ _).2 (h 0 (by omega)), u32_expand_le _⟩

/-- After a call that paints the rectangle with bytes whose B, G, R are at most A, every
pixel of the rectangle is premultiplied. -/
theorem Painted.premulAt {dst : BGRA} {r : Rectangle} {g : Int → Int → Nat → Byte}
    {mem mem' : Mem} (p : Painted dst r g mem mem')
    (hg : ∀ x y, Inside r x y → ∀ c, c < 3 → g x y c ≤ g x y 3) :
    ∀ x y, Inside r x y → dst.PremulAt mem' x y := by
  intro x y hi c hc
  rw [p.1 x y c hi (by omega), p.1 x y 3 hi (by omega)]
  exact hg x y hi c hc

/-- The unmasked Over blend of a premultiplied source into a premultiplied pixel. -/
theorem overByte_keeps (mem : Mem) (dst : BGRA) (x y : Int) (s4 : Nat × Nat × Nat × Nat)
    (hd : dst.PremulAt mem x y) (hp : Premul s4) (c : Nat) (hc : c < 3) :
    overByte (mem (dst.addr x y c)) (u32 (sub32 m s4.2.2.2 * 0x101)) (chan c s4) ≤
      overByte (mem (dst.addr x y 3)) (u32 (sub32 m s4.2.2.2 * 0x101)) (chan 3 s4) :=
  overByte_mono _ _ _ _ s4.2.2.2 (hd c hc) (by rw [chan_alpha]; exact chan_le c s4 hp)
    (by rw [chan_alpha]) hp.2.2.2

end bgra

namespace bgra

/-! ## What clip returns for every input -/

/-- The three values `clip` returns, with the rectangle written out. -/
theorem clip_eq (dst src : Image) (mask : Option Image) (r : Rectangle) (sp mp : Point) :
    ∃ R : Rectangle,
      R = (match mask with
        | some mk => ((r.Intersect dst.Bounds).Intersect
            (src.Bounds.Add (r.Min.Sub sp).wrap).wrap).Intersect
              (mk.Bounds.Add (r.Min.Sub mp).wrap).wrap
        | none => (r.Intersect dst.Bounds).Intersect
            (src.Bounds.Add (r.Min.Sub sp).wrap).wrap) ∧
      clip dst r src sp mask mp =
        (if (int64 (R.Min.X - r.Min.X) == 0 && int64 (R.Min.Y - r.Min.Y) == 0) = true then
          (R, sp, mp)
        else (R, ⟨int64 (sp.X + int64 (R.Min.X - r.Min.X)),
            int64 (sp.Y + int64 (R.Min.Y - r.Min.Y))⟩,
          ⟨int64 (mp.X + int64 (R.Min.X - r.Min.X)),
            int64 (mp.Y + int64 (R.Min.Y - r.Min.Y))⟩)) := by
  refine ⟨_, rfl, ?_⟩
  cases mask <;> rfl

/-- A difference that is 0 in `int` leaves the distance to a third value as it is, in
`int`. -/
theorem int64_keep (R o s : Int) (h : int64 (R - o) = 0) : int64 (s - R) = int64 (s - o) := by
  unfold int64 at h ⊢
  omega

/-- Moving a value by a difference taken in `int` moves it as far as exactly, in `int`. -/
theorem int64_move (R o s : Int) : int64 (int64 (s + int64 (R - o)) - R) = int64 (s - o) := by
  unfold int64
  omega

/-- In `int` arithmetic the two points `clip` returns are as far from the corner of the
rectangle it returns as the points passed in were from the corner of the rectangle passed
in, for every input. -/
theorem clip_registration (dst src : Image) (mask : Option Image) (r : Rectangle)
    (sp mp : Point) :
    int64 ((clip dst r src sp mask mp).2.1.X - (clip dst r src sp mask mp).1.Min.X)
        = int64 (sp.X - r.Min.X) ∧
    int64 ((clip dst r src sp mask mp).2.1.Y - (clip dst r src sp mask mp).1.Min.Y)
        = int64 (sp.Y - r.Min.Y) ∧
    int64 ((clip dst r src sp mask mp).2.2.X - (clip dst r src sp mask mp).1.Min.X)
        = int64 (mp.X - r.Min.X) ∧
    int64 ((clip dst r src sp mask mp).2.2.Y - (clip dst r src sp mask mp).1.Min.Y)
        = int64 (mp.Y - r.Min.Y) := by
  obtain ⟨R, _, hc⟩ := clip_eq dst src mask r sp mp
  rw [hc]
  split_ifs with h
  · simp only [Bool.and_eq_true, beq_iff_eq] at h
    exact ⟨int64_keep _ _ _ h.1, int64_keep _ _ _ h.2, int64_keep _ _ _ h.1,
      int64_keep _ _ _ h.2⟩
  · exact ⟨int64_move _ _ _, int64_move _ _ _, int64_move _ _ _, int64_move _ _ _⟩

/-- A non-empty intersection of `r`, `d` and a third rectangle lies inside `d`. -/
theorem Clipped_Intersect_left (r d X : Rectangle)
    (h : ((r.Intersect d).Intersect X).Empty = false) :
    Clipped ((r.Intersect d).Intersect X) d := by
  have h1 := (Clipped_Intersect _ _ h).1
  exact h1.trans (Clipped_Intersect _ _ h1.of_not_empty).2

/-- The rectangle `clip` returns lies in `r` and in the bounds of the destination, and when
it is not empty it is a rectangle inside those bounds, for every input. -/
theorem clip_within (dst src : Image) (mask : Option Image) (r : Rectangle) (sp mp : Point) :
    (∀ x y, Inside (clip dst r src sp mask mp).1 x y →
      Inside r x y ∧ Inside dst.Bounds x y) ∧
    ((clip dst r src sp mask mp).1.Empty = false →
      Clipped (clip dst r src sp mask mp).1 dst.Bounds) := by
  obtain ⟨R, hR, hc⟩ := clip_eq dst src mask r sp mp
  have e : (clip dst r src sp mask mp).1 = R := by
    rw [hc]; split_ifs <;> rfl
  rw [e]
  cases mask with
  | none =>
    simp only at hR
    subst hR
    refine ⟨fun x y h => ?_, fun h => Clipped_Intersect_left _ _ _ h⟩
    exact (Inside_Intersect _ _ _ _).1 ((Inside_Intersect _ _ _ _).1 h).1
  | some mk0 =>
    simp only at hR
    subst hR
    refine ⟨fun x y h => ?_, fun h => ?_⟩
    · exact (Inside_Intersect _ _ _ _).1
        ((Inside_Intersect _ _ _ _).1 ((Inside_Intersect _ _ _ _).1 h).1).1
    · have c1 := (Clipped_Intersect _ _ h).1
      exact c1.trans (Clipped_Intersect_left _ _ _ c1.of_not_empty)

end bgra

/-! ## The claims -/

namespace bgra

/-- C1 (as amended): for a well-formed destination, a clipped rectangle and enough loop fuel,
each of `drawFillOver`, `drawRGBAOver` and `drawCopyOver` returns, and returns the very memory
the fallback `drawBGRA` (op Over, no mask) returns on the same inputs, provided the source is
premultiplied: the solid colour has no channel above its alpha (alpha within 16 bits), every
pixel of the buffer sources has no colour byte above its alpha byte; the buffer sources are
well formed, cover the rectangle and are held apart from the destination. -/
theorem over_fast_eq_fallback_premul (fuel : Nat) (mem : Mem) (dst : BGRA) (r : Rectangle)
    (sp mp : Point) (usrc : Uniform) (rsrc : image.RGBA) (bsrc : BGRA)
    (hw : dst.WF) (hr : Clipped r dst.Rect)
    (hfx : r.Dx.toNat < fuel) (hfy : r.Dy.toNat < fuel)
    (hu : Premul usrc.RGBA)
    (hrw : (ofRGBA rsrc).WF) (hrr : Clipped (r.Add (sp.Sub r.Min)) rsrc.Rect)
    (hra : Apart dst.Pix rsrc.Pix)
    (hrp : ∀ x y, Inside rsrc.Rect x y → Premul (rsrc.color16 mem x y))
    (hbw : bsrc.WF) (hbr : Clipped (r.Add (sp.Sub r.Min)) bsrc.Rect)
    (hba : Apart dst.Pix bsrc.Pix)
    (hbp : ∀ x y, Inside bsrc.Rect x y → Premul (bsrc.color16 mem x y)) :
    (∃ mem', drawFillOver fuel mem dst r usrc = some mem' ∧
      drawBGRA fuel mem dst r (.image (.Uniform usrc)) sp none mp .Over = some mem') ∧
    (∃ mem', drawRGBAOver fuel mem dst r rsrc sp = some mem' ∧
      drawBGRA fuel mem dst r (.image (.RGBA rsrc)) sp none mp .Over = some mem') ∧
    (∃ mem', drawCopyOver fuel mem dst r bsrc sp = some mem' ∧
      drawBGRA fuel mem dst r (.image (.BGRA bsrc)) sp none mp .Over = some mem') := by
  refine ⟨?_, ?_, ?_⟩
  · obtain ⟨m1, e1, p1⟩ := drawFillOver_painted fuel mem dst r usrc hw hr hfx hfy
    obtain ⟨m2, e2, p2⟩ := drawBGRA_uniform_painted fuel mem dst r usrc sp mp .Over hw hr hfx hfy
    refine ⟨m1, e1, ?_⟩
    rw [e2, Painted.unique p1 p2]
    intro x y c _ _
    simp only [fallbackByte, if_true]
    exact overByte_eq_mask _ _ _ (chan_le c _ hu) hu.2.2.2
  · obtain ⟨m1, e1, p1⟩ := drawRGBAOver_painted fuel mem dst rsrc r sp hw hrw hr hrr hra hfx hfy
    obtain ⟨m2, e2, p2⟩ :=
      drawBGRA_rgba_painted fuel mem dst rsrc r sp mp .Over hw hrw hr hrr hra hfx hfy
    refine ⟨m1, e1, ?_⟩
    rw [e2, Painted.unique p1 p2]
    intro x y c hi _
    have hp := hrp _ _ (Inside.src hrr hi)
    simp only [fallbackByte, if_true]
    exact overByte_eq_mask _ _ _ (chan_le c _ hp) hp.2.2.2
  · obtain ⟨m1, e1, p1⟩ := drawCopyOver_painted fuel mem dst bsrc r sp hw hbw hr hbr hba hfx hfy
    obtain ⟨m2, e2, p2⟩ :=
      drawBGRA_bgra_painted fuel mem dst bsrc r sp mp .Over hw hbw hr hbr hba hfx hfy
    refine ⟨m1, e1, ?_⟩
    rw [e2, Painted.unique p1 p2]
    intro x y c hi _
    have hp := hbp _ _ (Inside.src hbr hi)
    simp only [fallbackByte, if_true]
    exact overByte_eq_mask _ _ _ (chan_le c _ hp) hp.2.2.2

/-- C1, counterexample: on a 1x1 destination whose bytes are all 1, with the solid colour
`color.RGBA{255, 0, 0, 0}` (red above its alpha), `drawFillOver` leaves 1 in the red byte and
the fallback `drawBGRA` leaves 0 there (its sum `dr*a + sr*ma` wraps around in `uint32`), so
the two results differ. -/
theorem over_fast_ne_fallback_example :
    (drawFillOver 2 exMemOnes exDst1 exRect1 exRedNoAlpha).map (fun mem => mem 2) = some 1 ∧
    (drawBGRA 2 exMemOnes exDst1 exRect1 (.image (.Uniform exRedNoAlpha)) ZP none ZP
      .Over).map (fun mem => mem 2) = some 0 ∧
    drawFillOver 2 exMemOnes exDst1 exRect1 exRedNoAlpha ≠
      drawBGRA 2 exMemOnes exDst1 exRect1 (.image (.Uniform exRedNoAlpha)) ZP none ZP .Over := by
  have h1 : (drawFillOver 2 exMemOnes exDst1 exRect1 exRedNoAlpha).map (fun mem => mem 2)
      = some 1 := by decide
  have h2 : (drawBGRA 2 exMemOnes exDst1 exRect1 (.image (.Uniform exRedNoAlpha)) ZP none ZP
      .Over).map (fun mem => mem 2) = some 0 := by decide
  refine ⟨h1, h2, ?_⟩
  intro h
  rw [h, h2] at h1
  exact absurd h1 (by decide)

end bgra

namespace bgra

/-- C1, witness: a 2x2 destination, an opaque solid colour and two 2x2 buffer sources of
opaque grey pixels, all in separate parts of the memory. -/
theorem over_fast_eq_fallback_premul_witness :
    (∃ mem', drawFillOver 3 exMemGrey exDst2 exRect2 exOpaque = some mem' ∧
      drawBGRA 3 exMemGrey exDst2 exRect2 (.image (.Uniform exOpaque)) ZP none ZP .Over
        = some mem') ∧
    (∃ mem', drawRGBAOver 3 exMemGrey exDst2 exRect2 exSrcRGBA ZP = some mem' ∧
      drawBGRA 3 exMemGrey exDst2 exRect2 (.image (.RGBA exSrcRGBA)) ZP none ZP .Over
        = some mem') ∧
    (∃ mem', drawCopyOver 3 exMemGrey exDst2 exRect2 exSrcBGRA ZP = some mem' ∧
      drawBGRA 3 exMemGrey exDst2 exRect2 (.image (.BGRA exSrcBGRA)) ZP none ZP .Over
        = some mem') :=
  over_fast_eq_fallback_premul 3 exMemGrey exDst2 exRect2 ZP ZP exOpaque exSrcRGBA exSrcBGRA
    exDst2_wf exRect2_clipped (by decide) (by decide) (by decide)
    exSrcRGBA_wf (exRect2_src_clipped _ rfl) (by decide) exMemGrey_rgba
    exSrcBGRA_wf (exRect2_src_clipped _ rfl) (by decide) exMemGrey_bgra

end bgra

namespace bgra

/-- C2 (as amended): drawing with op Over a source that is premultiplied and has alpha 0
(hence has all four channels 0) changes no byte of the memory, for every well-formed
destination, every clipped rectangle and enough loop fuel: a solid colour through
`drawFillOver`, an `image.RGBA` buffer through `drawRGBAOver`, a `BGRA` buffer through
`drawCopyOver`, a solid colour under an `image.Alpha` mask through `drawGlyphOver`, and the
same four through the fallback `drawBGRA`. Buffer sources and the mask are well formed,
cover the rectangle and are held apart from the destination. -/
theorem over_transparent_noop (fuel : Nat) (mem : Mem) (dst : BGRA) (r : Rectangle)
    (sp mp : Point) (usrc : Uniform) (rsrc : image.RGBA) (bsrc : BGRA) (mask : image.Alpha)
    (hw : dst.WF) (hr : Clipped r dst.Rect)
    (hfx : r.Dx.toNat < fuel) (hfy : r.Dy.toNat < fuel)
    (hu : Premul usrc.RGBA) (hu0 : usrc.RGBA.2.2.2 = 0)
    (hrw : (ofRGBA rsrc).WF) (hrr : Clipped (r.Add (sp.Sub r.Min)) rsrc.Rect)
    (hra : Apart dst.Pix rsrc.Pix)
    (hrp : ∀ x y, Inside rsrc.Rect x y →
      Premul (rsrc.color16 mem x y) ∧ (rsrc.color16 mem x y).2.2.2 = 0)
    (hbw : bsrc.WF) (hbr : Clipped (r.Add (sp.Sub r.Min)) bsrc.Rect)
    (hba : Apart dst.Pix bsrc.Pix)
    (hbp : ∀ x y, Inside bsrc.Rect x y →
      Premul (bsrc.color16 mem x y) ∧ (bsrc.color16 mem x y).2.2.2 = 0)
    (hmw : AlphaWF mask) (hmr : Clipped (r.Add (mp.Sub r.Min)) mask.Rect)
    (hma : Apart dst.Pix mask.Pix) :
    drawFillOver fuel mem dst r usrc = some mem ∧
    drawRGBAOver fuel mem dst r rsrc sp = some mem ∧
    drawCopyOver fuel mem dst r bsrc sp = some mem ∧
    drawGlyphOver fuel mem dst r usrc mask mp = some mem ∧
    drawBGRA fuel mem dst r (.image (.Uniform usrc)) sp none mp .Over = some mem ∧
    drawBGRA fuel mem dst r (.image (.RGBA rsrc)) sp none mp .Over = some mem ∧
    drawBGRA fuel mem dst r (.image (.BGRA bsrc)) sp none mp .Over = some mem ∧
    drawBGRA fuel mem dst r (.image (.Uniform usrc)) sp (some (.Alpha mask)) mp .Over
      = some mem := by
  have hz := premul_zero _ hu hu0
  have hrz : ∀ x y, Inside r x y →
      rsrc.color16 mem (sp.X + (x - r.Min.X)) (sp.Y + (y - r.Min.Y)) = (0, 0, 0, 0) :=
    fun x y hi => premul_zero _ (hrp _ _ (Inside.src hrr hi)).1 (hrp _ _ (Inside.src hrr hi)).2
  have hbz : ∀ x y, Inside r x y →
      bsrc.color16 mem (sp.X + (x - r.Min.X)) (sp.Y + (y - r.Min.Y)) = (0, 0, 0, 0) :=
    fun x y hi => premul_zero _ (hbp _ _ (Inside.src hbr hi)).1 (hbp _ _ (Inside.src hbr hi)).2
  refine ⟨?_, ?_, ?_, ?_, ?_, ?_, ?_, ?_⟩
  · obtain ⟨m1, e1, p1⟩ := drawFillOver_painted fuel mem dst r usrc hw hr hfx hfy
    rw [e1, Painted.same p1]
    intro x y c _ _
    simp only [hz, chan_zero]
    exact overByte_zero _
  · obtain ⟨m1, e1, p1⟩ := drawRGBAOver_painted fuel mem dst rsrc r sp hw hrw hr hrr hra hfx hfy
    rw [e1, Painted.same p1]
    intro x y c hi _
    simp only [hrz x y hi, chan_zero]
    exact overByte_zero _
  · obtain ⟨m1, e1, p1⟩ := drawCopyOver_painted fuel mem dst bsrc r sp hw hbw hr hbr hba hfx hfy
    rw [e1, Painted.same p1]
    intro x y c hi _
    simp only [hbz x y hi, chan_zero]
    exact overByte_zero _
  · obtain ⟨m1, e1, p1⟩ :=
      drawGlyphOver_painted fuel mem dst r usrc mask mp hw hr hmw hmr hma hfx hfy
    rw [e1, Painted.same p1]
    intro x y c _ _
    simp only [hz, chan_zero]
    exact glyphByte_zero _ _
  · obtain ⟨m1, e1, p1⟩ := drawBGRA_uniform_painted fuel mem dst r usrc sp mp .Over hw hr hfx hfy
    rw [e1, Painted.same p1]
    intro x y c _ _
    simp only [hz]
    exact fallbackByte_zero _ _ _
  · obtain ⟨m1, e1, p1⟩ :=
      drawBGRA_rgba_painted fuel mem dst rsrc r sp mp .Over hw hrw hr hrr hra hfx hfy
    rw [e1, Painted.same p1]
    intro x y c hi _
    simp only [hrz x y hi]
    exact fallbackByte_zero _ _ _
  · obtain ⟨m1, e1, p1⟩ :=
      drawBGRA_bgra_painted fuel mem dst bsrc r sp mp .Over hw hbw hr hbr hba hfx hfy
    rw [e1, Painted.same p1]
    intro x y c hi _
    simp only [hbz x y hi]
    exact fallbackByte_zero _ _ _
  · obtain ⟨m1, e1, p1⟩ :=
      drawBGRA_glyph_painted fuel mem dst r usrc sp mask mp .Over hw hr hmw hmr hma hfx hfy
    rw [e1, Painted.same p1]
    intro x y c _ _
    simp only [hz]
    exact fallbackByte_zero _ _ _

/-- C2, witness: a 2x2 destination holding a gradient, the fully transparent colour, two
buffer sources of zero bytes and a mask with the alphas 0, 85, 170, 255. -/
theorem over_transparent_noop_witness :
    drawFillOver 3 exMemClear exDst2 exRect2 exTransparent = some exMemClear ∧
    drawRGBAOver 3 exMemClear exDst2 exRect2 exSrcRGBA ZP = some exMemClear ∧
    drawCopyOver 3 exMemClear exDst2 exRect2 exSrcBGRA ZP = some exMemClear ∧
    drawGlyphOver 3 exMemClear exDst2 exRect2 exTransparent exMask ZP = some exMemClear ∧
    drawBGRA 3 exMemClear exDst2 exRect2 (.image (.Uniform exTransparent)) ZP none ZP .Over
      = some exMemClear ∧
    drawBGRA 3 exMemClear exDst2 exRect2 (.image (.RGBA exSrcRGBA)) ZP none ZP .Over
      = some exMemClear ∧
    drawBGRA 3 exMemClear exDst2 exRect2 (.image (.BGRA exSrcBGRA)) ZP none ZP .Over
      = some exMemClear ∧
    drawBGRA 3 exMemClear exDst2 exRect2 (.image (.Uniform exTransparent)) ZP
      (some (.Alpha exMask)) ZP .Over = some exMemClear :=
  over_transparent_noop 3 exMemClear exDst2 exRect2 ZP ZP exTransparent exSrcRGBA exSrcBGRA
    exMask exDst2_wf exRect2_clipped (by decide) (by decide) (by decide) (by decide)
    exSrcRGBA_wf (exRect2_src_clipped _ rfl) (by decide) exMemClear_rgba
    exSrcBGRA_wf (exRect2_src_clipped _ rfl) (by decide) exMemClear_bgra
    exMask_wf exRect2_mask_clipped (by decide)

/-- C2, counterexample: the solid colour `color.RGBA{255, 0, 0, 0}` has alpha 0, yet
`drawFillOver` turns the red byte of a destination pixel from 0 into 255. -/
theorem over_alpha_zero_changes_example :
    exRedNoAlpha.RGBA.2.2.2 = 0 ∧ exMemZero 2 = 0 ∧
    (drawFillOver 2 exMemZero exDst1 exRect1 exRedNoAlpha).map (fun mem => mem 2)
      = some 255 := by
  decide

end bgra

namespace bgra

/-- C3: for a well-formed buffer `b` whose bounds have coordinates of magnitude at most
2^61, a rectangle `r` inside `b` whose source region (the translate of `r` to the source
point `sp`) is inside `b` too, and enough loop fuel,
`DrawMask(b, r, b, sp, nil, mp, Src)` returns a memory `mem'` in which every pixel of `r`
holds the bytes its source pixel had before the call and nothing else has changed; and for
every temporary buffer `t` with the bounds `r`, held apart from `b`, copying the source
region into `t` and then `t` onto `r` (two calls of `DrawMask` with op Src) returns a memory
that agrees with `mem'` on every byte outside `t`. -/
theorem self_copy_eq_copy_via_temp (fuel : Nat) (mem : Mem) (b t : BGRA) (r : Rectangle)
    (sp mp : Point) (hw : b.WF) (hr : Clipped r b.Rect)
    (hsr : Clipped (r.Add (sp.Sub r.Min)) b.Rect) (hfy : r.Dy.toNat < fuel)
    (hbr : RectInRange b.Rect)
    (htw : t.WF) (htr : t.Rect = r) (hta : Apart b.Pix t.Pix) :
    ∃ mem' mem1 mem2,
      DrawMask fuel mem (.BGRA b) r .same sp none mp .Src = .done mem' ∧
      Painted b r (fun x y c =>
        mem (b.addr (sp.X + (x - r.Min.X)) (sp.Y + (y - r.Min.Y)) c)) mem mem' ∧
      DrawMask fuel mem (.BGRA t) r (.image (.BGRA b)) sp none mp .Src = .done mem1 ∧
      DrawMask fuel mem1 (.BGRA b) r (.image (.BGRA t)) r.Min none mp .Src = .done mem2 ∧
      ∀ a, ¬ (t.Pix.off ≤ a ∧ a < t.Pix.off + t.Pix.len) → mem2 a = mem' a := by
  have hrr : Clipped r r := ⟨hr.1, hr.2.1, le_refl _, le_refl _, le_refl _, le_refl _⟩
  have hrt : Clipped r t.Rect := by rw [htr]; exact hrr
  have hrt' : Clipped (r.Add (r.Min.Sub r.Min)) t.Rect := by
    have : r.Add (r.Min.Sub r.Min) = r := by
      simp only [Rectangle.Add, Point.Sub, sub_self, add_zero]
    rw [this]; exact hrt
  have hta' : Apart t.Pix b.Pix := by unfold Apart at hta ⊢; omega
  have hrng := source_inRange hr hsr hbr
  obtain ⟨m0, e0, p0⟩ := drawCopySrc_self fuel mem b r sp hw hr hsr hfy
  obtain ⟨m1, e1, p1⟩ := drawCopySrc_apart fuel mem t b r sp htw hw hrt hsr hta' hfy
  obtain ⟨m2, e2, p2⟩ := drawCopySrc_apart fuel m1 b t r r.Min hw htw hr hrt' hta hfy
  refine ⟨m0, m1, m2, ?_, p0, ?_, ?_, ?_⟩
  · rw [DrawMask_copySrc_same fuel mem b r sp mp hr hsr hbr, e0]; rfl
  · rw [DrawMask_copySrc fuel mem t b r sp mp hrt hsr hbr hrng.1 hrng.2, e1]; rfl
  · rw [DrawMask_copySrc fuel m1 b t r r.Min mp hr hrt' (by rw [htr]; exact hr.inRange hbr)
      hrng.1 hrng.1, e2]; rfl
  · intro a ha
    have hout : ∀ x y c, Inside r x y → c < 4 → a ≠ t.addr x y c := by
      intro x y c hi hc e
      have := t.addr_window htw x y c (Inside.of_clipped hrt hi) hc
      omega
    by_cases h : ∃ x y c, Inside r x y ∧ c < 4 ∧ a = b.addr x y c
    · obtain ⟨x, y, c, hi, hc, rfl⟩ := h
      rw [p2.1 x y c hi hc, p0.1 x y c hi hc]
      have ex : r.Min.X + (x - r.Min.X) = x := by ring
      have ey : r.Min.Y + (y - r.Min.Y) = y := by ring
      simp only [ex, ey]
      rw [p1.1 x y c hi hc]
    · have h' : ∀ x y c, Inside r x y → c < 4 → a ≠ b.addr x y c :=
        fun x y c hi hc e => h ⟨x, y, c, hi, hc, e⟩
      rw [p2.2 a h', p1.2 a hout, p0.2 a h']

/-- C3, witness: in a 3x3 buffer the 2x2 block at (0,0) is copied onto the 2x2 block at
(1,1), which it overlaps in the pixel (1,1). -/
theorem self_copy_eq_copy_via_temp_witness :
    ∃ mem' mem1 mem2,
      DrawMask 3 exMemRamp (.BGRA exBuf3) exBlock .same ZP none ZP .Src = .done mem' ∧
      Painted exBuf3 exBlock (fun x y c =>
        exMemRamp (exBuf3.addr (ZP.X + (x - exBlock.Min.X)) (ZP.Y + (y - exBlock.Min.Y)) c))
        exMemRamp mem' ∧
      DrawMask 3 exMemRamp (.BGRA exTmp) exBlock (.image (.BGRA exBuf3)) ZP none ZP .Src
        = .done mem1 ∧
      DrawMask 3 mem1 (.BGRA exBuf3) exBlock (.image (.BGRA exTmp)) exBlock.Min none ZP .Src
        = .done mem2 ∧
      ∀ a, ¬ (exTmp.Pix.off ≤ a ∧ a < exTmp.Pix.off + exTmp.Pix.len) → mem2 a = mem' a :=
  self_copy_eq_copy_via_temp 3 exMemRamp exBuf3 exTmp exBlock ZP ZP exBuf3_wf (by decide)
    (by decide) (by decide) (by decide) exTmp_wf rfl (by decide)

/-- C3, counterexample: a well-formed 3x3 buffer whose bounds start at the least `int`, the
2x2 block `r` at its corner and the source point one pixel right of and below the corner:
`r` and its source region lie in the bounds, yet in `clip` the translate of the bounds by
`r.Min - sp = (-1, -1)` wraps around, the clipped rectangle is empty and `DrawMask` with op
Src returns the memory as it is; the first byte of `r` keeps its 0 where the copy of the
source pixel would put 16. -/
theorem self_copy_wraps_example :
    exEdgeBuf.WF ∧ Clipped exEdgeRect exEdgeBuf.Rect ∧
    Clipped (exEdgeRect.Add (exEdgePoint.Sub exEdgeRect.Min)) exEdgeBuf.Rect ∧
    (clip (.BGRA exEdgeBuf) exEdgeRect (.BGRA exEdgeBuf) exEdgePoint none ZP).1 = ZR ∧
    (match DrawMask 3 exMemRamp (.BGRA exEdgeBuf) exEdgeRect .same exEdgePoint none ZP .Src
      with
      | .done mem' => some (mem' (exEdgeBuf.addr exEdgeRect.Min.X exEdgeRect.Min.Y 0))
      | _ => none) = some 0 ∧
    exMemRamp (exEdgeBuf.addr exEdgePoint.X exEdgePoint.Y 0) = 16 :=
  ⟨exEdgeBuf_wf, by decide, by decide, by decide, by decide, by decide⟩

end bgra

namespace bgra

/-- C4: for a well-formed BGRA destination, any rectangle `r` and any source point `sp`
whose corner `r.Min` and `sp` have coordinates of magnitude at most 2^61, any solid colour
`col` and enough loop fuel, `Draw(dst, r, &image.Uniform{col}, sp, draw.Src)`
returns a memory in which `At` gives `col`, converted to `color.RGBA`, on every pixel of
`r` that lies in the bounds of the destination and in the bounds of the solid colour moved
by `r.Min - sp`, and in which every byte that belongs to no such pixel is unchanged. -/
theorem draw_src_solid_fills_clipped (fuel : Nat) (mem : Mem) (dst : BGRA) (r : Rectangle)
    (col : color.Color) (sp : Point) (hw : dst.WF)
    (hfx : dst.Rect.Dx.toNat < fuel) (hfy : dst.Rect.Dy.toNat < fuel)
    (ho : PointInRange r.Min) (hs : PointInRange sp) :
    ∃ mem', Draw fuel mem (.BGRA dst) r (.image (.Uniform ⟨col⟩)) sp .Src = .done mem' ∧
      (∀ x y, Inside r x y → Inside dst.Rect x y →
        Inside ((Uniform.Bounds ⟨col⟩).Add (r.Min.Sub sp)) x y →
        dst.At mem' x y = some (.rgba (color.rgbaModel col))) ∧
      (∀ a, (∀ x y c, Inside r x y → Inside dst.Rect x y →
          Inside ((Uniform.Bounds ⟨col⟩).Add (r.Min.Sub sp)) x y → c < 4 →
          a ≠ dst.addr x y c) → mem' a = mem a) := by
  obtain ⟨mem', e, hp⟩ := Draw_fillSrc_painted fuel mem dst r ⟨col⟩ sp hw hfx hfy ho hs
  refine ⟨mem', e, fun x y h1 h2 h3 => ?_, fun a ha => hp.2 a fun x y c hi hc => ?_⟩
  · have hi : Inside (clipRect r dst.Rect (Uniform.Bounds ⟨col⟩) sp) x y :=
      (Inside_clipRect _ _ _ _ _ _).2 ⟨h1, h2, h3⟩
    exact Painted.At_narrow col hw (Clipped_clipRect _ _ _ _ hi.rect_not_empty) hp x y hi
  · obtain ⟨h1, h2, h3⟩ := (Inside_clipRect _ _ _ _ _ _).1 hi
    exact ha x y c h1 h2 h3 hc

/-- C4, witness: the 2x2 block at (1,1) of a 3x3 buffer is filled with the opaque colour
`color.RGBA{10, 20, 30, 255}`. -/
theorem draw_src_solid_fills_clipped_witness :
    ∃ mem', Draw 4 exMemRamp (.BGRA exBuf3) exBlock (.image (.Uniform exOpaque)) ZP .Src
        = .done mem' ∧
      (∀ x y, Inside exBlock x y → Inside exBuf3.Rect x y →
        Inside ((Uniform.Bounds exOpaque).Add (exBlock.Min.Sub ZP)) x y →
        exBuf3.At mem' x y = some (.rgba (color.rgbaModel (.rgba ⟨10, 20, 30, 255⟩)))) ∧
      (∀ a, (∀ x y c, Inside exBlock x y → Inside exBuf3.Rect x y →
          Inside ((Uniform.Bounds exOpaque).Add (exBlock.Min.Sub ZP)) x y → c < 4 →
          a ≠ exBuf3.addr x y c) → mem' a = exMemRamp a) :=
  draw_src_solid_fills_clipped 4 exMemRamp exBuf3 exBlock (.rgba ⟨10, 20, 30, 255⟩) ZP
    exBuf3_wf (by decide) (by decide) (by decide) (by decide)

/-- C4, counterexample: with the source point two thousand million pixels to the right, the
bounds of the solid colour moved by `r.Min - sp` miss the rectangle, and `Draw` with op Src
leaves the one pixel of the destination, which lies in the rectangle, as it was: `At`
returns the colour (0, 0, 0, 0) and not the opaque colour of the source. And for a
well-formed 2x1 destination seven pixels below the greatest `int`, with the source point
(0, 0), the bounds of the solid colour moved by `r.Min - sp` wrap around in `clip`, the
clipped rectangle is empty and the pixels of the destination are left as they were. -/
theorem draw_src_solid_far_source_example :
    Inside exRect1 0 0 ∧ Inside exDst1.Rect 0 0 ∧
    (match Draw 2 exMemZero (.BGRA exDst1) exRect1 (.image (.Uniform exOpaque)) exFar .Src with
      | .done mem' => exDst1.At mem' 0 0
      | _ => none) = some (.rgba ⟨0, 0, 0, 0⟩) ∧
    color.rgbaModel exOpaque.C = ⟨10, 20, 30, 255⟩ ∧
    exTopBuf.WF ∧ Inside exTopBuf.Rect 9223372036854775800 0 ∧
    (match Draw 3 exMemZero (.BGRA exTopBuf) exTopBuf.Rect (.image (.Uniform exOpaque)) ZP
      .Src with
      | .done mem' => exTopBuf.At mem' 9223372036854775800 0
      | _ => none) = some (.rgba ⟨0, 0, 0, 0⟩) :=
  ⟨by decide, by decide, by decide, by decide, exTopBuf_wf, by decide, by decide⟩

end bgra

namespace bgra

/-- C5: for every heap, every rectangle `r` whose size `4 * r.Dx() * r.Dy()` is at most
what `make` can hand out (the limit of the heap and `maxAlloc`), every point (x, y) inside
`r`, `New(r)` returns a buffer on which `Set(x, y, c)` followed by `At(x, y)` returns exactly `c` for
every `color.RGBA` value `c`, and returns the colour with each channel shifted right by 8
for a colour whose `RGBA` method gives the 16-bit channels `r16`, `g16`, `b16`, `a16`
(each at most 65535). -/
theorem new_set_at_round_trip (h : Heap) (r : Rectangle) (x y : Int) (c : color.RGBA)
    (r16 g16 b16 a16 : Nat) (hi : Inside r x y)
    (hsz : 4 * r.Dx * r.Dy ≤ (min h.limit maxAlloc : Nat))
    (h16 : r16 ≤ 65535 ∧ g16 ≤ 65535 ∧ b16 ≤ 65535 ∧ a16 ≤ 65535) :
    ∃ p h', New h r = some (p, h') ∧
      (∃ mem', p.Set h'.mem x y (.rgba c) = some mem' ∧ p.At mem' x y = some (.rgba c)) ∧
      (∃ mem', p.Set h'.mem x y (.other r16 g16 b16 a16) = some mem' ∧
        p.At mem' x y = some (.rgba
          ⟨uint8 (r16 >>> 8), uint8 (g16 >>> 8), uint8 (b16 >>> 8), uint8 (a16 >>> 8)⟩)) := by
  obtain ⟨i1, i2, i3, i4⟩ := hi
  obtain ⟨p, h', e, hr, _, _, hw, _, _⟩ := New_spec h r (by omega) (by omega) hsz
  have hi' : Inside p.Rect x y := by rw [hr]; exact ⟨i1, i2, i3, i4⟩
  have hb := hw.inb x y hi'
  refine ⟨p, h', e, ?_, ?_⟩
  · obtain ⟨mem', es, hs, _⟩ := BGRA.Set_inb h'.mem p x y (.rgba c) hi' hb
    refine ⟨mem', es, ?_⟩
    rw [BGRA.At_inb mem' p x y hi' hb, hs 0 (by omega), hs 1 (by omega), hs 2 (by omega),
      hs 3 (by omega)]
    rfl
  · obtain ⟨mem', es, hs, _⟩ := BGRA.Set_inb h'.mem p x y (.other r16 g16 b16 a16) hi' hb
    refine ⟨mem', es, ?_⟩
    obtain ⟨b1, b2, b3, b4⟩ := h16
    have e : color.rgbaModel (.other r16 g16 b16 a16) =
        ⟨uint8 (r16 >>> 8), uint8 (g16 >>> 8), uint8 (b16 >>> 8), uint8 (a16 >>> 8)⟩ := by
      simp only [color.rgbaModel, color.Color.RGBA, u32]
      rw [Nat.mod_eq_of_lt (by omega), Nat.mod_eq_of_lt (by omega),
        Nat.mod_eq_of_lt (by omega), Nat.mod_eq_of_lt (by omega)]
    rw [BGRA.At_inb mem' p x y hi' hb, hs 0 (by omega), hs 1 (by omega), hs 2 (by omega),
      hs 3 (by omega), e]
    rfl

/-- C5, witness: in the rectangle (1,1)-(3,3) the pixel (2, 1) is set to
`color.RGBA{10, 20, 30, 255}`, and to the 16-bit colour (4660, 22136, 65535, 256). -/
theorem new_set_at_round_trip_witness :
    ∃ p h', New exHeap exBlock = some (p, h') ∧
      (∃ mem', p.Set h'.mem 2 1 (.rgba ⟨10, 20, 30, 255⟩) = some mem' ∧
        p.At mem' 2 1 = some (.rgba ⟨10, 20, 30, 255⟩)) ∧
      (∃ mem', p.Set h'.mem 2 1 (.other 4660 22136 65535 256) = some mem' ∧
        p.At mem' 2 1 = some (.rgba
          ⟨uint8 (4660 >>> 8), uint8 (22136 >>> 8), uint8 (65535 >>> 8), uint8 (256 >>> 8)⟩)) :=
  new_set_at_round_trip exHeap exBlock 2 1 ⟨10, 20, 30, 255⟩ 4660 22136 65535 256
    (by decide) (by decide) (by decide)

/-- C5, counterexample: for the rectangle (0,0)-(2^31,2^31) the size `4*w*h` is 2^64, which
is 0 in `int`: `New` returns a buffer with an empty slice, and `Set(0, 0, c)` on it, at a
point inside the rectangle, indexes out of range. For the rectangle (0,0)-(2^30,2^30) the
size 2^62 is above `maxAlloc` and `New` does not return, whatever the allocator could
hand out. -/
theorem new_set_huge_rectangle_example :
    Inside exHuge31 0 0 ∧
    (New exHeap exHuge31).map Prod.fst = some ⟨⟨100, 0, 0⟩, 8589934592, exHuge31⟩ ∧
    ((New exHeap exHuge31).bind fun ph => ph.1.Set ph.2.mem 0 0 exOpaque.C).isSome = false ∧
    Inside exHuge30 0 0 ∧ (New exBigHeap exHuge30).isSome = false := by
  decide

end bgra

namespace bgra

/-- C6: for every well-formed destination, every clipped rectangle and enough loop fuel,
each fast path for op Src without a mask returns the very memory that the fallback
`drawBGRA` with op Src and no mask returns, and in that memory every byte of the rectangle
is the 16-bit channel of the source shifted right by 8 while no other byte has changed:
`drawFillSrc` for a solid colour with 16-bit channels, `drawRGBASrc` for an `image.RGBA`
buffer and `drawCopySrc` for a `BGRA` buffer, the buffers being well formed, covering the
rectangle and held apart from the destination. -/
theorem src_fast_eq_fallback (fuel : Nat) (mem : Mem) (dst : BGRA) (r : Rectangle)
    (sp mp : Point) (usrc : Uniform) (rsrc : image.RGBA) (bsrc : BGRA)
    (hw : dst.WF) (hr : Clipped r dst.Rect)
    (hfx : r.Dx.toNat < fuel) (hfy : r.Dy.toNat < fuel)
    (hu : ∀ c, c < 4 → chan c usrc.RGBA ≤ 65535)
    (hrw : (ofRGBA rsrc).WF) (hrr : Clipped (r.Add (sp.Sub r.Min)) rsrc.Rect)
    (hra : Apart dst.Pix rsrc.Pix)
    (hbw : bsrc.WF) (hbr : Clipped (r.Add (sp.Sub r.Min)) bsrc.Rect)
    (hba : Apart dst.Pix bsrc.Pix) :
    (∃ mem', drawFillSrc fuel mem dst r usrc = some mem' ∧
      drawBGRA fuel mem dst r (.image (.Uniform usrc)) sp none mp .Src = some mem' ∧
      Painted dst r (fun _ _ c => uint8 (chan c usrc.RGBA >>> 8)) mem mem') ∧
    (∃ mem', drawRGBASrc fuel mem dst r rsrc sp = some mem' ∧
      drawBGRA fuel mem dst r (.image (.RGBA rsrc)) sp none mp .Src = some mem' ∧
      Painted dst r (fun x y c => uint8 (chan c
        (rsrc.color16 mem (sp.X + (x - r.Min.X)) (sp.Y + (y - r.Min.Y))) >>> 8)) mem mem') ∧
    (∃ mem', drawCopySrc fuel mem dst r bsrc sp = some mem' ∧
      drawBGRA fuel mem dst r (.image (.BGRA bsrc)) sp none mp .Src = some mem' ∧
      Painted dst r (fun x y c => uint8 (chan c
        (bsrc.color16 mem (sp.X + (x - r.Min.X)) (sp.Y + (y - r.Min.Y))) >>> 8)) mem mem') := by
  refine ⟨?_, ?_, ?_⟩
  · obtain ⟨m1, e1, p1⟩ := drawFillSrc_painted fuel mem dst r usrc hw hr hfx hfy
    obtain ⟨m2, e2, p2⟩ := drawBGRA_uniform_painted fuel mem dst r usrc sp mp .Src hw hr hfx hfy
    refine ⟨m1, e1, ?_, p1⟩
    rw [e2, Painted.unique p1 p2]
    intro x y c _ hc
    simp only [fallbackByte]
    rw [if_neg (by decide), srcByte_m _ (hu c hc)]
  · obtain ⟨m1, e1, p1⟩ := drawRGBASrc_painted fuel mem dst rsrc r sp hw hrw hr hrr hra hfx hfy
    obtain ⟨m2, e2, p2⟩ :=
      drawBGRA_rgba_painted fuel mem dst rsrc r sp mp .Src hw hrw hr hrr hra hfx hfy
    refine ⟨m1, e1, ?_, p1⟩
    rw [e2, Painted.unique p1 p2]
    intro x y c _ hc
    simp only [fallbackByte]
    rw [if_neg (by decide), srcByte_m]
    unfold image.RGBA.color16 chan
    split_ifs <;> exact u32_expand_le _
  · obtain ⟨m1, e1, p1⟩ := drawCopySrc_apart fuel mem dst bsrc r sp hw hbw hr hbr hba hfy
    obtain ⟨m2, e2, p2⟩ :=
      drawBGRA_bgra_painted fuel mem dst bsrc r sp mp .Src hw hbw hr hbr hba hfx hfy
    have hg : ∀ x y c, Inside r x y → c < 4 →
        mem (bsrc.addr (sp.X + (x - r.Min.X)) (sp.Y + (y - r.Min.Y)) c) =
          uint8 (chan c (bsrc.color16 mem (sp.X + (x - r.Min.X)) (sp.Y + (y - r.Min.Y)))
            >>> 8) := by
      intro x y c _ hc
      unfold BGRA.color16 chan
      interval_cases c <;> simp [uint8_expand]
    have p1' : Painted dst r (fun x y c => uint8 (chan c
        (bsrc.color16 mem (sp.X + (x - r.Min.X)) (sp.Y + (y - r.Min.Y))) >>> 8)) mem m1 :=
      ⟨fun x y c hi hc => by rw [p1.1 x y c hi hc]; exact hg x y c hi hc, p1.2⟩
    refine ⟨m1, e1, ?_, p1'⟩
    rw [e2, Painted.unique p1' p2]
    intro x y c _ hc
    simp only [fallbackByte]
    rw [if_neg (by decide), srcByte_m]
    unfold BGRA.color16 chan
    split_ifs <;> exact u32_expand_le _

/-- C6, witness: a 2x2 destination, an opaque solid colour and two 2x2 buffer sources, all
in separate parts of the memory. -/
theorem src_fast_eq_fallback_witness :
    (∃ mem', drawFillSrc 3 exMemGrey exDst2 exRect2 exOpaque = some mem' ∧
      drawBGRA 3 exMemGrey exDst2 exRect2 (.image (.Uniform exOpaque)) ZP none ZP .Src
        = some mem' ∧
      Painted exDst2 exRect2 (fun _ _ c => uint8 (chan c exOpaque.RGBA >>> 8))
        exMemGrey mem') ∧
    (∃ mem', drawRGBASrc 3 exMemGrey exDst2 exRect2 exSrcRGBA ZP = some mem' ∧
      drawBGRA 3 exMemGrey exDst2 exRect2 (.image (.RGBA exSrcRGBA)) ZP none ZP .Src
        = some mem' ∧
      Painted exDst2 exRect2 (fun x y c => uint8 (chan c
        (exSrcRGBA.color16 exMemGrey (ZP.X + (x - exRect2.Min.X))
          (ZP.Y + (y - exRect2.Min.Y))) >>> 8)) exMemGrey mem') ∧
    (∃ mem', drawCopySrc 3 exMemGrey exDst2 exRect2 exSrcBGRA ZP = some mem' ∧
      drawBGRA 3 exMemGrey exDst2 exRect2 (.image (.BGRA exSrcBGRA)) ZP none ZP .Src
        = some mem' ∧
      Painted exDst2 exRect2 (fun x y c => uint8 (chan c
        (exSrcBGRA.color16 exMemGrey (ZP.X + (x - exRect2.Min.X))
          (ZP.Y + (y - exRect2.Min.Y))) >>> 8)) exMemGrey mem') :=
  src_fast_eq_fallback 3 exMemGrey exDst2 exRect2 ZP ZP exOpaque exSrcRGBA exSrcBGRA
    exDst2_wf exRect2_clipped (by decide) (by decide) (by decide)
    exSrcRGBA_wf (exRect2_src_clipped _ rfl) (by decide)
    exSrcBGRA_wf (exRect2_src_clipped _ rfl) (by decide)

/-- C6, counterexample: an `image.RGBA` source on the very four bytes 0, 1, 2, 3 of the 1x1
destination. `drawRGBASrc` reads `spix[si+0]` after it has written `dpix[i+0]` and leaves
the bytes 2, 1, 2, 3; the fallback `drawBGRA` with op Src reads the whole source pixel first
and leaves 2, 1, 0, 3. -/
theorem src_rgba_alias_example :
    exAliasRGBA.Pix = exDst1.Pix ∧
    (drawRGBASrc 2 exMemRamp exDst1 exRect1 exAliasRGBA ZP).map
      (fun mem => [mem 0, mem 1, mem 2, mem 3]) = some [2, 1, 2, 3] ∧
    (drawBGRA 2 exMemRamp exDst1 exRect1 (.image (.RGBA exAliasRGBA)) ZP none ZP .Src).map
      (fun mem => [mem 0, mem 1, mem 2, mem 3]) = some [2, 1, 0, 3] := by
  decide

end bgra

namespace bgra

/-- C7: on a well-formed buffer, with enough loop fuel, `Opaque` returns, and returns true
if and only if the alpha byte at `PixOffset(x, y) + 3` is 255 for every (x, y) inside
`Rect`; it returns the same on any memory with the same alpha bytes inside `Rect`, whatever
the stride padding and the rest of the memory hold; and on every buffer whose `Rect` is
empty, well formed or not, it returns true. -/
theorem opaque_iff_all_alpha (fuel : Nat) (mem : Mem) (p : BGRA) (hw : p.WF)
    (hfx : p.Rect.Dx.toNat < fuel) (hfy : p.Rect.Dy.toNat < fuel) :
    ∃ ok, p.Opaque fuel mem = some ok ∧
      (ok = true ↔ ∀ x y, Inside p.Rect x y → mem (p.addr x y 3) = 255) ∧
      (∀ mem2 : Mem, (∀ x y, Inside p.Rect x y → mem2 (p.addr x y 3) = mem (p.addr x y 3)) →
        p.Opaque fuel mem2 = some ok) ∧
      (∀ (q : BGRA) (fuel2 : Nat) (mem2 : Mem), q.Rect.Empty = true →
        q.Opaque fuel2 mem2 = some true) := by
  obtain ⟨ok, h1, h2⟩ := Opaque_spec fuel mem p hw hfx hfy
  refine ⟨ok, h1, h2, ?_, ?_⟩
  · intro mem2 hsame
    obtain ⟨ok2, g1, g2⟩ := Opaque_spec fuel mem2 p hw hfx hfy
    rw [g1]
    have : ok2 = ok := by
      rw [Bool.eq_iff_iff, g2, h2]
      constructor
      · intro h x y hi; rw [← hsame x y hi]; exact h x y hi
      · intro h x y hi; rw [hsame x y hi]; exact h x y hi
    rw [this]
  · intro q fuel2 mem2 he
    unfold BGRA.Opaque
    rw [if_pos he]

/-- C7, witness: the 2x2 buffer at the bytes 0..15 with the stride 8, in a memory whose
bytes at the offsets 3 modulo 4 are 255 and whose other bytes are 7. -/
theorem opaque_iff_all_alpha_witness :
    ∃ ok, exDst2.Opaque 3 exMemGrey = some ok ∧
      (ok = true ↔ ∀ x y, Inside exDst2.Rect x y → exMemGrey (exDst2.addr x y 3) = 255) ∧
      (∀ mem2 : Mem, (∀ x y, Inside exDst2.Rect x y →
          mem2 (exDst2.addr x y 3) = exMemGrey (exDst2.addr x y 3)) →
        exDst2.Opaque 3 mem2 = some ok) ∧
      (∀ (q : BGRA) (fuel2 : Nat) (mem2 : Mem), q.Rect.Empty = true →
        q.Opaque fuel2 mem2 = some true) :=
  opaque_iff_all_alpha 3 exMemGrey exDst2 exDst2_wf (by decide) (by decide)

end bgra

namespace bgra

/-- C8: for a well-formed buffer `p`, a rectangle `r` and a point (x, y) inside both `r` and
`p.Rect`, `p.SubImage(r)` returns a buffer `s` with the bounds `r ∩ p.Rect` and the stride of
`p`, whose slice starts `p.PixOffset(s.Rect.Min)` bytes into the slice of `p`, so that
`s.PixOffset(x, y)` plus that offset is `p.PixOffset(x, y)`; the colour `s.Set(x, y, c)`
writes is the colour `p.At(x, y)` then returns, and the colour `p.Set(x, y, c)` writes is
the colour `s.At(x, y)` then returns. -/
theorem subimage_shares_pixels (mem : Mem) (p : BGRA) (r : Rectangle) (x y : Int)
    (c : color.Color) (hw : p.WF) (hr : Inside r x y) (hp : Inside p.Rect x y) :
    ∃ s, p.SubImage r = some s ∧ s.Rect = r.Intersect p.Rect ∧ s.Stride = p.Stride ∧
      0 ≤ p.PixOffset s.Rect.Min.X s.Rect.Min.Y ∧
      s.Pix.off = p.Pix.off + (p.PixOffset s.Rect.Min.X s.Rect.Min.Y).toNat ∧
      s.PixOffset x y + p.PixOffset s.Rect.Min.X s.Rect.Min.Y = p.PixOffset x y ∧
      (∃ mem', s.Set mem x y c = some mem' ∧
        p.At mem' x y = some (.rgba (color.rgbaModel c))) ∧
      (∃ mem', p.Set mem x y c = some mem' ∧
        s.At mem' x y = some (.rgba (color.rgbaModel c))) := by
  have hi : Inside (r.Intersect p.Rect) x y := (Inside_Intersect r p.Rect x y).2 ⟨hr, hp⟩
  obtain ⟨s, e, h1, h2, h3, h4, h5, h6⟩ := SubImage_spec p r hw hi.rect_not_empty
  have his : Inside s.Rect x y := by rw [h1]; exact hi
  obtain ⟨hsb, hsa⟩ := h6 x y his
  have hpb := hw.inb x y hp
  refine ⟨s, e, h1, h2, h4, by rw [h3]; rfl, h5 x y, ?_, ?_⟩
  · obtain ⟨mem', es, hs, _⟩ := BGRA.Set_inb mem s x y c his hsb
    refine ⟨mem', es, ?_⟩
    rw [BGRA.At_inb mem' p x y hp hpb, ← hsa 0, ← hsa 1, ← hsa 2, ← hsa 3, hs 0 (by omega),
      hs 1 (by omega), hs 2 (by omega), hs 3 (by omega)]
    rfl
  · obtain ⟨mem', es, hs, _⟩ := BGRA.Set_inb mem p x y c hp hpb
    refine ⟨mem', es, ?_⟩
    rw [BGRA.At_inb mem' s x y his hsb, hsa 0, hsa 1, hsa 2, hsa 3, hs 0 (by omega),
      hs 1 (by omega), hs 2 (by omega), hs 3 (by omega)]
    rfl

/-- C8, witness: the sub-image of a 3x3 buffer through the block (1,1)-(3,3), and the pixel
(2, 1). -/
theorem subimage_shares_pixels_witness :
    ∃ s, exBuf3.SubImage exBlock = some s ∧ s.Rect = exBlock.Intersect exBuf3.Rect ∧
      s.Stride = exBuf3.Stride ∧
      0 ≤ exBuf3.PixOffset s.Rect.Min.X s.Rect.Min.Y ∧
      s.Pix.off = exBuf3.Pix.off + (exBuf3.PixOffset s.Rect.Min.X s.Rect.Min.Y).toNat ∧
      s.PixOffset 2 1 + exBuf3.PixOffset s.Rect.Min.X s.Rect.Min.Y = exBuf3.PixOffset 2 1 ∧
      (∃ mem', s.Set exMemRamp 2 1 exOpaque.C = some mem' ∧
        exBuf3.At mem' 2 1 = some (.rgba (color.rgbaModel exOpaque.C))) ∧
      (∃ mem', exBuf3.Set exMemRamp 2 1 exOpaque.C = some mem' ∧
        s.At mem' 2 1 = some (.rgba (color.rgbaModel exOpaque.C))) :=
  subimage_shares_pixels exMemRamp exBuf3 exBlock 2 1 exOpaque.C exBuf3_wf (by decide)
    (by decide)

end bgra

namespace bgra

/-- C9: for a well-formed BGRA destination, any rectangle `r` and any source point `sp`
whose corner `r.Min` and `sp` have coordinates of magnitude at most 2^61, any solid colour
`col` whose alpha is 65535 and enough loop fuel,
`Draw(dst, r, &image.Uniform{col}, sp, draw.Over)` returns a memory in which `At`
gives `col`, converted to `color.RGBA`, on every pixel of `r` that lies in the bounds of the
destination and in the bounds of the solid colour moved by `r.Min - sp`, and in which every
byte that belongs to no such pixel is unchanged. -/
theorem draw_over_opaque_solid_fills_clipped (fuel : Nat) (mem : Mem) (dst : BGRA)
    (r : Rectangle) (col : color.Color) (sp : Point) (hw : dst.WF)
    (hfx : dst.Rect.Dx.toNat < fuel) (hfy : dst.Rect.Dy.toNat < fuel)
    (ha : col.RGBA.2.2.2 = 65535) (ho : PointInRange r.Min) (hs : PointInRange sp) :
    ∃ mem', Draw fuel mem (.BGRA dst) r (.image (.Uniform ⟨col⟩)) sp .Over = .done mem' ∧
      (∀ x y, Inside r x y → Inside dst.Rect x y →
        Inside ((Uniform.Bounds ⟨col⟩).Add (r.Min.Sub sp)) x y →
        dst.At mem' x y = some (.rgba (color.rgbaModel col))) ∧
      (∀ a, (∀ x y c, Inside r x y → Inside dst.Rect x y →
          Inside ((Uniform.Bounds ⟨col⟩).Add (r.Min.Sub sp)) x y → c < 4 →
          a ≠ dst.addr x y c) → mem' a = mem a) := by
  obtain ⟨mem', e, hp⟩ := Draw_fillOver_painted fuel mem dst r ⟨col⟩ sp hw hfx hfy ho hs
  have hp' : Painted dst (clipRect r dst.Rect (Uniform.Bounds ⟨col⟩) sp)
      (fun _ _ c => uint8 (chan c col.RGBA >>> 8)) mem mem' := by
    refine ⟨fun x y c hi hc => ?_, hp.2⟩
    rw [hp.1 x y c hi hc]
    simp only [Uniform.RGBA]
    rw [ha]
    exact overByte_opaque _ _ (Color.RGBA_lt col c)
  refine ⟨mem', e, fun x y h1 h2 h3 => ?_, fun a h => hp.2 a fun x y c hi hc => ?_⟩
  · have hi : Inside (clipRect r dst.Rect (Uniform.Bounds ⟨col⟩) sp) x y :=
      (Inside_clipRect _ _ _ _ _ _).2 ⟨h1, h2, h3⟩
    exact Painted.At_narrow col hw (Clipped_clipRect _ _ _ _ hi.rect_not_empty) hp' x y hi
  · obtain ⟨h1, h2, h3⟩ := (Inside_clipRect _ _ _ _ _ _).1 hi
    exact h x y c h1 h2 h3 hc

/-- C9, witness: a 4x4 buffer of opaque black pixels and a fill of the 2x2 block at (1,1)
with opaque red; read row by row, the sixteen pixels are black but for the four of the
block, which are red. -/
theorem draw_over_opaque_solid_fills_clipped_witness :
    (∃ mem', Draw 5 exMemBlack (.BGRA exBuf4) exBlock (.image (.Uniform exRed)) ZP .Over
        = .done mem' ∧
      (∀ x y, Inside exBlock x y → Inside exBuf4.Rect x y →
        Inside ((Uniform.Bounds exRed).Add (exBlock.Min.Sub ZP)) x y →
        exBuf4.At mem' x y = some (.rgba (color.rgbaModel (.rgba ⟨255, 0, 0, 255⟩)))) ∧
      (∀ a, (∀ x y c, Inside exBlock x y → Inside exBuf4.Rect x y →
          Inside ((Uniform.Bounds exRed).Add (exBlock.Min.Sub ZP)) x y → c < 4 →
          a ≠ exBuf4.addr x y c) → mem' a = exMemBlack a)) ∧
    (match Draw 5 exMemBlack (.BGRA exBuf4) exBlock (.image (.Uniform exRed)) ZP .Over with
      | .done mem' => readGrid4 mem' exBuf4
      | _ => []) =
      [some (.rgba ⟨0, 0, 0, 255⟩), some (.rgba ⟨0, 0, 0, 255⟩), some (.rgba ⟨0, 0, 0, 255⟩),
        some (.rgba ⟨0, 0, 0, 255⟩),
       some (.rgba ⟨0, 0, 0, 255⟩), some (.rgba ⟨255, 0, 0, 255⟩),
        some (.rgba ⟨255, 0, 0, 255⟩), some (.rgba ⟨0, 0, 0, 255⟩),
       some (.rgba ⟨0, 0, 0, 255⟩), some (.rgba ⟨255, 0, 0, 255⟩),
        some (.rgba ⟨255, 0, 0, 255⟩), some (.rgba ⟨0, 0, 0, 255⟩),
       some (.rgba ⟨0, 0, 0, 255⟩), some (.rgba ⟨0, 0, 0, 255⟩), some (.rgba ⟨0, 0, 0, 255⟩),
        some (.rgba ⟨0, 0, 0, 255⟩)] :=
  ⟨draw_over_opaque_solid_fills_clipped 5 exMemBlack exBuf4 exBlock (.rgba ⟨255, 0, 0, 255⟩)
    ZP exBuf4_wf (by decide) (by decide) (by decide) (by decide) (by decide), by decide⟩

/-- C9, counterexample: with the source point two thousand million pixels to the right, the
bounds of the solid colour moved by `r.Min - sp` miss the rectangle, and `Draw` with op Over
and a colour of alpha 65535 leaves the one pixel of the destination, which lies in the
rectangle, as it was: `At` returns the colour (0, 0, 0, 0) and not the colour of the
source narrowed to 8 bits. And for a well-formed 2x1 destination seven pixels below the
greatest `int`, with the source point (0, 0), the bounds of the solid colour moved by
`r.Min - sp` wrap around in `clip`, the clipped rectangle is empty and the pixels of the
destination are left as they were. -/
theorem draw_over_opaque_far_source_example :
    exOpaque.RGBA.2.2.2 = 65535 ∧ Inside exRect1 0 0 ∧ Inside exDst1.Rect 0 0 ∧
    (match Draw 2 exMemZero (.BGRA exDst1) exRect1 (.image (.Uniform exOpaque)) exFar .Over
      with
      | .done mem' => exDst1.At mem' 0 0
      | _ => none) = some (.rgba ⟨0, 0, 0, 0⟩) ∧
    color.rgbaModel exOpaque.C = ⟨10, 20, 30, 255⟩ ∧
    exTopBuf.WF ∧ Inside exTopBuf.Rect 9223372036854775801 0 ∧
    (match Draw 3 exMemZero (.BGRA exTopBuf) exTopBuf.Rect (.image (.Uniform exOpaque)) ZP
      .Over with
      | .done mem' => exTopBuf.At mem' 9223372036854775801 0
      | _ => none) = some (.rgba ⟨0, 0, 0, 0⟩) :=
  ⟨by decide, by decide, by decide, by decide, by decide, exTopBuf_wf, by decide, by decide⟩

end bgra

namespace bgra

/-- C10: for every buffer, every memory and every point (x, y) outside `Rect`, `At(x, y)`
returns the colour `color.RGBA{0, 0, 0, 0}`; it does so too when the slice `Pix` is replaced
by the nil slice, on which any index expression would panic. -/
theorem at_outside_transparent (mem : Mem) (p : BGRA) (x y : Int)
    (h : ¬ Inside p.Rect x y) :
    p.At mem x y = some (.rgba ⟨0, 0, 0, 0⟩) ∧
    BGRA.At mem ⟨Slice.nil, p.Stride, p.Rect⟩ x y = some (.rgba ⟨0, 0, 0, 0⟩) ∧
    (Slice.nil).index mem (p.PixOffset x y) = none :=
  ⟨BGRA.At_outside mem p x y h, BGRA.At_outside mem ⟨Slice.nil, p.Stride, p.Rect⟩ x y h,
    by simp [Slice.index, Slice.nil]⟩

/-- C10, witness: the point (5, 5) is outside the 1x1 buffer at the origin, whose memory
holds the byte 1 everywhere. -/
theorem at_outside_transparent_witness :
    exDst1.At exMemOnes 5 5 = some (.rgba ⟨0, 0, 0, 0⟩) ∧
    BGRA.At exMemOnes ⟨Slice.nil, exDst1.Stride, exDst1.Rect⟩ 5 5
      = some (.rgba ⟨0, 0, 0, 0⟩) ∧
    (Slice.nil).index exMemOnes (exDst1.PixOffset 5 5) = none :=
  at_outside_transparent exMemOnes exDst1 5 5 (by decide)

end bgra

namespace bgra

/-- C11: for every heap and every rectangle `r`, with `n` the length `4*w*h` as `New`
computes it in `int` (`w = r.Dx()`, `h = r.Dy()`, each product reduced to 64 bits): `New(r)`
returns exactly when `n` is not negative and not above what `make` can hand out (the limit of
the heap and `maxAlloc`), and does not return otherwise; the buffer it returns has the bounds
`r`, the stride `4*w` as computed in `int`, and a slice of the length and capacity `n` at the
next free address of the heap, whose bytes are all 0, the rest of the memory being as before.
For a rectangle of non-negative width and height whose exact size `4 * r.Dx() * r.Dy()` is
at most what `make` can hand out, `n` is that exact size and, when the height is positive,
the stride is the exact `4 * r.Dx()`. -/
theorem new_defined_iff_size_nonneg (h : Heap) (r : Rectangle) :
    (0 ≤ newSize r ∧ newSize r ≤ (min h.limit maxAlloc : Nat) →
      ∃ p h', New h r = some (p, h') ∧ p.Rect = r ∧ p.Stride = int64 (4 * int64 r.Dx) ∧
        p.Pix.off = h.brk ∧ (p.Pix.len : Int) = newSize r ∧
        (p.Pix.cap : Int) = newSize r ∧
        (∀ a, p.Pix.off ≤ a → a < p.Pix.off + p.Pix.len → h'.mem a = 0) ∧
        (∀ a, ¬ (p.Pix.off ≤ a ∧ a < p.Pix.off + p.Pix.len) → h'.mem a = h.mem a)) ∧
    (¬ (0 ≤ newSize r ∧ newSize r ≤ (min h.limit maxAlloc : Nat)) → New h r = none) ∧
    (0 ≤ r.Dx → 0 ≤ r.Dy → 4 * r.Dx * r.Dy ≤ (min h.limit maxAlloc : Nat) →
      newSize r = 4 * r.Dx * r.Dy ∧ (0 < r.Dy → int64 (4 * int64 r.Dx) = 4 * r.Dx)) := by
  refine ⟨fun hn => ?_, fun hn => ?_, fun hx hy hsz => ?_⟩
  · unfold newSize at hn
    unfold New make
    simp only [if_pos hn, Option.some_bind]
    refine ⟨_, _, rfl, rfl, rfl, rfl, Int.toNat_of_nonneg hn.1, Int.toNat_of_nonneg hn.1,
      ?_, ?_⟩
    · intro a h1 h2
      simp only at h1 h2 ⊢
      rw [if_pos ⟨h1, h2⟩]
    · intro a h1
      simp only at h1 ⊢
      rw [if_neg h1]
  · unfold newSize at hn
    unfold New make
    simp only [if_neg hn, Option.none_bind]
  · have hm : ((min h.limit maxAlloc : Nat) : Int) ≤ 281474976710656 := by
      unfold maxAlloc; omega
    by_cases hw : 0 < r.Dx
    · by_cases hh : 0 < r.Dy
      · obtain ⟨e1, e2, e3, e4⟩ := newSize_exact r hw hh (by omega)
        unfold newSize
        rw [e1, e2, e3, e4]
        exact ⟨rfl, fun _ => rfl⟩
      · have h0 : r.Dy = 0 := by omega
        unfold newSize
        rw [h0]
        simp only [int64_zero, mul_zero]
        exact ⟨trivial, fun hc => absurd hc (lt_irrefl 0)⟩
    · have h0 : r.Dx = 0 := by omega
      unfold newSize
      rw [h0]
      simp only [int64_zero, mul_zero, zero_mul]
      exact ⟨trivial, fun _ => trivial⟩

/-- C11, counterexample: for the rectangle with Min (0, 0) and Max (-1, 1), whose width is
-1 and whose height is 1, the length `4 * (-1) * 1` is negative and `New` does not return;
for the rectangle (0,0)-(2^30,2^30) the length 2^62 is not negative and `New` does not
return either, on a heap with no limit of its own; for the rectangle (0,0)-(2^31,2^31) the
length wraps to 0 and the slice of the buffer is empty, not `4*w*h` bytes long. -/
theorem new_backward_rectangle_example :
    exBackward.Dx = -1 ∧ exBackward.Dy = 1 ∧ New exHeap exBackward = none ∧
    newSize exHuge30 = 4611686018427387904 ∧ New exBigHeap exHuge30 = none ∧
    4 * exHuge31.Dx * exHuge31.Dy = 18446744073709551616 ∧
    (New exBigHeap exHuge31).map (fun ph => ph.1.Pix.len) = some 0 :=
  ⟨by decide, by decide, rfl, by decide, rfl, by decide, by decide⟩

end bgra

namespace bgra

/-- C12: in the Over blends the loops of the package share, with 16-bit source channels,
source alpha and mask alpha and an in-range pixel offset, no product or sum leaves the
`uint32` range and the byte written is the exact integer value narrowed to `uint8`: always
in the unmasked blend `(d*a/m + s) >> 8` of `drawFillOver`, `drawRGBAOver` and
`drawCopyOver`, and in the masked blend `((d*a + s*ma)/m) >> 8` of `drawGlyphOver` and
`drawBGRA` when no colour channel of the source is above the source alpha. -/
theorem over_blends_exact_in_uint32 (s : Slice) (mem : Mem) (i : Int) (sr sg sb sa ma : Nat)
    (h0 : 0 ≤ i) (h1 : i + 3 < s.len)
    (h16 : ∀ c, c < 4 → chan c (sr, sg, sb, sa) ≤ 65535) (hma : ma ≤ 65535) :
    (∃ mem', blendOver s mem i sr sg sb sa (u32 (sub32 m sa * 0x101)) = some mem' ∧
      ∀ c : Nat, c < 4 →
        (65535 - sa) * 257 < 4294967296 ∧
        (mem (s.off + (i + c).toNat)).val * ((65535 - sa) * 257) < 4294967296 ∧
        (mem (s.off + (i + c).toNat)).val * ((65535 - sa) * 257) / 65535 +
          chan c (sr, sg, sb, sa) < 4294967296 ∧
        mem' (s.off + (i + c).toNat) =
          uint8 (((mem (s.off + (i + c).toNat)).val * ((65535 - sa) * 257) / 65535 +
            chan c (sr, sg, sb, sa)) >>> 8)) ∧
    (Premul (sr, sg, sb, sa) →
      ∃ mem', blendMaskOver s mem i sr sg sb sa ma = some mem' ∧
        ∀ c : Nat, c < 4 →
          sa * ma < 4294967296 ∧
          (65535 - sa * ma / 65535) * 257 < 4294967296 ∧
          (mem (s.off + (i + c).toNat)).val * ((65535 - sa * ma / 65535) * 257)
            < 4294967296 ∧
          chan c (sr, sg, sb, sa) * ma < 4294967296 ∧
          (mem (s.off + (i + c).toNat)).val * ((65535 - sa * ma / 65535) * 257) +
            chan c (sr, sg, sb, sa) * ma < 4294967296 ∧
          mem' (s.off + (i + c).toNat) =
            uint8 ((((mem (s.off + (i + c).toNat)).val *
              ((65535 - sa * ma / 65535) * 257) + chan c (sr, sg, sb, sa) * ma) / 65535)
              >>> 8)) := by
  have hsa : sa ≤ 65535 := h16 3 (by omega)
  constructor
  · obtain ⟨mem', e, hb, _⟩ := blendOver_spec s mem i sr sg sb sa
      (u32 (sub32 m sa * 0x101)) h0 h1
    refine ⟨mem', e, fun c hc => ?_⟩
    obtain ⟨a1, a2, a3, a4⟩ := overByte_exact (mem (s.off + (i + c).toNat))
      (chan c (sr, sg, sb, sa)) sa (h16 c hc) hsa
    exact ⟨a1, a2, a3, by rw [hb c hc, a4]⟩
  · intro hp
    obtain ⟨mem', e, hb, _⟩ := blendMaskOver_spec s mem i sr sg sb sa ma h0 h1
    refine ⟨mem', e, fun c hc => ?_⟩
    have hs : chan c (sr, sg, sb, sa) ≤ sa := chan_le c _ hp
    obtain ⟨b1, b2, b3, b4⟩ := mask_sum_lt (mem (s.off + (i + c).toNat))
      (chan c (sr, sg, sb, sa)) sa ma hs hsa hma
    refine ⟨by omega, by omega, by omega, by omega, by omega, ?_⟩
    rw [hb c hc, maskOverByte_exact _ _ _ _ hs hsa hma]

/-- C12, witness: the blends at the one pixel of a 1x1 buffer whose bytes are all 1, with
the source channels (514, 257, 0, 65535) and the mask alpha 32896. -/
theorem over_blends_exact_in_uint32_witness :
    (∃ mem', blendOver exDst1.Pix exMemOnes 0 514 257 0 65535
        (u32 (sub32 m 65535 * 0x101)) = some mem' ∧
      ∀ c : Nat, c < 4 →
        (65535 - 65535) * 257 < 4294967296 ∧
        (exMemOnes (exDst1.Pix.off + ((0 : Int) + c).toNat)).val * ((65535 - 65535) * 257)
          < 4294967296 ∧
        (exMemOnes (exDst1.Pix.off + ((0 : Int) + c).toNat)).val * ((65535 - 65535) * 257)
          / 65535 + chan c (514, 257, 0, 65535) < 4294967296 ∧
        mem' (exDst1.Pix.off + ((0 : Int) + c).toNat) =
          uint8 (((exMemOnes (exDst1.Pix.off + ((0 : Int) + c).toNat)).val *
            ((65535 - 65535) * 257) / 65535 + chan c (514, 257, 0, 65535)) >>> 8)) ∧
    (Premul (514, 257, 0, 65535) →
      ∃ mem', blendMaskOver exDst1.Pix exMemOnes 0 514 257 0 65535 32896 = some mem' ∧
        ∀ c : Nat, c < 4 →
          65535 * 32896 < 4294967296 ∧
          (65535 - 65535 * 32896 / 65535) * 257 < 4294967296 ∧
          (exMemOnes (exDst1.Pix.off + ((0 : Int) + c).toNat)).val *
            ((65535 - 65535 * 32896 / 65535) * 257) < 4294967296 ∧
          chan c (514, 257, 0, 65535) * 32896 < 4294967296 ∧
          (exMemOnes (exDst1.Pix.off + ((0 : Int) + c).toNat)).val *
            ((65535 - 65535 * 32896 / 65535) * 257) + chan c (514, 257, 0, 65535) * 32896
            < 4294967296 ∧
          mem' (exDst1.Pix.off + ((0 : Int) + c).toNat) =
            uint8 ((((exMemOnes (exDst1.Pix.off + ((0 : Int) + c).toNat)).val *
              ((65535 - 65535 * 32896 / 65535) * 257) +
              chan c (514, 257, 0, 65535) * 32896) / 65535) >>> 8)) :=
  over_blends_exact_in_uint32 exDst1.Pix exMemOnes 0 514 257 0 65535 32896 (by decide)
    (by decide) (by decide) (by decide)

/-- C12, counterexample: with the destination byte 1, the 16-bit source channel 65535, the
source alpha 0 and the mask alpha 65535, the sum `d*a + s*ma` of the masked blend is
4311678720, above the `uint32` range; the masked blend of `drawBGRA` and `drawGlyphOver`
writes the byte 0 where the exact integer value, narrowed to `uint8`, is 1. -/
theorem masked_over_sum_wraps_example :
    exMemOnes 2 = 1 ∧
    1 * ((65535 - 0 * 65535 / 65535) * 257) + 65535 * 65535 = 4311678720 ∧
    4294967296 ≤ 4311678720 ∧
    (blendMaskOver exDst1.Pix exMemOnes 0 65535 0 0 0 65535).map (fun mem => mem 2)
      = some 0 ∧
    uint8 (((1 * ((65535 - 0 * 65535 / 65535) * 257) + 65535 * 65535) / 65535) >>> 8) = 1 := by
  decide

end bgra

namespace bgra

/-- C13: what `DrawMask` does for an `image.RGBA` destination: whatever the source, the mask
and the op, it returns at once when the clipped rectangle is empty and otherwise hands the
call over to `draw.DrawMask` of the standard library; it reaches neither `drawRGBADstOver`
nor `drawRGBADst`, because the type assertion that guards them is made on `dst`. So it is
for the 2x2 `image.RGBA` destination, the 2x2 `BGRA` source and no mask, with op Over and
with op Src, where the two loops would run and return. -/
theorem rgba_dst_handed_to_library :
    (∀ (fuel : Nat) (mem : Mem) (d : image.RGBA) (r : Rectangle) (src : Source)
      (sp : Point) (mask : Option Image) (mp : Point) (op : draw.Op),
      DrawMask fuel mem (.RGBA d) r src sp mask mp op =
        if (clip (.RGBA d) r (src.get (.RGBA d)) sp mask mp).1.Empty then .done mem
        else .library) ∧
    (clip (.RGBA exSrcRGBA) exRect2 (.BGRA exSrcBGRA) ZP none ZP).1.Empty = false ∧
    DrawMask 3 exMemGrey (.RGBA exSrcRGBA) exRect2 (.image (.BGRA exSrcBGRA)) ZP none ZP .Over
      = .library ∧
    DrawMask 3 exMemGrey (.RGBA exSrcRGBA) exRect2 (.image (.BGRA exSrcBGRA)) ZP none ZP .Src
      = .library ∧
    (drawRGBADstOver 3 exMemGrey exSrcRGBA exRect2 exSrcBGRA ZP).isSome = true ∧
    (drawRGBADst 3 exMemGrey exSrcRGBA exRect2 exSrcBGRA ZP).isSome = true := by
  refine ⟨?_, by decide, rfl, rfl, by decide, by decide⟩
  intro fuel mem d r src sp mask mp op
  unfold DrawMask
  rcases clip (.RGBA d) r (src.get (.RGBA d)) sp mask mp with ⟨r', sp', mp'⟩
  rfl

end bgra

namespace bgra

/-- C14: for a well-formed buffer `b`, a rectangle `r` inside `b` whose source region (the
translate of `r` to the source point `sp`) is inside `b` too, overlapping `r` or not, and
enough loop fuel, `drawCopyOver(b, r, b, sp)` returns a memory in which every byte of every
pixel (x, y) of `r` is the Over blend of the byte it held before the call with the channel
the source pixel `sp + (x, y) - r.Min` held before the call, and in which nothing else has
changed; and it is the very memory `drawCopyOver` returns when it reads the source from a
separate buffer `t` that holds, before the call, the pixels of the source region of `b`. -/
theorem copy_over_self_reads_original (fuel : Nat) (mem : Mem) (b : BGRA) (r : Rectangle)
    (sp : Point) (hw : b.WF) (hr : Clipped r b.Rect)
    (hsr : Clipped (r.Add (sp.Sub r.Min)) b.Rect)
    (hfx : r.Dx.toNat < fuel) (hfy : r.Dy.toNat < fuel) :
    ∃ mem', drawCopyOver fuel mem b r b sp = some mem' ∧
      Painted b r (fun x y c => overByte (mem (b.addr x y c))
        (u32 (sub32 m (b.color16 mem (sp.X + (x - r.Min.X)) (sp.Y + (y - r.Min.Y))).2.2.2
          * 0x101))
        (chan c (b.color16 mem (sp.X + (x - r.Min.X)) (sp.Y + (y - r.Min.Y))))) mem mem' ∧
      ∀ t : BGRA, t.WF → Clipped (r.Add (sp.Sub r.Min)) t.Rect → Apart b.Pix t.Pix →
        (∀ x y, Inside r x y →
          t.color16 mem (sp.X + (x - r.Min.X)) (sp.Y + (y - r.Min.Y)) =
            b.color16 mem (sp.X + (x - r.Min.X)) (sp.Y + (y - r.Min.Y))) →
        drawCopyOver fuel mem b r t sp = some mem' := by
  obtain ⟨m1, e1, p1⟩ := drawCopyOver_self fuel mem b r sp hw hr hsr hfx hfy
  refine ⟨m1, e1, p1, ?_⟩
  intro t htw htr hta hsnap
  obtain ⟨m2, e2, p2⟩ := drawCopyOver_painted fuel mem b t r sp hw htw hr htr hta hfx hfy
  rw [e2, Painted.unique p2 p1]
  intro x y c hi _
  simp only [hsnap x y hi]

/-- C14, witness: in a 3x3 buffer the 2x2 block at (0,0) is blended onto the 2x2 block at
(1,1), which it overlaps in the pixel (1,1). -/
theorem copy_over_self_reads_original_witness :
    ∃ mem', drawCopyOver 3 exMemRamp exBuf3 exBlock exBuf3 ZP = some mem' ∧
      Painted exBuf3 exBlock (fun x y c => overByte (exMemRamp (exBuf3.addr x y c))
        (u32 (sub32 m (exBuf3.color16 exMemRamp (ZP.X + (x - exBlock.Min.X))
          (ZP.Y + (y - exBlock.Min.Y))).2.2.2 * 0x101))
        (chan c (exBuf3.color16 exMemRamp (ZP.X + (x - exBlock.Min.X))
          (ZP.Y + (y - exBlock.Min.Y))))) exMemRamp mem' ∧
      ∀ t : BGRA, t.WF → Clipped (exBlock.Add (ZP.Sub exBlock.Min)) t.Rect →
        Apart exBuf3.Pix t.Pix →
        (∀ x y, Inside exBlock x y →
          t.color16 exMemRamp (ZP.X + (x - exBlock.Min.X)) (ZP.Y + (y - exBlock.Min.Y)) =
            exBuf3.color16 exMemRamp (ZP.X + (x - exBlock.Min.X))
              (ZP.Y + (y - exBlock.Min.Y))) →
        drawCopyOver 3 exMemRamp exBuf3 exBlock t ZP = some mem' :=
  copy_over_self_reads_original 3 exMemRamp exBuf3 exBlock ZP exBuf3_wf (by decide)
    (by decide) (by decide) (by decide)

end bgra

namespace bgra

/-- C15: for a well-formed destination, a solid colour of any channels, a well-formed
`image.Alpha` mask that covers the rectangle (sharing memory with the destination or not),
a clipped rectangle and enough loop fuel, `drawGlyphOver` returns, and returns the very
memory that the fallback `drawBGRA` with op Over returns on the same inputs; and for the
mask alpha 0 the formula of the fallback gives every destination byte back, whatever the
source channel and the source alpha are. -/
theorem glyph_eq_fallback (fuel : Nat) (mem : Mem) (dst : BGRA) (r : Rectangle)
    (src : Uniform) (sp : Point) (mask : image.Alpha) (mp : Point)
    (hw : dst.WF) (hr : Clipped r dst.Rect)
    (hmw : AlphaWF mask) (hmr : Clipped (r.Add (mp.Sub r.Min)) mask.Rect)
    (hfx : r.Dx.toNat < fuel) (hfy : r.Dy.toNat < fuel) :
    (∃ mem', drawGlyphOver fuel mem dst r src mask mp = some mem' ∧
      drawBGRA fuel mem dst r (.image (.Uniform src)) sp (some (.Alpha mask)) mp .Over
        = some mem') ∧
    (∀ (d : Byte) (s4 : Nat × Nat × Nat × Nat) (c : Nat),
      fallbackByte .Over d s4 0 c = d) ∧
    (∀ (mem1 : Mem) (i : Int) (sr sg sb sa : Nat), 0 ≤ i → i + 3 < dst.Pix.len →
      blendMaskOver dst.Pix mem1 i sr sg sb sa 0 = some mem1) := by
  obtain ⟨mem', e⟩ := drawGlyphOver_returns fuel mem dst r src mask mp hw hr hmw hmr hfx hfy
  refine ⟨⟨mem', e, ?_⟩, ?_, ?_⟩
  · rw [← drawGlyphOver_eq_drawBGRA fuel mem dst r src sp mask mp hw hr hmw hmr hfx hfy, e]
  · intro d s4 c
    simp only [fallbackByte, if_true]
    exact maskOverByte_mask_zero d _ _
  · intro mem1 i sr sg sb sa h0 h1
    exact blendMaskOver_mask_zero dst.Pix mem1 i sr sg sb sa h0 h1

/-- C15, witness: a 2x2 destination, an opaque solid colour and a 2x2 mask of the alphas
0, 85, 170 and 255. -/
theorem glyph_eq_fallback_witness :
    (∃ mem', drawGlyphOver 3 exMemClear exDst2 exRect2 exOpaque exMask ZP = some mem' ∧
      drawBGRA 3 exMemClear exDst2 exRect2 (.image (.Uniform exOpaque)) ZP
        (some (.Alpha exMask)) ZP .Over = some mem') ∧
    (∀ (d : Byte) (s4 : Nat × Nat × Nat × Nat) (c : Nat),
      fallbackByte .Over d s4 0 c = d) ∧
    (∀ (mem1 : Mem) (i : Int) (sr sg sb sa : Nat), 0 ≤ i → i + 3 < exDst2.Pix.len →
      blendMaskOver exDst2.Pix mem1 i sr sg sb sa 0 = some mem1) :=
  glyph_eq_fallback 3 exMemClear exDst2 exRect2 exOpaque ZP exMask ZP exDst2_wf
    exRect2_clipped exMask_wf exRect2_mask_clipped (by decide) (by decide)

end bgra

namespace bgra

/-- C16: for every destination, source, optional mask, rectangle `r` and points `sp`, `mp`,
with `(r', sp', mp')` what `clip` returns: every point of `r'` is in `r` and in the bounds
of the destination, and `r'`, when it is not empty, is a rectangle inside those bounds; in
`int` arithmetic, that is modulo 2^64, `sp' - r'.Min = sp - r.Min` and
`mp' - r'.Min = mp - r.Min`, whether `r'` is empty or not; when `r`, `sp`, `mp` and the
bounds of the source and of the mask have coordinates of magnitude at most 2^61, the two
equalities hold exactly, for every point (x, y) of `r'` the source point
`sp' + (x, y) - r'.Min` is in the bounds of the source and, under a mask, the mask point
`mp' + (x, y) - r'.Min` is in the bounds of the mask; and when `r'` is empty `DrawMask`
returns the memory as it is. -/
theorem clip_keeps_registration (fuel : Nat) (mem : Mem) (dst src : Image) (s : Source)
    (mask : Option Image) (r : Rectangle) (sp mp : Point) (op : draw.Op) :
    (∀ x y, Inside (clip dst r src sp mask mp).1 x y →
      Inside r x y ∧ Inside dst.Bounds x y) ∧
    ((clip dst r src sp mask mp).1.Empty = false →
      Clipped (clip dst r src sp mask mp).1 dst.Bounds) ∧
    (int64 ((clip dst r src sp mask mp).2.1.X - (clip dst r src sp mask mp).1.Min.X)
        = int64 (sp.X - r.Min.X) ∧
      int64 ((clip dst r src sp mask mp).2.1.Y - (clip dst r src sp mask mp).1.Min.Y)
        = int64 (sp.Y - r.Min.Y) ∧
      int64 ((clip dst r src sp mask mp).2.2.X - (clip dst r src sp mask mp).1.Min.X)
        = int64 (mp.X - r.Min.X) ∧
      int64 ((clip dst r src sp mask mp).2.2.Y - (clip dst r src sp mask mp).1.Min.Y)
        = int64 (mp.Y - r.Min.Y)) ∧
    (RectInRange r → PointInRange sp → PointInRange mp → RectInRange src.Bounds →
      (∀ mk, mask = some mk → RectInRange mk.Bounds) →
      ((clip dst r src sp mask mp).2.1.X - (clip dst r src sp mask mp).1.Min.X
          = sp.X - r.Min.X ∧
        (clip dst r src sp mask mp).2.1.Y - (clip dst r src sp mask mp).1.Min.Y
          = sp.Y - r.Min.Y) ∧
      ((clip dst r src sp mask mp).2.2.X - (clip dst r src sp mask mp).1.Min.X
          = mp.X - r.Min.X ∧
        (clip dst r src sp mask mp).2.2.Y - (clip dst r src sp mask mp).1.Min.Y
          = mp.Y - r.Min.Y) ∧
      (∀ x y, Inside (clip dst r src sp mask mp).1 x y →
        Inside src.Bounds
          ((clip dst r src sp mask mp).2.1.X + (x - (clip dst r src sp mask mp).1.Min.X))
          ((clip dst r src sp mask mp).2.1.Y + (y - (clip dst r src sp mask mp).1.Min.Y))) ∧
      (∀ mk, mask = some mk → ∀ x y, Inside (clip dst r src sp mask mp).1 x y →
        Inside mk.Bounds
          ((clip dst r src sp mask mp).2.2.X + (x - (clip dst r src sp mask mp).1.Min.X))
          ((clip dst r src sp mask mp).2.2.Y + (y - (clip dst r src sp mask mp).1.Min.Y)))) ∧
    ((clip dst r (s.get dst) sp mask mp).1.Empty = true →
      DrawMask fuel mem dst r s sp mask mp op = .done mem) := by
  refine ⟨(clip_within dst src mask r sp mp).1, (clip_within dst src mask r sp mp).2,
    clip_registration dst src mask r sp mp, fun hr hs hm hb hk => ?_,
    DrawMask_empty fuel mem dst r s sp mask mp op⟩
  obtain ⟨hin, _⟩ := clip_inside dst src mask r sp mp hr hs hm hb hk
  obtain ⟨R, _, hc⟩ := clip_spec dst src mask r sp mp hr hs hm hb hk
  rw [hc] at hin ⊢
  simp only at hin ⊢
  refine ⟨⟨by ring, by ring⟩, ⟨by ring, by ring⟩, fun x y h => ?_, fun mk hm x y h => ?_⟩
  · have h3 := (Inside_Add _ _ _ _).1 (hin x y h).2.2.1
    simp only [Point.Sub] at h3
    have ex : sp.X + (R.Min.X - r.Min.X) + (x - R.Min.X) = x - (r.Min.X - sp.X) := by ring
    have ey : sp.Y + (R.Min.Y - r.Min.Y) + (y - R.Min.Y) = y - (r.Min.Y - sp.Y) := by ring
    rw [ex, ey]
    exact h3
  · have h4 := (Inside_Add _ _ _ _).1 ((hin x y h).2.2.2 mk hm)
    simp only [Point.Sub] at h4
    have ex : mp.X + (R.Min.X - r.Min.X) + (x - R.Min.X) = x - (r.Min.X - mp.X) := by ring
    have ey : mp.Y + (R.Min.Y - r.Min.Y) + (y - R.Min.Y) = y - (r.Min.Y - mp.Y) := by ring
    rw [ex, ey]
    exact h4

/-- C16, witness: for the 3x3 destination `exBuf3`, the rectangle (-1,-1)-(2,2), the 2x2
source `exTmp` with the bounds (1,1)-(3,3) and the source point (1, 1), all within the
range, `clip` returns a rectangle whose points have their source points in the bounds of
the source, and the source point stays as far from the corner as it was. -/
theorem clip_keeps_registration_witness :
    ((clip (.BGRA exBuf3) ⟨⟨-1, -1⟩, ⟨2, 2⟩⟩ (.BGRA exTmp) ⟨1, 1⟩ none ZP).2.1.X -
        (clip (.BGRA exBuf3) ⟨⟨-1, -1⟩, ⟨2, 2⟩⟩ (.BGRA exTmp) ⟨1, 1⟩ none ZP).1.Min.X
          = 1 - (-1) ∧
      (clip (.BGRA exBuf3) ⟨⟨-1, -1⟩, ⟨2, 2⟩⟩ (.BGRA exTmp) ⟨1, 1⟩ none ZP).2.1.Y -
        (clip (.BGRA exBuf3) ⟨⟨-1, -1⟩, ⟨2, 2⟩⟩ (.BGRA exTmp) ⟨1, 1⟩ none ZP).1.Min.Y
          = 1 - (-1)) ∧
    (∀ x y, Inside (clip (.BGRA exBuf3) ⟨⟨-1, -1⟩, ⟨2, 2⟩⟩ (.BGRA exTmp) ⟨1, 1⟩ none ZP).1 x y →
      Inside exTmp.Rect
        ((clip (.BGRA exBuf3) ⟨⟨-1, -1⟩, ⟨2, 2⟩⟩ (.BGRA exTmp) ⟨1, 1⟩ none ZP).2.1.X +
          (x - (clip (.BGRA exBuf3) ⟨⟨-1, -1⟩, ⟨2, 2⟩⟩ (.BGRA exTmp) ⟨1, 1⟩ none ZP).1.Min.X))
        ((clip (.BGRA exBuf3) ⟨⟨-1, -1⟩, ⟨2, 2⟩⟩ (.BGRA exTmp) ⟨1, 1⟩ none ZP).2.1.Y +
          (y - (clip (.BGRA exBuf3) ⟨⟨-1, -1⟩, ⟨2, 2⟩⟩ (.BGRA exTmp) ⟨1, 1⟩ none ZP).1.Min.Y))) ∧
    (clip (.BGRA exBuf3) ⟨⟨-1, -1⟩, ⟨2, 2⟩⟩ (.BGRA exTmp) ⟨1, 1⟩ none ZP).1 = ⟨⟨0, 0⟩, ⟨1, 1⟩⟩ ∧
    (clip (.BGRA exBuf3) ⟨⟨-1, -1⟩, ⟨2, 2⟩⟩ (.BGRA exTmp) ⟨1, 1⟩ none ZP).2.1 = ⟨2, 2⟩ :=
  have h := (clip_keeps_registration 0 exMemZero (.BGRA exBuf3) (.BGRA exTmp)
    (.image (.BGRA exTmp)) none ⟨⟨-1, -1⟩, ⟨2, 2⟩⟩ ⟨1, 1⟩ ZP draw.Op.Over).2.2.2.1
      (by decide) (by decide) (by decide) (by decide) (fun _ hm => nomatch hm)
  ⟨h.1, h.2.2.1, by decide, by decide⟩

/-- C16, counterexample: for the 1x1 destination `exDst1`, the rectangle from the least
`int` to 1 in x, a solid colour as the source and a source point at the greatest `int` in
x, `r.Min - sp` wraps around to (1, 0): `clip` returns the rectangle (0,0)-(1,1), which is
not empty, and the source point (-1, 0), so `sp' - r'.Min` is -1 in x where `sp - r.Min`
is 2^64 - 1. -/
theorem clip_registration_wraps_example :
    (clip (.BGRA exDst1) exWideRect (.Uniform exOpaque) exTopPoint none ZP).1
      = ⟨⟨0, 0⟩, ⟨1, 1⟩⟩ ∧
    (clip (.BGRA exDst1) exWideRect (.Uniform exOpaque) exTopPoint none ZP).1.Empty = false ∧
    (clip (.BGRA exDst1) exWideRect (.Uniform exOpaque) exTopPoint none ZP).2.1 = ⟨-1, 0⟩ ∧
    (clip (.BGRA exDst1) exWideRect (.Uniform exOpaque) exTopPoint none ZP).2.1.X -
      (clip (.BGRA exDst1) exWideRect (.Uniform exOpaque) exTopPoint none ZP).1.Min.X = -1 ∧
    exTopPoint.X - exWideRect.Min.X = 18446744073709551615 := by
  decide

end bgra

namespace bgra

/-- C17: with the invariant `InBounds` (every coordinate inside `Rect` maps, by `PixOffset`,
to four bytes inside `Pix`): `New(r)` returns a buffer with the invariant for every
rectangle of non-negative width and height whose size `4 * r.Dx() * r.Dy()` is at most what
`make` can hand out (the limit of the heap and `maxAlloc`); `SubImage(r)` of a buffer with
the invariant returns a buffer with the invariant, which is the empty buffer (nil slice,
zero rectangle) when `r` misses the bounds and otherwise has the bounds `r ∩ Rect` and the
same stride; and on a buffer with the invariant `At` and `Set` return for every coordinate,
hence on every buffer built by such a `New` and any number of `SubImage` calls. -/
theorem in_bounds_invariant :
    (∀ (h : Heap) (r : Rectangle), 0 ≤ r.Dx → 0 ≤ r.Dy →
      4 * r.Dx * r.Dy ≤ (min h.limit maxAlloc : Nat) →
      ∃ p h', New h r = some (p, h') ∧ p.Rect = r ∧ p.InBounds) ∧
    (∀ (p : BGRA) (r : Rectangle), p.InBounds →
      ∃ s, p.SubImage r = some s ∧ s.InBounds ∧
        ((r.Intersect p.Rect).Empty = true → s = ⟨Slice.nil, 0, ZR⟩) ∧
        ((r.Intersect p.Rect).Empty = false →
          s.Rect = r.Intersect p.Rect ∧ s.Stride = p.Stride)) ∧
    (∀ (p : BGRA), p.InBounds → ∀ (mem : Mem) (x y : Int) (c : color.Color),
      (p.At mem x y).isSome = true ∧ (p.Set mem x y c).isSome = true) ∧
    (∃ p h' s t, New exHeap exBuf3.Rect = some (p, h') ∧ p.SubImage exBlock = some s ∧
      s.SubImage exRect2 = some t ∧ p.InBounds ∧ s.InBounds ∧ t.InBounds ∧
      s.Rect = exBlock ∧ t.Rect = ⟨⟨1, 1⟩, ⟨2, 2⟩⟩) := by
  refine ⟨fun h r hx hy hsz => New_inBounds h r hx hy hsz,
    fun p r h => SubImage_inBounds p r h,
    fun p h mem x y c => InBounds.at_set_return h mem x y c, ?_⟩
  obtain ⟨p, h', e, hr, hp⟩ :=
    New_inBounds exHeap exBuf3.Rect (by decide) (by decide) (by decide)
  obtain ⟨s, es, hs, _, hs2⟩ := SubImage_inBounds p exBlock hp
  obtain ⟨t, et, ht, _, ht2⟩ := SubImage_inBounds s exRect2 hs
  have e1 : s.Rect = exBlock := by
    rw [hr] at hs2
    exact (hs2 (by decide)).1
  have e2 : t.Rect = ⟨⟨1, 1⟩, ⟨2, 2⟩⟩ := by
    rw [e1] at ht2
    exact (ht2 (by decide)).1
  exact ⟨p, h', s, t, e, es, et, hp, hs, ht, e1, e2⟩

/-- C17, counterexample: the rectangle (0,0)-(2^31,2^31) has non-negative width and height;
its size `4*w*h` is 2^64, which is 0 in `int`, so `New` returns a buffer with these bounds
and an empty slice: the point (0, 0) is inside the bounds and its offset 0 is not inside
the slice, the invariant fails, and `At(0, 0)` indexes out of range. -/
theorem new_huge_breaks_invariant_example :
    0 ≤ exHuge31.Dx ∧ 0 ≤ exHuge31.Dy ∧
    ∃ p h', New exHeap exHuge31 = some (p, h') ∧ p.Rect = exHuge31 ∧ p.Pix.len = 0 ∧
      Inside p.Rect 0 0 ∧ ¬ p.InBounds ∧ (p.At h'.mem 0 0).isSome = false :=
  ⟨by decide, by decide, ⟨⟨100, 0, 0⟩, 8589934592, exHuge31⟩, _, rfl, rfl, rfl, by decide,
    fun hb => absurd (hb 0 0 (by decide)).2 (by decide), by decide⟩

end bgra

namespace bgra

/-- C18: for a destination byte `d`, a source channel `s` that is at most the source alpha
`sa`, itself at most 65535, and a mask alpha `ma` of at most 65535, the sum
`d*((65535 - sa*ma/65535)*257) + s*ma` of the masked Over blend is below 2^32; the two
blend results `((d*a + s*ma)/65535) >> 8` and `(d*((65535 - sa)*257)/65535 + s) >> 8` are at
most 255; and the bytes the masked and the unmasked blend of the code compute, in `uint32`
and narrowed to `uint8`, are exactly these two values. -/
theorem premul_blend_no_wrap (d : Byte) (s sa ma : Nat) (hs : s ≤ sa) (hsa : sa ≤ 65535)
    (hma : ma ≤ 65535) :
    d.val * ((65535 - sa * ma / 65535) * 257) + s * ma < 4294967296 ∧
    ((d.val * ((65535 - sa * ma / 65535) * 257) + s * ma) / 65535) >>> 8 ≤ 255 ∧
    (d.val * ((65535 - sa) * 257) / 65535 + s) >>> 8 ≤ 255 ∧
    (maskOverByte d sa ma s).val =
      ((d.val * ((65535 - sa * ma / 65535) * 257) + s * ma) / 65535) >>> 8 ∧
    (overByte d (u32 (sub32 m sa * 0x101)) s).val =
      (d.val * ((65535 - sa) * 257) / 65535 + s) >>> 8 := by
  obtain ⟨_, _, _, b4⟩ := mask_sum_lt d s sa ma hs hsa hma
  obtain ⟨c1, c2⟩ := blend_le_255 d s sa ma hs hsa hma
  obtain ⟨_, _, _, a4⟩ := overByte_exact d s sa (by omega) hsa
  refine ⟨by omega, c1, c2, ?_, ?_⟩
  · rw [maskOverByte_exact d s sa ma hs hsa hma]
    simp only [uint8]
    exact Nat.mod_eq_of_lt (by omega)
  · rw [a4]
    simp only [uint8]
    exact Nat.mod_eq_of_lt (by omega)

/-- C18, witness: the destination byte 255, the source channel 32896 under the source alpha
65535, and the mask alpha 32896. -/
theorem premul_blend_no_wrap_witness :
    (255 : Byte).val * ((65535 - 65535 * 32896 / 65535) * 257) + 32896 * 32896
      < 4294967296 ∧
    (((255 : Byte).val * ((65535 - 65535 * 32896 / 65535) * 257) + 32896 * 32896) / 65535)
      >>> 8 ≤ 255 ∧
    ((255 : Byte).val * ((65535 - 65535) * 257) / 65535 + 32896) >>> 8 ≤ 255 ∧
    (maskOverByte 255 65535 32896 32896).val =
      (((255 : Byte).val * ((65535 - 65535 * 32896 / 65535) * 257) + 32896 * 32896) / 65535)
        >>> 8 ∧
    (overByte 255 (u32 (sub32 m 65535 * 0x101)) 32896).val =
      ((255 : Byte).val * ((65535 - 65535) * 257) / 65535 + 32896) >>> 8 :=
  premul_blend_no_wrap 255 32896 65535 32896 (by decide) (by decide) (by decide)

end bgra

namespace bgra

/-- C19: the byte identity `(d*a/65535 + s) >> 8 = ((d*a + s*65535)/65535) >> 8`, both
sides in `uint32` and narrowed to `uint8`, holds for every destination byte `d` and every
`s ≤ sa ≤ 65535` with `a = (65535 - sa)*257`; and so, for a well-formed destination, a
clipped rectangle, enough loop fuel and premultiplied sources (a solid colour, an
`image.RGBA` buffer, a `BGRA` buffer, the buffers well formed, covering the rectangle and
held apart from the destination), each of `drawFillOver`, `drawRGBAOver` and `drawCopyOver`
returns the very memory the fallback `drawBGRA` with op Over and no mask returns, in which
every byte of the rectangle is the exact value `(d*a/65535 + s) >> 8` and nothing else has
changed. -/
theorem over_premul_fast_refines_fallback (fuel : Nat) (mem : Mem) (dst : BGRA)
    (r : Rectangle) (sp mp : Point) (usrc : Uniform) (rsrc : image.RGBA) (bsrc : BGRA)
    (hw : dst.WF) (hr : Clipped r dst.Rect)
    (hfx : r.Dx.toNat < fuel) (hfy : r.Dy.toNat < fuel)
    (hu : Premul usrc.RGBA)
    (hrw : (ofRGBA rsrc).WF) (hrr : Clipped (r.Add (sp.Sub r.Min)) rsrc.Rect)
    (hra : Apart dst.Pix rsrc.Pix)
    (hrp : ∀ x y, Inside rsrc.Rect x y → Premul (rsrc.color16 mem x y))
    (hbw : bsrc.WF) (hbr : Clipped (r.Add (sp.Sub r.Min)) bsrc.Rect)
    (hba : Apart dst.Pix bsrc.Pix)
    (hbp : ∀ x y, Inside bsrc.Rect x y → Premul (bsrc.color16 mem x y)) :
    (∀ (d : Byte) (s sa : Nat), s ≤ sa → sa ≤ 65535 →
      overByte d (u32 (sub32 m sa * 0x101)) s = maskOverByte d sa m s) ∧
    (∃ mem', drawFillOver fuel mem dst r usrc = some mem' ∧
      drawBGRA fuel mem dst r (.image (.Uniform usrc)) sp none mp .Over = some mem' ∧
      Painted dst r (fun x y c => uint8 (((mem (dst.addr x y c)).val *
        ((65535 - usrc.RGBA.2.2.2) * 257) / 65535 + chan c usrc.RGBA) >>> 8)) mem mem') ∧
    (∃ mem', drawRGBAOver fuel mem dst r rsrc sp = some mem' ∧
      drawBGRA fuel mem dst r (.image (.RGBA rsrc)) sp none mp .Over = some mem' ∧
      Painted dst r (fun x y c => uint8 (((mem (dst.addr x y c)).val *
        ((65535 - (rsrc.color16 mem (sp.X + (x - r.Min.X)) (sp.Y + (y - r.Min.Y))).2.2.2)
          * 257) / 65535 +
        chan c (rsrc.color16 mem (sp.X + (x - r.Min.X)) (sp.Y + (y - r.Min.Y)))) >>> 8))
        mem mem') ∧
    (∃ mem', drawCopyOver fuel mem dst r bsrc sp = some mem' ∧
      drawBGRA fuel mem dst r (.image (.BGRA bsrc)) sp none mp .Over = some mem' ∧
      Painted dst r (fun x y c => uint8 (((mem (dst.addr x y c)).val *
        ((65535 - (bsrc.color16 mem (sp.X + (x - r.Min.X)) (sp.Y + (y - r.Min.Y))).2.2.2)
          * 257) / 65535 +
        chan c (bsrc.color16 mem (sp.X + (x - r.Min.X)) (sp.Y + (y - r.Min.Y)))) >>> 8))
        mem mem') := by
  have hex : ∀ (d : Byte) (s4 : Nat × Nat × Nat × Nat) (c : Nat), Premul s4 →
      overByte d (u32 (sub32 m s4.2.2.2 * 0x101)) (chan c s4) =
        uint8 ((d.val * ((65535 - s4.2.2.2) * 257) / 65535 + chan c s4) >>> 8) := by
    intro d s4 c hp
    have h1 := chan_le c s4 hp
    have h2 := hp.2.2.2
    exact (overByte_exact d (chan c s4) s4.2.2.2 (by omega) h2).2.2.2
  refine ⟨fun d s sa hs hsa => overByte_eq_mask d s sa hs hsa, ?_, ?_, ?_⟩
  · obtain ⟨m1, e1, p1⟩ := drawFillOver_painted fuel mem dst r usrc hw hr hfx hfy
    obtain ⟨m2, e2, p2⟩ := drawBGRA_uniform_painted fuel mem dst r usrc sp mp .Over hw hr hfx hfy
    refine ⟨m1, e1, ?_, ⟨fun x y c hi hc => ?_, p1.2⟩⟩
    · rw [e2, Painted.unique p1 p2]
      intro x y c _ _
      simp only [fallbackByte, if_true]
      exact overByte_eq_mask _ _ _ (chan_le c _ hu) hu.2.2.2
    · rw [p1.1 x y c hi hc]
      exact hex _ _ c hu
  · obtain ⟨m1, e1, p1⟩ := drawRGBAOver_painted fuel mem dst rsrc r sp hw hrw hr hrr hra hfx hfy
    obtain ⟨m2, e2, p2⟩ :=
      drawBGRA_rgba_painted fuel mem dst rsrc r sp mp .Over hw hrw hr hrr hra hfx hfy
    refine ⟨m1, e1, ?_, ⟨fun x y c hi hc => ?_, p1.2⟩⟩
    · rw [e2, Painted.unique p1 p2]
      intro x y c hi _
      have hp := hrp _ _ (Inside.src hrr hi)
      simp only [fallbackByte, if_true]
      exact overByte_eq_mask _ _ _ (chan_le c _ hp) hp.2.2.2
    · rw [p1.1 x y c hi hc]
      exact hex _ _ c (hrp _ _ (Inside.src hrr hi))
  · obtain ⟨m1, e1, p1⟩ := drawCopyOver_painted fuel mem dst bsrc r sp hw hbw hr hbr hba hfx hfy
    obtain ⟨m2, e2, p2⟩ :=
      drawBGRA_bgra_painted fuel mem dst bsrc r sp mp .Over hw hbw hr hbr hba hfx hfy
    refine ⟨m1, e1, ?_, ⟨fun x y c hi hc => ?_, p1.2⟩⟩
    · rw [e2, Painted.unique p1 p2]
      intro x y c hi _
      have hp := hbp _ _ (Inside.src hbr hi)
      simp only [fallbackByte, if_true]
      exact overByte_eq_mask _ _ _ (chan_le c _ hp) hp.2.2.2
    · rw [p1.1 x y c hi hc]
      exact hex _ _ c (hbp _ _ (Inside.src hbr hi))

/-- C19, witness: a 2x2 destination, an opaque solid colour and two 2x2 buffer sources of
opaque grey pixels, all in separate parts of the memory. -/
theorem over_premul_fast_refines_fallback_witness :
    (∀ (d : Byte) (s sa : Nat), s ≤ sa → sa ≤ 65535 →
      overByte d (u32 (sub32 m sa * 0x101)) s = maskOverByte d sa m s) ∧
    (∃ mem', drawFillOver 3 exMemGrey exDst2 exRect2 exOpaque = some mem' ∧
      drawBGRA 3 exMemGrey exDst2 exRect2 (.image (.Uniform exOpaque)) ZP none ZP .Over
        = some mem' ∧
      Painted exDst2 exRect2 (fun x y c => uint8 (((exMemGrey (exDst2.addr x y c)).val *
        ((65535 - exOpaque.RGBA.2.2.2) * 257) / 65535 + chan c exOpaque.RGBA) >>> 8))
        exMemGrey mem') ∧
    (∃ mem', drawRGBAOver 3 exMemGrey exDst2 exRect2 exSrcRGBA ZP = some mem' ∧
      drawBGRA 3 exMemGrey exDst2 exRect2 (.image (.RGBA exSrcRGBA)) ZP none ZP .Over
        = some mem' ∧
      Painted exDst2 exRect2 (fun x y c => uint8 (((exMemGrey (exDst2.addr x y c)).val *
        ((65535 - (exSrcRGBA.color16 exMemGrey (ZP.X + (x - exRect2.Min.X))
          (ZP.Y + (y - exRect2.Min.Y))).2.2.2) * 257) / 65535 +
        chan c (exSrcRGBA.color16 exMemGrey (ZP.X + (x - exRect2.Min.X))
          (ZP.Y + (y - exRect2.Min.Y)))) >>> 8)) exMemGrey mem') ∧
    (∃ mem', drawCopyOver 3 exMemGrey exDst2 exRect2 exSrcBGRA ZP = some mem' ∧
      drawBGRA 3 exMemGrey exDst2 exRect2 (.image (.BGRA exSrcBGRA)) ZP none ZP .Over
        = some mem' ∧
      Painted exDst2 exRect2 (fun x y c => uint8 (((exMemGrey (exDst2.addr x y c)).val *
        ((65535 - (exSrcBGRA.color16 exMemGrey (ZP.X + (x - exRect2.Min.X))
          (ZP.Y + (y - exRect2.Min.Y))).2.2.2) * 257) / 65535 +
        chan c (exSrcBGRA.color16 exMemGrey (ZP.X + (x - exRect2.Min.X))
          (ZP.Y + (y - exRect2.Min.Y)))) >>> 8)) exMemGrey mem') :=
  over_premul_fast_refines_fallback 3 exMemGrey exDst2 exRect2 ZP ZP exOpaque exSrcRGBA
    exSrcBGRA exDst2_wf exRect2_clipped (by decide) (by decide) (by decide)
    exSrcRGBA_wf (exRect2_src_clipped _ rfl) (by decide) exMemGrey_rgba
    exSrcBGRA_wf (exRect2_src_clipped _ rfl) (by decide) exMemGrey_bgra

/-- C19, counterexample: a second `*BGRA` on the bytes of the 3x3 destination, whose pixels
are all opaque (hence premultiplied), blended from the block at (0,0) onto the block at
(1,1). `drawCopyOver` walks the rectangle from the bottom right and gives the pixel (2,2)
the colour 4 the pixel (1,1) had before the call; the fallback `drawBGRA`, which compares
pointers only, walks it from the top left and gives the pixel (2,2) the colour 0 that the
pixel (1,1) has received in the meantime. -/
theorem over_bgra_alias_example :
    (∀ x y, Inside exBuf3.Rect x y → Premul (exBuf3.color16 exMemIndex x y)) ∧
    exBuf3.addr 2 2 0 = 32 ∧
    (drawCopyOver 3 exMemIndex exBuf3 exBlock exBuf3 ZP).map (fun mem => mem 32)
      = some 4 ∧
    (drawBGRA 3 exMemIndex exBuf3 exBlock (.image (.BGRA exBuf3)) ZP none ZP .Over).map
      (fun mem => mem 32) = some 0 :=
  ⟨exMemIndex_premul, by decide, by decide, by decide⟩

end bgra

namespace bgra

/-- C20: for a well-formed destination whose pixels in the clipped rectangle `r` each have
B, G, R at most A, premultiplied sources and enough loop fuel, each Over fast path returns a
memory in which every pixel of `r` still has B, G, R at most A: `drawFillOver` with a solid
colour, `drawRGBAOver` with an `image.RGBA` buffer, `drawCopyOver` with a `BGRA` buffer
(these buffers well formed, covering the rectangle and held apart from the destination),
`drawCopyOver` of the destination onto itself (the source region inside the destination and
premultiplied before the call) and `drawGlyphOver` with a solid colour under a well-formed
`image.Alpha` mask that covers the rectangle and is held apart from the destination. -/
theorem over_keeps_premultiplied (fuel : Nat) (mem : Mem) (dst : BGRA) (r : Rectangle)
    (sp mp : Point) (usrc : Uniform) (rsrc : image.RGBA) (bsrc : BGRA) (mask : image.Alpha)
    (hw : dst.WF) (hr : Clipped r dst.Rect)
    (hfx : r.Dx.toNat < fuel) (hfy : r.Dy.toNat < fuel)
    (hd : ∀ x y, Inside r x y → dst.PremulAt mem x y)
    (hu : Premul usrc.RGBA)
    (hrw : (ofRGBA rsrc).WF) (hrr : Clipped (r.Add (sp.Sub r.Min)) rsrc.Rect)
    (hra : Apart dst.Pix rsrc.Pix)
    (hrp : ∀ x y, Inside rsrc.Rect x y → Premul (rsrc.color16 mem x y))
    (hbw : bsrc.WF) (hbr : Clipped (r.Add (sp.Sub r.Min)) bsrc.Rect)
    (hba : Apart dst.Pix bsrc.Pix)
    (hbp : ∀ x y, Inside bsrc.Rect x y → Premul (bsrc.color16 mem x y))
    (hsr : Clipped (r.Add (sp.Sub r.Min)) dst.Rect)
    (hsp : ∀ x y, Inside r x y →
      dst.PremulAt mem (sp.X + (x - r.Min.X)) (sp.Y + (y - r.Min.Y)))
    (hmw : AlphaWF mask) (hmr : Clipped (r.Add (mp.Sub r.Min)) mask.Rect)
    (hma : Apart dst.Pix mask.Pix) :
    (∃ mem', drawFillOver fuel mem dst r usrc = some mem' ∧
      ∀ x y, Inside r x y → dst.PremulAt mem' x y) ∧
    (∃ mem', drawRGBAOver fuel mem dst r rsrc sp = some mem' ∧
      ∀ x y, Inside r x y → dst.PremulAt mem' x y) ∧
    (∃ mem', drawCopyOver fuel mem dst r bsrc sp = some mem' ∧
      ∀ x y, Inside r x y → dst.PremulAt mem' x y) ∧
    (∃ mem', drawCopyOver fuel mem dst r dst sp = some mem' ∧
      ∀ x y, Inside r x y → dst.PremulAt mem' x y) ∧
    (∃ mem', drawGlyphOver fuel mem dst r usrc mask mp = some mem' ∧
      ∀ x y, Inside r x y → dst.PremulAt mem' x y) := by
  refine ⟨?_, ?_, ?_, ?_, ?_⟩
  · obtain ⟨m1, e1, p1⟩ := drawFillOver_painted fuel mem dst r usrc hw hr hfx hfy
    exact ⟨m1, e1, p1.premulAt fun x y hi c hc => overByte_keeps mem dst x y _ (hd x y hi) hu c hc⟩
  · obtain ⟨m1, e1, p1⟩ := drawRGBAOver_painted fuel mem dst rsrc r sp hw hrw hr hrr hra hfx hfy
    exact ⟨m1, e1, p1.premulAt fun x y hi c hc =>
      overByte_keeps mem dst x y _ (hd x y hi) (hrp _ _ (Inside.src hrr hi)) c hc⟩
  · obtain ⟨m1, e1, p1⟩ := drawCopyOver_painted fuel mem dst bsrc r sp hw hbw hr hbr hba hfx hfy
    exact ⟨m1, e1, p1.premulAt fun x y hi c hc =>
      overByte_keeps mem dst x y _ (hd x y hi) (hbp _ _ (Inside.src hbr hi)) c hc⟩
  · obtain ⟨m1, e1, p1⟩ := drawCopyOver_self fuel mem dst r sp hw hr hsr hfx hfy
    exact ⟨m1, e1, p1.premulAt fun x y hi c hc =>
      overByte_keeps mem dst x y _ (hd x y hi) (premulAt_color16 (hsp x y hi)) c hc⟩
  · obtain ⟨m1, e1, p1⟩ :=
      drawGlyphOver_painted fuel mem dst r usrc mask mp hw hr hmw hmr hma hfx hfy
    refine ⟨m1, e1, p1.premulAt fun x y hi c hc => ?_⟩
    exact glyphByte_mono _ _ _ _ _ usrc.RGBA.2.2.2 (hd x y hi c hc)
      (by rw [chan_alpha]; exact chan_le c _ hu) (by rw [chan_alpha]) hu.2.2.2

/-- C20, witness: a 2x2 destination of opaque grey pixels, an opaque solid colour, two 2x2
buffer sources of opaque grey pixels and a 2x2 mask, all in separate parts of the memory. -/
theorem over_keeps_premultiplied_witness :
    (∃ mem', drawFillOver 3 exMemGrey exDst2 exRect2 exOpaque = some mem' ∧
      ∀ x y, Inside exRect2 x y → exDst2.PremulAt mem' x y) ∧
    (∃ mem', drawRGBAOver 3 exMemGrey exDst2 exRect2 exSrcRGBA ZP = some mem' ∧
      ∀ x y, Inside exRect2 x y → exDst2.PremulAt mem' x y) ∧
    (∃ mem', drawCopyOver 3 exMemGrey exDst2 exRect2 exSrcBGRA ZP = some mem' ∧
      ∀ x y, Inside exRect2 x y → exDst2.PremulAt mem' x y) ∧
    (∃ mem', drawCopyOver 3 exMemGrey exDst2 exRect2 exDst2 ZP = some mem' ∧
      ∀ x y, Inside exRect2 x y → exDst2.PremulAt mem' x y) ∧
    (∃ mem', drawGlyphOver 3 exMemGrey exDst2 exRect2 exOpaque exMask ZP = some mem' ∧
      ∀ x y, Inside exRect2 x y → exDst2.PremulAt mem' x y) :=
  over_keeps_premultiplied 3 exMemGrey exDst2 exRect2 ZP ZP exOpaque exSrcRGBA exSrcBGRA
    exMask exDst2_wf exRect2_clipped (by decide) (by decide)
    (fun x y hi => exMemGrey_dst x y hi) (by decide)
    exSrcRGBA_wf (exRect2_src_clipped _ rfl) (by decide) exMemGrey_rgba
    exSrcBGRA_wf (exRect2_src_clipped _ rfl) (by decide) exMemGrey_bgra
    (exRect2_src_clipped _ rfl)
    (fun x y hi => exMemGrey_dst _ _ (Inside.src (exRect2_src_clipped exDst2.Rect rfl) hi))
    exMask_wf exRect2_mask_clipped (by decide)

end bgra
